import Mathlib

/-! # Kate code folding tree (`katecodefoldinghelpers.cpp`)

A shallow embedding of `KateCodeFoldingTree`.  The C++ tree is a graph of heap
objects linked by raw pointers (`parentNode`, `childnodes`), so the embedding
keeps an explicit heap: a pointer is an index into `heap`, the tree object
itself (the root node, `this`) lives at index `0`, `new` appends a cell and
`delete` empties one.  Every function of the source becomes a function on this
state; loops and recursion whose termination depends on the shape of the heap
take a fuel argument.  The helper `merge` of `lspclientservermanager.cpp` is
modelled at the end of the definitions, on JSON values as an inductive type.
-/

namespace KateFolding

/-! ## Outcomes and machine integers -/

/-- Outcome of running a piece of the C++ code: it returns a value, it
dereferences a null or dangling pointer (`crash`), or the fuel given to the
model ran out before it returned (`timeout`). -/
inductive Res (α : Type) where
  | ok : α → Res α
  | crash : Res α
  | timeout : Res α
deriving DecidableEq, Repr

/-- Sequencing of outcomes: the first fault wins. -/
def Res.bind {α β : Type} : Res α → (α → Res β) → Res β
  | .ok a, f => f a
  | .crash, _ => .crash
  | .timeout, _ => .timeout

instance : Monad Res where
  pure := Res.ok
  bind := Res.bind

/-- Addition of two `unsigned int` values (32 bit, wraps around). -/
def uadd (a b : Nat) : Nat := (a + b) % 4294967296

/-- Subtraction of two `unsigned int` values (32 bit, wraps around). -/
def usub (a b : Nat) : Nat := (a + (4294967296 - b % 4294967296)) % 4294967296

/-! ## `QPtrList` operations used by the source -/

/-- Model of `QPtrList::find`: index of the first occurrence of the pointer, `-1` when absent. -/
def qfind (l : List Nat) (x : Nat) : Int :=
  if x ∈ l then (l.indexOf x : Int) else -1

/-- Model of `QPtrList::insert(index, item)`: inserts when `0 ≤ index ≤ count()`, otherwise
the list is left alone (the call returns false; a negative `int` converts to an
index far beyond `count()`). -/
def qinsert (l : List Nat) (i : Int) (x : Nat) : List Nat :=
  if 0 ≤ i ∧ i ≤ (l.length : Int) then l.take i.toNat ++ x :: l.drop i.toNat else l

/-- Model of `QPtrList::at(index)` with an `int` index: the item, or null when out of range. -/
def qat (l : List Nat) (i : Int) : Option Nat :=
  if 0 ≤ i then l[i.toNat]? else none

/-- Model of `QPtrList::take(index)`: the list without the item at `index` (unchanged when out of range). -/
def qtake (l : List Nat) (i : Int) : List Nat :=
  if 0 ≤ i then l.eraseIdx i.toNat else l

/-! ## Data model -/

/-- One node of the folding tree (`KateCodeFoldingNode`).  The fields are those
the constructors initialise; `startLineRel` and `endLineRel` are `unsigned int`
(the constructor takes `unsigned int sLRel`), `type` is a `signed char`.
`childnodes` is allocated by both constructors and never reset, so it is a
list, never null. -/
structure KateCodeFoldingNode where
  parentNode : Option Nat
  childnodes : List Nat
  startLineValid : Bool
  startLineRel : Nat
  endLineValid : Bool
  endLineRel : Nat
  type : Int
  visible : Bool
  deleteOpening : Bool
  deleteEnding : Bool
deriving DecidableEq, Repr

/-- A run of hidden real lines (`struct hiddenLineBlock`). -/
structure hiddenLineBlock where
  start : Nat
  length : Nat
deriving DecidableEq, Repr

/-- The folding tree (`KateCodeFoldingTree`): the heap of nodes, cell `0` being
the tree object itself (it derives from `KateCodeFoldingNode` and is the root),
and the members of the class.  `dontIgnoreUnchangedLines` is a `QIntDict<bool>`
of which only the keys are ever inspected; `lineMapping` is a
`QIntDict<unsigned int>` from virtual to real line. -/
structure KateCodeFoldingTree where
  heap : List (Option KateCodeFoldingNode)
  something_changed : Bool
  lineMapping : List (Nat × Nat)
  dontIgnoreUnchangedLines : List Nat
  markedForDeleting : List Nat
  nodesForLine : List Nat
  hiddenLines : List hiddenLineBlock
  hiddenLinesCountCacheValid : Bool
  hiddenLinesCountCache : Nat
deriving DecidableEq, Repr

/-- Model of `KateCodeFoldingNode::KateCodeFoldingNode(par, typ, sLRel)`. -/
def newNode (par : Nat) (typ : Int) (sLRel : Nat) : KateCodeFoldingNode :=
  { parentNode := some par, childnodes := [], startLineValid := true, startLineRel := sLRel,
    endLineValid := false, endLineRel := 20000, type := typ, visible := true,
    deleteOpening := false, deleteEnding := false }

/-- The root node as `KateCodeFoldingTree::KateCodeFoldingTree` leaves it: the
default node constructor, then `startLineValid = true`, `endLineValid = true`,
`endLineRel = 60000`. -/
def rootNode : KateCodeFoldingNode :=
  { parentNode := none, childnodes := [], startLineValid := true, startLineRel := 0,
    endLineValid := true, endLineRel := 60000, type := 0, visible := true,
    deleteOpening := false, deleteEnding := false }

/-- The tree right after construction.  `something_changed` and
`hiddenLinesCountCache` are not initialised by the constructor; they are
written before they are read, and are fixed here to `false` and `0`. -/
def emptyTree : KateCodeFoldingTree :=
  { heap := [some rootNode], something_changed := false, lineMapping := [],
    dontIgnoreUnchangedLines := [], markedForDeleting := [], nodesForLine := [],
    hiddenLines := [], hiddenLinesCountCacheValid := false, hiddenLinesCountCache := 0 }

/-- Dereference a node pointer. -/
def KateCodeFoldingTree.node (s : KateCodeFoldingTree) (p : Nat) : Res KateCodeFoldingNode :=
  match s.heap[p]? with
  | some (some n) => .ok n
  | _ => .crash

/-- Store through a node pointer.  A store through a pointer whose node has
been deleted (the source does this in `cleanupUnneededNodes`, resetting the
flags of a node `removeOpening` has just deleted) changes no live node. -/
def KateCodeFoldingTree.modify (s : KateCodeFoldingTree) (p : Nat)
    (f : KateCodeFoldingNode → KateCodeFoldingNode) : KateCodeFoldingTree :=
  match s.heap[p]? with
  | some (some n) => { s with heap := s.heap.set p (some (f n)) }
  | _ => s

/-- Allocate a node (`new KateCodeFoldingNode`); returns the state and the pointer. -/
def KateCodeFoldingTree.alloc (s : KateCodeFoldingTree) (n : KateCodeFoldingNode) :
    KateCodeFoldingTree × Nat :=
  ({ s with heap := s.heap ++ [some n] }, s.heap.length)

/-- Free a node (`delete`). -/
def KateCodeFoldingTree.free (s : KateCodeFoldingTree) (p : Nat) : KateCodeFoldingTree :=
  { s with heap := s.heap.set p none }

/-- Dereference `node->parentNode` where the source uses it without a null check. -/
def KateCodeFoldingTree.parentOf (s : KateCodeFoldingTree) (p : Nat) : Res Nat :=
  match s.node p with
  | .ok n => (match n.parentNode with | some q => .ok q | none => .crash)
  | .crash => .crash
  | .timeout => .timeout

/-! ## Locating nodes (`getStartLine`, `findNodeForLine`) -/

/-- The loop of `getStartLine`:
`for (node1 = node; node1->type != 0; node1 = node1->parentNode) lineStart += node1->startLineRel;`. -/
def getStartLineLoop (s : KateCodeFoldingTree) : Nat → Nat → Nat → Res Nat
  | 0, _, _ => .timeout
  | fuel + 1, node1, lineStart =>
    match s.node node1 with
    | .ok n =>
      if n.type ≠ 0 then
        match n.parentNode with
        | some p => getStartLineLoop s fuel p (uadd lineStart n.startLineRel)
        | none => .crash
      else .ok lineStart
    | .crash => .crash
    | .timeout => .timeout

/-- Model of `KateCodeFoldingTree::getStartLine`: the absolute start line of a node. -/
def getStartLine (s : KateCodeFoldingTree) (node : Nat) : Res Nat :=
  getStartLineLoop s (s.heap.length + 1) node 0

/-- First pointer of a child list whose node satisfies `p`, with its index
(a `for` loop over `childnodes` that stops at the first hit). -/
def firstChild (s : KateCodeFoldingTree) (p : KateCodeFoldingNode → Bool) :
    List Nat → Nat → Res (Option (Nat × Nat))
  | [], _ => .ok none
  | c :: cs, i =>
    match s.node c with
    | .ok n => if p n then .ok (some (i, c)) else firstChild s p cs (i + 1)
    | .crash => .crash
    | .timeout => .timeout

/-- The same search with a test that itself walks the tree (`getStartLine(child) >= line`). -/
def firstChildM (test : Nat → Res Bool) : List Nat → Nat → Res (Option (Nat × Nat))
  | [], _ => .ok none
  | c :: cs, i =>
    match test c with
    | .ok b => if b then .ok (some (i, c)) else firstChildM test cs (i + 1)
    | .crash => .crash
    | .timeout => .timeout

/-- Model of `KateCodeFoldingTree::findNodeForLineDescending`. -/
def findNodeForLineDescending (s : KateCodeFoldingTree) :
    Nat → Nat → Nat → Nat → Bool → Res Nat
  | 0, _, _, _, _ => .timeout
  | fuel + 1, node, line, offset, oneStepOnly =>
    match s.node node with
    | .ok n =>
      match firstChild s (fun subNode =>
          decide (uadd subNode.startLineRel (uadd offset n.startLineRel) ≤ line ∧
            line ≤ uadd (uadd subNode.endLineRel subNode.startLineRel)
              (uadd offset n.startLineRel))) n.childnodes 0 with
      | .ok (some (_, subNode)) =>
        if oneStepOnly then .ok subNode
        else findNodeForLineDescending s fuel subNode line (uadd offset n.startLineRel) false
      | .ok none => .ok node
      | .crash => .crash
      | .timeout => .timeout
    | .crash => .crash
    | .timeout => .timeout

/-- Model of `KateCodeFoldingTree::findNodeForLine`: the deepest node whose range holds `line`. -/
def findNodeForLine (s : KateCodeFoldingTree) (line : Nat) : Res Nat :=
  match s.node 0 with
  | .ok root =>
    match firstChild s (fun node =>
        decide (node.startLineRel ≤ line ∧ line ≤ uadd node.startLineRel node.endLineRel))
        root.childnodes 0 with
    | .ok (some (_, node)) => findNodeForLineDescending s (s.heap.length + 1) node line 0 false
    | .ok none => .ok 0
    | .crash => .crash
    | .timeout => .timeout
  | .crash => .crash
  | .timeout => .timeout

/-- Model of `KateCodeFoldingTree::dontDeleteEnding`. -/
def dontDeleteEnding (s : KateCodeFoldingTree) (node : Nat) : KateCodeFoldingTree :=
  s.modify node (fun n => { n with deleteEnding := false })

/-- Model of `KateCodeFoldingTree::dontDeleteOpening`. -/
def dontDeleteOpening (s : KateCodeFoldingTree) (node : Nat) : KateCodeFoldingTree :=
  s.modify node (fun n => { n with deleteOpening := false })

/-- Model of `delete list->take(pos)` on the child list of `parent`. -/
def deleteChildAt (s : KateCodeFoldingTree) (parent : Nat) (pos : Int) : Res KateCodeFoldingTree :=
  match s.node parent with
  | .ok pn =>
    match qat pn.childnodes pos with
    | some victim =>
      .ok ((s.modify parent (fun m => { m with childnodes := qtake m.childnodes pos })).free victim)
    | none => .ok s
  | .crash => .crash
  | .timeout => .timeout

/-! ## Closing and removing regions (`removeEnding`, `correctEndings`, `removeOpening`) -/

/-- The loop `tmp = parent->childnodes->take(pos); tmp->startLineRel -= node->startLineRel;
tmp->parentNode = node; node->childnodes->append(tmp);` run `k` times.  `take`
past the end gives null, which the loop dereferences. -/
def adoptSiblings (parent node : Nat) (pos : Int) : Nat → KateCodeFoldingTree → Res KateCodeFoldingTree
  | 0, s => .ok s
  | k + 1, s => do
    let pn ← s.node parent
    match qat pn.childnodes pos with
    | none => .crash
    | some tmp =>
      let s1 := s.modify parent (fun m => { m with childnodes := qtake m.childnodes pos })
      let n ← s1.node node
      let s2 := s1.modify tmp (fun m =>
        { m with startLineRel := usub m.startLineRel n.startLineRel, parentNode := some node })
      let s3 := s2.modify node (fun m => { m with childnodes := m.childnodes ++ [tmp] })
      adoptSiblings parent node pos k s3

/-- The loop of `removeEnding` for a parent of the same type:
`for (int i = mypos+1; i < (int)parent->childnodes->count(); i++)` with the same
body; the count it tests shrinks while `i` grows. -/
def adoptWhile (parent node : Nat) (mypos : Int) : Nat → Int → KateCodeFoldingTree → Res KateCodeFoldingTree
  | 0, _, _ => .timeout
  | fuel + 1, i, s => do
    let pn ← s.node parent
    if i < (pn.childnodes.length : Int) then
      let s1 ← adoptSiblings parent node (mypos + 1) 1 s
      adoptWhile parent node mypos fuel (i + 1) s1
    else pure s

/-- Model of `KateCodeFoldingTree::removeEnding` (its `line` argument is unused). -/
def removeEnding : Nat → KateCodeFoldingTree → Nat → Res KateCodeFoldingTree
  | 0, _, _ => .timeout
  | fuel + 1, s, node => do
    let n ← s.node node
    if n.type = 0 then pure s
    else if n.type < 0 then
      let parent ← s.parentOf node
      let pn ← s.node parent
      deleteChildAt s parent (qfind pn.childnodes node)
    else
      let parent ← s.parentOf node
      let pn ← s.node parent
      let mypos := qfind pn.childnodes node
      let found ← firstChild s (fun c => decide (c.type = -n.type))
        (pn.childnodes.drop (mypos + 1).toNat) (mypos + 1).toNat
      match found with
      | some (i, ci) =>
        let c ← s.node ci
        let s1 := s.modify node (fun m =>
          { m with endLineValid := true, endLineRel := usub c.startLineRel m.startLineRel })
        let s2 ← deleteChildAt s1 parent i
        adoptSiblings parent node (mypos + 1) ((i : Int) - mypos - 1).toNat s2
      | none =>
        if pn.type = n.type then
          let s1 ← adoptWhile parent node mypos (pn.childnodes.length + 1) (mypos + 1) s
          let pn1 ← s1.node parent
          let s2 := s1.modify node (fun m =>
            { m with endLineValid := pn1.endLineValid,
                     endLineRel := usub pn1.endLineRel m.startLineRel })
          let n2 ← s2.node node
          if n2.endLineValid then
            let _ ← getStartLine s2 parent
            removeEnding fuel s2 parent
          else pure s2
        else
          pure (s.modify node (fun m =>
            { m with endLineValid := false, endLineRel := usub pn.endLineRel m.startLineRel }))

/-- The two `while (removepos < count)` loops of `correctEndings`: every child
of `node` from `removepos` on is taken out and put into the parent, appended
when `node` is the parent's last child, else inserted right behind `node`. -/
def moveChildrenUp (node parent : Nat) (removepos : Nat) (mypos : Int)
    (s : KateCodeFoldingTree) : Res KateCodeFoldingTree := do
  let n ← s.node node
  let pn ← s.node parent
  let moved := n.childnodes.drop removepos
  let s1 := s.modify node (fun m => { m with childnodes := m.childnodes.take removepos })
  let s2 := s1.modify parent (fun m =>
    { m with childnodes :=
        if mypos = (pn.childnodes.length : Int) - 1 then m.childnodes ++ moved
        else (moved.foldl (fun (acc : List Nat × Int) mv =>
                (qinsert acc.1 (acc.2 + 1) mv, acc.2 + 1)) (m.childnodes, mypos)).1 })
  pure (moved.foldl (fun acc mv => acc.modify mv (fun m =>
    { m with parentNode := n.parentNode, startLineRel := uadd m.startLineRel n.startLineRel })) s2)

/-- Model of `KateCodeFoldingTree::correctEndings`. -/
def correctEndings : Nat → KateCodeFoldingTree → Int → Nat → Nat → Int →
    Res (KateCodeFoldingTree × Bool)
  | 0, _, _, _, _, _ => .timeout
  | fuel + 1, s, data, node, line, insertPos => do
    let startLine ← getStartLine s node
    let n ← s.node node
    if data ≠ -n.type then
      let s1 := dontDeleteEnding s node
      if data = n.type then pure (s1, false)
      else
        let a := s1.alloc { newNode node data (usub line startLine) with
          startLineValid := false, endLineValid := true, endLineRel := 0 }
        let s2 := { a.1 with something_changed := true }
        pure (s2.modify node (fun m =>
          { m with childnodes :=
              if insertPos = -1 ∨ insertPos = (m.childnodes.length : Int) then m.childnodes ++ [a.2]
              else qinsert m.childnodes insertPos a.2 }), false)
    else
      let s1 := dontDeleteEnding s node
      if n.endLineValid = false then
        pure (s1.modify node (fun m =>
          { m with endLineValid := true, endLineRel := usub line startLine }), true)
      else if uadd startLine n.endLineRel = line then pure (s1, true)
      else
        let bakEndLine := uadd n.endLineRel startLine
        let s2 := s1.modify node (fun m => { m with endLineRel := usub line startLine })
        let parent ← s2.parentOf node
        let pn ← s2.node parent
        let mypos := qfind pn.childnodes node
        let found ← firstChild s2 (fun c => decide (c.startLineRel ≥ usub line startLine))
          n.childnodes 0
        let s3 ← match found with
          | some (removepos, _) => moveChildrenUp node parent removepos mypos s2
          | none => pure s2
        let pn3 ← s3.node parent
        let r ← correctEndings fuel s3 data parent bakEndLine (qfind pn3.childnodes node + 1)
        pure (r.1, true)

/-- The loop of `removeOpening` that moves the children of `node` up:
`p->childnodes->insert(mypos, n = node->childnodes->take(0)); n->parentNode = p;
n->startLineRel += node->startLineRel; mypos++`. -/
def moveAllUp (node p : Nat) : Nat → Int → KateCodeFoldingTree → Res KateCodeFoldingTree
  | 0, _, _ => .timeout
  | fuel + 1, mypos, s => do
    let nd ← s.node node
    match nd.childnodes with
    | [] => pure s
    | c :: rest =>
      let s1 := s.modify node (fun m => { m with childnodes := rest })
      let s2 := s1.modify p (fun m => { m with childnodes := qinsert m.childnodes mypos c })
      let nd2 ← s2.node node
      let s3 := s2.modify c (fun m =>
        { m with parentNode := some p, startLineRel := uadd m.startLineRel nd2.startLineRel })
      moveAllUp node p fuel (mypos + 1) s3

/-- Model of `KateCodeFoldingTree::removeOpening`. -/
def removeOpening (s : KateCodeFoldingTree) (node : Nat) (line : Nat) : Res KateCodeFoldingTree := do
  let n ← s.node node
  if n.type = 0 then pure s
  else
    let p ← s.parentOf node
    let pn ← s.node p
    let s1 ← moveAllUp node p (n.childnodes.length + 1) (qfind pn.childnodes node) s
    let pn1 ← s1.node p
    let n1 ← s1.node node
    let mypos := qfind pn1.childnodes node
    let s2 ← deleteChildAt s1 p mypos
    if n.type > 0 ∧ n1.endLineValid = true then
      let r ← correctEndings (s2.heap.length + 1) s2 (-n.type) p (uadd line n1.endLineRel) mypos
      pure r.1
    else pure s2

/-! ## Opening regions (`addOpening`, `addOpening_further_iterations`) -/

/-- The loop of the "create a new region" branch of `addOpening`:
`newNode->childnodes->append(on = node->childnodes->take(current+1)); on->parentNode = newNode;`
run `k` times (no change of `startLineRel` here). -/
def adoptPlain (parent node : Nat) (pos : Int) : Nat → KateCodeFoldingTree → Res KateCodeFoldingTree
  | 0, s => .ok s
  | k + 1, s => do
    let pn ← s.node parent
    match qat pn.childnodes pos with
    | none => .crash
    | some moved =>
      let s1 := s.modify parent (fun m => { m with childnodes := qtake m.childnodes pos })
      let s2 := s1.modify node (fun m => { m with childnodes := m.childnodes ++ [moved] })
      let s3 := s2.modify moved (fun m => { m with parentNode := some node })
      adoptPlain parent node pos k s3

mutual

/-- Model of `KateCodeFoldingTree::addOpening`; returns the state and what is left of `list`. -/
def addOpening : Nat → KateCodeFoldingTree → Nat → Int → List Int → Nat →
    Res (KateCodeFoldingTree × List Int)
  | 0, _, _, _, _, _ => .timeout
  | fuel + 1, s, node, nType, list, line => do
    let startLine ← getStartLine s node
    let n ← s.node node
    if startLine = line ∧ n.type ≠ 0 then
      if nType = n.type then
        let s1 := s.modify node (fun m => { m with deleteOpening := false })
        let s5 ← (if n.endLineValid = false then do
            let parent ← s1.parentOf node
            let pn ← s1.node parent
            let current := qfind pn.childnodes node
            let count : Int := (pn.childnodes.length : Int) - (current + 1)
            let s2 := s1.modify node (fun m =>
              { m with endLineRel := usub pn.endLineRel m.startLineRel })
            let s3 ← (if pn.type = n.type ∧ pn.endLineValid = true then do
                let r ← removeEnding (s2.heap.length + 1) s2 parent
                pure (r.modify node (fun m => { m with endLineValid := true }))
              else pure s2)
            let pn3 ← s3.node parent
            if current ≠ (pn3.childnodes.length : Int) - 1 then do
              let n3 ← s3.node node
              let r ← (if n3.type ≠ pn3.type then do
                  let found ← firstChild s3 (fun c => decide (c.type = -n3.type))
                    (pn3.childnodes.drop (current + 1).toNat) (current + 1).toNat
                  match found with
                  | some (i, ci) =>
                    let sl ← getStartLine s3 ci
                    let s4 := s3.modify node (fun m =>
                      { m with endLineValid := true, endLineRel := usub sl line })
                    let s4 ← deleteChildAt s4 parent i
                    pure (s4, (i : Int) - current - 1)
                  | none => pure (s3, count)
                else
                  pure (s3.modify parent (fun m =>
                    { m with endLineValid := false, endLineRel := 20000 }), count))
              adoptSiblings parent node (current + 1) r.2.toNat r.1
            else pure s3
          else pure s1)
        addOpening_further_iterations fuel s5 node nType list line 0 startLine
      else pure (s, list)
    else
      let a := s.alloc (newNode node nType (usub line startLine))
      let newP := a.2
      let s1 := { a.1 with something_changed := true }
      let found ← firstChild s1 (fun c => decide (uadd startLine c.startLineRel > line))
        n.childnodes 0
      let current : Int := match found with
        | some (i, _) => (i : Int)
        | none => (n.childnodes.length : Int)
      let s2 := s1.modify node (fun m =>
        { m with childnodes := match found with
            | some (i, _) => qinsert m.childnodes i newP
            | none => m.childnodes ++ [newP] })
      let n2 ← s2.node node
      let count : Int := (n2.childnodes.length : Int) - (current + 1)
      let s3 := s2.modify newP (fun m => { m with endLineRel := usub n2.endLineRel m.startLineRel })
      let s6 ← (if current ≠ (n2.childnodes.length : Int) - 1 then do
          let r ← (if n2.type ≠ nType then do
              let found2 ← firstChild s3 (fun c => decide (c.type = -nType))
                (n2.childnodes.drop (current + 1).toNat) (current + 1).toNat
              match found2 with
              | some (i, ci) =>
                let sl ← getStartLine s3 ci
                let s4 := s3.modify newP (fun m =>
                  { m with endLineValid := true, endLineRel := usub line sl })
                let s4 ← deleteChildAt s4 node i
                pure (s4, (n2.childnodes.length : Int) - i - 1)
              | none => pure (s3, count)
            else
              pure (s3.modify node (fun m =>
                { m with endLineValid := false, endLineRel := 20000 }), count))
          if r.2 > 0 then
            adoptPlain node newP (current + 1) r.2.toNat
              (r.1.modify newP (fun m => { m with childnodes := [] }))
          else pure r.1
        else pure s3)
      let r1 ← addOpening fuel s6 newP nType list line
      let n6 ← r1.1.node node
      addOpening_further_iterations fuel r1.1 node n6.type r1.2 line current startLine
termination_by structural fuel => fuel

/-- Model of `KateCodeFoldingTree::addOpening_further_iterations` (its `nType` argument is unused). -/
def addOpening_further_iterations : Nat → KateCodeFoldingTree → Nat → Int → List Int → Nat →
    Int → Nat → Res (KateCodeFoldingTree × List Int)
  | 0, _, _, _, _, _, _, _ => .timeout
  | fuel + 1, s, node, nType, list, line, current, startLine =>
    if list.isEmpty then .ok (s, list)
    else do
      let data := list.getLastD 0
      let list1 := list.dropLast
      if data < 0 then
        let r ← correctEndings (s.heap.length + 1) s data node line (-1)
        if r.2 then pure (r.1, list1)
        else addOpening_further_iterations fuel r.1 node nType list1 line current startLine
      else
        let n ← s.node node
        let needNew ← (if current < (n.childnodes.length : Int) then
            match qat n.childnodes current with
            | some c => do
              let sl ← getStartLine s c
              pure (decide (sl ≠ line))
            | none => .crash
          else pure true)
        let s1 := if needNew then
            let a := { s with something_changed := true }.alloc (newNode node data (usub line startLine))
            a.1.modify node (fun m => { m with childnodes := qinsert m.childnodes current a.2 })
          else s
        let n1 ← s1.node node
        match qat n1.childnodes current with
        | none => .crash
        | some c =>
          let r ← addOpening fuel s1 c data list1 line
          addOpening_further_iterations fuel r.1 node nType r.2 line (current + 1) startLine
termination_by structural fuel => fuel

end

/-! ## Marking and cleaning up (`findAndMarkAllNodesforRemovalOpenedOrClosedAt`, `cleanupUnneededNodes`) -/

/-- The two flag assignments and the `append` shared by
`findAndMarkAllNodesforRemovalOpenedOrClosedAt` and `addNodeToRemoveList`. -/
def addNodeToRemoveList (s : KateCodeFoldingTree) (node : Nat) (line : Nat) :
    Res KateCodeFoldingTree := do
  let startLine ← getStartLine s node
  let n ← s.node node
  let s1 := if startLine = line ∧ n.startLineValid = true then
      s.modify node (fun m => { m with deleteOpening := true }) else s
  let n1 ← s1.node node
  let s2 := if uadd startLine n1.endLineRel = line ∨
        (n1.endLineValid = false ∧ n1.deleteOpening = true) then
      s1.modify node (fun m => { m with deleteEnding := true }) else s1
  pure { s2 with markedForDeleting := s2.markedForDeleting ++ [node] }

/-- The `while` loop of `findAndMarkAllNodesforRemovalOpenedOrClosedAt` over the
ancestors that start on `line`. -/
def markAncestors (line : Nat) : Nat → KateCodeFoldingTree → Nat → Res KateCodeFoldingTree
  | 0, _, _ => .timeout
  | fuel + 1, s, node => do
    let n ← s.node node
    match n.parentNode with
    | none => pure s
    | some parent =>
      let pn ← s.node parent
      if pn.type ≠ 0 then
        let sl ← getStartLine s parent
        if sl = line then
          let s1 ← addNodeToRemoveList s parent line
          markAncestors line fuel s1 parent
        else pure s
      else pure s

/-- Model of `KateCodeFoldingTree::findAndMarkAllNodesforRemovalOpenedOrClosedAt`. -/
def findAndMarkAllNodesforRemovalOpenedOrClosedAt (s : KateCodeFoldingTree) (line : Nat) :
    Res KateCodeFoldingTree := do
  let s0 := { s with markedForDeleting := [] }
  let node ← findNodeForLine s0 line
  let n ← s0.node node
  if n.type = 0 then pure s0
  else
    let s1 ← addNodeToRemoveList s0 node line
    markAncestors line (s1.heap.length + 1) s1 node

/-- The body of the loop of `cleanupUnneededNodes` for one marked node `n`. -/
def cleanupNode (s : KateCodeFoldingTree) (n : Nat) (line : Nat) : Res KateCodeFoldingTree := do
  let nd ← s.node n
  if nd.deleteOpening = true ∧ nd.deleteEnding = true then
    if nd.endLineValid = true then
      let parent ← s.parentOf n
      let pn ← s.node parent
      let s1 ← deleteChildAt s parent (qfind pn.childnodes n)
      pure { s1 with something_changed := true }
    else
      let s1 ← removeOpening s n line
      pure { dontDeleteEnding (dontDeleteOpening s1 n) n with something_changed := true }
  else if nd.deleteOpening = true ∧ nd.startLineValid = true then
    let s1 ← (if nd.type > 0 then removeOpening s n line else pure s)
    pure (dontDeleteOpening { s1 with something_changed := true } n)
  else
    let s1 := dontDeleteOpening s n
    if nd.deleteEnding = true ∧ nd.endLineValid = true then
      let s2 ← removeEnding (s1.heap.length + 1) s1 n
      pure (dontDeleteEnding { s2 with something_changed := true } n)
    else pure (dontDeleteEnding s1 n)

/-- The loop of `cleanupUnneededNodes` over `markedForDeleting`. -/
def cleanupLoop (line : Nat) : List Nat → KateCodeFoldingTree → Res KateCodeFoldingTree
  | [], s => .ok s
  | n :: rest, s => do
    let s1 ← cleanupNode s n line
    cleanupLoop line rest s1

/-- Model of `KateCodeFoldingTree::cleanupUnneededNodes`. -/
def cleanupUnneededNodes (s : KateCodeFoldingTree) (line : Nat) : Res KateCodeFoldingTree :=
  cleanupLoop line s.markedForDeleting s

/-! ## `updateLine` -/

/-- The first loop of `updateLine`, which removes regions opened and closed on
the same line: `for (int i = size-1; i > 0; i--)`, and when item `i` is an
opening and item `i-1` its closing, both are shifted out, `i` is decremented
once more if it was the last index, and the array shrinks by two. -/
def cancelLoop : Nat → Nat → List Int → Res (List Int)
  | 0, _, _ => .timeout
  | fuel + 1, i, regionChanges =>
    if 0 < i then
      if regionChanges.getD i 0 > 0 ∧ regionChanges.getD i 0 = -(regionChanges.getD (i - 1) 0) then
        cancelLoop fuel ((if i = regionChanges.length - 1 then i - 1 else i) - 1)
          (regionChanges.take (i - 1) ++ regionChanges.drop (i + 1))
      else cancelLoop fuel (i - 1) regionChanges
    else .ok regionChanges

/-- The computation of `node` and `insertPos` at the head of the second part of `updateLine`. -/
def locateInsert (s : KateCodeFoldingTree) (line : Nat) (data : Int) : Res (Nat × Int) := do
  let node ← findNodeForLine s line
  if data < 0 then
    let n ← s.node node
    let tmpLine := usub line (← getStartLine s node)
    let found ← firstChild s (fun c => decide (c.startLineRel ≥ tmpLine)) n.childnodes 0
    match found with
    | some (i, _) => pure (node, (i : Int))
    | none => pure (node, -1)
  else
    let node1 ← climb (s.heap.length + 1) node
    let n1 ← s.node node1
    let sl ← getStartLine s node1
    if sl = line ∧ n1.type ≠ 0 then
      let parent ← s.parentOf node1
      let pn ← s.node parent
      pure (parent, qfind pn.childnodes node1)
    else
      let found ← firstChildM (fun c =>
        match getStartLine s c with
        | .ok v => .ok (decide (v ≥ line))
        | .crash => .crash
        | .timeout => .timeout) n1.childnodes 0
      match found with
      | some (i, _) => pure (node1, (i : Int))
      | none => pure (node1, -1)
where
  /-- The loop `for (; node->parentNode && getStartLine(node->parentNode) == line &&
  node->parentNode->type != 0; node = node->parentNode);`. -/
  climb : Nat → Nat → Res Nat
  | 0, _ => .timeout
  | fuel + 1, node => do
    let n ← s.node node
    match n.parentNode with
    | none => pure node
    | some parent =>
      let sl ← getStartLine s parent
      let pn ← s.node parent
      if sl = line ∧ pn.type ≠ 0 then climb fuel parent else pure node

/-- The `do ... while (data != 0)` loop of `updateLine`. -/
def updateLoop (line : Nat) : Nat → KateCodeFoldingTree → List Int → Int → Nat → Int →
    Res (KateCodeFoldingTree × List Int)
  | 0, _, _, _, _, _ => .timeout
  | fuel + 1, s, regionChanges, data, node, insertPos => do
    let step ← (if data < 0 then do
        let r ← correctEndings (s.heap.length + 1) s data node line insertPos
        if r.2 then
          let parent ← r.1.parentOf node
          let pn ← r.1.node parent
          pure (r.1, regionChanges, parent, qfind pn.childnodes node + 1)
        else pure (r.1, regionChanges, node, if insertPos ≠ -1 then insertPos + 1 else insertPos)
      else do
        let startLine ← getStartLine s node
        let n ← s.node node
        if insertPos = -1 ∨ insertPos ≥ (n.childnodes.length : Int) then
          let a := s.alloc (newNode node data (usub line startLine))
          let s1 := { a.1 with something_changed := true }
          let s2 := s1.modify node (fun m => { m with childnodes := m.childnodes ++ [a.2] })
          let r ← addOpening (2 * regionChanges.length + 3) s2 a.2 data regionChanges line
          let n3 ← r.1.node node
          pure (r.1, r.2, node, qfind n3.childnodes a.2 + 1)
        else
          match qat n.childnodes insertPos with
          | none => .crash
          | some c =>
            let cn ← s.node c
            if cn.startLineRel = usub line startLine then
              let r ← addOpening (2 * regionChanges.length + 3) s c data regionChanges line
              pure (r.1, r.2, node, insertPos + 1)
            else
              let a := s.alloc (newNode node data (usub line startLine))
              let s1 := { a.1 with something_changed := true }
              let s2 := s1.modify node (fun m =>
                { m with childnodes := qinsert m.childnodes insertPos a.2 })
              let r ← addOpening (2 * regionChanges.length + 3) s2 a.2 data regionChanges line
              pure (r.1, r.2, node, insertPos + 1))
    if step.2.1.isEmpty then pure (step.1, step.2.1)
    else if step.2.1.getLastD 0 ≠ 0 then
      updateLoop line fuel step.1 step.2.1.dropLast (step.2.1.getLastD 0) step.2.2.1 step.2.2.2
    else pure (step.1, step.2.1.dropLast)

/-- What `updateLine` leaves behind: the tree, the marker array (which the
function edits in place) and the out-parameter `*updated` (`none` when the
call returns without writing it). -/
structure UpdateResult where
  tree : KateCodeFoldingTree
  regionChanges : List Int
  updated : Option Bool
deriving DecidableEq, Repr

/-- The part of `updateLine` after the `if (!changed)` test. -/
def updateLineBody (s : KateCodeFoldingTree) (line : Nat) (regionChanges : List Int) :
    Res UpdateResult := do
  let s0 := { s with something_changed := false }
  let rc ← cancelLoop (regionChanges.length + 1) (regionChanges.length - 1) regionChanges
  let s1 ← findAndMarkAllNodesforRemovalOpenedOrClosedAt s0 line
  let r ← (if rc.isEmpty then pure (s1, rc)
    else do
      let data := rc.getLastD 0
      let loc ← locateInsert s1 line data
      updateLoop line (rc.length + 1) s1 rc.dropLast data loc.1 loc.2)
  let s2 ← cleanupUnneededNodes r.1 line
  pure { tree := s2, regionChanges := r.2, updated := some s2.something_changed }

/-- Model of `KateCodeFoldingTree::updateLine`. -/
def updateLine (s : KateCodeFoldingTree) (line : Nat) (regionChanges : List Int)
    (changed : Bool) : Res UpdateResult :=
  if changed = false then
    if s.dontIgnoreUnchangedLines.isEmpty then
      .ok { tree := s, regionChanges := regionChanges, updated := none }
    else if line ∈ s.dontIgnoreUnchangedLines then
      updateLineBody { s with dontIgnoreUnchangedLines := s.dontIgnoreUnchangedLines.erase line }
        line regionChanges
    else .ok { tree := s, regionChanges := regionChanges, updated := none }
  else updateLineBody s line regionChanges

/-! ## Line shifts (`lineHasBeenRemoved`, `lineHasBeenInserted`) -/

/-- The siblings that `childnodes->find(after); while ((tmp = childnodes->next()))`
visits: those behind the first occurrence of `after`, none when it is absent. -/
def siblingsAfter (l : List Nat) (after : Nat) : List Nat :=
  if after ∈ l then l.drop (l.indexOf after + 1) else []

/-- Model of `KateCodeFoldingTree::decrementBy1`. -/
def decrementBy1 : Nat → KateCodeFoldingTree → Nat → Nat → Res KateCodeFoldingTree
  | 0, _, _, _ => .timeout
  | fuel + 1, s, node, after => do
    let n ← s.node node
    let s1 := s.modify node (fun m =>
      { m with endLineValid := if m.endLineRel = 0 then false else m.endLineValid,
               endLineRel := usub m.endLineRel 1 })
    let s2 := (siblingsAfter n.childnodes after).foldl (fun acc tmp =>
      acc.modify tmp (fun m => { m with startLineRel := usub m.startLineRel 1 })) s1
    match n.parentNode with
    | some parent => decrementBy1 fuel s2 parent node
    | none => pure s2

/-- Model of `KateCodeFoldingTree::lineHasBeenRemoved`. -/
def lineHasBeenRemoved (s : KateCodeFoldingTree) (line : Nat) : Res KateCodeFoldingTree := do
  let s0 := { s with lineMapping := [],
                     dontIgnoreUnchangedLines :=
                       uadd line 1 :: usub line 1 :: line :: s.dontIgnoreUnchangedLines,
                     hiddenLinesCountCacheValid := false }
  let s1 ← findAndMarkAllNodesforRemovalOpenedOrClosedAt s0 line
  let s2 ← cleanupUnneededNodes s1 line
  let node ← findNodeForLine s2 line
  let startLine ← getStartLine s2 node
  let n ← s2.node node
  let s3 := if startLine = line then
      s2.modify node (fun m => { m with startLineRel := usub m.startLineRel 1 })
    else
      s2.modify node (fun m =>
        { m with endLineValid := if m.endLineRel = 0 then false else m.endLineValid,
                 endLineRel := usub m.endLineRel 1 })
  let s4 ← n.childnodes.foldlM (fun acc c => do
      let cn ← acc.node c
      if uadd cn.startLineRel startLine ≥ line then
        pure (acc.modify c (fun m => { m with startLineRel := usub m.startLineRel 1 }))
      else pure acc) s3
  match n.parentNode with
  | some parent => decrementBy1 (s4.heap.length + 1) s4 parent node
  | none => pure s4

/-- Model of `KateCodeFoldingTree::incrementBy1`. -/
def incrementBy1 : Nat → KateCodeFoldingTree → Nat → Nat → Res KateCodeFoldingTree
  | 0, _, _, _ => .timeout
  | fuel + 1, s, node, after => do
    let n ← s.node node
    let s1 := s.modify node (fun m => { m with endLineRel := uadd m.endLineRel 1 })
    let s2 := (siblingsAfter n.childnodes after).foldl (fun acc tmp =>
      acc.modify tmp (fun m => { m with startLineRel := uadd m.startLineRel 1 })) s1
    match n.parentNode with
    | some parent => incrementBy1 fuel s2 parent node
    | none => pure s2

/-- The loop of `lineHasBeenInserted` over `hiddenLines`. -/
def shiftHiddenLines (line : Nat) (l : List hiddenLineBlock) : List hiddenLineBlock :=
  l.map (fun it =>
    if it.start > line then { it with start := uadd it.start 1 }
    else if uadd it.start it.length > line then { it with length := uadd it.length 1 }
    else it)

/-- Model of `KateCodeFoldingTree::lineHasBeenInserted`. -/
def lineHasBeenInserted (s : KateCodeFoldingTree) (line : Nat) : Res KateCodeFoldingTree := do
  let s0 := { s with lineMapping := [],
                     dontIgnoreUnchangedLines :=
                       uadd line 1 :: usub line 1 :: line :: s.dontIgnoreUnchangedLines,
                     hiddenLinesCountCacheValid := false }
  let node ← findNodeForLine s0 line
  let startLine ← getStartLine s0 node
  let n ← s0.node node
  let s1 := if n.type < 0 then
      s0.modify node (fun m => { m with startLineRel := uadd m.startLineRel 1 })
    else s0.modify node (fun m => { m with endLineRel := uadd m.endLineRel 1 })
  let s2 ← n.childnodes.foldlM (fun acc c => do
      let cn ← acc.node c
      if uadd cn.startLineRel startLine ≥ line then
        pure (acc.modify c (fun m => { m with startLineRel := uadd m.startLineRel 1 }))
      else pure acc) s1
  let s3 ← (match n.parentNode with
    | some parent => incrementBy1 (s2.heap.length + 1) s2 parent node
    | none => pure s2)
  pure { s3 with hiddenLines := shiftHiddenLines line s3.hiddenLines }

/-! ## Visibility (`toggleRegionVisibility`, `addHiddenLineBlock`) -/

/-- The loop `for (int i = childpos+1; i < count; i++)` of `addNodeToFoundList`,
which stops at the first child that does not start on `line`; `again` is the
recursive call `addNodeToFoundList(child, line, 0)`. -/
def foundChildren (again : KateCodeFoldingTree → Nat → Res KateCodeFoldingTree)
    (startLine line : Nat) : List Nat → KateCodeFoldingTree → Res KateCodeFoldingTree
  | [], s => .ok s
  | child :: rest, s => do
    let cn ← s.node child
    if uadd startLine cn.startLineRel = line then
      let s1 ← again { s with nodesForLine := s.nodesForLine ++ [child] } child
      foundChildren again startLine line rest s1
    else pure s

/-- Model of `KateCodeFoldingTree::addNodeToFoundList`. -/
def addNodeToFoundList : Nat → KateCodeFoldingTree → Nat → Nat → Int → Res KateCodeFoldingTree
  | 0, _, _, _, _ => .timeout
  | fuel + 1, s, node, line, childpos => do
    let startLine ← getStartLine s node
    let n ← s.node node
    let s1 := if (startLine = line ∧ n.type ≠ 0) ∨ (uadd startLine n.endLineRel = line ∧ n.type ≠ 0) then
        { s with nodesForLine := s.nodesForLine ++ [node] } else s
    foundChildren (fun t child => addNodeToFoundList fuel t child line 0) startLine line
      (n.childnodes.drop (childpos + 1).toNat) s1

/-- The loop `while (node->parentNode)` of `findAllNodesOpenedOrClosedAt`. -/
def foundListAncestors (line : Nat) : Nat → KateCodeFoldingTree → Nat → Res KateCodeFoldingTree
  | 0, _, _ => .timeout
  | fuel + 1, s, node => do
    let n ← s.node node
    match n.parentNode with
    | none => pure s
    | some parent =>
      let pn ← s.node parent
      let s1 ← addNodeToFoundList (s.heap.length + 1) s parent line (qfind pn.childnodes node)
      foundListAncestors line fuel s1 parent

/-- Model of `KateCodeFoldingTree::findAllNodesOpenedOrClosedAt`. -/
def findAllNodesOpenedOrClosedAt (s : KateCodeFoldingTree) (line : Nat) :
    Res KateCodeFoldingTree := do
  let s0 := { s with nodesForLine := [] }
  let node ← findNodeForLine s0 line
  let n ← s0.node node
  if n.type = 0 then pure s0
  else
    let startLine ← getStartLine s0 node
    let s1 := if startLine = line ∨ uadd startLine n.endLineRel = line then
        { s0 with nodesForLine := s0.nodesForLine ++ [node] } else s0
    foundListAncestors line (s1.heap.length + 1) s1 node

/-- The loop of `addHiddenLineBlock` over `hiddenLines`: a block that starts
inside the new one is removed, the new block is inserted in front of the first
other block that starts behind `line`, and appended if there is none. -/
def addHiddenLoop (data : hiddenLineBlock) (line : Nat) : List hiddenLineBlock → List hiddenLineBlock
  | [] => [data]
  | it :: rest =>
    if it.start ≥ data.start ∧ it.start ≤ usub (uadd data.start data.length) 1 then
      addHiddenLoop data line rest
    else if it.start > line then data :: it :: rest
    else it :: addHiddenLoop data line rest

/-- The loop `for (unsigned int i = line+1; i <= endLineRel+line; i++) emit(setLineVisible(i, v))`
of `addHiddenLineBlock` and `toggleRegionVisibility`, started at `i` with the
bound `endLineRel + line` (both unsigned).  The signals have no effect on the
tree, but the loop ends only when `i` exceeds the bound, which no unsigned `i`
does when the bound is `4294967295`. -/
def setLineVisibleLoop : Nat → Nat → Nat → Res Unit
  | 0, _, _ => .timeout
  | fuel + 1, i, bound =>
    if i ≤ bound then setLineVisibleLoop fuel (uadd i 1) bound else .ok ()

/-- Model of `KateCodeFoldingTree::addHiddenLineBlock`: the loop over
`hiddenLines`, then the loop that emits `setLineVisible(i, false)` for the lines
`line + 1 .. endLineRel + line`. -/
def addHiddenLineBlock (s : KateCodeFoldingTree) (node : Nat) (line : Nat) :
    Res KateCodeFoldingTree := do
  let n ← s.node node
  let data : hiddenLineBlock := { start := uadd line 1, length := n.endLineRel }
  let s1 := { s with hiddenLines := addHiddenLoop data line s.hiddenLines }
  setLineVisibleLoop 4294967297 (uadd line 1) (uadd n.endLineRel line)
  pure s1

/-- Model of `KateCodeFoldingTree::updateHiddenSubNodes`. -/
def updateHiddenSubNodes : Nat → KateCodeFoldingTree → Nat → Res KateCodeFoldingTree
  | 0, _, _ => .timeout
  | fuel + 1, s, node => do
    let n ← s.node node
    n.childnodes.foldlM (fun acc n1 => do
      let c ← acc.node n1
      if c.visible = false then
        let sl ← getStartLine acc n1
        addHiddenLineBlock acc n1 sl
      else updateHiddenSubNodes fuel acc n1) s

/-- The loop of `toggleRegionVisibility` that drops from `nodesForLine` every
node that does not start on `line`. -/
def keepStartingAt (s : KateCodeFoldingTree) (line : Nat) : List Nat → Res (List Nat)
  | [] => .ok []
  | p :: rest => do
    let sl ← getStartLine s p
    let r ← keepStartingAt s line rest
    pure (if sl ≠ line then r else p :: r)

/-- The loop of `toggleRegionVisibility` that removes the first hidden block
starting at `line + 1`. -/
def removeHiddenAt (start : Nat) : List hiddenLineBlock → List hiddenLineBlock
  | [] => []
  | it :: rest => if it.start = start then rest else it :: removeHiddenAt start rest

/-- Model of `KateCodeFoldingTree::toggleRegionVisibility`; of the signals only
the loop that emits `setLineVisible(i, true)` in the re-expand branch is kept,
because it decides whether the call returns. -/
def toggleRegionVisibility (s : KateCodeFoldingTree) (line : Nat) : Res KateCodeFoldingTree := do
  let s0 := { s with lineMapping := [], hiddenLinesCountCacheValid := false }
  let s1 ← findAllNodesOpenedOrClosedAt s0 line
  let kept ← keepStartingAt s1 line s1.nodesForLine
  let s2 := { s1 with nodesForLine := kept }
  match kept with
  | [] => pure s2
  | first :: _ =>
    let s3 := s2.modify first (fun m => { m with visible := !m.visible })
    let n ← s3.node first
    if n.visible = false then addHiddenLineBlock s3 first line
    else
      let s4 := { s3 with hiddenLines := removeHiddenAt (uadd line 1) s3.hiddenLines }
      setLineVisibleLoop 4294967297 (uadd line 1) (uadd n.endLineRel line)
      updateHiddenSubNodes (s4.heap.length + 1) s4 first

/-! ## Line translation (`getRealLine`, `getVirtualLine`, `getHiddenLinesCount`) -/

/-- The loop of `getRealLine` over `hiddenLines`, front to back:
`if (start <= virtualLine) virtualLine += length; else break;`. -/
def getRealLineLoop : List hiddenLineBlock → Nat → Nat
  | [], virtualLine => virtualLine
  | it :: rest, virtualLine =>
    if it.start ≤ virtualLine then getRealLineLoop rest (uadd virtualLine it.length)
    else virtualLine

/-- Model of `KateCodeFoldingTree::getRealLine`: the cached value if `lineMapping` has
one for this virtual line, else the scan, whose result is put in the cache. -/
def getRealLine (s : KateCodeFoldingTree) (virtualLine : Nat) : Nat × KateCodeFoldingTree :=
  match s.lineMapping.lookup virtualLine with
  | some real => (real, s)
  | none =>
    let r := getRealLineLoop s.hiddenLines virtualLine
    (r, { s with lineMapping := (virtualLine, r) :: s.lineMapping })

/-- The loop of `getVirtualLine`, which walks `hiddenLines` from the last block
to the first (the argument is the list reversed):
`if (start <= realLine) realLine -= length; else break;`. -/
def getVirtualLineLoop : List hiddenLineBlock → Nat → Nat
  | [], realLine => realLine
  | it :: rest, realLine =>
    if it.start ≤ realLine then getVirtualLineLoop rest (usub realLine it.length)
    else realLine

/-- Model of `KateCodeFoldingTree::getVirtualLine`. -/
def getVirtualLine (s : KateCodeFoldingTree) (realLine : Nat) : Nat :=
  getVirtualLineLoop s.hiddenLines.reverse realLine

/-- Model of `KateCodeFoldingTree::getHiddenLinesCount`: the cached count when valid,
else the sum of the block lengths, which is cached. -/
def getHiddenLinesCount (s : KateCodeFoldingTree) : Nat × KateCodeFoldingTree :=
  if s.hiddenLinesCountCacheValid then (s.hiddenLinesCountCache, s)
  else
    let tmp := s.hiddenLines.foldl (fun acc it => uadd acc it.length) 0
    (tmp, { s with hiddenLinesCountCache := tmp, hiddenLinesCountCacheValid := true })

/-! ## Definitions used to state the properties -/

/-- The child pointers of a node (empty for a dangling pointer). -/
def childrenOf (s : KateCodeFoldingTree) (p : Nat) : List Nat :=
  match s.heap[p]? with
  | some (some n) => n.childnodes
  | _ => []

/-- The tree after an opening marker of type `t` at line `a` on the empty tree:
one unterminated region below the root. -/
def openTree (a : Nat) (t : Int) : KateCodeFoldingTree :=
  { emptyTree with
    heap := [some { rootNode with childnodes := [1] },
             some { newNode 0 t a with endLineRel := 60000 - a }],
    something_changed := true }

/-- The tree of `openTree` after the marking pass of a later line `b`. -/
def markedTree (a b : Nat) (t : Int) : KateCodeFoldingTree :=
  { openTree a t with
    heap := [some { rootNode with childnodes := [1] },
             some { newNode 0 t a with endLineRel := 60000 - a, deleteEnding := decide (b = 60000) }],
    something_changed := false, markedForDeleting := [1] }

/-- The heap of a tree holding one visible, closed top-level region of type `t`
from line `a` to line `b`. -/
def singleRegionHeap (a b : Nat) (t : Int) (visible : Bool) : List (Option KateCodeFoldingNode) :=
  [some { rootNode with childnodes := [1] },
   some { newNode 0 t a with endLineValid := true, endLineRel := b - a, visible := visible }]

/-- The tree holding one closed region of type `t` from line `a` to line `b`,
as two `updateLine` calls leave it. -/
def closedTree (a b : Nat) (t : Int) : KateCodeFoldingTree :=
  { emptyTree with heap := singleRegionHeap a b t true, markedForDeleting := [1] }

/-- The unwrapped sum of the lengths of the hidden blocks. -/
def hiddenTotal : List hiddenLineBlock → Nat
  | [] => 0
  | it :: rest => it.length + hiddenTotal rest

/-- Every entry of the `lineMapping` cache is the value the scan of `getRealLine` computes. -/
def cacheConsistent (s : KateCodeFoldingTree) : Prop :=
  ∀ p ∈ s.lineMapping, p.2 = getRealLineLoop s.hiddenLines p.1

/-- The hidden blocks are ordered by ascending start and do not overlap. -/
def hiddenSorted : List hiddenLineBlock → Prop
  | [] => True
  | [_] => True
  | x :: y :: rest => x.start + x.length ≤ y.start ∧ hiddenSorted (y :: rest)

/-- A real line lies inside one of the hidden blocks. -/
def isHidden (l : List hiddenLineBlock) (line : Nat) : Prop :=
  ∃ it ∈ l, it.start ≤ line ∧ line < it.start + it.length

/-! ## Invariants of the tree between two `updateLine` calls -/

/-! ## The trees built by processing nested markers line by line -/

/-- The open regions, innermost first, form a chain of unterminated nodes, each
the child of the next, the outermost a child of the root. -/
def SpineOK (h : List (Option KateCodeFoldingNode)) : List Nat → Prop
  | [] => True
  | p :: rest =>
    (0 < p ∧ rest.headD 0 < p ∧ ∃ n, h[p]? = some (some n) ∧ n.endLineValid = false ∧
      n.parentNode = some (rest.headD 0)) ∧ SpineOK h rest

/-- Shape of the heap after the lines up to `L` have been processed: `A` gives
the absolute start line of every node and `stack` lists the unterminated
regions, innermost first.  Cell `0` is the root; every other cell is a live
region node that was created after its parent, starts no later than `L`, is
listed among the children of its parent, and either is closed with its end no
later than `L` or is on the stack with the provisional end `60000`. -/
structure Nav (h : List (Option KateCodeFoldingNode)) (A : Nat → Nat) (stack : List Nat)
    (L : Nat) : Prop where
  root : ∃ r, h[0]? = some (some r) ∧ r.type = 0 ∧ r.parentNode = none ∧ r.endLineRel = 60000 ∧
    r.endLineValid = true
  a0 : A 0 = 0
  bound : L ≤ 60000
  cell : ∀ i, 0 < i → i < h.length → ∃ n p pn, h[i]? = some (some n) ∧ n.parentNode = some p ∧
    p < i ∧ h[p]? = some (some pn) ∧ i ∈ pn.childnodes ∧ 0 < n.type ∧
    A p + n.startLineRel = A i ∧ A i ≤ L ∧ n.startLineValid = true ∧
    (n.endLineValid = true → A i + n.endLineRel ≤ L) ∧
    (n.endLineValid = false → i ∈ stack ∧ n.endLineRel = 60000 - A i)
  kids : ∀ p n, h[p]? = some (some n) → n.childnodes.Nodup ∧ ∀ c ∈ n.childnodes,
    p < c ∧ c < h.length ∧ ∃ m, h[c]? = some (some m) ∧ m.parentNode = some p
  spine : SpineOK h stack

/-- What `getStartLine` relies on: every cell but the root has a non-zero type
and a parent created before it, and `A` adds up the relative start lines. -/
structure Chain (h : List (Option KateCodeFoldingNode)) (A : Nat → Nat) : Prop where
  root : ∃ r, h[0]? = some (some r) ∧ r.type = 0
  a0 : A 0 = 0
  cell : ∀ i, 0 < i → i < h.length → ∃ n p, h[i]? = some (some n) ∧ n.parentNode = some p ∧
    p < i ∧ n.type ≠ 0 ∧ A p + n.startLineRel = A i ∧ A i < 4294967296

/-- No node carries a pending delete flag. -/
def FlagsClear (h : List (Option KateCodeFoldingNode)) : Prop :=
  ∀ (i : Nat) (n : KateCodeFoldingNode), h[i]? = some (some n) →
    n.deleteOpening = false ∧ n.deleteEnding = false

/-- The state `findAndMarkAllNodesforRemovalOpenedOrClosedAt` leaves for a line
behind all processed lines: the innermost open region is marked, with
`deleteEnding` set when the line is its provisional end `60000`. -/
def markedState (s : KateCodeFoldingTree) (stack : List Nat) (line : Nat) : KateCodeFoldingTree :=
  match stack with
  | [] => { s with markedForDeleting := [] }
  | top :: _ =>
    { (s.modify top (fun m => { m with deleteEnding := decide (line = 60000) })) with
      markedForDeleting := [top] }

/-- The state after a closing marker has closed the innermost open region `top`
with end offset `e`. -/
def closeState (s : KateCodeFoldingTree) (top e : Nat) : KateCodeFoldingTree :=
  { (s.modify top (fun m => { m with endLineValid := true, endLineRel := e })) with
    something_changed := false, markedForDeleting := [top] }

/-- The heap after a new region node has been appended and entered as last child of `P`. -/
def openedHeap (h : List (Option KateCodeFoldingNode)) (P : Nat) (nP : KateCodeFoldingNode)
    (t : Int) (sl e : Nat) : List (Option KateCodeFoldingNode) :=
  (h ++ [some { newNode P t sl with endLineRel := e }]).set P
    (some { nP with childnodes := nP.childnodes ++ [h.length] })

/-- The state after an opening marker of type `t` has been filed at `line` under
the parent `stack.headD 0`, whose node was `nP`: a new node is appended to the
heap and to the children of the parent. -/
def openState (s : KateCodeFoldingTree) (stack : List Nat) (nP : KateCodeFoldingNode) (t : Int)
    (line sl : Nat) : KateCodeFoldingTree :=
  { s with something_changed := true, markedForDeleting := stack.take 1,
           heap := openedHeap s.heap (stack.headD 0) nP t sl (60000 - line) }

/-- The stack of the types of the open regions after the markers of one line,
read in text order, starting from the stack `st`; `none` when a closing marker
does not match the innermost open region or a marker is zero. -/
def stackAfterMarkers : List Int → List Int → Option (List Int)
  | st, [] => some st
  | st, m :: rest =>
    if 0 < m then stackAfterMarkers (m :: st) rest
    else
      match st with
      | t :: st2 => if m = -t ∧ m ≠ 0 then stackAfterMarkers st2 rest else none
      | [] => none

/-- The markers of a line, in text order, without the regions that open and
close on the line: `out` is the stack of the markers kept so far, last first,
and an opening on top of it is dropped together with the closing that follows. -/
def reduceAux : List Int → List Int → List Int
  | out, [] => out.reverse
  | [], m :: rest => reduceAux [m] rest
  | o :: out, m :: rest =>
    if o > 0 ∧ o = -m then reduceAux out rest else reduceAux (m :: o :: out) rest

/-- The markers of a line that are left when the regions opened and closed on
the line are taken out. -/
def reduce (g : List Int) : List Int := reduceAux [] g

/-- The types of the open regions on the stack. -/
def StackTypes (h : List (Option KateCodeFoldingNode)) : List Nat → List Int → Prop
  | [], [] => True
  | p :: ps, t :: ts => (∃ n, h[p]? = some (some n) ∧ n.type = t) ∧ StackTypes h ps ts
  | _, _ => False

/-- Every open region is the last child of its parent. -/
def LastKid (h : List (Option KateCodeFoldingNode)) : List Nat → Prop
  | [] => True
  | p :: rest =>
    (∃ pn : KateCodeFoldingNode, h[rest.headD 0]? = some (some pn) ∧
      pn.childnodes.getLast? = some p) ∧ LastKid h rest

/-- No node carries a pending delete flag, except `deleteEnding` on
unterminated nodes of the list `md`. -/
def FlagsAlmost (h : List (Option KateCodeFoldingNode)) (md : List Nat) : Prop :=
  ∀ (i : Nat) (n : KateCodeFoldingNode), h[i]? = some (some n) →
    n.deleteOpening = false ∧ (n.deleteEnding = true → n.endLineValid = false ∧ i ∈ md)

/-- The invariant of the heap while the markers of `line` are being processed. -/
structure Work (h : List (Option KateCodeFoldingNode)) (md : List Nat) (A : Nat → Nat)
    (stack : List Nat) (st : List Int) (line : Nat) : Prop where
  nav : Nav h A stack line
  types : StackTypes h stack st
  last : LastKid h stack
  flags : FlagsAlmost h md

/-- The state after `correctEndings` has closed the unterminated node `top` with
end offset `e`. -/
def closeTop (s : KateCodeFoldingTree) (top e : Nat) : KateCodeFoldingTree :=
  s.modify top (fun m => { m with deleteEnding := false, endLineValid := true, endLineRel := e })

/-- The calls `updateLine(line, regionChanges, changed = true)` for each entry of a
list of pairs of a line and its marker array, in list order. -/
def runLines (s : KateCodeFoldingTree) : List (Nat × List Int) → Res KateCodeFoldingTree
  | [] => .ok s
  | x :: rest =>
    match updateLine s x.1 x.2 true with
    | .ok r => runLines r.tree rest
    | .crash => .crash
    | .timeout => .timeout

/-- The stack of the types of the regions still open after the lines of a run,
starting from the stack `st`. `updateLine` takes the markers of a line from the
end of the array, so the markers of a line in text order are the array read
from its last item to its first. `none` when a closing marker does not match
the innermost open region or a marker is zero. -/
def stackAfter : List Int → List (Nat × List Int) → Option (List Int)
  | st, [] => some st
  | st, x :: rest =>
    match stackAfterMarkers st x.2.reverse with
    | some st1 => stackAfter st1 rest
    | none => none

/-- The lines of the sequence ascend strictly from behind `L` and stay within `60000`. -/
def ascendingFrom : Nat → List (Nat × List Int) → Prop
  | _, [] => True
  | L, x :: rest => L < x.1 ∧ x.1 ≤ 60000 ∧ ascendingFrom x.1 rest

/-- The number of opening markers of a line (given in text order) that are not
closed on the line. -/
def openingsLeft (g : List Int) : Nat := ((reduce g).filter (fun m => decide (0 < m))).length

/-- The number of open/close pairs of a run, without the pairs that open and
close on the same line: the openings that their own line leaves open. -/
def pairCount (seq : List (Nat × List Int)) : Nat :=
  (seq.map (fun x => openingsLeft x.2.reverse)).sum

/-- The number of markers of a run that are not part of a pair opened and closed
on one line. -/
def leftCount (seq : List (Nat × List Int)) : Nat :=
  (seq.map (fun x => (reduce x.2.reverse).length)).sum

/-- The state invariant between two `updateLine` calls of an ascending run. -/
def Built (s : KateCodeFoldingTree) (st : List Int) (L : Nat) : Prop :=
  ∃ A stack, Nav s.heap A stack L ∧ FlagsClear s.heap ∧ StackTypes s.heap stack st ∧
    LastKid s.heap stack

/-- The nodes of the tree: the root, and with a node every pointer in its child list. -/
inductive InTree (s : KateCodeFoldingTree) : Nat → Prop
  | root : InTree s 0
  | child (p c : Nat) (n : KateCodeFoldingNode) :
      InTree s p → s.heap[p]? = some (some n) → c ∈ n.childnodes → InTree s c

/-! ## Well-formed trees, whatever the place of their nodes in the heap -/

/-- A well-formed folding tree.  `A` gives the absolute start line of every
node and `d` ranks the nodes, the root first and a parent below its children.  Cell `0` is the
root (type `0`, no parent).  Every other node has a non-zero type and a parent
that lists it among its children, starts `startLineRel` lines behind its
parent, and ends before the last unsigned line number `4294967295`.  A child
list names no node twice, and names only nodes whose parent pointer leads back
to the owner of the list.  Freed cells are not constrained. -/
structure Sane (h : List (Option KateCodeFoldingNode)) (A d : Nat → Nat) : Prop where
  root : ∃ r : KateCodeFoldingNode, h[0]? = some (some r) ∧ r.type = 0 ∧ r.parentNode = none ∧
    r.endLineRel < 4294967295
  a0 : A 0 = 0
  d0 : d 0 = 0
  cell : ∀ (i : Nat) (n : KateCodeFoldingNode), 0 < i → h[i]? = some (some n) →
    ∃ (p : Nat) (pn : KateCodeFoldingNode), n.parentNode = some p ∧
    d p < d i ∧ d i < h.length ∧ h[p]? = some (some pn) ∧ i ∈ pn.childnodes ∧ n.type ≠ 0 ∧
    A p + n.startLineRel = A i ∧ A i + n.endLineRel < 4294967295
  kids : ∀ (p : Nat) (n : KateCodeFoldingNode), h[p]? = some (some n) →
    n.childnodes.Nodup ∧ ∀ c ∈ n.childnodes,
      ∃ m : KateCodeFoldingNode, h[c]? = some (some m) ∧ m.parentNode = some p

/-- A test of well-formedness that can be evaluated on a given heap. -/
def saneCheck (h : List (Option KateCodeFoldingNode)) (A d : Nat → Nat) : Bool :=
  (match h[0]? with
    | some (some r) => decide (r.type = 0 ∧ r.parentNode = none ∧ r.endLineRel < 4294967295)
    | _ => false) &&
  (decide (A 0 = 0) && (decide (d 0 = 0) &&
  (List.range h.length).all (fun i =>
    match h[i]? with
    | some (some n) =>
      (decide (i = 0) || (match n.parentNode with
        | some p => (match h[p]? with
          | some (some pn) => decide (d p < d i ∧ d i < h.length ∧ i ∈ pn.childnodes ∧
              n.type ≠ 0 ∧ A p + n.startLineRel = A i ∧ A i + n.endLineRel < 4294967295)
          | _ => false)
        | none => false)) &&
      (decide n.childnodes.Nodup &&
      n.childnodes.all (fun c => match h[c]? with
        | some (some m) => decide (m.parentNode = some i)
        | _ => false))
    | _ => true)))

/-- A node with its end offset and its start offset each moved one line down
when the flag is set. -/
def bumpNode (bP bS : Bool) (n : KateCodeFoldingNode) : KateCodeFoldingNode :=
  { n with endLineRel := if bP then n.endLineRel + 1 else n.endLineRel,
           startLineRel := if bS then n.startLineRel + 1 else n.startLineRel }

/-- Heap `h1` is heap `h` with the end offsets of the cells in `P` and the
start offsets of the cells in `S` increased by one. -/
def Bumped (h h1 : List (Option KateCodeFoldingNode)) (P S : List Nat) : Prop :=
  ∀ x : Nat, h1[x]? = (h[x]?).map (Option.map (bumpNode (decide (x ∈ P)) (decide (x ∈ S))))

/-- The child list of a cell of a heap (empty for a dangling pointer). -/
def heapChildren (h : List (Option KateCodeFoldingNode)) (p : Nat) : List Nat :=
  match h[p]? with
  | some (some n) => n.childnodes
  | _ => []

/-- A list of cells from a node up to `top`, each the parent of the one before. -/
def UpPath (h : List (Option KateCodeFoldingNode)) (top : Nat) : List Nat → Prop
  | [] => False
  | [x] => x = top
  | x :: y :: rest =>
    (∃ n : KateCodeFoldingNode, h[x]? = some (some n) ∧ n.parentNode = some y) ∧
      UpPath h top (y :: rest)

/-- The cells that `incrementBy1` moves down along a path: at every step from a
node to its parent, the siblings behind the node. -/
def sibs (h : List (Option KateCodeFoldingNode)) : List Nat → List Nat
  | c :: p :: rest => siblingsAfter (heapChildren h p) c ++ sibs h (p :: rest)
  | _ => []

/-- All cells whose start offset `lineHasBeenInserted` increases: the children
of the node found that start at or behind the line, and the later siblings of
the node and of its ancestors. -/
def shiftSet (h : List (Option KateCodeFoldingNode)) (A : Nat → Nat) (line : Nat)
    (up : List Nat) : List Nat :=
  (heapChildren h (up.headD 0)).filter (fun c => decide (line ≤ A c)) ++ sibs h up

/-- The range of a node holds the line. -/
def Holds (A : Nat → Nat) (line : Nat) (c : Nat) (n : KateCodeFoldingNode) : Prop :=
  A c ≤ line ∧ line ≤ A c + n.endLineRel

/-- The descent of `findNodeForLine` from node `p`: at every node the first
child whose range holds the line is taken, until no child does; the list is the
path walked, innermost node first. -/
inductive Desc (h : List (Option KateCodeFoldingNode)) (A : Nat → Nat) (line : Nat) :
    Nat → List Nat → Prop
  | stop (p : Nat) (n : KateCodeFoldingNode) :
      h[p]? = some (some n) →
      (∀ c ∈ n.childnodes, ∀ cn : KateCodeFoldingNode, h[c]? = some (some cn) →
        ¬ Holds A line c cn) →
      Desc h A line p [p]
  | step (p : Nat) (n : KateCodeFoldingNode) (pre : List Nat) (c : Nat) (post : List Nat)
      (cn : KateCodeFoldingNode) (l : List Nat) :
      h[p]? = some (some n) → n.childnodes = pre ++ c :: post →
      (∀ x ∈ pre, ∀ xn : KateCodeFoldingNode, h[x]? = some (some xn) → ¬ Holds A line x xn) →
      h[c]? = some (some cn) → Holds A line c cn → Desc h A line c l →
      Desc h A line p (l ++ [p])

/-- The heap `h1` holds the nodes of `h` with the same links. -/
def Links (h h1 : List (Option KateCodeFoldingNode)) : Prop :=
  h1.length = h.length ∧
  ∀ (x : Nat) (n : KateCodeFoldingNode), h[x]? = some (some n) →
    ∃ n1 : KateCodeFoldingNode, h1[x]? = some (some n1) ∧ n1.parentNode = n.parentNode ∧
      n1.childnodes = n.childnodes

/-- The members of the tree object that only the line-shift and visibility
functions write: `lineMapping`, `dontIgnoreUnchangedLines`, `hiddenLines` and
the cache of the hidden line count. -/
def auxOf (s : KateCodeFoldingTree) :
    List (Nat × Nat) × List Nat × List hiddenLineBlock × Bool × Nat :=
  (s.lineMapping, s.dontIgnoreUnchangedLines, s.hiddenLines, s.hiddenLinesCountCacheValid,
    s.hiddenLinesCountCache)

/-- The links of a heap are sound: cell `0` is the root (type `0`), every other
cell is a live node of non-zero type whose parent was created before it, and
every child pointer points to a later cell of the heap. -/
structure Linked (h : List (Option KateCodeFoldingNode)) : Prop where
  root : ∃ r, h[0]? = some (some r) ∧ r.type = 0
  cell : ∀ i, 0 < i → i < h.length → ∃ n p, h[i]? = some (some n) ∧ n.parentNode = some p ∧
    p < i ∧ n.type ≠ 0
  kids : ∀ (p : Nat) (n : KateCodeFoldingNode), h[p]? = some (some n) →
    ∀ c ∈ n.childnodes, p < c ∧ c < h.length

/-- Cell by cell, heap `h2` holds the nodes of heap `h` with the same type, a
parent that still is an earlier cell, child pointers that still point into the
heap, and an end that is still valid where it was. -/
def Kept (h h2 : List (Option KateCodeFoldingNode)) : Prop :=
  h2.length = h.length ∧
  ∀ (i : Nat) (n : KateCodeFoldingNode), h[i]? = some (some n) →
    ∃ n2 : KateCodeFoldingNode, h2[i]? = some (some n2) ∧ n2.type = n.type ∧
      (∀ p, n.parentNode = some p → p < i → ∃ p2, n2.parentNode = some p2 ∧ p2 < i) ∧
      (n.endLineValid = true → n2.endLineValid = true) ∧
      ((∀ c ∈ n.childnodes, i < c ∧ c < h.length) → ∀ c ∈ n2.childnodes, i < c ∧ c < h.length)

/-- Every node with a valid end in `h` is a node with a valid end in `h2`. -/
def KeptValid (h h2 : List (Option KateCodeFoldingNode)) : Prop :=
  ∀ (i : Nat) (n : KateCodeFoldingNode), h[i]? = some (some n) → n.endLineValid = true →
    ∃ n2 : KateCodeFoldingNode, h2[i]? = some (some n2) ∧ n2.endLineValid = true

/-- Node `d` is a proper descendant of node `p`. -/
inductive Below (h : List (Option KateCodeFoldingNode)) : Nat → Nat → Prop
  | child (p c : Nat) (n : KateCodeFoldingNode) :
      h[p]? = some (some n) → c ∈ n.childnodes → Below h p c
  | step (p c d : Nat) (n : KateCodeFoldingNode) :
      h[p]? = some (some n) → c ∈ n.childnodes → Below h c d → Below h p d

/-- A `QString`, as the sequence of its UTF-16 code units; `operator<` compares
the sequences lexicographically. -/
abbrev QString := List Nat

mutual
/-- A `QJsonValue`; the payload of a number is not looked at by `merge`. -/
inductive QJsonValue where
  | null
  | bool (b : Bool)
  | double (d : Int)
  | string (s : QString)
  | array (a : QJsonArray)
  | object (o : QJsonObject)
  | undefined
/-- A `QJsonArray`, the list of its items. -/
inductive QJsonArray where
  | nil
  | cons (head : QJsonValue) (tail : QJsonArray)
/-- A `QJsonObject`, the list of its members in iteration order, which is the
order of the keys. -/
inductive QJsonObject where
  | nil
  | cons (key : QString) (value : QJsonValue) (rest : QJsonObject)
end

/-- Model of `QJsonValue::isObject`. -/
def QJsonValue.isObject : QJsonValue → Bool
  | .object _ => true
  | _ => false

/-- Model of `QJsonValue::isUndefined`. -/
def QJsonValue.isUndefined : QJsonValue → Bool
  | .undefined => true
  | _ => false

/-- Model of `QJsonValue::toObject`: the object held, the empty object for every
other value. -/
def QJsonValue.toObject : QJsonValue → QJsonObject
  | .object o => o
  | _ => .nil

/-- Model of `QJsonObject::value`: the value of the member with this key,
`Undefined` when there is none. -/
def QJsonObject.value : QJsonObject → QString → QJsonValue
  | .nil, _ => .undefined
  | .cons k v rest, key => if k = key then v else rest.value key

/-- Model of `QJsonObject::contains`. -/
def QJsonObject.contains : QJsonObject → QString → Bool
  | .nil, _ => false
  | .cons k _ rest, key => if k = key then true else rest.contains key

/-- Model of `QJsonObject::remove`. -/
def QJsonObject.remove : QJsonObject → QString → QJsonObject
  | .nil, _ => .nil
  | .cons k v rest, key => if k = key then rest.remove key else .cons k v (rest.remove key)

/-- The insertion of `QJsonObject::insert` for a value that is not `Undefined`:
the value of an existing member with the key is replaced, else the member is
put at its place in key order. -/
def QJsonObject.put : QJsonObject → QString → QJsonValue → QJsonObject
  | .nil, key, value => .cons key value .nil
  | .cons k v rest, key, value =>
    if key < k then .cons key value (.cons k v rest)
    else if key = k then .cons key value rest
    else .cons k v (rest.put key value)

/-- Model of `QJsonObject::insert`; inserting `Undefined` removes the key. -/
def QJsonObject.insert (o : QJsonObject) (key : QString) (value : QJsonValue) : QJsonObject :=
  if value.isUndefined then o.remove key else o.put key value

/-- The second loop of `merge`, over the members of `bottom`:
`if (!result.contains(item.key())) result.insert(item.key(), item.value());`. -/
def mergeBottom : QJsonObject → QJsonObject → QJsonObject
  | .nil, result => result
  | .cons key value rest, result =>
    mergeBottom rest (if result.contains key then result else result.insert key value)

/-- The first loop of `merge`, over the members of `top` (first argument), with
the recursive call of `merge` for a member that is an object written out as its
two loops:
`if (item.value().isObject()) result.insert(key, merge(bottom.value(key).toObject(), item.value().toObject()));
 else result.insert(key, item.value());`. -/
def mergeTop : QJsonObject → QJsonObject → QJsonObject → QJsonObject
  | .nil, _, result => result
  | .cons key (.object o) rest, bottom, result =>
    mergeTop rest bottom
      (result.insert key
        (.object (mergeBottom (bottom.value key).toObject
          (mergeTop o (bottom.value key).toObject .nil))))
  | .cons key value rest, bottom, result => mergeTop rest bottom (result.insert key value)

/-- Model of the local helper `merge(bottom, top)`. -/
def merge (bottom top : QJsonObject) : QJsonObject :=
  mergeBottom bottom (mergeTop top bottom .nil)

/-- Every key of the object is greater than `key`. -/
def QJsonObject.allAbove : QJsonObject → QString → Bool
  | .nil, _ => true
  | .cons k _ rest, key => decide (key < k) && rest.allAbove key

/-- The members of the object are in strictly ascending key order and none is
`Undefined`. -/
def QJsonObject.canonical : QJsonObject → Bool
  | .nil => true
  | .cons k v rest => !v.isUndefined && rest.allAbove k && rest.canonical

/-- The representation invariant of a `QJsonObject`: its members are in strictly
ascending key order, none is `Undefined`, and the same holds in every member
that is an object. -/
def QJsonObject.wellFormed : QJsonObject → Bool
  | .nil => true
  | .cons k (.object o) rest => o.wellFormed && rest.allAbove k && rest.wellFormed
  | .cons _ .undefined _ => false
  | .cons k _ rest => rest.allAbove k && rest.wellFormed

/-- The nesting depth of the objects in an object. -/
def QJsonObject.depth : QJsonObject → Nat
  | .nil => 0
  | .cons _ (.object o) rest => max (o.depth + 1) rest.depth
  | .cons _ _ rest => rest.depth

/-- The value `merge` stores for a member `value` of `top` under `key`. -/
def overlay (bottom : QJsonObject) (key : QString) (value : QJsonValue) : QJsonValue :=
  match value with
  | .object o => .object (merge (bottom.value key).toObject o)
  | v => v

/-! ## The cache of the hidden line count -/

/-- One call of the public interface of the tree. -/
inductive TreeCall where
  | toggleRegionVisibility (line : Nat)
  | lineHasBeenInserted (line : Nat)
  | lineHasBeenRemoved (line : Nat)
  | updateLine (line : Nat) (regionChanges : List Int) (changed : Bool)
  | getHiddenLinesCount
deriving DecidableEq, Repr

/-- The state a call leaves behind. -/
def applyCall (s : KateCodeFoldingTree) : TreeCall → Res KateCodeFoldingTree
  | .toggleRegionVisibility line => toggleRegionVisibility s line
  | .lineHasBeenInserted line => lineHasBeenInserted s line
  | .lineHasBeenRemoved line => lineHasBeenRemoved s line
  | .updateLine line regionChanges changed =>
    match updateLine s line regionChanges changed with
    | .ok r => .ok r.tree
    | .crash => .crash
    | .timeout => .timeout
  | .getHiddenLinesCount => .ok (getHiddenLinesCount s).2

/-- The state after a sequence of calls, in list order. -/
def runCalls (s : KateCodeFoldingTree) : List TreeCall → Res KateCodeFoldingTree
  | [] => .ok s
  | c :: rest =>
    match applyCall s c with
    | .ok s1 => runCalls s1 rest
    | .crash => .crash
    | .timeout => .timeout

/-- The sum `getHiddenLinesCount` computes: the lengths added up as `unsigned int`. -/
def hiddenCount (l : List hiddenLineBlock) : Nat :=
  l.foldl (fun acc it => uadd acc it.length) 0

/-- The cache of the hidden line count, when valid, holds the count of the
blocks now in `hiddenLines`. -/
def cacheFresh (s : KateCodeFoldingTree) : Prop :=
  s.hiddenLinesCountCacheValid = true → s.hiddenLinesCountCache = hiddenCount s.hiddenLines

/-! ## Line information (`getLineInfo`) -/

/-- The answer of `getLineInfo` (`class KateLineInfo`). -/
structure KateLineInfo where
  topLevel : Bool
  startsVisibleBlock : Bool
  startsInVisibleBlock : Bool
  endsBlock : Bool
  invalidBlockEnd : Bool
deriving DecidableEq, Repr

/-- Model of `KateCodeFoldingTree::isTopLevel`: no child of the root covers `line`. -/
def isTopLevel (s : KateCodeFoldingTree) (line : Nat) : Res Bool := do
  let root ← s.node 0
  let found ← firstChild s (fun node =>
      decide (node.startLineRel ≤ line ∧ line ≤ uadd node.startLineRel node.endLineRel))
    root.childnodes 0
  pure found.isNone

/-- The loop of `getLineInfo` over `nodesForLine`. -/
def lineInfoLoop (s : KateCodeFoldingTree) (line : Nat) :
    List Nat → KateLineInfo → Res KateLineInfo
  | [], info => .ok info
  | node :: rest, info => do
    let startLine ← getStartLine s node
    let n ← s.node node
    lineInfoLoop s line rest
      (if n.type < 0 then { info with invalidBlockEnd := true }
       else if startLine ≠ line then { info with endsBlock := true }
       else if n.visible then { info with startsVisibleBlock := true }
       else { info with startsInVisibleBlock := true })

/-- Model of `KateCodeFoldingTree::getLineInfo`: the structure is initialised, and
at the first child of the root that covers `line` the nodes opened or closed at
`line` are looked up and examined; returns the structure and the state
(`nodesForLine` is rewritten). -/
def getLineInfo (s : KateCodeFoldingTree) (line : Nat) : Res (KateLineInfo × KateCodeFoldingTree) := do
  let info : KateLineInfo :=
    { topLevel := true, startsVisibleBlock := false, startsInVisibleBlock := false,
      endsBlock := false, invalidBlockEnd := false }
  let root ← s.node 0
  let found ← firstChild s (fun node =>
      decide (node.startLineRel ≤ line ∧ line ≤ uadd node.startLineRel node.endLineRel))
    root.childnodes 0
  match found with
  | none => pure (info, s)
  | some _ =>
    let s1 ← findAllNodesOpenedOrClosedAt s line
    let r ← lineInfoLoop s1 line s1.nodesForLine { info with topLevel := false }
    pure (r, s1)

/-! ## Evaluation lemmas -/

@[simp] theorem Res.ok_bind {α β : Type} (a : α) (f : α → Res β) : (Res.ok a >>= f) = f a := rfl

@[simp] theorem Res.crash_bind {α β : Type} (f : α → Res β) :
    (Res.crash >>= f) = Res.crash := rfl

@[simp] theorem Res.timeout_bind {α β : Type} (f : α → Res β) :
    (Res.timeout >>= f) = Res.timeout := rfl

@[simp] theorem Res.pure_eq {α : Type} (a : α) : (pure a : Res α) = Res.ok a := rfl

theorem further_nil (fuel : Nat) (s : KateCodeFoldingTree) (node : Nat) (nType : Int)
    (line : Nat) (cur : Int) (sl : Nat) :
    addOpening_further_iterations (fuel + 1) s node nType [] line cur sl = .ok (s, []) := by
  unfold addOpening_further_iterations
  simp

theorem mark_emptyTree (a : Nat) :
    findAndMarkAllNodesforRemovalOpenedOrClosedAt { emptyTree with something_changed := false } a
      = .ok emptyTree := by
  simp [findAndMarkAllNodesforRemovalOpenedOrClosedAt, findNodeForLine, emptyTree,
    KateCodeFoldingTree.node, rootNode, firstChild]

theorem locate_emptyTree (a : Nat) (t : Int) (ht : 0 < t) :
    locateInsert emptyTree a t = .ok (0, -1) := by
  have ht1 : ¬ t < 0 := by omega
  simp [locateInsert, findNodeForLine, emptyTree, KateCodeFoldingTree.node, rootNode, firstChild,
    ht1, locateInsert.climb, getStartLine, getStartLineLoop, firstChildM]

theorem addOpening_fresh (a : Nat) (t : Int) (ha : a ≤ 60000) (ht : 0 < t) :
    addOpening 3
      { emptyTree with
        heap := [some { rootNode with childnodes := [1] }, some (newNode 0 t a)],
        something_changed := true }
      1 t [] a = .ok (openTree a t, []) := by
  have h2 : uadd 0 a = a := by unfold uadd; omega
  have h3 : usub 60000 a = 60000 - a := by unfold usub; omega
  have ht0 : t ≠ 0 := by omega
  have ht2 : ¬ (0 = t) := by omega
  unfold addOpening
  simp [getStartLine, getStartLineLoop, emptyTree, KateCodeFoldingTree.node, rootNode, newNode,
    ht0, h2, KateCodeFoldingTree.modify, KateCodeFoldingTree.parentOf, qfind, h3, further_nil,
    openTree, ht2]

theorem updateLoop_fresh (a : Nat) (t : Int) (ha : a ≤ 60000) (ht : 0 < t) :
    updateLoop a 2 emptyTree [] t 0 (-1) = .ok (openTree a t, []) := by
  have h1 : usub a 0 = a := by unfold usub; omega
  have ht1 : ¬ t < 0 := by omega
  have h4 := addOpening_fresh a t ha ht
  simp only [emptyTree, rootNode, newNode, openTree] at h4
  unfold updateLoop
  simp [ht1, getStartLine, getStartLineLoop, emptyTree, KateCodeFoldingTree.node, rootNode,
    KateCodeFoldingTree.alloc, KateCodeFoldingTree.modify, h1, h4, openTree, newNode, qfind]

theorem updateLine_open (a : Nat) (t : Int) (ha : a ≤ 60000) (ht : 0 < t) :
    updateLine emptyTree a [t] true
      = .ok { tree := openTree a t, regionChanges := [], updated := some true } := by
  have h2 := mark_emptyTree a
  have h3 := locate_emptyTree a t ht
  have h5 := updateLoop_fresh a t ha ht
  simp only [emptyTree, rootNode, newNode, openTree] at h2 h3 h5
  simp [updateLine, updateLineBody, cancelLoop, emptyTree, rootNode, h2, h3, h5,
    cleanupUnneededNodes, openTree, cleanupLoop, newNode]

theorem findNode_openTree (a b : Nat) (t : Int) (hab : a < b) (hb : b ≤ 60000) (sc : Bool)
    (md : List Nat) :
    findNodeForLine { openTree a t with something_changed := sc, markedForDeleting := md } b
      = .ok 1 := by
  have h1 : uadd a (60000 - a) = 60000 := by unfold uadd; omega
  have h2 : a ≤ b := by omega
  unfold findNodeForLine
  simp [openTree, emptyTree, rootNode, newNode, KateCodeFoldingTree.node, firstChild, h1, h2, hb]
  unfold findNodeForLineDescending
  simp [KateCodeFoldingTree.node, firstChild]

theorem mark_openTree (a b : Nat) (t : Int) (hab : a < b) (hb : b ≤ 60000) (ht : 0 < t) :
    findAndMarkAllNodesforRemovalOpenedOrClosedAt { openTree a t with something_changed := false } b
      = .ok (markedTree a b t) := by
  have h1 : uadd a (60000 - a) = 60000 := by unfold uadd; omega
  have h0 : uadd 0 a = a := by unfold uadd; omega
  have h2 : a ≠ b := by omega
  have ht0 : t ≠ 0 := by omega
  have hf := findNode_openTree a b t hab hb false []
  simp only [openTree, emptyTree, rootNode, newNode] at hf
  unfold findAndMarkAllNodesforRemovalOpenedOrClosedAt
  simp only [openTree, emptyTree, rootNode, newNode, hf, Res.ok_bind, markedTree]
  by_cases h6 : b = 60000
  · subst h6
    simp [KateCodeFoldingTree.node, ht0, addNodeToRemoveList, getStartLine, getStartLineLoop, h0,
      h2, h1, KateCodeFoldingTree.modify, markAncestors]
  · have h6' : ¬ (60000 = b) := by omega
    simp [KateCodeFoldingTree.node, ht0, addNodeToRemoveList, getStartLine, getStartLineLoop, h0,
      h2, h1, KateCodeFoldingTree.modify, markAncestors, h6, h6']

theorem findNode_markedTree (a b : Nat) (t : Int) (hab : a < b) (hb : b ≤ 60000) :
    findNodeForLine (markedTree a b t) b = .ok 1 := by
  have h1 : uadd a (60000 - a) = 60000 := by unfold uadd; omega
  have h2 : a ≤ b := by omega
  unfold findNodeForLine
  simp [markedTree, openTree, emptyTree, rootNode, newNode, KateCodeFoldingTree.node, firstChild,
    h1, h2, hb]
  unfold findNodeForLineDescending
  simp [KateCodeFoldingTree.node, firstChild]

theorem locate_markedTree (a b : Nat) (t : Int) (hab : a < b) (hb : b ≤ 60000) (ht : 0 < t) :
    locateInsert (markedTree a b t) b (-t) = .ok (1, -1) := by
  have h0 : uadd 0 a = a := by unfold uadd; omega
  have ht0 : t ≠ 0 := by omega
  unfold locateInsert
  rw [findNode_markedTree a b t hab hb]
  simp [ht, markedTree, openTree, emptyTree, rootNode, newNode, KateCodeFoldingTree.node,
    getStartLine, getStartLineLoop, ht0, firstChild]

theorem correctEndings_markedTree (a b : Nat) (t : Int) (hab : a < b) (hb : b ≤ 60000)
    (ht : 0 < t) :
    correctEndings 3 (markedTree a b t) (-t) 1 b (-1) =
      .ok ({ closedTree a b t with something_changed := false }, true) := by
  have h0 : uadd 0 a = a := by unfold uadd; omega
  have h3 : usub b a = b - a := by unfold usub; omega
  have ht0 : t ≠ 0 := by omega
  unfold correctEndings
  simp [markedTree, openTree, emptyTree, rootNode, newNode, KateCodeFoldingTree.node, getStartLine,
    getStartLineLoop, ht0, h0, dontDeleteEnding, KateCodeFoldingTree.modify, h3, closedTree,
    singleRegionHeap]

theorem updateLoop_markedTree (a b : Nat) (t : Int) (hab : a < b) (hb : b ≤ 60000) (ht : 0 < t) :
    updateLoop b 2 (markedTree a b t) [] (-t) 1 (-1) =
      .ok ({ closedTree a b t with something_changed := false }, []) := by
  have hc := correctEndings_markedTree a b t hab hb ht
  simp only [markedTree, openTree, emptyTree, rootNode, newNode, closedTree, singleRegionHeap] at hc
  unfold updateLoop
  simp [ht, markedTree, openTree, emptyTree, rootNode, newNode, hc, KateCodeFoldingTree.parentOf,
    KateCodeFoldingTree.node, closedTree, qfind, singleRegionHeap]

theorem cleanup_closedTree (a b : Nat) (t : Int) :
    cleanupUnneededNodes { closedTree a b t with something_changed := false } b =
      .ok { closedTree a b t with something_changed := false } := by
  simp [cleanupUnneededNodes, closedTree, cleanupLoop, cleanupNode, emptyTree, rootNode, newNode,
    KateCodeFoldingTree.node, dontDeleteOpening, dontDeleteEnding, KateCodeFoldingTree.modify,
    singleRegionHeap]

theorem updateLine_close (a b : Nat) (t : Int) (hab : a < b) (hb : b ≤ 60000) (ht : 0 < t) :
    updateLine (openTree a t) b [-t] true =
      .ok { tree := closedTree a b t, regionChanges := [], updated := some false } := by
  have h2 := mark_openTree a b t hab hb ht
  have h3 := locate_markedTree a b t hab hb ht
  have h5 := updateLoop_markedTree a b t hab hb ht
  have h6 := cleanup_closedTree a b t
  simp only [markedTree, openTree, emptyTree, rootNode, newNode, closedTree, singleRegionHeap]
    at h2 h3 h5 h6
  simp [updateLine, updateLineBody, cancelLoop, openTree, emptyTree, rootNode, newNode, h2, h3,
    h5, h6, closedTree, singleRegionHeap]

theorem getStartLine_singleRegion (s : KateCodeFoldingTree) (a b : Nat) (t : Int) (v : Bool)
    (ha : a < 4294967296) (ht : t ≠ 0) (hs : s.heap = singleRegionHeap a b t v) :
    getStartLine s 1 = .ok a := by
  have h0 : uadd 0 a = a := by unfold uadd; omega
  simp [getStartLine, getStartLineLoop, KateCodeFoldingTree.node, hs, singleRegionHeap, newNode,
    rootNode, ht, h0]

theorem findNode_singleRegion (s : KateCodeFoldingTree) (a b : Nat) (t : Int) (v : Bool)
    (hab : a < b) (hb : b < 4294967296) (hs : s.heap = singleRegionHeap a b t v) :
    findNodeForLine s a = .ok 1 := by
  have h1 : uadd a (b - a) = b := by unfold uadd; omega
  have h2 : a ≤ b := by omega
  unfold findNodeForLine
  simp [hs, singleRegionHeap, rootNode, newNode, KateCodeFoldingTree.node, firstChild, h1, h2]
  unfold findNodeForLineDescending
  simp [KateCodeFoldingTree.node, firstChild, hs, singleRegionHeap, newNode]

theorem foundList_singleRegion (s : KateCodeFoldingTree) (a b : Nat) (t : Int) (v : Bool)
    (hab : a < b) (hb : b < 4294967296) (ht : t ≠ 0) (hs : s.heap = singleRegionHeap a b t v) :
    findAllNodesOpenedOrClosedAt s a = .ok { s with nodesForLine := [1] } := by
  have hf := findNode_singleRegion { s with nodesForLine := [] } a b t v hab hb hs
  have hg := getStartLine_singleRegion { s with nodesForLine := [] } a b t v (by omega) ht hs
  obtain ⟨heap, sc, lm, di, md, nfl, hl, cv, cc⟩ := s
  simp only at hs
  subst hs
  unfold findAllNodesOpenedOrClosedAt
  simp only [hf, hg, Res.ok_bind]
  simp [KateCodeFoldingTree.node, singleRegionHeap, newNode, ht, rootNode, foundListAncestors,
    addNodeToFoundList, qfind, foundChildren, getStartLine, getStartLineLoop]

/-- The signal loop runs out of any fuel when its bound is the largest unsigned
number: the counter never exceeds it. -/
theorem setLineVisibleLoop_never (fuel i : Nat) (hi : i < 4294967296) :
    setLineVisibleLoop fuel i 4294967295 = .timeout := by
  induction fuel generalizing i with
  | zero => rfl
  | succ f ih =>
    unfold setLineVisibleLoop
    have h1 : i ≤ 4294967295 := by omega
    simp only [h1, if_true]
    exact ih (uadd i 1) (by unfold uadd; omega)

/-- The signal loop returns for every smaller bound, given fuel for the lines
it passes. -/
theorem setLineVisibleLoop_returns (bound : Nat) (hb : bound < 4294967295) :
    ∀ (fuel i : Nat), 1 ≤ fuel → bound + 2 ≤ fuel + i →
      setLineVisibleLoop fuel i bound = .ok () := by
  intro fuel
  induction fuel with
  | zero => intro i h; omega
  | succ f ih =>
    intro i _ h
    unfold setLineVisibleLoop
    by_cases c : i ≤ bound
    · simp only [c, if_true]
      have h1 : uadd i 1 = i + 1 := by unfold uadd; omega
      rw [h1]
      exact ih (i + 1) (by omega) (by omega)
    · simp only [c, if_false]

/-- The signal loop as it is called: it returns unless the bound is the largest
unsigned number. -/
theorem setLineVisibleLoop_eq (i bound : Nat) (hi : i < 4294967296) (hb : bound < 4294967296) :
    setLineVisibleLoop 4294967297 i bound =
      if bound = 4294967295 then .timeout else .ok () := by
  by_cases c : bound = 4294967295
  · subst c
    simp only [if_true]
    exact setLineVisibleLoop_never _ i hi
  · simp only [c, if_false]
    exact setLineVisibleLoop_returns bound (by omega) _ i (by omega) (by omega)

/-- The call of the signal loop in `addHiddenLineBlock` and
`toggleRegionVisibility` for a node that ends before the last unsigned line. -/
theorem setLineVisibleLoop_ok (line len : Nat) (h : line + len < 4294967295) :
    setLineVisibleLoop 4294967297 (uadd line 1) (uadd len line) = .ok () := by
  have h1 : uadd len line = len + line := by unfold uadd; omega
  have h2 : uadd line 1 < 4294967296 := by unfold uadd; omega
  rw [setLineVisibleLoop_eq _ _ h2 (by rw [h1]; omega), h1]
  have : ¬ len + line = 4294967295 := by omega
  simp only [this, if_false]

theorem getRealLineLoop_ge (l : List hiddenLineBlock) (v : Nat)
    (hb : v + hiddenTotal l < 4294967296) :
    v ≤ getRealLineLoop l v ∧ getRealLineLoop l v ≤ v + hiddenTotal l := by
  induction l generalizing v with
  | nil => simp [getRealLineLoop, hiddenTotal]
  | cons it rest ih =>
    simp only [hiddenTotal] at hb
    unfold getRealLineLoop
    split
    · have h1 : uadd v it.length = v + it.length := by unfold uadd; omega
      rw [h1]
      have := ih (v + it.length) (by omega)
      simp only [hiddenTotal]
      omega
    · simp only [hiddenTotal]; omega

theorem getRealLineLoop_strictMono (l : List hiddenLineBlock) (v1 v2 : Nat) (hlt : v1 < v2)
    (hb : v2 + hiddenTotal l < 4294967296) :
    getRealLineLoop l v1 < getRealLineLoop l v2 := by
  induction l generalizing v1 v2 with
  | nil => simpa [getRealLineLoop] using hlt
  | cons it rest ih =>
    simp only [hiddenTotal] at hb
    have h2 : uadd v2 it.length = v2 + it.length := by unfold uadd; omega
    have h1 : uadd v1 it.length = v1 + it.length := by unfold uadd; omega
    by_cases c1 : it.start ≤ v1
    · have c2 : it.start ≤ v2 := by omega
      rw [getRealLineLoop, getRealLineLoop, if_pos c1, if_pos c2, h1, h2]
      exact ih _ _ (by omega) (by omega)
    · by_cases c2 : it.start ≤ v2
      · rw [getRealLineLoop, getRealLineLoop, if_neg c1, if_pos c2, h2]
        have := (getRealLineLoop_ge rest (v2 + it.length) (by omega)).1
        omega
      · rw [getRealLineLoop, getRealLineLoop, if_neg c1, if_neg c2]
        exact hlt

theorem mem_of_lookup (l : List (Nat × Nat)) (v r : Nat) (h : l.lookup v = some r) :
    (v, r) ∈ l := by
  induction l with
  | nil => simp at h
  | cons p rest ih =>
    obtain ⟨k, x⟩ := p
    by_cases hk : v = k
    · subst hk
      simp at h
      simp [h]
    · have hb : (v == k) = false := by simp [hk]
      simp only [List.lookup_cons, hb] at h
      exact List.mem_cons_of_mem _ (ih h)

theorem getRealLine_fst (s : KateCodeFoldingTree) (hc : cacheConsistent s) (v : Nat) :
    (getRealLine s v).1 = getRealLineLoop s.hiddenLines v := by
  unfold getRealLine
  cases h : s.lineMapping.lookup v with
  | none => rfl
  | some r => exact hc (v, r) (mem_of_lookup _ _ _ h)

theorem getRealLine_consistent (s : KateCodeFoldingTree) (hc : cacheConsistent s) (v : Nat) :
    cacheConsistent (getRealLine s v).2 ∧ (getRealLine s v).2.hiddenLines = s.hiddenLines := by
  unfold getRealLine
  cases h : s.lineMapping.lookup v with
  | none =>
    refine ⟨?_, rfl⟩
    intro p hp
    simp only [List.mem_cons] at hp
    rcases hp with hp | hp
    · subst hp; rfl
    · exact hc p hp
  | some r => exact ⟨hc, rfl⟩

/-! ## Building one region (`updateLine`) -/

/-- C1: starting from the empty tree, for all lines `a < b ≤ 60000` and every
region type `t > 0`, `updateLine(a, [+t], true)` followed by
`updateLine(b, [-t], true)` leaves the root with exactly one child, of type `t`,
with absolute start line `a`, `endLineRel = b - a`, `endLineValid = true` and no
children. -/
theorem updateLine_open_then_close (a b : Nat) (t : Int) (hab : a < b) (hb : b ≤ 60000)
    (ht : 0 < t) :
    ∃ r1 r2, updateLine emptyTree a [t] true = .ok r1 ∧
      updateLine r1.tree b [-t] true = .ok r2 ∧
      r2.tree.heap =
        [some { rootNode with childnodes := [1] },
         some { parentNode := some 0, childnodes := [], startLineValid := true, startLineRel := a,
                endLineValid := true, endLineRel := b - a, type := t, visible := true,
                deleteOpening := false, deleteEnding := false }] ∧
      childrenOf r2.tree 0 = [1] ∧ childrenOf r2.tree 1 = [] ∧
      getStartLine r2.tree 1 = .ok a := by
  refine ⟨_, _, updateLine_open a t (by omega) ht, updateLine_close a b t hab hb ht, ?_, ?_, ?_, ?_⟩
  · simp [closedTree, singleRegionHeap, newNode]
  · simp [childrenOf, closedTree, singleRegionHeap]
  · simp [childrenOf, closedTree, singleRegionHeap, newNode]
  · exact getStartLine_singleRegion _ a b t true (by omega) (by omega) rfl

/-- C1, witness: `t = 1`, `a = 0`, `b = 5`. -/
theorem updateLine_open_then_close_witness :
    ((0 : Nat) < 5 ∧ (5 : Nat) ≤ 60000 ∧ (0 : Int) < 1) ∧
    ∃ r1 r2, updateLine emptyTree 0 [1] true = .ok r1 ∧
      updateLine r1.tree 5 [-1] true = .ok r2 ∧
      r2.tree.heap =
        [some { rootNode with childnodes := [1] },
         some { parentNode := some 0, childnodes := [], startLineValid := true, startLineRel := 0,
                endLineValid := true, endLineRel := 5 - 0, type := 1, visible := true,
                deleteOpening := false, deleteEnding := false }] ∧
      childrenOf r2.tree 0 = [1] ∧ childrenOf r2.tree 1 = [] ∧
      getStartLine r2.tree 1 = .ok 0 :=
  ⟨by decide, updateLine_open_then_close 0 5 1 (by decide) (by decide) (by decide)⟩

/-- C2, as stated, fails: with `regionChanges = [+1, -1]` the last element, the
closing marker, is processed first and nothing is cancelled; on the empty tree
at line 0 the call leaves two nodes below the root (an unmatched closing leaf
and an unterminated region). -/
theorem updateLine_plus_minus_creates_nodes :
    ∃ r, updateLine emptyTree 0 [1, -1] true = .ok r ∧ childrenOf r.tree 0 = [1, 2] := by
  refine ⟨_, rfl, ?_⟩
  decide

/-- C2, amended: on the empty tree, for every line, `updateLine` called with
`regionChanges = [-1, +1]` (the array is consumed from its last element, so the
opening marker comes first) cancels the pair and creates no node: the tree is
unchanged and the root has zero children. -/
theorem updateLine_cancelled_pair_creates_no_node (line : Nat) :
    updateLine emptyTree line [-1, 1] true
      = .ok { tree := emptyTree, regionChanges := [], updated := some false } ∧
    childrenOf emptyTree 0 = [] := by
  have h2 := mark_emptyTree line
  simp only [emptyTree, rootNode] at h2
  constructor
  · simp [updateLine, updateLineBody, cancelLoop, emptyTree, rootNode, h2, cleanupUnneededNodes,
      cleanupLoop]
  · simp [childrenOf, emptyTree, rootNode]

/-- On the single region that ends on the last unsigned line number the toggle
does not return. -/
theorem toggle_singleRegion_last (s : KateCodeFoldingTree) (a : Nat) (t : Int)
    (ha : a < 4294967295) (ht : 0 < t)
    (hs : s.heap = singleRegionHeap a 4294967295 t true) :
    toggleRegionVisibility s a = .timeout := by
  have ht0 : t ≠ 0 := by omega
  have hf := foundList_singleRegion { s with lineMapping := [], hiddenLinesCountCacheValid := false }
    a 4294967295 t true ha (by omega) ht0 hs
  have hg := getStartLine_singleRegion
    { s with lineMapping := [], hiddenLinesCountCacheValid := false, nodesForLine := [1] }
    a 4294967295 t true (by omega) ht0 hs
  have h1 : uadd a 1 = a + 1 := by unfold uadd; omega
  have h3 : uadd (4294967295 - a) a = 4294967295 := by unfold uadd; omega
  have hl : setLineVisibleLoop 4294967297 (a + 1) 4294967295 = .timeout :=
    setLineVisibleLoop_never _ _ (by omega)
  obtain ⟨heap, sc, lm, di, md, nfl, hl2, cv, cc⟩ := s
  simp only at hs
  subst hs
  unfold toggleRegionVisibility
  simp only [hf, Res.ok_bind, keepStartingAt, hg]
  simp [KateCodeFoldingTree.modify, singleRegionHeap, newNode, KateCodeFoldingTree.node,
    addHiddenLineBlock, h1, h3, hl]

/-- C3, counterexample: for the single visible, closed top-level region from
line 0 to line 4294967295 with `hiddenLines` empty, `toggleRegionVisibility(0)`
does not return: the loop that emits `setLineVisible` for the lines
`1 .. 4294967295` never ends, because its unsigned counter cannot exceed
`4294967295`. -/
theorem toggleRegionVisibility_last_line_never_returns :
    (0 : Nat) < 4294967295 ∧
    (closedTree 0 4294967295 1).heap = singleRegionHeap 0 4294967295 1 true ∧
    (closedTree 0 4294967295 1).hiddenLines = [] ∧
    toggleRegionVisibility (closedTree 0 4294967295 1) 0 = .timeout ∧
    ¬ ∃ s1, toggleRegionVisibility (closedTree 0 4294967295 1) 0 = .ok s1 := by
  have key := toggle_singleRegion_last (closedTree 0 4294967295 1) 0 1 (by decide) (by decide) rfl
  refine ⟨by decide, rfl, rfl, key, ?_⟩
  rintro ⟨s1, h⟩
  rw [key] at h
  cases h

/-- C3: for the tree holding a single visible, closed top-level region from line
`a` to line `b` (`a < b`, and `b` before the last unsigned line number
`4294967295`) with `hiddenLines` empty, `toggleRegionVisibility(a)` returns,
sets the region's `visible` flag to false, makes `hiddenLines` exactly
`[(a+1, b-a)]`, and `getHiddenLinesCount()` then returns `b - a`. -/
theorem toggleRegionVisibility_hides_single_region (s : KateCodeFoldingTree) (a b : Nat) (t : Int)
    (hab : a < b) (hb : b < 4294967295) (ht : 0 < t)
    (hs : s.heap = singleRegionHeap a b t true) (hh : s.hiddenLines = []) :
    ∃ s1, toggleRegionVisibility s a = .ok s1 ∧
      s1.heap = singleRegionHeap a b t false ∧
      s1.hiddenLines = [{ start := a + 1, length := b - a }] ∧
      (getHiddenLinesCount s1).1 = b - a := by
  have ht0 : t ≠ 0 := by omega
  have hf := foundList_singleRegion { s with lineMapping := [], hiddenLinesCountCacheValid := false }
    a b t true hab (by omega) ht0 hs
  have hg := getStartLine_singleRegion
    { s with lineMapping := [], hiddenLinesCountCacheValid := false, nodesForLine := [1] }
    a b t true (by omega) ht0 hs
  have h1 : uadd a 1 = a + 1 := by unfold uadd; omega
  have h2 : uadd 0 (b - a) = b - a := by unfold uadd; omega
  have hl : setLineVisibleLoop 4294967297 (uadd a 1) (uadd (b - a) a) = .ok () :=
    setLineVisibleLoop_ok a (b - a) (by omega)
  rw [h1] at hl
  obtain ⟨heap, sc, lm, di, md, nfl, hl2, cv, cc⟩ := s
  simp only at hs hh
  subst hs hh
  refine ⟨{ heap := singleRegionHeap a b t false, something_changed := sc, lineMapping := [],
            dontIgnoreUnchangedLines := di, markedForDeleting := md, nodesForLine := [1],
            hiddenLines := [{ start := a + 1, length := b - a }],
            hiddenLinesCountCacheValid := false, hiddenLinesCountCache := cc }, ?_, rfl, rfl, ?_⟩
  · unfold toggleRegionVisibility
    simp only [hf, Res.ok_bind, keepStartingAt, hg]
    simp [KateCodeFoldingTree.modify, singleRegionHeap, newNode, KateCodeFoldingTree.node,
      addHiddenLineBlock, addHiddenLoop, h1, hl]
  · simp [getHiddenLinesCount, h2]

/-- C3, witness: `a = 0`, `b = 5` hides the real lines 1 to 5. -/
theorem toggleRegionVisibility_hides_single_region_witness :
    ((0 : Nat) < 5 ∧ (5 : Nat) < 4294967295 ∧ (0 : Int) < 1 ∧
      (closedTree 0 5 1).heap = singleRegionHeap 0 5 1 true ∧ (closedTree 0 5 1).hiddenLines = []) ∧
    ∃ s1, toggleRegionVisibility (closedTree 0 5 1) 0 = .ok s1 ∧
      s1.heap = singleRegionHeap 0 5 1 false ∧
      s1.hiddenLines = [{ start := 0 + 1, length := 5 - 0 }] ∧
      (getHiddenLinesCount s1).1 = 5 - 0 :=
  ⟨by decide, toggleRegionVisibility_hides_single_region (closedTree 0 5 1) 0 5 1 (by decide)
    (by decide) (by decide) rfl rfl⟩

/-- C4: when `changed` is false and the line has no entry in
`dontIgnoreUnchangedLines`, `updateLine` returns at once: the whole tree state
and the marker array are as before, and `*updated` is not written. -/
theorem updateLine_unchanged_line_is_skipped (s : KateCodeFoldingTree) (line : Nat)
    (regionChanges : List Int) (h : line ∉ s.dontIgnoreUnchangedLines) :
    updateLine s line regionChanges false
      = .ok { tree := s, regionChanges := regionChanges, updated := none } := by
  unfold updateLine
  simp [h]

/-- C4, witness: a tree with the pending lines 2, 3, 4 and the call for line 7. -/
theorem updateLine_unchanged_line_is_skipped_witness :
    (7 ∉ ({ closedTree 0 5 1 with dontIgnoreUnchangedLines := [4, 2, 3] }).dontIgnoreUnchangedLines) ∧
    updateLine { closedTree 0 5 1 with dontIgnoreUnchangedLines := [4, 2, 3] } 7 [1, -1] false
      = .ok { tree := { closedTree 0 5 1 with dontIgnoreUnchangedLines := [4, 2, 3] },
              regionChanges := [1, -1], updated := none } :=
  ⟨by decide, updateLine_unchanged_line_is_skipped _ 7 [1, -1] (by decide)⟩

/-! ## Line translation -/

/-- C5, the code at a line between two hidden blocks: with the blocks `(2,3)`
and `(10,2)` (ascending, disjoint) the real line 7 is visible, yet
`getVirtualLine(7)` is 7 (the backward scan stops at the last block, which
starts behind 7, and never subtracts the first) and `getRealLine` of that is 12,
not 7. -/
theorem getVirtualLine_stops_at_later_block :
    hiddenSorted [⟨2, 3⟩, ⟨10, 2⟩] ∧ ¬ isHidden [⟨2, 3⟩, ⟨10, 2⟩] 7 ∧
    getVirtualLine { emptyTree with hiddenLines := [⟨2, 3⟩, ⟨10, 2⟩] } 7 = 7 ∧
    (getRealLine { emptyTree with hiddenLines := [⟨2, 3⟩, ⟨10, 2⟩] }
      (getVirtualLine { emptyTree with hiddenLines := [⟨2, 3⟩, ⟨10, 2⟩] } 7)).1 = 12 := by
  refine ⟨by simp [hiddenSorted], by simp [isHidden], by decide, by decide⟩

/-- C6, the code at two visible lines around a hidden block: with the blocks
`(2,3)` and `(10,2)`, `getVirtualLine(9) = 9` but `getVirtualLine(12) = 7`, so
the translation is not monotone. -/
theorem getVirtualLine_not_monotone :
    hiddenSorted [⟨2, 3⟩, ⟨10, 2⟩] ∧
    ¬ isHidden [⟨2, 3⟩, ⟨10, 2⟩] 9 ∧ ¬ isHidden [⟨2, 3⟩, ⟨10, 2⟩] 12 ∧
    getVirtualLine { emptyTree with hiddenLines := [⟨2, 3⟩, ⟨10, 2⟩] } 9 = 9 ∧
    getVirtualLine { emptyTree with hiddenLines := [⟨2, 3⟩, ⟨10, 2⟩] } 12 = 7 := by
  refine ⟨by simp [hiddenSorted], by simp [isHidden], by simp [isHidden], by decide, by decide⟩

/-- C7: `getRealLine` is monotone and strictly increasing.  For every list of
hidden blocks and every `lineMapping` cache consistent with it, and all virtual
lines `v1 ≤ v2` whose real lines fit the `unsigned int` range
(`v2 + total hidden length < 2^32`), `getRealLine(v1) ≤ getRealLine(v2)`, and
`getRealLine(v1) < getRealLine(v2)` when `v1 < v2`, whether the two calls are
made on the same state or one after the other (the first call only adds a
consistent entry to the cache). -/
theorem getRealLine_strictly_increasing (s : KateCodeFoldingTree) (v1 v2 : Nat)
    (hc : cacheConsistent s) (hle : v1 ≤ v2)
    (hb : v2 + hiddenTotal s.hiddenLines < 4294967296) :
    (getRealLine s v1).1 ≤ (getRealLine s v2).1 ∧
    (getRealLine s v1).1 ≤ (getRealLine (getRealLine s v1).2 v2).1 ∧
    (v1 < v2 → (getRealLine s v1).1 < (getRealLine s v2).1 ∧
      (getRealLine s v1).1 < (getRealLine (getRealLine s v1).2 v2).1) := by
  have h1 := getRealLine_consistent s hc v1
  rw [getRealLine_fst s hc v1, getRealLine_fst s hc v2, getRealLine_fst _ h1.1 v2, h1.2]
  rcases Nat.lt_or_ge v1 v2 with hlt | hge
  · have hm := getRealLineLoop_strictMono s.hiddenLines v1 v2 hlt hb
    exact ⟨by omega, by omega, fun _ => ⟨hm, hm⟩⟩
  · have he : v1 = v2 := by omega
    subst he
    exact ⟨Nat.le_refl _, Nat.le_refl _, fun h => absurd h (by omega)⟩

/-- C7, witness: the blocks `(2,3)` and `(10,2)` with the cache entry `4 ↦ 7`,
and the virtual lines 4 and 5. -/
theorem getRealLine_strictly_increasing_witness :
    (cacheConsistent { emptyTree with hiddenLines := [⟨2, 3⟩, ⟨10, 2⟩], lineMapping := [(4, 7)] } ∧
      (4 : Nat) ≤ 5 ∧
      5 + hiddenTotal ({ emptyTree with hiddenLines := [⟨2, 3⟩, ⟨10, 2⟩],
                                         lineMapping := [(4, 7)] }).hiddenLines < 4294967296) ∧
    ((getRealLine { emptyTree with hiddenLines := [⟨2, 3⟩, ⟨10, 2⟩], lineMapping := [(4, 7)] } 4).1 ≤
      (getRealLine { emptyTree with hiddenLines := [⟨2, 3⟩, ⟨10, 2⟩], lineMapping := [(4, 7)] } 5).1 ∧
    (getRealLine { emptyTree with hiddenLines := [⟨2, 3⟩, ⟨10, 2⟩], lineMapping := [(4, 7)] } 4).1 ≤
      (getRealLine (getRealLine { emptyTree with hiddenLines := [⟨2, 3⟩, ⟨10, 2⟩],
                                                   lineMapping := [(4, 7)] } 4).2 5).1 ∧
    ((4 : Nat) < 5 →
      (getRealLine { emptyTree with hiddenLines := [⟨2, 3⟩, ⟨10, 2⟩], lineMapping := [(4, 7)] } 4).1 <
        (getRealLine { emptyTree with hiddenLines := [⟨2, 3⟩, ⟨10, 2⟩], lineMapping := [(4, 7)] } 5).1 ∧
      (getRealLine { emptyTree with hiddenLines := [⟨2, 3⟩, ⟨10, 2⟩], lineMapping := [(4, 7)] } 4).1 <
        (getRealLine (getRealLine { emptyTree with hiddenLines := [⟨2, 3⟩, ⟨10, 2⟩],
                                                     lineMapping := [(4, 7)] } 4).2 5).1)) :=
  ⟨⟨by simp [cacheConsistent, emptyTree, getRealLineLoop, uadd], by decide, by decide⟩,
   getRealLine_strictly_increasing _ 4 5
     (by simp [cacheConsistent, emptyTree, getRealLineLoop, uadd]) (by decide) (by decide)⟩

/-! ## Heap lemmas -/

theorem node_eq_ok (s : KateCodeFoldingTree) (p : Nat) (n : KateCodeFoldingNode) :
    s.node p = .ok n ↔ s.heap[p]? = some (some n) := by
  unfold KateCodeFoldingTree.node
  split
  · next m h => simp [h]
  · next h =>
    constructor
    · intro c; cases c
    · intro c; exact absurd c (h n)

theorem node_of_heap {s : KateCodeFoldingTree} {p : Nat} {n : KateCodeFoldingNode}
    (h : s.heap[p]? = some (some n)) : s.node p = .ok n := (node_eq_ok s p n).2 h

theorem modify_heap (s : KateCodeFoldingTree) (p : Nat) (f : KateCodeFoldingNode → KateCodeFoldingNode)
    (n : KateCodeFoldingNode) (h : s.heap[p]? = some (some n)) :
    s.modify p f = { s with heap := s.heap.set p (some (f n)) } := by
  unfold KateCodeFoldingTree.modify
  simp [h]

theorem modify_id (s : KateCodeFoldingTree) (p : Nat) (f : KateCodeFoldingNode → KateCodeFoldingNode)
    (h : ∀ n, s.heap[p]? = some (some n) → f n = n) : s.modify p f = s := by
  unfold KateCodeFoldingTree.modify
  split
  · next n hn =>
    rw [h n hn]
    have : s.heap.set p (some n) = s.heap := by
      apply List.ext_getElem?
      intro i
      by_cases c : i = p
      · subst c
        rw [hn]
        have hl : i < s.heap.length := by
          by_contra hc
          rw [List.getElem?_eq_none (by omega)] at hn
          cases hn
        simp [List.getElem?_set, hl]
      · simp [List.getElem?_set, Ne.symm c]
    rw [this]
  · rfl

theorem SpineOK.mem {h : List (Option KateCodeFoldingNode)} {stack : List Nat}
    (hs : SpineOK h stack) {p : Nat} (hp : p ∈ stack) :
    0 < p ∧ ∃ n, h[p]? = some (some n) ∧ n.endLineValid = false := by
  induction stack with
  | nil => cases hp
  | cons x rest ih =>
    obtain ⟨⟨h0, _, n, hn, he, _⟩, hr⟩ := hs
    rcases List.mem_cons.1 hp with c | c
    · subst c; exact ⟨h0, n, hn, he⟩
    · exact ih hr c

/-- Every open region but the innermost has an open child on the stack. -/
theorem SpineOK.above {h : List (Option KateCodeFoldingNode)} {stack : List Nat}
    (hs : SpineOK h stack) {p : Nat} (hp : p ∈ stack) (hne : stack.head? ≠ some p) :
    ∃ q n, q ∈ stack ∧ h[q]? = some (some n) ∧ n.endLineValid = false ∧ n.parentNode = some p := by
  induction stack with
  | nil => cases hp
  | cons x rest ih =>
    obtain ⟨⟨_, _, n, hn, he, hpar⟩, hr⟩ := hs
    rcases List.mem_cons.1 hp with c | c
    · subst c; simp at hne
    · cases rest with
      | nil => cases c
      | cons y rest2 =>
        by_cases hy : y = p
        · subst hy
          exact ⟨x, n, List.mem_cons_self _ _, hn, he, by simpa using hpar⟩
        · obtain ⟨q, m, hq, hm, hme, hmp⟩ := ih hr c (by simpa using hy)
          exact ⟨q, m, List.mem_cons_of_mem _ hq, hm, hme, hmp⟩

/-- The outermost open region is a child of the root. -/
theorem SpineOK.bottom {h : List (Option KateCodeFoldingNode)} {stack : List Nat}
    (hs : SpineOK h stack) (hne : stack ≠ []) :
    ∃ q n, q ∈ stack ∧ h[q]? = some (some n) ∧ n.endLineValid = false ∧ n.parentNode = some 0 := by
  induction stack with
  | nil => exact absurd rfl hne
  | cons x rest ih =>
    obtain ⟨⟨_, _, n, hn, he, hpar⟩, hr⟩ := hs
    cases rest with
    | nil => exact ⟨x, n, List.mem_cons_self _ _, hn, he, by simpa using hpar⟩
    | cons y rest2 =>
      obtain ⟨q, m, hq, hm, hme, hmp⟩ := ih hr (by simp)
      exact ⟨q, m, List.mem_cons_of_mem _ hq, hm, hme, hmp⟩

theorem Nav.chain {h : List (Option KateCodeFoldingNode)} {A : Nat → Nat} {stack : List Nat}
    {L : Nat} (hn : Nav h A stack L) : Chain h A := by
  refine ⟨?_, hn.a0, ?_⟩
  · obtain ⟨r, hr, ht, _⟩ := hn.root
    exact ⟨r, hr, ht⟩
  · intro i h0 hi
    obtain ⟨n, p, pn, hc, hp, hlt, _, _, ht, ha, hA, _⟩ := hn.cell i h0 hi
    have := hn.bound
    exact ⟨n, p, hc, hp, hlt, by omega, ha, by omega⟩

theorem getStartLineLoop_chain (s : KateCodeFoldingTree) (A : Nat → Nat)
    (hn : Chain s.heap A) :
    ∀ i fuel acc, i < s.heap.length → i < fuel → acc < 4294967296 →
      getStartLineLoop s fuel i acc = .ok ((acc + A i) % 4294967296) := by
  intro i
  induction i using Nat.strong_induction_on with
  | _ i ih =>
    intro fuel acc hi hf hacc
    cases fuel with
    | zero => omega
    | succ f =>
      unfold getStartLineLoop
      by_cases h0 : i = 0
      · subst h0
        obtain ⟨r, hr, ht⟩ := hn.root
        simp [node_of_heap hr, ht, hn.a0]
        omega
      · obtain ⟨n, p, hc, hp, hlt, ht0, ha, _⟩ := hn.cell i (by omega) hi
        simp only [node_of_heap hc, ht0, ne_eq, not_false_eq_true, if_true, hp]
        rw [ih p hlt f _ (by omega) (by omega) (by unfold uadd; omega)]
        congr 1
        unfold uadd
        omega

theorem getStartLine_chain (s : KateCodeFoldingTree) (A : Nat → Nat)
    (hn : Chain s.heap A) (i : Nat) (hi : i < s.heap.length) :
    getStartLine s i = .ok (A i) := by
  have hA : A i < 4294967296 := by
    by_cases h0 : i = 0
    · subst h0; rw [hn.a0]; omega
    · obtain ⟨n, p, _, _, _, _, _, ha⟩ := hn.cell i (by omega) hi
      exact ha
  unfold getStartLine
  rw [getStartLineLoop_chain s A hn i _ 0 hi (by omega) (by omega)]
  congr 1
  omega

theorem getStartLine_nav (s : KateCodeFoldingTree) (A : Nat → Nat) (stack : List Nat) (L : Nat)
    (hn : Nav s.heap A stack L) (i : Nat) (hi : i < s.heap.length) :
    getStartLine s i = .ok (A i) ∧ A i ≤ L := by
  have hb := hn.bound
  refine ⟨getStartLine_chain s A hn.chain i hi, ?_⟩
  by_cases h0 : i = 0
  · subst h0; rw [hn.a0]; omega
  · obtain ⟨n, p, pn, _, _, _, _, _, _, _, ha, _⟩ := hn.cell i (by omega) hi
    exact ha

/-- Outcome of `firstChild` on a list of live nodes: the first node that
satisfies the test, or none when no node does. -/
theorem firstChild_spec (s : KateCodeFoldingTree) (pred : KateCodeFoldingNode → Bool) :
    ∀ (cs : List Nat) (k : Nat), (∀ c ∈ cs, ∃ n, s.heap[c]? = some (some n)) →
      (∃ i c n, firstChild s pred cs k = .ok (some (i, c)) ∧ c ∈ cs ∧
          s.heap[c]? = some (some n) ∧ pred n = true) ∨
      (firstChild s pred cs k = .ok none ∧
          ∀ c ∈ cs, ∀ n, s.heap[c]? = some (some n) → pred n = false) := by
  intro cs
  induction cs with
  | nil => intro k _; right; simp [firstChild]
  | cons x rest ih =>
    intro k hl
    obtain ⟨n, hx⟩ := hl x (List.mem_cons_self _ _)
    unfold firstChild
    rw [node_of_heap hx]
    by_cases hp : pred n = true
    · left
      exact ⟨k, x, n, by simp [hp], List.mem_cons_self _ _, hx, hp⟩
    · simp only [hp, Bool.false_eq_true, if_false]
      rcases ih (k + 1) (fun c hc => hl c (List.mem_cons_of_mem _ hc)) with ⟨i, c, m, h1, h2, h3, h4⟩ | ⟨h1, h2⟩
      · left; exact ⟨i, c, m, h1, List.mem_cons_of_mem _ h2, h3, h4⟩
      · right
        refine ⟨h1, ?_⟩
        intro c hc m hm
        rcases List.mem_cons.1 hc with e | e
        · subst e
          rw [hx] at hm
          cases hm
          simpa using hp
        · exact h2 c e m hm

/-- A child of a node contains a line behind `L` exactly when it is unterminated. -/
theorem contains_iff_open {h : List (Option KateCodeFoldingNode)} {A : Nat → Nat}
    {stack : List Nat} {L : Nat} (hn : Nav h A stack L) {c p : Nat} {n : KateCodeFoldingNode}
    (hc : h[c]? = some (some n)) (hp : n.parentNode = some p) (line : Nat) (hl : L < line)
    (hb : line ≤ 60000) :
    (decide (uadd n.startLineRel (A p) ≤ line ∧
        line ≤ uadd (uadd n.endLineRel n.startLineRel) (A p)) = true ↔ n.endLineValid = false) ∧
    (decide (n.startLineRel + A p ≤ line ∧
        line ≤ uadd (n.startLineRel + A p) n.endLineRel) = true ↔ n.endLineValid = false) := by
  have hlen : c < h.length := by
    by_contra hcon
    rw [List.getElem?_eq_none (by omega)] at hc
    cases hc
  have hc0 : 0 < c := by
    by_contra hcon
    have : c = 0 := by omega
    subst this
    obtain ⟨r, hr, _, hrp, _⟩ := hn.root
    rw [hr] at hc
    cases hc
    rw [hrp] at hp
    cases hp
  obtain ⟨n2, p2, pn, hc2, hp2, hlt, _, _, ht, ha, hA, _, hv, ho⟩ := hn.cell c hc0 hlen
  rw [hc] at hc2
  cases hc2
  rw [hp] at hp2
  cases hp2
  have hbd := hn.bound
  cases hev : n.endLineValid with
  | true =>
    have h1 := hv hev
    simp only [decide_eq_true_eq, Bool.true_eq_false, iff_false, not_and, not_le]
    unfold uadd
    constructor <;> intro _ <;> omega
  | false =>
    have h1 := (ho hev).2
    simp only [decide_eq_true_eq, iff_true]
    unfold uadd
    constructor <;> constructor <;> omega

theorem descend_nav (s : KateCodeFoldingTree) (A : Nat → Nat) (stack : List Nat) (L : Nat)
    (hn : Nav s.heap A stack L) (line : Nat) (hl : L < line) (hb : line ≤ 60000) :
    ∀ fuel p n o, p ∈ stack → s.heap.length - p < fuel → s.heap[p]? = some (some n) →
      uadd o n.startLineRel = A p →
      ∃ top, stack.head? = some top ∧
        findNodeForLineDescending s fuel p line o false = .ok top := by
  intro fuel
  induction fuel with
  | zero => intro p n o _ hf; omega
  | succ f ih =>
    intro p n o hp hf hpn ho
    unfold findNodeForLineDescending
    simp only [node_of_heap hpn, ho]
    have hk := hn.kids p n hpn
    rcases firstChild_spec s (fun subNode =>
        decide (uadd subNode.startLineRel (A p) ≤ line ∧
          line ≤ uadd (uadd subNode.endLineRel subNode.startLineRel) (A p))) n.childnodes 0
        (fun c hc => by
          obtain ⟨_, _, m, hm, _⟩ := hk.2 c hc
          exact ⟨m, hm⟩) with ⟨i, c, m, h1, h2, h3, h4⟩ | ⟨h1, h2⟩
    · -- an open child: go on from it
      rw [h1]
      simp only [Bool.false_eq_true, if_false]
      obtain ⟨hpc, hcl, m2, hm2, hmp⟩ := hk.2 c h2
      rw [h3] at hm2
      cases hm2
      have hopen := ((contains_iff_open hn h3 hmp line hl hb).1).1 h4
      obtain ⟨n2, p2, pn2, hc2, hp2, _, _, _, _, ha2, _, _, _, hst⟩ :=
        hn.cell c (by omega) hcl
      rw [h3] at hc2
      cases hc2
      rw [hmp] at hp2
      cases hp2
      have hA : uadd (A p) m.startLineRel = A c := by
        have := (getStartLine_nav s A stack L hn c hcl).2
        have := hn.bound
        unfold uadd
        omega
      exact ih c m (A p) (hst hopen).1 (by omega) h3 hA
    · -- no open child: this is the innermost open region
      rw [h1]
      cases hh : stack.head? with
      | none =>
        cases stack with
        | nil => cases hp
        | cons x r => simp at hh
      | some top =>
        refine ⟨top, rfl, ?_⟩
        by_cases e : top = p
        · subst e; rfl
        · exfalso
          obtain ⟨q, m, hq, hm, hme, hmp⟩ := hn.spine.above hp (by simpa [hh] using e)
          have hq0 := (hn.spine.mem hq).1
          have hql : q < s.heap.length := by
            by_contra hcon
            rw [List.getElem?_eq_none (by omega)] at hm
            cases hm
          obtain ⟨n2, p2, pn2, hc2, hp2, _, hpn2, hmem, _⟩ := hn.cell q hq0 hql
          rw [hm] at hc2
          cases hc2
          rw [hmp] at hp2
          cases hp2
          rw [hpn] at hpn2
          cases hpn2
          have := h2 q hmem m hm
          have h3 := ((contains_iff_open hn hm hmp line hl hb).1).2 hme
          simp only [h3] at this
          cases this

/-- Result of `findNodeForLine` for a line behind `L`: the innermost open region, or the root. -/
theorem findNodeForLine_nav (s : KateCodeFoldingTree) (A : Nat → Nat) (stack : List Nat) (L : Nat)
    (hn : Nav s.heap A stack L) (line : Nat) (hl : L < line) (hb : line ≤ 60000) :
    findNodeForLine s line = .ok (stack.headD 0) := by
  obtain ⟨r, hr, hrt, hrp, hre, hrv⟩ := hn.root
  unfold findNodeForLine
  simp only [node_of_heap hr]
  have hk := hn.kids 0 r hr
  have htest : ∀ c ∈ r.childnodes, ∀ m, s.heap[c]? = some (some m) →
      (decide (m.startLineRel ≤ line ∧ line ≤ uadd m.startLineRel m.endLineRel) = true ↔
        m.endLineValid = false) := by
    intro c hc m hm
    obtain ⟨_, _, m2, hm2, hmp⟩ := hk.2 c hc
    rw [hm] at hm2
    cases hm2
    have := (contains_iff_open hn hm hmp line hl hb).2
    simpa [hn.a0] using this
  rcases firstChild_spec s (fun node =>
      decide (node.startLineRel ≤ line ∧ line ≤ uadd node.startLineRel node.endLineRel))
      r.childnodes 0
      (fun c hc => by
        obtain ⟨_, _, m, hm, _⟩ := hk.2 c hc
        exact ⟨m, hm⟩) with ⟨i, c, m, h1, h2, h3, h4⟩ | ⟨h1, h2⟩
  · rw [h1]
    simp only
    obtain ⟨hpc, hcl, m2, hm2, hmp⟩ := hk.2 c h2
    rw [h3] at hm2
    cases hm2
    have hopen := (htest c h2 m h3).1 h4
    obtain ⟨n2, p2, pn2, hc2, hp2, _, _, _, _, ha2, _, _, _, hst⟩ := hn.cell c (by omega) hcl
    rw [h3] at hc2
    cases hc2
    rw [hmp] at hp2
    cases hp2
    have hA : uadd 0 m.startLineRel = A c := by
      have := (getStartLine_nav s A stack L hn c hcl).2
      have := hn.bound
      have := hn.a0
      unfold uadd
      omega
    obtain ⟨top, ht, hd⟩ := descend_nav s A stack L hn line hl hb (s.heap.length + 1) c m 0
      (hst hopen).1 (by omega) h3 hA
    rw [hd]
    cases stack with
    | nil => simp at ht
    | cons x rest => simp at ht; simp [ht]
  · rw [h1]
    simp only
    cases stack with
    | nil => rfl
    | cons x rest =>
      exfalso
      obtain ⟨q, m, hq, hm, hme, hmp⟩ := hn.spine.bottom (by simp)
      have hq0 := (hn.spine.mem hq).1
      have hql : q < s.heap.length := by
        by_contra hcon
        rw [List.getElem?_eq_none (by omega)] at hm
        cases hm
      obtain ⟨n2, p2, pn2, hc2, hp2, _, hpn2, hmem, _⟩ := hn.cell q hq0 hql
      rw [hm] at hc2
      cases hc2
      rw [hmp] at hp2
      cases hp2
      rw [hr] at hpn2
      cases hpn2
      have := h2 q hmem m hm
      have h3 := (htest q hmem m hm).2 hme
      simp only [h3] at this
      cases this

theorem SpineOK.lt_head {h : List (Option KateCodeFoldingNode)} {p : Nat} {rest : List Nat}
    (hs : SpineOK h (p :: rest)) : ∀ q ∈ rest, q < p := by
  induction rest generalizing p with
  | nil => intro q hq; cases hq
  | cons y r ih =>
    intro q hq
    obtain ⟨⟨_, hlt, _⟩, hr⟩ := hs
    simp only [List.headD_cons] at hlt
    rcases List.mem_cons.1 hq with e | e
    · subst e; exact hlt
    · have := ih hr q e
      omega

theorem lt_of_lookup {α : Type} {h : List α} {p : Nat} {x : α} (hx : h[p]? = some x) :
    p < h.length := by
  by_contra hcon
  rw [List.getElem?_eq_none (by omega)] at hx
  cases hx

theorem lookup_set_self {α : Type} {h : List α} {p : Nat} (v : α) (hp : p < h.length) :
    (h.set p v)[p]? = some v := by
  simp [List.getElem?_set, hp]

theorem lookup_set_ne {α : Type} {h : List α} {p q : Nat} (v : α) (hq : q ≠ p) :
    (h.set p v)[q]? = h[q]? := by
  simp [List.getElem?_set, Ne.symm hq]

/-- Replacing a cell by one with the same links leaves a chain of open regions
that does not contain it as it is. -/
theorem SpineOK.set_of_not_mem {h : List (Option KateCodeFoldingNode)} {stack : List Nat}
    (hs : SpineOK h stack) (p : Nat) (v : Option KateCodeFoldingNode) (hp : p ∉ stack) :
    SpineOK (h.set p v) stack := by
  induction stack with
  | nil => trivial
  | cons x rest ih =>
    obtain ⟨⟨h0, hlt, n, hn, he, hpar⟩, hr⟩ := hs
    have hx : x ≠ p := fun e => hp (e ▸ List.mem_cons_self _ _)
    refine ⟨⟨h0, hlt, n, ?_, he, hpar⟩, ih hr (fun hm => hp (List.mem_cons_of_mem _ hm))⟩
    rw [lookup_set_ne v hx]
    exact hn

/-- Replacing a cell by one that differs only in its delete flags and
visibility keeps the shape invariant. -/
theorem Nav.set_flags {h : List (Option KateCodeFoldingNode)} {A : Nat → Nat} {stack : List Nat}
    {L : Nat} (hn : Nav h A stack L) {p : Nat} {n : KateCodeFoldingNode}
    (hp : h[p]? = some (some n)) (d1 d2 : Bool) :
    Nav (h.set p (some { n with deleteOpening := d1, deleteEnding := d2 })) A stack L := by
  have hpl := lt_of_lookup hp
  have key : ∀ (i : Nat) (x : KateCodeFoldingNode), h[i]? = some (some x) →
      ∃ y : KateCodeFoldingNode, (h.set p (some { n with deleteOpening := d1, deleteEnding := d2 }))[i]? = some (some y) ∧
        y.parentNode = x.parentNode ∧ y.childnodes = x.childnodes ∧ y.type = x.type ∧
        y.startLineRel = x.startLineRel ∧ y.startLineValid = x.startLineValid ∧
        y.endLineValid = x.endLineValid ∧ y.endLineRel = x.endLineRel := by
    intro i x hx
    by_cases e : i = p
    · subst e
      rw [hp] at hx
      cases hx
      exact ⟨_, lookup_set_self _ hpl, rfl, rfl, rfl, rfl, rfl, rfl, rfl⟩
    · exact ⟨x, by rw [lookup_set_ne _ e]; exact hx, rfl, rfl, rfl, rfl, rfl, rfl, rfl⟩
  have key2 : ∀ (i : Nat) (y : KateCodeFoldingNode), (h.set p (some { n with deleteOpening := d1, deleteEnding := d2 }))[i]? =
      some (some y) → ∃ x : KateCodeFoldingNode, h[i]? = some (some x) ∧
        y.parentNode = x.parentNode ∧ y.childnodes = x.childnodes := by
    intro i y hy
    by_cases e : i = p
    · subst e
      rw [lookup_set_self _ hpl] at hy
      cases hy
      exact ⟨n, hp, rfl, rfl⟩
    · rw [lookup_set_ne _ e] at hy
      exact ⟨y, hy, rfl, rfl⟩
  refine ⟨?_, hn.a0, hn.bound, ?_, ?_, ?_⟩
  · obtain ⟨r, hr, h1, h2, h3, h4⟩ := hn.root
    obtain ⟨y, hy, e1, e2, e3, e4, e5, e6, e7⟩ := key 0 r hr
    exact ⟨y, hy, by rw [e3, h1], by rw [e1, h2], by rw [e7, h3], by rw [e6, h4]⟩
  · intro i h0 hi
    rw [List.length_set] at hi
    obtain ⟨x, q, pn, hc, hq, hlt, hpn, hmem, ht, ha, hA, hsv, hv, ho⟩ := hn.cell i h0 hi
    obtain ⟨y, hy, e1, e2, e3, e4, e5, e6, e7⟩ := key i x hc
    obtain ⟨pn2, hpn2, f1, f2, _⟩ := key q pn hpn
    exact ⟨y, q, pn2, hy, by rw [e1, hq], hlt, hpn2, by rw [f2]; exact hmem, by rw [e3]; exact ht,
      by rw [e4]; exact ha, hA, by rw [e5]; exact hsv, by rw [e6, e7]; exact hv,
      by rw [e6, e7]; exact ho⟩
  · intro q y hy
    obtain ⟨x, hx, e1, e2⟩ := key2 q y hy
    obtain ⟨hnd, hk⟩ := hn.kids q x hx
    rw [e2]
    refine ⟨hnd, ?_⟩
    intro c hc
    obtain ⟨h1, h2, m, hm, hmp⟩ := hk c hc
    obtain ⟨m2, hm2, g1, _⟩ := key c m hm
    exact ⟨h1, by rw [List.length_set]; exact h2, m2, hm2, by rw [g1, hmp]⟩
  · have hsp := hn.spine
    clear key2 hn
    induction stack with
    | nil => trivial
    | cons x rest ih =>
      obtain ⟨⟨h0, hlt, m, hm, he, hpar⟩, hr⟩ := hsp
      obtain ⟨y, hy, e1, e2, e3, e4, e5, e6, e7⟩ := key x m hm
      exact ⟨⟨h0, hlt, y, hy, by rw [e6, he], by rw [e1, hpar]⟩, ih hr⟩

theorem Nav.top_cell {h : List (Option KateCodeFoldingNode)} {A : Nat → Nat} {top : Nat}
    {rest : List Nat} {L : Nat} (hn : Nav h A (top :: rest) L) :
    ∃ n pn, h[top]? = some (some n) ∧ n.endLineValid = false ∧
      n.parentNode = some (rest.headD 0) ∧ rest.headD 0 < top ∧ 0 < top ∧ top < h.length ∧
      0 < n.type ∧ A (rest.headD 0) + n.startLineRel = A top ∧ A top ≤ L ∧
      n.endLineRel = 60000 - A top ∧ h[rest.headD 0]? = some (some pn) ∧
      top ∈ pn.childnodes := by
  obtain ⟨⟨h0, hlt, n, hc, he, hpar⟩, _⟩ := hn.spine
  have hl := lt_of_lookup hc
  obtain ⟨n2, p, pn, hc2, hp, _, hpn, hmem, ht, ha, hA, _, _, ho⟩ := hn.cell top h0 hl
  rw [hc] at hc2
  cases hc2
  rw [hpar] at hp
  cases hp
  exact ⟨n, pn, hc, he, hpar, hlt, h0, hl, ht, ha, hA, (ho he).2, hpn, hmem⟩

theorem addNodeToRemoveList_nav (s : KateCodeFoldingTree) (A : Nat → Nat) (top : Nat)
    (rest : List Nat) (L : Nat) (hn : Nav s.heap A (top :: rest) L) (hf : FlagsClear s.heap)
    (line : Nat) (hl : L < line) (hb : line ≤ 60000) :
    addNodeToRemoveList s top line =
      .ok { (s.modify top (fun m => { m with deleteEnding := decide (line = 60000) })) with
            markedForDeleting := s.markedForDeleting ++ [top] } := by
  obtain ⟨n, pn, hc, he, hpar, hlt, h0, hlen, ht, ha, hA, hend, hpn, hmem⟩ := hn.top_cell
  have hfl := hf top n hc
  have hgs := getStartLine_chain s A hn.chain top hlen
  have hne : ¬ (A top = line) := by omega
  have hu : uadd (A top) n.endLineRel = 60000 := by rw [hend]; unfold uadd; omega
  unfold addNodeToRemoveList
  simp only [hgs, Res.ok_bind, node_of_heap hc, hne, false_and, if_false, hu, he, hfl.1,
    Bool.false_eq_true, and_false, or_false, Res.pure_eq]
  by_cases h6 : line = 60000
  · subst h6
    simp [modify_heap _ top _ n hc]
  · have h6b : ¬ (60000 = line) := fun e => h6 e.symm
    simp only [h6b, if_false, h6, decide_False]
    rw [modify_id s top _ (by
      intro m hm
      rw [hc] at hm
      cases hm
      cases n
      simp_all)]

theorem markAncestors_nav (s : KateCodeFoldingTree) (A : Nat → Nat) (top : Nat)
    (rest : List Nat) (L : Nat) (hn : Nav s.heap A (top :: rest) L)
    (line : Nat) (hl : L < line) (fuel : Nat) :
    markAncestors line (fuel + 1) s top = .ok s := by
  obtain ⟨n, pn, hc, he, hpar, hlt, h0, hlen, ht, ha, hA, hend, hpn, hmem⟩ := hn.top_cell
  have hpl := lt_of_lookup hpn
  have hgs := getStartLine_nav s A _ L hn (rest.headD 0) hpl
  have hne : ¬ (A (rest.headD 0) = line) := by omega
  unfold markAncestors
  simp only [node_of_heap hc, Res.ok_bind, hpar, node_of_heap hpn, hgs.1, hne, if_false,
    Res.pure_eq]
  split <;> rfl

theorem findAndMark_nav (s : KateCodeFoldingTree) (A : Nat → Nat) (stack : List Nat) (L : Nat)
    (hn : Nav s.heap A stack L) (hf : FlagsClear s.heap) (line : Nat) (hl : L < line)
    (hb : line ≤ 60000) :
    findAndMarkAllNodesforRemovalOpenedOrClosedAt s line = .ok (markedState s stack line) := by
  unfold findAndMarkAllNodesforRemovalOpenedOrClosedAt
  have hfind := findNodeForLine_nav { s with markedForDeleting := [] } A stack L hn line hl hb
  simp only [hfind, Res.ok_bind]
  cases stack with
  | nil =>
    obtain ⟨r, hr, hrt, _⟩ := hn.root
    have hr2 : ({ s with markedForDeleting := [] } : KateCodeFoldingTree).heap[0]? = some (some r) := hr
    simp [node_of_heap hr2, hrt, markedState]
  | cons top rest =>
    obtain ⟨n, pn, hc, he, hpar, hlt, h0, hlen, ht, ha, hA, hend, hpn, hmem⟩ := hn.top_cell
    have hc2 : ({ s with markedForDeleting := [] } : KateCodeFoldingTree).heap[top]? =
        some (some n) := hc
    have ht0 : n.type ≠ 0 := by omega
    have hadd := addNodeToRemoveList_nav { s with markedForDeleting := [] } A top rest L hn hf
      line hl hb
    simp only [List.headD_cons, node_of_heap hc2, ht0, if_false, hadd, Res.ok_bind]
    have hn2 : Nav ({ ({ s with markedForDeleting := [] } : KateCodeFoldingTree).modify top
        (fun m => { m with deleteEnding := decide (line = 60000) }) with
        markedForDeleting := ([] : List Nat) ++ [top] } : KateCodeFoldingTree).heap A (top :: rest) L := by
      rw [modify_heap _ top _ n hc2]
      exact hn.set_flags hc n.deleteOpening (decide (line = 60000))
    rw [markAncestors_nav _ A top rest L hn2 line hl]
    simp only [markedState, List.nil_append]
    rw [modify_heap _ top _ n hc2, modify_heap _ top _ n hc]

theorem modify_modify (s : KateCodeFoldingTree) (p : Nat)
    (f g : KateCodeFoldingNode → KateCodeFoldingNode) :
    (s.modify p f).modify p g = s.modify p (fun m => g (f m)) := by
  cases hc : s.heap[p]? with
  | none => simp [KateCodeFoldingTree.modify, hc]
  | some o =>
    cases o with
    | none => simp [KateCodeFoldingTree.modify, hc]
    | some n =>
      have hl := lt_of_lookup hc
      rw [modify_heap s p f n hc, modify_heap s p _ n hc]
      rw [modify_heap _ p g (f n) (by simp [List.getElem?_set, hl])]
      simp

theorem locateInsert_close (s : KateCodeFoldingTree) (A : Nat → Nat) (top : Nat)
    (rest : List Nat) (L : Nat) (hn : Nav s.heap A (top :: rest) L)
    (line : Nat) (hl : L < line) (hb : line ≤ 60000) (data : Int) (hd : data < 0) :
    locateInsert s line data = .ok (top, -1) := by
  obtain ⟨n, pn, hc, he, hpar, hlt, h0, hlen, ht, ha, hA, hend, hpn, hmem⟩ := hn.top_cell
  have hfind := findNodeForLine_nav s A _ L hn line hl hb
  have hgs := getStartLine_chain s A hn.chain top hlen
  have hk := hn.kids top n hc
  unfold locateInsert
  simp only [hfind, List.headD_cons, Res.ok_bind, hd, if_true, node_of_heap hc, hgs]
  rcases firstChild_spec s (fun c => decide (c.startLineRel ≥ usub line (A top))) n.childnodes 0
      (fun c hcm => by
        obtain ⟨_, _, m, hm, _⟩ := hk.2 c hcm
        exact ⟨m, hm⟩) with ⟨i, c, m, h1, h2, h3, h4⟩ | ⟨h1, h2⟩
  · exfalso
    obtain ⟨hpc, hcl, m2, hm2, hmp⟩ := hk.2 c h2
    rw [h3] at hm2
    cases hm2
    obtain ⟨n2, p2, pn2, hc2, hp2, _, _, _, _, ha2, hA2, _⟩ := hn.cell c (by omega) hcl
    rw [h3] at hc2
    cases hc2
    rw [hmp] at hp2
    cases hp2
    have hbd := hn.bound
    simp only [ge_iff_le, decide_eq_true_eq] at h4
    unfold usub at h4
    omega
  · simp [h1]

theorem correctEndings_close (s : KateCodeFoldingTree) (A : Nat → Nat) (top : Nat)
    (rest : List Nat) (L : Nat) (hn : Nav s.heap A (top :: rest) L)
    (line : Nat) (hl : L ≤ line) (hb : line ≤ 60000) (n : KateCodeFoldingNode)
    (hc : s.heap[top]? = some (some n)) (fuel : Nat) (ip : Int) :
    correctEndings (fuel + 1) s (-n.type) top line ip =
      .ok (s.modify top (fun m =>
        { m with deleteEnding := false, endLineValid := true, endLineRel := line - A top }),
        true) := by
  obtain ⟨n2, pn, hc2, he, hpar, hlt, h0, hlen, ht, ha, hA, hend, hpn, hmem⟩ := hn.top_cell
  rw [hc] at hc2
  cases hc2
  have hgs := getStartLine_chain s A hn.chain top hlen
  have hbd := hn.bound
  have hu : usub line (A top) = line - A top := by unfold usub; omega
  unfold correctEndings
  simp only [hgs, Res.ok_bind, node_of_heap hc, ne_eq, not_true_eq_false, if_false, he,
    if_true, Res.pure_eq, dontDeleteEnding, modify_modify, hu]

theorem cleanupNode_clear (s : KateCodeFoldingTree) (p : Nat) (nd : KateCodeFoldingNode)
    (line : Nat) (hc : s.heap[p]? = some (some nd)) (h1 : nd.deleteOpening = false)
    (h2 : nd.deleteEnding = false) : cleanupNode s p line = .ok s := by
  unfold cleanupNode
  simp only [node_of_heap hc, Res.ok_bind, h1, h2, Bool.false_eq_true, false_and, and_false,
    if_false, Res.pure_eq, dontDeleteOpening, dontDeleteEnding, modify_modify]
  rw [modify_id s p _ (by
    intro m hm
    rw [hc] at hm
    cases hm
    cases nd
    simp_all)]

theorem updateLoop_close (s : KateCodeFoldingTree) (A : Nat → Nat) (top : Nat)
    (rest : List Nat) (L : Nat) (hn : Nav s.heap A (top :: rest) L)
    (line : Nat) (hl : L < line) (hb : line ≤ 60000) (n : KateCodeFoldingNode)
    (hc : s.heap[top]? = some (some n)) (fuel : Nat) (ip : Int) :
    updateLoop line (fuel + 1) s [] (-n.type) top ip =
      .ok (s.modify top (fun m =>
        { m with deleteEnding := false, endLineValid := true, endLineRel := line - A top }),
        []) := by
  obtain ⟨n2, pn, hc2, he, hpar, hlt, h0, hlen, ht, ha, hA, hend, hpn, hmem⟩ := hn.top_cell
  rw [hc] at hc2
  cases hc2
  have hce := correctEndings_close s A top rest L hn line (Nat.le_of_lt hl) hb n hc s.heap.length ip
  have hneg : -n.type < 0 := by omega
  have hpt : rest.headD 0 ≠ top := by omega
  unfold updateLoop
  simp only [hneg, if_true, hce, Res.ok_bind, KateCodeFoldingTree.parentOf]
  rw [modify_heap s top _ n hc]
  simp only [KateCodeFoldingTree.node, lookup_set_self _ hlen, hpar, lookup_set_ne _ hpt, hpn,
    Res.ok_bind, Res.pure_eq, List.isEmpty_nil, if_true]

theorem updateLine_close_nav (s : KateCodeFoldingTree) (A : Nat → Nat) (top : Nat)
    (rest : List Nat) (L : Nat) (hn : Nav s.heap A (top :: rest) L) (hf : FlagsClear s.heap)
    (line : Nat) (hl : L < line) (hb : line ≤ 60000) (n : KateCodeFoldingNode)
    (hc : s.heap[top]? = some (some n)) :
    updateLine s line [-n.type] true =
      .ok { tree := closeState s top (line - A top), regionChanges := [], updated := some false } := by
  obtain ⟨n2, pn, hc2, he, hpar, hlt, h0, hlen, ht, ha, hA, hend, hpn, hmem⟩ := hn.top_cell
  rw [hc] at hc2
  cases hc2
  have hfl := hf top n hc
  have hneg : -n.type < 0 := by omega
  have hnz : -n.type ≠ 0 := by omega
  -- the state after the marking pass
  have hmark := findAndMark_nav { s with something_changed := false } A (top :: rest) L hn hf
    line hl hb
  have hc0 : ({ s with something_changed := false } : KateCodeFoldingTree).heap[top]? =
      some (some n) := hc
  have hMheap : (markedState { s with something_changed := false } (top :: rest) line).heap =
      s.heap.set top (some { n with deleteEnding := decide (line = 60000) }) := by
    simp only [markedState]
    rw [modify_heap _ top _ n hc0]
  have hnM : Nav (markedState { s with something_changed := false } (top :: rest) line).heap A
      (top :: rest) L := by
    rw [hMheap]
    exact hn.set_flags hc n.deleteOpening (decide (line = 60000))
  have hcM : (markedState { s with something_changed := false } (top :: rest) line).heap[top]? =
      some (some { n with deleteEnding := decide (line = 60000) }) := by
    rw [hMheap]
    exact lookup_set_self _ hlen
  have hloc := locateInsert_close _ A top rest L hnM line hl hb (-n.type) hneg
  have hloop := updateLoop_close _ A top rest L hnM line hl hb _ hcM 1 (-1)
  simp only at hloop
  unfold updateLine updateLineBody
  simp only [Bool.true_eq_false, if_false, cancelLoop, List.length_cons, List.length_nil,
    Nat.lt_irrefl, Nat.sub_self, Nat.reduceAdd, Nat.reduceSub, Res.ok_bind, hmark,
    List.isEmpty_cons, Bool.false_eq_true, List.getLastD, List.getLast_singleton, hloc,
    List.dropLast_single, hloop, Res.pure_eq]
  have hst : (markedState { s with something_changed := false } (top :: rest) line).modify top
      (fun m => { m with deleteEnding := false, endLineValid := true,
                         endLineRel := line - A top }) = closeState s top (line - A top) := by
    rw [modify_heap _ top _ _ hcM, hMheap]
    simp only [closeState, markedState]
    rw [modify_heap _ top _ n hc0, modify_heap _ top _ n hc]
    simp [hfl.2]
  have hcC : (closeState s top (line - A top)).heap[top]? =
      some (some { n with endLineValid := true, endLineRel := line - A top }) := by
    simp only [closeState]
    rw [modify_heap _ top _ n hc]
    exact lookup_set_self _ hlen
  have hclean : cleanupUnneededNodes (closeState s top (line - A top)) line =
      .ok (closeState s top (line - A top)) := by
    unfold cleanupUnneededNodes
    have hm : (closeState s top (line - A top)).markedForDeleting = [top] := rfl
    rw [hm]
    simp only [cleanupLoop, cleanupNode_clear _ top _ line hcC hfl.1 hfl.2, Res.ok_bind]
  rw [hst, hclean]
  rfl

/-- Closing the innermost open region at a later line keeps the shape invariant,
with that region popped from the stack. -/
theorem Nav.close {h : List (Option KateCodeFoldingNode)} {A : Nat → Nat} {top : Nat}
    {rest : List Nat} {L : Nat} (hn : Nav h A (top :: rest) L) {n : KateCodeFoldingNode}
    (hp : h[top]? = some (some n)) (line : Nat) (hl : L ≤ line) (hb : line ≤ 60000) :
    Nav (h.set top (some { n with endLineValid := true, endLineRel := line - A top })) A rest
      line := by
  have hpl := lt_of_lookup hp
  obtain ⟨n2, pn0, hc2, he, hpar, hlt0, h00, hlen, ht0, ha0, hA0, hend, hpn0, hmem0⟩ := hn.top_cell
  have key : ∀ (i : Nat) (x : KateCodeFoldingNode), h[i]? = some (some x) →
      ∃ y : KateCodeFoldingNode,
        (h.set top (some { n with endLineValid := true, endLineRel := line - A top }))[i]? =
          some (some y) ∧
        y.parentNode = x.parentNode ∧ y.childnodes = x.childnodes ∧ y.type = x.type ∧
        y.startLineRel = x.startLineRel ∧ y.startLineValid = x.startLineValid ∧
        (i ≠ top → y = x) ∧ (i = top → y.endLineValid = true ∧ y.endLineRel = line - A top) := by
    intro i x hx
    by_cases e : i = top
    · subst e
      rw [hp] at hx
      cases hx
      exact ⟨_, lookup_set_self _ hpl, rfl, rfl, rfl, rfl, rfl, fun c => absurd rfl c,
        fun _ => ⟨rfl, rfl⟩⟩
    · exact ⟨x, by rw [lookup_set_ne _ e]; exact hx, rfl, rfl, rfl, rfl, rfl, fun _ => rfl,
        fun c => absurd c e⟩
  have key2 : ∀ (i : Nat) (y : KateCodeFoldingNode),
      (h.set top (some { n with endLineValid := true, endLineRel := line - A top }))[i]? =
        some (some y) → ∃ x : KateCodeFoldingNode, h[i]? = some (some x) ∧
        y.parentNode = x.parentNode ∧ y.childnodes = x.childnodes := by
    intro i y hy
    by_cases e : i = top
    · subst e
      rw [lookup_set_self _ hpl] at hy
      cases hy
      exact ⟨n, hp, rfl, rfl⟩
    · rw [lookup_set_ne _ e] at hy
      exact ⟨y, hy, rfl, rfl⟩
  refine ⟨?_, hn.a0, hb, ?_, ?_, ?_⟩
  · obtain ⟨r, hr, h1, h2, h3, h4⟩ := hn.root
    obtain ⟨y, hy, e1, e2, e3, e4, e5, e6, e7⟩ := key 0 r hr
    have := e6 (by omega)
    subst this
    exact ⟨y, hy, h1, h2, h3, h4⟩
  · intro i h0 hi
    rw [List.length_set] at hi
    obtain ⟨x, q, pn, hc, hq, hlt, hpn, hmem, ht, ha, hA, hsv, hv, ho⟩ := hn.cell i h0 hi
    obtain ⟨y, hy, e1, e2, e3, e4, e5, e6, e7⟩ := key i x hc
    obtain ⟨pn2, hpn2, f1, f2, _⟩ := key q pn hpn
    refine ⟨y, q, pn2, hy, by rw [e1, hq], hlt, hpn2, by rw [f2]; exact hmem,
      by rw [e3]; exact ht, by rw [e4]; exact ha, by omega, by rw [e5]; exact hsv, ?_, ?_⟩
    · by_cases e : i = top
      · intro _
        rw [(e7 e).2, e]
        omega
      · have := e6 e
        subst this
        intro hev
        have := hv hev
        omega
    · by_cases e : i = top
      · intro hev
        rw [(e7 e).1] at hev
        cases hev
      · have := e6 e
        subst this
        intro hev
        obtain ⟨hm, hr⟩ := ho hev
        rcases List.mem_cons.1 hm with c | c
        · exact absurd c e
        · exact ⟨c, hr⟩
  · intro q y hy
    obtain ⟨x, hx, e1, e2⟩ := key2 q y hy
    obtain ⟨hnd, hk⟩ := hn.kids q x hx
    rw [e2]
    refine ⟨hnd, ?_⟩
    intro c hc
    obtain ⟨h1, h2, m, hm, hmp⟩ := hk c hc
    obtain ⟨m2, hm2, g1, _⟩ := key c m hm
    exact ⟨h1, by rw [List.length_set]; exact h2, m2, hm2, by rw [g1, hmp]⟩
  · have hlt := hn.spine.lt_head
    exact hn.spine.2.set_of_not_mem top _ (fun hm => by have := hlt top hm; omega)

theorem FlagsClear.set {h : List (Option KateCodeFoldingNode)} (hf : FlagsClear h) (p : Nat)
    (m : KateCodeFoldingNode) (h1 : m.deleteOpening = false) (h2 : m.deleteEnding = false) :
    FlagsClear (h.set p (some m)) := by
  intro i x hx
  by_cases e : i = p
  · subst e
    rw [List.getElem?_set] at hx
    simp only [if_true] at hx
    split at hx
    · cases hx; exact ⟨h1, h2⟩
    · cases hx
  · rw [lookup_set_ne _ e] at hx
    exact hf i x hx

theorem SpineOK.spine_congr {h h2 : List (Option KateCodeFoldingNode)} {stack : List Nat}
    (hs : SpineOK h stack)
    (hc : ∀ x ∈ stack, ∀ n : KateCodeFoldingNode, h[x]? = some (some n) →
      ∃ m : KateCodeFoldingNode, h2[x]? = some (some m) ∧ m.endLineValid = n.endLineValid ∧
        m.parentNode = n.parentNode) :
    SpineOK h2 stack := by
  induction stack with
  | nil => trivial
  | cons x rest ih =>
    obtain ⟨⟨h0, hlt, n, hn, he, hpar⟩, hr⟩ := hs
    obtain ⟨m, hm, e1, e2⟩ := hc x (List.mem_cons_self _ _) n hn
    exact ⟨⟨h0, hlt, m, hm, by rw [e1, he], by rw [e2, hpar]⟩,
      ih hr (fun y hy => hc y (List.mem_cons_of_mem _ hy))⟩

/-- The parent under which the next opening is filed: the innermost open region, or the root. -/
theorem Nav.parent_cell {h : List (Option KateCodeFoldingNode)} {A : Nat → Nat}
    {stack : List Nat} {L : Nat} (hn : Nav h A stack L) :
    ∃ nP, h[stack.headD 0]? = some (some nP) ∧ stack.headD 0 < h.length ∧
      nP.endLineRel = 60000 - A (stack.headD 0) ∧ A (stack.headD 0) ≤ L ∧
      (nP.type = 0 ∨ nP.endLineValid = false) ∧
      (∀ par, nP.parentNode = some par →
        par < h.length ∧ A par ≤ L ∧ ∃ pn, h[par]? = some (some pn)) := by
  cases stack with
  | nil =>
    obtain ⟨r, hr, h1, h2, h3, h4⟩ := hn.root
    refine ⟨r, hr, lt_of_lookup hr, ?_, ?_, Or.inl h1, ?_⟩
    · simp [hn.a0, h3]
    · simp [hn.a0]
    · intro par hp
      rw [h2] at hp
      cases hp
  | cons top rest =>
    obtain ⟨n, pn, hc, he, hpar, hlt, h0, hlen, ht, ha, hA, hend, hpn, hmem⟩ := hn.top_cell
    refine ⟨n, hc, hlen, hend, hA, Or.inr he, ?_⟩
    intro par hp
    rw [hpar] at hp
    cases hp
    have hl := lt_of_lookup hpn
    exact ⟨hl, (getStartLine_nav ⟨h, false, [], [], [], [], [], false, 0⟩ A _ L hn _ hl).2,
      pn, hpn⟩

theorem firstChildM_none (test : Nat → Res Bool) :
    ∀ (cs : List Nat) (k : Nat), (∀ c ∈ cs, test c = .ok false) →
      firstChildM test cs k = .ok none := by
  intro cs
  induction cs with
  | nil => intro k _; rfl
  | cons x rest ih =>
    intro k hc
    unfold firstChildM
    rw [hc x (List.mem_cons_self _ _)]
    simp only [Bool.false_eq_true, if_false]
    exact ih (k + 1) (fun c hm => hc c (List.mem_cons_of_mem _ hm))

theorem locateInsert_open (s : KateCodeFoldingTree) (A : Nat → Nat) (stack : List Nat) (L : Nat)
    (hn : Nav s.heap A stack L) (line : Nat) (hl : L < line) (hb : line ≤ 60000) (data : Int)
    (hd : 0 < data) : locateInsert s line data = .ok (stack.headD 0, -1) := by
  obtain ⟨nP, hP, hPl, hPe, hPA, hPo, hPp⟩ := hn.parent_cell
  have hfind := findNodeForLine_nav s A _ L hn line hl hb
  have hgs := getStartLine_chain s A hn.chain _ hPl
  have hk := hn.kids _ nP hP
  have hd2 : ¬ data < 0 := by omega
  have hne : ¬ (A (stack.headD 0) = line) := by omega
  have hclimb : locateInsert.climb s line (s.heap.length + 1) (stack.headD 0) =
      .ok (stack.headD 0) := by
    unfold locateInsert.climb
    simp only [node_of_heap hP, Res.ok_bind]
    cases hpp : nP.parentNode with
    | none => rfl
    | some par =>
      obtain ⟨h1, h2, pn, hpn⟩ := hPp par hpp
      have hg := getStartLine_chain s A hn.chain par h1
      have hne2 : ¬ (A par = line) := by omega
      simp [hg, node_of_heap hpn, hne2]
  unfold locateInsert
  simp only [hfind, Res.ok_bind, hd2, if_false, hclimb, node_of_heap hP, hgs, hne, false_and]
  rw [firstChildM_none _ nP.childnodes 0 (by
    intro c hc
    obtain ⟨_, hcl, _⟩ := hk.2 c hc
    have := getStartLine_nav s A _ L hn c hcl
    rw [this.1]
    have h3 : ¬ (A c ≥ line) := by omega
    simp [h3])]
  rfl

theorem openedHeap_new (h : List (Option KateCodeFoldingNode)) (P : Nat) (nP : KateCodeFoldingNode)
    (t : Int) (sl e : Nat) (hP : P < h.length) :
    (openedHeap h P nP t sl e)[h.length]? = some (some { newNode P t sl with endLineRel := e }) := by
  unfold openedHeap
  rw [lookup_set_ne _ (by omega)]
  simp

theorem openedHeap_parent (h : List (Option KateCodeFoldingNode)) (P : Nat)
    (nP : KateCodeFoldingNode) (t : Int) (sl e : Nat) (hP : P < h.length) :
    (openedHeap h P nP t sl e)[P]? =
      some (some { nP with childnodes := nP.childnodes ++ [h.length] }) := by
  unfold openedHeap
  exact lookup_set_self _ (by simp; omega)

theorem openedHeap_old (h : List (Option KateCodeFoldingNode)) (P : Nat)
    (nP : KateCodeFoldingNode) (t : Int) (sl e : Nat) (i : Nat) (hi : i < h.length)
    (hne : i ≠ P) : (openedHeap h P nP t sl e)[i]? = h[i]? := by
  unfold openedHeap
  rw [lookup_set_ne _ hne, List.getElem?_append_left hi]

theorem openedHeap_length (h : List (Option KateCodeFoldingNode)) (P : Nat)
    (nP : KateCodeFoldingNode) (t : Int) (sl e : Nat) :
    (openedHeap h P nP t sl e).length = h.length + 1 := by
  simp [openedHeap]

theorem openedHeap_set (h : List (Option KateCodeFoldingNode)) (P : Nat)
    (nP : KateCodeFoldingNode) (t : Int) (sl e e2 : Nat) (hP : P < h.length) :
    (openedHeap h P nP t sl e).set h.length (some { newNode P t sl with endLineRel := e2 }) =
      openedHeap h P nP t sl e2 := by
  apply List.ext_getElem?
  intro i
  by_cases c1 : i = h.length
  · subst c1
    rw [lookup_set_self _ (by rw [openedHeap_length]; omega), openedHeap_new _ _ _ _ _ _ hP]
  · rw [lookup_set_ne _ c1]
    by_cases c2 : i = P
    · subst c2
      rw [openedHeap_parent _ _ _ _ _ _ hP, openedHeap_parent _ _ _ _ _ _ hP]
    · by_cases c3 : i < h.length
      · rw [openedHeap_old _ _ _ _ _ _ i c3 c2, openedHeap_old _ _ _ _ _ _ i c3 c2]
      · rw [List.getElem?_eq_none (by rw [openedHeap_length]; omega),
          List.getElem?_eq_none (by rw [openedHeap_length]; omega)]

theorem Chain.chain_opened {h : List (Option KateCodeFoldingNode)} {A : Nat → Nat} (hc : Chain h A)
    {P : Nat} {nP : KateCodeFoldingNode} (hP : h[P]? = some (some nP)) (t : Int) (ht : t ≠ 0)
    (sl e : Nat) (hb : A P + sl < 4294967296) :
    Chain (openedHeap h P nP t sl e) (Function.update A h.length (A P + sl)) := by
  have hPl := lt_of_lookup hP
  have hupd : ∀ i, i < h.length → Function.update A h.length (A P + sl) i = A i := by
    intro i hi
    exact Function.update_noteq (by omega) _ _
  refine ⟨?_, ?_, ?_⟩
  · obtain ⟨r, hr, hrt⟩ := hc.root
    by_cases c : P = 0
    · subst c
      rw [hP] at hr
      cases hr
      exact ⟨_, openedHeap_parent _ _ _ _ _ _ hPl, hrt⟩
    · exact ⟨r, by rw [openedHeap_old _ _ _ _ _ _ 0 (by omega) (Ne.symm c)]; exact hr, hrt⟩
  · rw [hupd 0 (by omega)]
    exact hc.a0
  · intro i h0 hi
    rw [openedHeap_length] at hi
    by_cases c1 : i = h.length
    · subst c1
      refine ⟨_, P, openedHeap_new _ _ _ _ _ _ hPl, rfl, hPl, by simpa [newNode] using ht, ?_, ?_⟩
      · rw [hupd P hPl]
        simp [newNode]
      · simpa using hb
    · have hil : i < h.length := by omega
      obtain ⟨n, p, hn, hp, hlt, htn, ha, hA⟩ := hc.cell i h0 hil
      have e1 := hupd i hil
      have e2 := hupd p (by omega)
      by_cases c2 : i = P
      · subst c2
        rw [hP] at hn
        cases hn
        exact ⟨_, p, openedHeap_parent _ _ _ _ _ _ hPl, hp, hlt, htn, by rw [e1, e2]; exact ha,
          by rw [e1]; exact hA⟩
      · exact ⟨n, p, by rw [openedHeap_old _ _ _ _ _ _ i hil c2]; exact hn, hp, hlt, htn,
          by rw [e1, e2]; exact ha, by rw [e1]; exact hA⟩

theorem qfind_append_new (cs : List Nat) (x : Nat) (hx : x ∉ cs) :
    qfind (cs ++ [x]) x = (cs.length : Int) := by
  unfold qfind
  have hm : x ∈ cs ++ [x] := by simp
  rw [if_pos hm]
  congr 1
  induction cs with
  | nil => simp
  | cons y r ih =>
    have hy : y ≠ x := fun e => hx (e ▸ List.mem_cons_self _ _)
    have hr : x ∉ r := fun e => hx (List.mem_cons_of_mem _ e)
    rw [List.cons_append, List.indexOf_cons_ne _ hy, ih hr (by simp)]
    simp

/-- On a node that has just been appended as last child of the innermost open
region, `addOpening` sets the provisional end and goes on with the markers left. -/
theorem addOpening_fix (s : KateCodeFoldingTree) (h : List (Option KateCodeFoldingNode))
    (A : Nat → Nat) (stack : List Nat) (L : Nat) (hn : Nav h A stack L)
    (nP : KateCodeFoldingNode) (hP : h[stack.headD 0]? = some (some nP)) (t : Int) (ht : 0 < t)
    (line : Nat) (hl : L ≤ line) (hb : line ≤ 60000)
    (hs : s.heap = openedHeap h (stack.headD 0) nP t (line - A (stack.headD 0)) 20000)
    (list : List Int) (fuel : Nat) :
    addOpening (fuel + 2) s h.length t list line =
      addOpening_further_iterations (fuel + 1)
        { s with heap := openedHeap h (stack.headD 0) nP t (line - A (stack.headD 0))
                              (60000 - line) } h.length t list line 0 line := by
  obtain ⟨nP2, hP2, hPl, hPe, hPA, hPo, hPp⟩ := hn.parent_cell
  rw [hP] at hP2
  cases hP2
  have ht0 : t ≠ 0 := by omega
  have hk := hn.kids _ nP hP
  have hch : Chain s.heap (Function.update A h.length (A (stack.headD 0) +
      (line - A (stack.headD 0)))) := by
    rw [hs]
    exact hn.chain.chain_opened hP t ht0 _ _ (by omega)
  have hlen : s.heap.length = h.length + 1 := by rw [hs, openedHeap_length]
  have hgs := getStartLine_chain s _ hch h.length (by omega)
  rw [Function.update_same] at hgs
  have hline : A (stack.headD 0) + (line - A (stack.headD 0)) = line := by omega
  rw [hline] at hgs
  have hnew : s.heap[h.length]? = some (some (newNode (stack.headD 0) t
      (line - A (stack.headD 0)))) := by
    rw [hs, openedHeap_new _ _ _ _ _ _ hPl]
    rfl
  have hpar : s.heap[stack.headD 0]? =
      some (some { nP with childnodes := nP.childnodes ++ [h.length] }) := by
    rw [hs, openedHeap_parent _ _ _ _ _ _ hPl]
  have hnotin : h.length ∉ nP.childnodes := by
    intro hm
    have := (hk.2 _ hm).2.1
    omega
  have hne : stack.headD 0 ≠ h.length := by omega
  have hu : usub nP.endLineRel (line - A (stack.headD 0)) = 60000 - line := by
    rw [hPe]; unfold usub; omega
  have hcond : ¬ (nP.type = t ∧ nP.endLineValid = true) := by
    rcases hPo with c | c
    · rw [c]; omega
    · rw [c]; simp
  have hid : s.modify h.length (fun m => { m with deleteOpening := false }) = s :=
    modify_id s h.length _ (by
      intro m hm
      rw [hnew] at hm
      cases hm
      rfl)
  unfold addOpening
  simp only [hgs, Res.ok_bind, node_of_heap hnew, newNode, true_and, ne_eq, ht0,
    not_false_eq_true, if_true, hid, KateCodeFoldingTree.parentOf, node_of_heap hpar]
  rw [modify_heap s h.length _ _ hnew]
  simp only [KateCodeFoldingTree.node, lookup_set_ne _ hne, hpar, Res.ok_bind, hcond, if_false,
    Res.pure_eq, lookup_set_self _ (show h.length < s.heap.length by omega), newNode,
    qfind_append_new _ _ hnotin, List.length_append, List.length_cons, List.length_nil, hu]
  have hcur : ((nP.childnodes.length : Int) =
      ((nP.childnodes.length + (0 + 1) : Nat) : Int) - 1) := by
    push_cast
    omega
  have hset := openedHeap_set h (stack.headD 0) nP t (line - A (stack.headD 0)) 20000
    (60000 - line) hPl
  simp only [newNode] at hset
  simp only [hcur, not_true_eq_false, if_false, Res.ok_bind, hs, hset]

theorem addOpening_new (s : KateCodeFoldingTree) (h : List (Option KateCodeFoldingNode))
    (A : Nat → Nat) (stack : List Nat) (L : Nat) (hn : Nav h A stack L)
    (nP : KateCodeFoldingNode) (hP : h[stack.headD 0]? = some (some nP)) (t : Int) (ht : 0 < t)
    (line : Nat) (hl : L ≤ line) (hb : line ≤ 60000)
    (hs : s.heap = openedHeap h (stack.headD 0) nP t (line - A (stack.headD 0)) 20000)
    (fuel : Nat) :
    addOpening (fuel + 2) s h.length t [] line =
      .ok ({ s with heap := openedHeap h (stack.headD 0) nP t (line - A (stack.headD 0))
                              (60000 - line) }, []) := by
  rw [addOpening_fix s h A stack L hn nP hP t ht line hl hb hs [] fuel, further_nil]

theorem updateLoop_open (s : KateCodeFoldingTree) (A : Nat → Nat) (stack : List Nat) (L : Nat)
    (hn : Nav s.heap A stack L) (nP : KateCodeFoldingNode)
    (hP : s.heap[stack.headD 0]? = some (some nP)) (t : Int) (ht : 0 < t)
    (line : Nat) (hl : L < line) (hb : line ≤ 60000) (fuel : Nat) :
    updateLoop line (fuel + 1) s [] t (stack.headD 0) (-1) =
      .ok ({ s with something_changed := true,
                    heap := openedHeap s.heap (stack.headD 0) nP t (line - A (stack.headD 0))
                              (60000 - line) }, []) := by
  obtain ⟨nP2, hP2, hPl, hPe, hPA, hPo, hPp⟩ := hn.parent_cell
  rw [hP] at hP2
  cases hP2
  have hgs := getStartLine_chain s A hn.chain _ hPl
  have hd : ¬ t < 0 := by omega
  have hu : usub line (A (stack.headD 0)) = line - A (stack.headD 0) := by unfold usub; omega
  have hP1 : ({ heap := s.heap ++ [some (newNode (stack.headD 0) t (line - A (stack.headD 0)))],
                something_changed := true, lineMapping := s.lineMapping,
                dontIgnoreUnchangedLines := s.dontIgnoreUnchangedLines,
                markedForDeleting := s.markedForDeleting, nodesForLine := s.nodesForLine,
                hiddenLines := s.hiddenLines,
                hiddenLinesCountCacheValid := s.hiddenLinesCountCacheValid,
                hiddenLinesCountCache := s.hiddenLinesCountCache } : KateCodeFoldingTree).heap[
                  stack.headD 0]? = some (some nP) := by
    show (s.heap ++ _)[stack.headD 0]? = _
    rw [List.getElem?_append_left hPl]
    exact hP
  have hadd := addOpening_new
    { s with something_changed := true,
             heap := openedHeap s.heap (stack.headD 0) nP t (line - A (stack.headD 0)) 20000 }
    s.heap A stack L hn nP hP t ht line (Nat.le_of_lt hl) hb rfl 1
  have hpar := openedHeap_parent s.heap (stack.headD 0) nP t (line - A (stack.headD 0))
    (60000 - line) hPl
  unfold updateLoop
  simp only [hd, if_false, hgs, Res.ok_bind, node_of_heap hP, true_or, if_true,
    KateCodeFoldingTree.alloc, hu, List.length_nil, Nat.mul_zero, Nat.zero_add]
  rw [modify_heap _ _ _ nP hP1]
  have hheap : (s.heap ++ [some (newNode (stack.headD 0) t (line - A (stack.headD 0)))]).set
      (stack.headD 0) (some { nP with childnodes := nP.childnodes ++ [s.heap.length] }) =
      openedHeap s.heap (stack.headD 0) nP t (line - A (stack.headD 0)) 20000 := rfl
  simp only [hheap, hadd, Res.ok_bind, KateCodeFoldingTree.node, hpar, Res.pure_eq,
    List.isEmpty_nil, if_true]

theorem cleanupNode_open (s : KateCodeFoldingTree) (p : Nat) (nd : KateCodeFoldingNode)
    (line : Nat) (hc : s.heap[p]? = some (some nd)) (h1 : nd.deleteOpening = false)
    (h2 : nd.endLineValid = false) :
    cleanupNode s p line =
      .ok (s.modify p (fun m => { m with deleteOpening := false, deleteEnding := false })) := by
  unfold cleanupNode
  simp only [node_of_heap hc, Res.ok_bind, h1, h2, Bool.false_eq_true, false_and, and_false,
    if_false, Res.pure_eq, dontDeleteOpening, dontDeleteEnding, modify_modify]

theorem openedHeap_flags (h : List (Option KateCodeFoldingNode)) (P : Nat)
    (n : KateCodeFoldingNode) (t : Int) (sl e : Nat) (b : Bool) (hP : h[P]? = some (some n))
    (h1 : n.deleteOpening = false) (h2 : n.deleteEnding = false) :
    (openedHeap (h.set P (some { n with deleteEnding := b })) P { n with deleteEnding := b }
        t sl e).set P
      (some { n with childnodes := n.childnodes ++ [h.length], deleteOpening := false,
                     deleteEnding := false }) = openedHeap h P n t sl e := by
  have hPl := lt_of_lookup hP
  have hl2 : (h.set P (some { n with deleteEnding := b })).length = h.length := List.length_set _ _ _
  apply List.ext_getElem?
  intro i
  by_cases c2 : i = P
  · subst c2
    rw [lookup_set_self _ (by rw [openedHeap_length, hl2]; omega),
      openedHeap_parent _ _ _ _ _ _ hPl]
    cases n
    simp_all
  · rw [lookup_set_ne _ c2]
    by_cases c1 : i = h.length
    · subst c1
      have := openedHeap_new (h.set P (some { n with deleteEnding := b })) P
        { n with deleteEnding := b } t sl e (by rw [hl2]; exact hPl)
      rw [hl2] at this
      rw [this, openedHeap_new _ _ _ _ _ _ hPl]
    · by_cases c3 : i < h.length
      · rw [openedHeap_old _ _ _ _ _ _ i (by rw [hl2]; exact c3) c2,
          openedHeap_old _ _ _ _ _ _ i c3 c2, lookup_set_ne _ c2]
      · rw [List.getElem?_eq_none (by rw [openedHeap_length, hl2]; omega),
          List.getElem?_eq_none (by rw [openedHeap_length]; omega)]

theorem updateLine_open_nav (s : KateCodeFoldingTree) (A : Nat → Nat) (stack : List Nat) (L : Nat)
    (hn : Nav s.heap A stack L) (hf : FlagsClear s.heap) (nP : KateCodeFoldingNode)
    (hP : s.heap[stack.headD 0]? = some (some nP)) (t : Int) (ht : 0 < t)
    (line : Nat) (hl : L < line) (hb : line ≤ 60000) :
    updateLine s line [t] true =
      .ok { tree := openState s stack nP t line (line - A (stack.headD 0)),
            regionChanges := [], updated := some true } := by
  have hmark := findAndMark_nav { s with something_changed := false } A stack L hn hf line hl hb
  have hfl := hf _ nP hP
  have hPl := lt_of_lookup hP
  unfold updateLine updateLineBody
  simp only [Bool.true_eq_false, if_false, cancelLoop, List.length_cons, List.length_nil,
    Nat.lt_irrefl, Nat.sub_self, Nat.reduceAdd, Nat.reduceSub, Res.ok_bind, hmark,
    List.isEmpty_cons, Bool.false_eq_true, List.getLastD, List.getLast_singleton,
    List.dropLast_single, Res.pure_eq]
  cases stack with
  | nil =>
    have hloc := locateInsert_open (markedState { s with something_changed := false } [] line)
      A [] L hn line hl hb t ht
    have hloop := updateLoop_open (markedState { s with something_changed := false } [] line)
      A [] L hn nP hP t ht line hl hb 1
    simp only [hloc, hloop, Res.ok_bind]
    simp [cleanupUnneededNodes, markedState, cleanupLoop, openState]
  | cons top rest =>
    simp only [List.headD_cons] at hP hPl
    have hc0 : ({ s with something_changed := false } : KateCodeFoldingTree).heap[top]? =
        some (some nP) := hP
    have hMS : markedState { s with something_changed := false } (top :: rest) line =
        { s with something_changed := false, markedForDeleting := [top],
                 heap := s.heap.set top (some { nP with deleteEnding := decide (line = 60000) }) } := by
      simp only [markedState]
      rw [modify_heap _ top _ nP hc0]
    rw [hMS]
    have hnM : Nav (s.heap.set top (some { nP with deleteEnding := decide (line = 60000) })) A
        (top :: rest) L := hn.set_flags hP nP.deleteOpening (decide (line = 60000))
    have hcM : (s.heap.set top (some { nP with deleteEnding := decide (line = 60000) }))[
        (top :: rest).headD 0]? =
        some (some { nP with deleteEnding := decide (line = 60000) }) :=
      lookup_set_self _ hPl
    have hloc := locateInsert_open
      { s with something_changed := false, markedForDeleting := [top],
               heap := s.heap.set top (some { nP with deleteEnding := decide (line = 60000) }) }
      A _ L hnM line hl hb t ht
    have hloop := updateLoop_open
      { s with something_changed := false, markedForDeleting := [top],
               heap := s.heap.set top (some { nP with deleteEnding := decide (line = 60000) }) }
      A _ L hnM _ hcM t ht line hl hb 1
    simp only [hloc, hloop, Res.ok_bind]
    obtain ⟨n2, pn, hc2, he, _⟩ := hn.top_cell
    rw [hP] at hc2
    cases hc2
    have hlenM : (s.heap.set top (some { nP with deleteEnding := decide (line = 60000) })).length =
        s.heap.length := List.length_set _ _ _
    have hpar := openedHeap_parent
      (s.heap.set top (some { nP with deleteEnding := decide (line = 60000) })) top
      { nP with deleteEnding := decide (line = 60000) } t (line - A top) (60000 - line)
      (by rw [hlenM]; exact hPl)
    simp only [cleanupUnneededNodes, cleanupLoop, List.headD_cons]
    rw [cleanupNode_open _ top _ line hpar (by exact hfl.1) (by exact he)]
    rw [modify_heap _ top _ _ hpar]
    simp only [Res.ok_bind, hlenM, openedHeap_flags s.heap top nP t _ _ _ hP hfl.1 hfl.2]
    rfl

/-- Filing a new open region under the innermost open region (or the root) at a
later line keeps the shape invariant, with the new node pushed on the stack. -/
theorem Nav.nav_opened {h : List (Option KateCodeFoldingNode)} {A : Nat → Nat} {stack : List Nat}
    {L : Nat} (hn : Nav h A stack L) {nP : KateCodeFoldingNode}
    (hP : h[stack.headD 0]? = some (some nP)) (t : Int) (ht : 0 < t) (line : Nat)
    (hl : L ≤ line) (hb : line ≤ 60000) :
    Nav (openedHeap h (stack.headD 0) nP t (line - A (stack.headD 0)) (60000 - line))
      (Function.update A h.length line) (h.length :: stack) line := by
  obtain ⟨nP2, hP2, hPl, hPe, hPA, hPo, hPp⟩ := hn.parent_cell
  rw [hP] at hP2
  cases hP2
  have hupd : ∀ i, i < h.length → Function.update A h.length line i = A i := by
    intro i hi
    exact Function.update_noteq (by omega) _ _
  have hk := hn.kids _ nP hP
  have hnotin : h.length ∉ nP.childnodes := by
    intro hm
    have := (hk.2 _ hm).2.1
    omega
  -- every old cell is still there, with the same fields but possibly one more child
  have key : ∀ (i : Nat) (x : KateCodeFoldingNode), h[i]? = some (some x) →
      ∃ y : KateCodeFoldingNode,
        (openedHeap h (stack.headD 0) nP t (line - A (stack.headD 0)) (60000 - line))[i]? =
          some (some y) ∧
        y.parentNode = x.parentNode ∧ y.type = x.type ∧
        y.startLineRel = x.startLineRel ∧ y.startLineValid = x.startLineValid ∧
        y.endLineValid = x.endLineValid ∧ y.endLineRel = x.endLineRel ∧
        (∀ c ∈ x.childnodes, c ∈ y.childnodes) ∧
        (i ≠ stack.headD 0 → y = x) ∧
        (i = stack.headD 0 → y.childnodes = x.childnodes ++ [h.length]) := by
    intro i x hx
    have hil := lt_of_lookup hx
    by_cases e : i = stack.headD 0
    · subst e
      rw [hP] at hx
      cases hx
      exact ⟨_, openedHeap_parent _ _ _ _ _ _ hPl, rfl, rfl, rfl, rfl, rfl, rfl,
        fun c hc => List.mem_append_left _ hc, fun c => absurd rfl c, fun _ => rfl⟩
    · exact ⟨x, by rw [openedHeap_old _ _ _ _ _ _ i hil e]; exact hx, rfl, rfl, rfl, rfl, rfl, rfl,
        fun c hc => hc, fun _ => rfl, fun c => absurd c e⟩
  refine ⟨?_, ?_, hb, ?_, ?_, ?_⟩
  · obtain ⟨r, hr, h1, h2, h3, h4⟩ := hn.root
    obtain ⟨y, hy, e1, e2, e3, e4, e5, e6, _⟩ := key 0 r hr
    exact ⟨y, hy, by rw [e2, h1], by rw [e1, h2], by rw [e6, h3], by rw [e5, h4]⟩
  · rw [hupd 0 (by omega)]
    exact hn.a0
  · intro i h0 hi
    rw [openedHeap_length] at hi
    by_cases c1 : i = h.length
    · subst c1
      refine ⟨_, stack.headD 0, _, openedHeap_new _ _ _ _ _ _ hPl, rfl, hPl,
        openedHeap_parent _ _ _ _ _ _ hPl, by simp, by simpa [newNode] using ht, ?_, ?_, rfl,
        ?_, ?_⟩
      · rw [hupd _ hPl, Function.update_same]
        simp only [newNode]
        omega
      · rw [Function.update_same]
      · intro hev
        simp [newNode] at hev
      · intro _
        refine ⟨List.mem_cons_self _ _, ?_⟩
        rw [Function.update_same]
    · have hil : i < h.length := by omega
      obtain ⟨x, q, pn, hc, hq, hlt, hpn, hmem, ht2, ha, hA, hsv, hv, ho⟩ := hn.cell i h0 hil
      obtain ⟨y, hy, e1, e2, e3, e4, e5, e6, _⟩ := key i x hc
      obtain ⟨pn2, hpn2, _, _, _, _, _, _, f7, _⟩ := key q pn hpn
      rw [hupd i hil]
      refine ⟨y, q, pn2, hy, by rw [e1, hq], hlt, hpn2, f7 i hmem, by rw [e2]; exact ht2,
        by rw [e3, hupd q (by omega)]; exact ha, by omega, by rw [e4]; exact hsv, ?_, ?_⟩
      · rw [e5, e6]
        intro hev
        have := hv hev
        omega
      · rw [e5, e6]
        intro hev
        obtain ⟨hm, hr⟩ := ho hev
        exact ⟨List.mem_cons_of_mem _ hm, hr⟩
  · intro q y hy
    have hql := lt_of_lookup hy
    rw [openedHeap_length] at hql
    by_cases c1 : q = h.length
    · subst c1
      rw [openedHeap_new _ _ _ _ _ _ hPl] at hy
      cases hy
      simp [newNode]
    · have hqlt : q < h.length := by omega
      by_cases c2 : q = stack.headD 0
      · subst c2
        rw [openedHeap_parent _ _ _ _ _ _ hPl] at hy
        cases hy
        simp only
        refine ⟨?_, ?_⟩
        · rw [List.nodup_append]
          refine ⟨hk.1, List.nodup_singleton _, ?_⟩
          intro a ha hb2
          rw [List.mem_singleton] at hb2
          subst hb2
          exact hnotin ha
        · intro c hc
          rcases List.mem_append.1 hc with hc1 | hc1
          · obtain ⟨h1, h2, m, hm, hmp⟩ := hk.2 c hc1
            obtain ⟨m2, hm2, g1, _⟩ := key c m hm
            exact ⟨h1, by rw [openedHeap_length]; omega, m2, hm2, by rw [g1, hmp]⟩
          · rw [List.mem_singleton] at hc1
            subst hc1
            exact ⟨hPl, by rw [openedHeap_length]; omega, _, openedHeap_new _ _ _ _ _ _ hPl, rfl⟩
      · rw [openedHeap_old _ _ _ _ _ _ q hqlt c2] at hy
        obtain ⟨hnd, hkk⟩ := hn.kids q y hy
        refine ⟨hnd, ?_⟩
        intro c hc
        obtain ⟨h1, h2, m, hm, hmp⟩ := hkk c hc
        obtain ⟨m2, hm2, g1, _⟩ := key c m hm
        exact ⟨h1, by rw [openedHeap_length]; omega, m2, hm2, by rw [g1, hmp]⟩
  · refine ⟨⟨by omega, hPl, _, openedHeap_new _ _ _ _ _ _ hPl, rfl, rfl⟩, ?_⟩
    apply hn.spine.spine_congr
    intro x _ n hx
    obtain ⟨y, hy, e1, _, _, _, e5, _⟩ := key x n hx
    exact ⟨y, hy, e5, e1⟩

theorem FlagsClear.flags_opened {h : List (Option KateCodeFoldingNode)} (hf : FlagsClear h)
    (P : Nat) (nP : KateCodeFoldingNode) (hP : h[P]? = some (some nP)) (t : Int) (sl e : Nat) :
    FlagsClear (openedHeap h P nP t sl e) := by
  have hPl := lt_of_lookup hP
  intro i x hx
  have hil := lt_of_lookup hx
  rw [openedHeap_length] at hil
  by_cases c1 : i = h.length
  · subst c1
    rw [openedHeap_new _ _ _ _ _ _ hPl] at hx
    cases hx
    exact ⟨rfl, rfl⟩
  · by_cases c2 : i = P
    · subst c2
      rw [openedHeap_parent _ _ _ _ _ _ hPl] at hx
      cases hx
      exact hf i nP hP
    · rw [openedHeap_old _ _ _ _ _ _ i (by omega) c2] at hx
      exact hf i x hx

/-! ## Same-line pairs (`cancelLoop`) -/

theorem getD_append_out (a : List Int) (o : Int) (b : List Int) :
    (a ++ o :: b).getD a.length 0 = o := by
  rw [List.getD_eq_getElem?_getD, List.getElem?_append_right (Nat.le_refl _)]
  simp

theorem take_drop_cancel (a : List Int) (m o : Int) (b : List Int) :
    (a ++ m :: o :: b).take a.length ++ (a ++ m :: o :: b).drop (a.length + 2) = a ++ b := by
  rw [List.take_left, List.drop_append_eq_append_drop]
  have : a.length + 2 - a.length = 2 := by omega
  rw [this, List.drop_of_length_le (by omega)]
  simp

theorem reduceAux_drop (o m : Int) (out rest : List Int) (h : o > 0 ∧ o = -m) :
    reduceAux (o :: out) (m :: rest) = reduceAux out rest := by
  rw [reduceAux, if_pos h]

theorem reduceAux_keep (o m : Int) (out rest : List Int) (h : ¬ (o > 0 ∧ o = -m)) :
    reduceAux (o :: out) (m :: rest) = reduceAux (m :: o :: out) rest := by
  rw [reduceAux, if_neg h]

/-- One round of the first loop of `updateLine`, at index `i = |rest|` of the
array `rest.reverse ++ o :: out` with `rest = m :: rest2`. -/
theorem cancelLoop_step (f : Nat) (m o : Int) (rest2 out : List Int) :
    cancelLoop (f + 1) (rest2.length + 1) (rest2.reverse ++ m :: o :: out) =
      if o > 0 ∧ o = -m then
        cancelLoop f ((if out = [] then rest2.length else rest2.length + 1) - 1)
          (rest2.reverse ++ out)
      else cancelLoop f rest2.length (rest2.reverse ++ m :: o :: out) := by
  have e1 : (rest2.reverse ++ m :: o :: out).getD (rest2.length + 1) 0 = o := by
    have := getD_append_out (rest2.reverse ++ [m]) o out
    simpa using this
  have e2 : (rest2.reverse ++ m :: o :: out).getD (rest2.length + 1 - 1) 0 = m := by
    have := getD_append_out rest2.reverse m (o :: out)
    simpa using this
  have e3 : (rest2.reverse ++ m :: o :: out).take (rest2.length + 1 - 1) ++
      (rest2.reverse ++ m :: o :: out).drop (rest2.length + 1 + 1) = rest2.reverse ++ out := by
    have := take_drop_cancel rest2.reverse m o out
    simpa using this
  have e4 : (rest2.length + 1 = (rest2.reverse ++ m :: o :: out).length - 1) ↔ out = [] := by
    simp only [List.length_append, List.length_reverse, List.length_cons]
    constructor
    · intro h
      apply List.eq_nil_of_length_eq_zero
      omega
    · intro h
      subst h
      simp
  rw [cancelLoop, if_pos (Nat.succ_pos _), e1, e2, e3]
  by_cases hc : o > 0 ∧ o = -m
  · rw [if_pos hc, if_pos hc]
    by_cases ho : out = []
    · rw [if_pos (e4.2 ho), if_pos ho]
      simp
    · rw [if_neg (fun h => ho (e4.1 h)), if_neg ho]
  · rw [if_neg hc, if_neg hc]
    simp

/-- The first loop of `updateLine` on the array of a line (the markers last
first) leaves the markers that `reduce` leaves. -/
theorem cancelLoop_reduceAux :
    ∀ (n : Nat) (rest out : List Int) (fuel : Nat), rest.length = n → out ≠ [] →
      rest.length < fuel →
      cancelLoop fuel rest.length (rest.reverse ++ out) = .ok (reduceAux out rest).reverse := by
  intro n
  induction n using Nat.strong_induction_on with
  | _ n ih =>
    intro rest out fuel hlen hout hf
    cases fuel with
    | zero => omega
    | succ f =>
      cases out with
      | nil => exact absurd rfl hout
      | cons o out2 =>
        cases rest with
        | nil => simp [cancelLoop, reduceAux]
        | cons m rest2 =>
          simp only [List.length_cons] at hlen hf
          have hstep := cancelLoop_step f m o rest2 out2
          simp only [List.reverse_cons, List.length_cons, List.append_assoc,
            List.singleton_append]
          rw [hstep]
          by_cases hc : o > 0 ∧ o = -m
          · rw [if_pos hc, reduceAux_drop o m out2 rest2 hc]
            cases out2 with
            | nil =>
              simp only [if_true, List.append_nil]
              cases rest2 with
              | nil =>
                cases f with
                | zero => simp at hf
                | succ f2 => simp [cancelLoop, reduceAux]
              | cons m2 rest3 =>
                have := ih rest3.length (by simp at hlen; omega) rest3 [m2] f rfl (by simp)
                  (by simp at hf; omega)
                simp only [List.length_cons, Nat.add_sub_cancel, List.reverse_cons]
                rw [reduceAux]
                exact this
            | cons o2 out3 =>
              simp only [reduceCtorEq, if_false, Nat.add_sub_cancel]
              exact ih rest2.length (by omega) rest2 (o2 :: out3) f rfl (by simp) (by omega)
          · rw [if_neg hc, reduceAux_keep o m out2 rest2 hc]
            exact ih rest2.length (by omega) rest2 (m :: o :: out2) f rfl (by simp) (by omega)

theorem cancelLoop_reduce (g : List Int) :
    cancelLoop (g.reverse.length + 1) (g.reverse.length - 1) g.reverse = .ok (reduce g).reverse := by
  cases g with
  | nil => simp [cancelLoop, reduce, reduceAux]
  | cons m rest =>
    have := cancelLoop_reduceAux rest.length rest [m] (rest.length + 2) rfl (by simp) (by omega)
    simp only [List.reverse_cons, List.length_append, List.length_reverse, List.length_cons,
      List.length_nil, Nat.add_sub_cancel, reduce, reduceAux]
    exact this

/-- On a line whose markers nest properly over the open regions `st0`, what
`reduce` leaves is closings of the innermost `k` open regions followed by
openings, and the regions open behind the line are those openings stacked on the
remaining ones. -/
theorem reduceAux_shape (st0 : List Int) (hst : ∀ t ∈ st0, 0 < t) :
    ∀ (rest : List Int) (k : Nat) (ops st2 : List Int), k ≤ st0.length → (∀ o ∈ ops, 0 < o) →
      stackAfterMarkers (ops ++ st0.drop k) rest = some st2 →
      ∃ (k2 : Nat) (ops2 : List Int), k2 ≤ st0.length ∧ (∀ o ∈ ops2, 0 < o) ∧
        reduceAux (ops ++ ((st0.take k).map (fun t => -t)).reverse) rest =
          (st0.take k2).map (fun t => -t) ++ ops2.reverse ∧
        st2 = ops2 ++ st0.drop k2 := by
  intro rest
  induction rest with
  | nil =>
    intro k ops st2 hk hops hs
    simp only [stackAfterMarkers, Option.some.injEq] at hs
    refine ⟨k, ops, hk, hops, ?_, hs.symm⟩
    simp [reduceAux]
  | cons m rest ih =>
    intro k ops st2 hk hops hs
    unfold stackAfterMarkers at hs
    by_cases hm : 0 < m
    · rw [if_pos hm] at hs
      have hops2 : ∀ o ∈ m :: ops, 0 < o := by
        intro o ho
        rcases List.mem_cons.1 ho with e | e
        · rw [e]; exact hm
        · exact hops o e
      obtain ⟨k2, ops2, h1, h2, h3, h4⟩ := ih k (m :: ops) st2 hk hops2 hs
      refine ⟨k2, ops2, h1, h2, ?_, h4⟩
      rw [← h3]
      cases hout : ops ++ ((st0.take k).map (fun t => -t)).reverse with
      | nil =>
        rw [reduceAux]
        simp only [List.cons_append, hout]
      | cons o out =>
        rw [reduceAux_keep o m out rest (by omega)]
        simp only [List.cons_append, hout]
    · rw [if_neg hm] at hs
      cases ops with
      | cons o ops3 =>
        simp only [List.cons_append] at hs
        by_cases hc : m = -o ∧ m ≠ 0
        · rw [if_pos hc] at hs
          have ho := hops o (List.mem_cons_self _ _)
          obtain ⟨k2, ops2, h1, h2, h3, h4⟩ := ih k ops3 st2 hk
            (fun x hx => hops x (List.mem_cons_of_mem _ hx)) hs
          refine ⟨k2, ops2, h1, h2, ?_, h4⟩
          rw [← h3, List.cons_append, reduceAux_drop o m _ rest ⟨ho, by omega⟩]
        · rw [if_neg hc] at hs
          cases hs
      | nil =>
        simp only [List.nil_append] at hs ⊢
        cases hd : st0.drop k with
        | nil => rw [hd] at hs; cases hs
        | cons t st3 =>
          rw [hd] at hs
          simp only at hs
          by_cases hc : m = -t ∧ m ≠ 0
          · rw [if_pos hc] at hs
            have hklt : k < st0.length := by
              by_contra hcon
              rw [List.drop_of_length_le (by omega)] at hd
              cases hd
            have hget : st0[k]? = some t := by
              have := List.head?_drop st0 k
              rw [hd] at this
              simpa using this.symm
            have hd2 : st0.drop (k + 1) = st3 := by
              have := List.tail_drop st0 k
              rw [hd] at this
              simpa using this.symm
            have htake : (st0.take (k + 1)).map (fun t => -t) =
                (st0.take k).map (fun t => -t) ++ [m] := by
              rw [List.take_succ, hget]
              simp [hc.1]
            obtain ⟨k2, ops2, h1, h2, h3, h4⟩ := ih (k + 1) [] st2 (by omega)
              (fun x hx => absurd hx (List.not_mem_nil _)) (by simpa [hd2] using hs)
            refine ⟨k2, ops2, h1, h2, ?_, h4⟩
            rw [← h3]
            simp only [List.nil_append, htake, List.reverse_append, List.reverse_cons,
              List.reverse_nil, List.singleton_append]
            cases hout : ((st0.take k).map (fun t => -t)).reverse with
            | nil => rw [reduceAux]
            | cons o out =>
              have ho : o < 0 := by
                have hmem : o ∈ ((st0.take k).map (fun t => -t)).reverse := by
                  rw [hout]; exact List.mem_cons_self _ _
                rw [List.mem_reverse, List.mem_map] at hmem
                obtain ⟨t2, ht2, e⟩ := hmem
                have := hst t2 (List.mem_of_mem_take ht2)
                omega
              rw [reduceAux_keep o m out rest (by omega)]
          · rw [if_neg hc] at hs
            cases hs

theorem reduce_shape (st0 : List Int) (hst : ∀ t ∈ st0, 0 < t) (g st2 : List Int)
    (hs : stackAfterMarkers st0 g = some st2) :
    ∃ (k : Nat) (ops : List Int), k ≤ st0.length ∧ (∀ o ∈ ops, 0 < o) ∧
      reduce g = (st0.take k).map (fun t => -t) ++ ops ∧ st2 = ops.reverse ++ st0.drop k := by
  obtain ⟨k2, ops2, h1, h2, h3, h4⟩ := reduceAux_shape st0 hst g 0 [] st2 (Nat.zero_le _)
    (fun x hx => absurd hx (List.not_mem_nil _)) (by simpa using hs)
  refine ⟨k2, ops2.reverse, h1, by simpa using h2, ?_, by simpa using h4⟩
  simpa [reduce] using h3

/-! ## The invariant while one line is processed -/

theorem StackTypes.types_congr {h h2 : List (Option KateCodeFoldingNode)} :
    ∀ {stack : List Nat} {st : List Int}, StackTypes h stack st →
      (∀ x ∈ stack, ∀ n : KateCodeFoldingNode, h[x]? = some (some n) →
        ∃ m : KateCodeFoldingNode, h2[x]? = some (some m) ∧ m.type = n.type) →
      StackTypes h2 stack st := by
  intro stack
  induction stack with
  | nil =>
    intro st hs _
    cases st with
    | nil => trivial
    | cons t ts => exact hs.elim
  | cons p ps ih =>
    intro st hs hc
    cases st with
    | nil => exact hs.elim
    | cons t ts =>
      obtain ⟨⟨n, hn, ht⟩, hr⟩ := hs
      obtain ⟨m, hm, e⟩ := hc p (List.mem_cons_self _ _) n hn
      exact ⟨⟨m, hm, by rw [e, ht]⟩, ih hr (fun x hx => hc x (List.mem_cons_of_mem _ hx))⟩

theorem StackTypes.length_eq {h : List (Option KateCodeFoldingNode)} :
    ∀ {stack : List Nat} {st : List Int}, StackTypes h stack st → stack.length = st.length := by
  intro stack
  induction stack with
  | nil =>
    intro st hs
    cases st with
    | nil => rfl
    | cons t ts => exact hs.elim
  | cons p ps ih =>
    intro st hs
    cases st with
    | nil => exact hs.elim
    | cons t ts => simp [ih hs.2]

theorem LastKid.kid_congr {h h2 : List (Option KateCodeFoldingNode)} :
    ∀ {stack : List Nat}, LastKid h stack →
      (∀ x ∈ stack.tail ++ [0], ∀ n : KateCodeFoldingNode, h[x]? = some (some n) →
        ∃ m : KateCodeFoldingNode, h2[x]? = some (some m) ∧ m.childnodes = n.childnodes) →
      LastKid h2 stack := by
  intro stack
  induction stack with
  | nil => intro _ _; trivial
  | cons p ps ih =>
    intro hs hc
    obtain ⟨⟨pn, hpn, hl⟩, hr⟩ := hs
    obtain ⟨m, hm, e⟩ := hc (ps.headD 0) (by
      cases ps with
      | nil => simp
      | cons q r => simp) pn hpn
    refine ⟨⟨m, hm, by rw [e]; exact hl⟩, ih hr ?_⟩
    intro x hx n hn
    apply hc x _ n hn
    cases ps with
    | nil => simpa using hx
    | cons q r =>
      simp only [List.tail_cons] at hx ⊢
      rcases List.mem_append.1 hx with e2 | e2
      · exact List.mem_append_left _ (List.mem_cons_of_mem _ e2)
      · exact List.mem_append_right _ e2

theorem Nav.mono {h : List (Option KateCodeFoldingNode)} {A : Nat → Nat} {stack : List Nat}
    {L : Nat} (hn : Nav h A stack L) (line : Nat) (hl : L ≤ line) (hb : line ≤ 60000) :
    Nav h A stack line := by
  refine ⟨hn.root, hn.a0, hb, ?_, hn.kids, hn.spine⟩
  intro i h0 hi
  obtain ⟨x, q, pn, hc, hq, hlt, hpn, hmem, ht, ha, hA, hsv, hv, ho⟩ := hn.cell i h0 hi
  exact ⟨x, q, pn, hc, hq, hlt, hpn, hmem, ht, ha, by omega, hsv,
    fun he => by have := hv he; omega, ho⟩

/-- Closing the innermost open region keeps the invariant of the line. -/
theorem Work.work_close {h : List (Option KateCodeFoldingNode)} {md : List Nat} {A : Nat → Nat}
    {top : Nat} {rest : List Nat} {t : Int} {st : List Int} {line : Nat}
    (hw : Work h md A (top :: rest) (t :: st) line) {n : KateCodeFoldingNode}
    (hc : h[top]? = some (some n)) :
    Work (h.set top (some { n with deleteEnding := false, endLineValid := true,
                                   endLineRel := line - A top })) md A rest st line := by
  have hn := hw.nav
  have hlen := lt_of_lookup hc
  have hlt := hn.spine.lt_head
  have hn1 := hn.set_flags hc n.deleteOpening false
  have hn2 := hn1.close (lookup_set_self _ hlen) line (Nat.le_refl _) hn.bound
  rw [List.set_set] at hn2
  have hold : ∀ x, x ≠ top → ∀ m : KateCodeFoldingNode, h[x]? = some (some m) →
      (h.set top (some { n with deleteEnding := false, endLineValid := true,
                                endLineRel := line - A top }))[x]? = some (some m) := by
    intro x hx m hm
    rw [lookup_set_ne _ hx]
    exact hm
  refine ⟨hn2, ?_, ?_, ?_⟩
  · apply hw.types.2.types_congr
    intro x hx m hm
    exact ⟨m, hold x (by have := hlt x hx; omega) m hm, rfl⟩
  · apply hw.last.2.kid_congr
    intro x hx m hm
    refine ⟨m, hold x ?_ m hm, rfl⟩
    rcases List.mem_append.1 hx with e | e
    · have h1 := hlt x (List.mem_of_mem_tail e)
      omega
    · simp only [List.mem_singleton] at e
      have := hn.spine.1.1
      omega
  · intro i m hm
    by_cases e : i = top
    · subst e
      rw [lookup_set_self _ hlen] at hm
      cases hm
      exact ⟨(hw.flags i n hc).1, fun hh => by cases hh⟩
    · rw [lookup_set_ne _ e] at hm
      exact hw.flags i m hm

/-- Filing a new open region under the innermost open region keeps the
invariant of the line. -/
theorem Work.opened {h : List (Option KateCodeFoldingNode)} {md : List Nat} {A : Nat → Nat}
    {stack : List Nat} {st : List Int} {line : Nat} (hw : Work h md A stack st line)
    {nP : KateCodeFoldingNode} (hP : h[stack.headD 0]? = some (some nP)) (t : Int) (ht : 0 < t) :
    Work (openedHeap h (stack.headD 0) nP t (line - A (stack.headD 0)) (60000 - line)) md
      (Function.update A h.length line) (h.length :: stack) (t :: st) line := by
  have hn := hw.nav
  have hPl := lt_of_lookup hP
  have hold : ∀ x, x < h.length → x ≠ stack.headD 0 → ∀ m : KateCodeFoldingNode,
      h[x]? = some (some m) →
      (openedHeap h (stack.headD 0) nP t (line - A (stack.headD 0)) (60000 - line))[x]? =
        some (some m) := by
    intro x hx hne m hm
    rw [openedHeap_old _ _ _ _ _ _ x hx hne]
    exact hm
  have hpar := openedHeap_parent h (stack.headD 0) nP t (line - A (stack.headD 0))
    (60000 - line) hPl
  have hnew := openedHeap_new h (stack.headD 0) nP t (line - A (stack.headD 0))
    (60000 - line) hPl
  refine ⟨hn.nav_opened hP t ht line (Nat.le_refl _) hn.bound, ?_, ?_, ?_⟩
  · refine ⟨⟨_, hnew, rfl⟩, ?_⟩
    apply hw.types.types_congr
    intro x hx m hm
    by_cases c : x = stack.headD 0
    · subst c
      rw [hP] at hm
      cases hm
      exact ⟨_, hpar, rfl⟩
    · exact ⟨m, hold x (lt_of_lookup hm) c m hm, rfl⟩
  · refine ⟨⟨_, hpar, by simp⟩, ?_⟩
    cases stack with
    | nil => trivial
    | cons p ps =>
      apply hw.last.kid_congr
      intro x hx m hm
      refine ⟨m, hold x (lt_of_lookup hm) ?_ m hm, rfl⟩
      have hlt := hn.spine.lt_head
      have hp0 := hn.spine.1.1
      simp only [List.tail_cons, List.headD_cons] at hx ⊢
      rcases List.mem_append.1 hx with e | e
      · have := hlt x e
        omega
      · simp only [List.mem_singleton] at e
        omega
  · intro i m hm
    have hil := lt_of_lookup hm
    rw [openedHeap_length] at hil
    by_cases c1 : i = h.length
    · subst c1
      rw [hnew] at hm
      cases hm
      exact ⟨rfl, fun hh => by cases hh⟩
    · by_cases c2 : i = stack.headD 0
      · subst c2
        rw [hpar] at hm
        cases hm
        exact hw.flags _ nP hP
      · rw [openedHeap_old _ _ _ _ _ _ i (by omega) c2] at hm
        exact hw.flags i m hm

theorem Nav.nav_live {h : List (Option KateCodeFoldingNode)} {A : Nat → Nat} {stack : List Nat}
    {L : Nat} (hn : Nav h A stack L) {i : Nat} (hi : i < h.length) :
    ∃ n : KateCodeFoldingNode, h[i]? = some (some n) := by
  by_cases h0 : i = 0
  · subst h0
    obtain ⟨r, hr, _⟩ := hn.root
    exact ⟨r, hr⟩
  · obtain ⟨n, _, _, hc, _⟩ := hn.cell i (by omega) hi
    exact ⟨n, hc⟩

/-- One opening marker in `addOpening_further_iterations` on a node without
children: a child is appended and `addOpening` is called on it. -/
theorem further_step (f : Nat) (s : KateCodeFoldingTree) (top : Nat) (t0 o : Int)
    (rest : List Int) (line : Nat) (n : KateCodeFoldingNode) (ho : 0 < o)
    (hc : s.heap[top]? = some (some n)) (hk : n.childnodes = []) :
    addOpening_further_iterations (f + 1) s top t0 (rest ++ [o]) line 0 line =
      (addOpening f { s with something_changed := true,
                             heap := openedHeap s.heap top n o 0 20000 }
          s.heap.length o rest line >>= fun r =>
        addOpening_further_iterations f r.1 top t0 r.2 line 1 line) := by
  have hlen := lt_of_lookup hc
  have hd : ¬ o < 0 := by omega
  have hu : usub line line = 0 := by unfold usub; omega
  have hne : (rest ++ [o]).isEmpty = false := by cases rest <;> rfl
  conv_lhs => unfold addOpening_further_iterations
  simp only [hne, Bool.false_eq_true,
    if_false, List.getLastD_concat, List.dropLast_concat, hd, node_of_heap hc, Res.ok_bind, hk,
    List.length_nil, Nat.cast_zero, lt_self_iff_false, Res.pure_eq, if_true, hu,
    KateCodeFoldingTree.alloc]
  have hc2 : ({ s with something_changed := true,
                       heap := s.heap ++ [some (newNode top o 0)] } :
      KateCodeFoldingTree).heap[top]? = some (some n) := by
    show (s.heap ++ _)[top]? = _
    rw [List.getElem?_append_left hlen]
    exact hc
  rw [modify_heap _ top _ n hc2]
  have hheap : (s.heap ++ [some (newNode top o 0)]).set top
      (some { n with childnodes := qinsert n.childnodes 0 s.heap.length }) =
      openedHeap s.heap top n o 0 20000 := by
    simp only [openedHeap, hk, qinsert]
    simp [newNode]
  simp only [hheap]
  have hpar := openedHeap_parent s.heap top n o 0 20000 hlen
  simp only [KateCodeFoldingTree.node, hpar, Res.ok_bind, hk, List.nil_append, qat, le_refl,
    if_true, Int.toNat_zero, List.getElem?_cons_zero, zero_add]

/-- The opening markers left on a line behind an opening: each files a region
inside the one before, all starting on the line. -/
theorem openers_chain (line : Nat) (hb : line ≤ 60000) :
    ∀ (ops : List Int), (∀ o ∈ ops, 0 < o) →
      ∀ (s : KateCodeFoldingTree) (A : Nat → Nat) (top : Nat) (rest : List Nat) (st : List Int)
        (t0 : Int) (n : KateCodeFoldingNode) (fuel : Nat),
        Work s.heap s.markedForDeleting A (top :: rest) st line →
        s.heap[top]? = some (some n) → n.childnodes = [] → A top = line →
        2 * ops.length + 1 ≤ fuel →
        ∃ (s2 : KateCodeFoldingTree) (A2 : Nat → Nat) (stack2 : List Nat),
          addOpening_further_iterations fuel s top t0 ops.reverse line 0 line = .ok (s2, []) ∧
          Work s2.heap s2.markedForDeleting A2 stack2 (ops.reverse ++ st) line ∧
          s2.heap.length = s.heap.length + ops.length ∧
          s2.markedForDeleting = s.markedForDeleting := by
  intro ops
  induction ops with
  | nil =>
    intro _ s A top rest st t0 n fuel hw _ _ _ hf
    obtain ⟨f, rfl⟩ : ∃ f, fuel = f + 1 := ⟨fuel - 1, by omega⟩
    exact ⟨s, A, top :: rest, further_nil _ _ _ _ _ _ _, hw, rfl, rfl⟩
  | cons o ops ih =>
    intro hops s A top rest st t0 n fuel hw hc hk hA hf
    simp only [List.length_cons] at hf
    obtain ⟨f, rfl⟩ : ∃ f, fuel = f + 3 := ⟨fuel - 3, by omega⟩
    have ho := hops o (List.mem_cons_self _ _)
    have hlen := lt_of_lookup hc
    have hP : s.heap[(top :: rest).headD 0]? = some (some n) := hc
    have hsl : line - A ((top :: rest).headD 0) = 0 := by
      simp only [List.headD_cons, hA, Nat.sub_self]
    have hfix := addOpening_fix
      { s with something_changed := true, heap := openedHeap s.heap top n o 0 20000 }
      s.heap A (top :: rest) line hw.nav n hP o ho line (Nat.le_refl _) hb
      (by rw [hsl]; rfl) ops.reverse f
    rw [hsl] at hfix
    have hw2 := hw.opened hP o ho
    rw [hsl] at hw2
    simp only [List.headD_cons] at hfix hw2
    obtain ⟨s2, A2, stack2, h1, h2, h3, h4⟩ := ih
      (fun x hx => hops x (List.mem_cons_of_mem _ hx))
      { s with something_changed := true,
               heap := openedHeap s.heap top n o 0 (60000 - line) }
      (Function.update A s.heap.length line) s.heap.length (top :: rest) (o :: st) o
      { newNode top o 0 with endLineRel := 60000 - line } (f + 1) hw2
      (openedHeap_new _ _ _ _ _ _ hlen) rfl (Function.update_same _ _ _) (by omega)
    refine ⟨s2, A2, stack2, ?_, ?_, ?_, h4⟩
    · rw [List.reverse_cons, further_step (f + 2) s top t0 o ops.reverse line n ho hc hk, hfix,
        h1]
      simp only [Res.ok_bind]
      exact further_nil (f + 1) s2 top t0 line 1 line
    · rw [List.reverse_cons, List.append_assoc]
      exact h2
    · rw [h3, openedHeap_length]
      simp only [List.length_cons]
      omega

/-- An opening marker in `updateLine`, with the opening markers that follow it on
the line: the regions are filed one inside the other under the innermost open
region. -/
theorem updateLoop_openers (line : Nat) (hb : line ≤ 60000) (s : KateCodeFoldingTree)
    (A : Nat → Nat) (stack : List Nat) (st : List Int)
    (hw : Work s.heap s.markedForDeleting A stack st line) (o : Int) (ops : List Int)
    (ho : 0 < o) (hops : ∀ x ∈ ops, 0 < x) (nP : KateCodeFoldingNode)
    (hP : s.heap[stack.headD 0]? = some (some nP)) (ip : Int)
    (hip : ip = -1 ∨ ip ≥ (nP.childnodes.length : Int)) (fuel : Nat) :
    ∃ (s2 : KateCodeFoldingTree) (A2 : Nat → Nat) (stack2 : List Nat),
      updateLoop line (fuel + 1) s ops.reverse o (stack.headD 0) ip = .ok (s2, []) ∧
      Work s2.heap s2.markedForDeleting A2 stack2 ((o :: ops).reverse ++ st) line ∧
      s2.heap.length = s.heap.length + (o :: ops).length ∧
      s2.markedForDeleting = s.markedForDeleting := by
  have hn := hw.nav
  obtain ⟨nP2, hP2, hPl, hPe, hPA, hPo, hPp⟩ := hn.parent_cell
  rw [hP] at hP2
  cases hP2
  have hgs := getStartLine_chain s A hn.chain _ hPl
  have hd : ¬ o < 0 := by omega
  have hu : usub line (A (stack.headD 0)) = line - A (stack.headD 0) := by unfold usub; omega
  have hfix := addOpening_fix
    { s with something_changed := true,
             heap := openedHeap s.heap (stack.headD 0) nP o (line - A (stack.headD 0)) 20000 }
    s.heap A stack line hn nP hP o ho line (Nat.le_refl _) hb rfl ops.reverse
    (2 * ops.reverse.length + 1)
  have hw2 := hw.opened hP o ho
  obtain ⟨s2, A2, stack2, h1, h2, h3, h4⟩ := openers_chain line hb ops hops
    { s with something_changed := true,
             heap := openedHeap s.heap (stack.headD 0) nP o (line - A (stack.headD 0))
                       (60000 - line) }
    (Function.update A s.heap.length line) s.heap.length stack (o :: st) o
    { newNode (stack.headD 0) o (line - A (stack.headD 0)) with endLineRel := 60000 - line }
    (2 * ops.reverse.length + 1 + 1) hw2
    (openedHeap_new _ _ _ _ _ _ hPl) rfl (Function.update_same _ _ _)
    (by rw [List.length_reverse]; omega)
  have hPl2 : stack.headD 0 < s2.heap.length := by
    rw [h3, openedHeap_length]
    omega
  obtain ⟨n3, hn3⟩ := h2.nav.nav_live hPl2
  have hP1 : ({ s with something_changed := true,
                       heap := s.heap ++ [some (newNode (stack.headD 0) o
                         (line - A (stack.headD 0)))] } :
      KateCodeFoldingTree).heap[stack.headD 0]? = some (some nP) := by
    show (s.heap ++ _)[stack.headD 0]? = _
    rw [List.getElem?_append_left hPl]
    exact hP
  refine ⟨s2, A2, stack2, ?_, ?_, ?_, h4⟩
  · unfold updateLoop
    simp only [hd, if_false, hgs, Res.ok_bind, node_of_heap hP, hip, if_true,
      KateCodeFoldingTree.alloc, hu]
    rw [modify_heap _ _ _ nP hP1]
    have hheap : (s.heap ++ [some (newNode (stack.headD 0) o (line - A (stack.headD 0)))]).set
        (stack.headD 0) (some { nP with childnodes := nP.childnodes ++ [s.heap.length] }) =
        openedHeap s.heap (stack.headD 0) nP o (line - A (stack.headD 0)) 20000 := rfl
    simp only [hheap]
    rw [hfix, h1]
    simp only [Res.ok_bind, node_of_heap hn3, Res.pure_eq, List.isEmpty_nil, if_true]
  · rw [List.reverse_cons, List.append_assoc]
    exact h2
  · rw [h3, openedHeap_length]
    simp only [List.length_cons]
    omega

theorem closeTop_heap (s : KateCodeFoldingTree) (top e : Nat) (n : KateCodeFoldingNode)
    (hc : s.heap[top]? = some (some n)) :
    (closeTop s top e).heap = s.heap.set top
      (some { n with deleteEnding := false, endLineValid := true, endLineRel := e }) := by
  unfold closeTop
  rw [modify_heap s top _ n hc]

theorem closeTop_marked (s : KateCodeFoldingTree) (top e : Nat) :
    (closeTop s top e).markedForDeleting = s.markedForDeleting := by
  unfold closeTop KateCodeFoldingTree.modify
  split <;> rfl

theorem isEmpty_concat (l : List Int) (x : Int) : (l ++ [x]).isEmpty = false := by
  cases l <;> rfl

theorem qfind_last (l : List Nat) (x : Nat) (hl : l.getLast? = some x) (hnd : l.Nodup) :
    qfind l x + 1 = (l.length : Int) := by
  obtain ⟨l2, rfl⟩ : ∃ l2, l = l2 ++ [x] := List.getLast?_eq_some_iff.1 hl
  have hx : x ∉ l2 := by
    intro hm
    rw [List.nodup_append] at hnd
    exact hnd.2.2 hm (List.mem_singleton_self _)
  rw [qfind_append_new l2 x hx]
  simp

/-- One closing marker in the loop of `updateLine`: the innermost open region is
closed, and the loop goes on at its parent behind its last child. -/
theorem updateLoop_close_step (line : Nat) (hb : line ≤ 60000) (cur : KateCodeFoldingTree)
    (A : Nat → Nat) (top : Nat) (rest : List Nat) (t : Int) (st : List Int)
    (hw : Work cur.heap cur.markedForDeleting A (top :: rest) (t :: st) line)
    (n : KateCodeFoldingNode) (hc : cur.heap[top]? = some (some n)) (rc : List Int) (ip : Int)
    (fuel : Nat) :
    ∃ pn : KateCodeFoldingNode, cur.heap[rest.headD 0]? = some (some pn) ∧
      updateLoop line (fuel + 1) cur rc (-n.type) top ip =
        (if rc.isEmpty then .ok (closeTop cur top (line - A top), rc)
        else if rc.getLastD 0 ≠ 0 then
          updateLoop line fuel (closeTop cur top (line - A top))
            rc.dropLast (rc.getLastD 0) (rest.headD 0) (pn.childnodes.length : Int)
        else .ok (closeTop cur top (line - A top), rc.dropLast)) := by
  have hn := hw.nav
  obtain ⟨n2, pn0, hc2, he, hpar, hlt, h0, hlen, ht, ha, hA, hend, hpn0, hmem⟩ := hn.top_cell
  rw [hc] at hc2
  cases hc2
  obtain ⟨⟨pn, hpn, hlast⟩, _⟩ := hw.last
  rw [hpn0] at hpn
  cases hpn
  have hnd := (hn.kids _ pn0 hpn0).1
  have hq := qfind_last pn0.childnodes top hlast hnd
  have hce := correctEndings_close cur A top rest line hn line (Nat.le_refl _) hb n hc
    cur.heap.length ip
  have hneg : -n.type < 0 := by omega
  have hpt : rest.headD 0 ≠ top := by omega
  refine ⟨pn0, hpn0, ?_⟩
  conv_lhs => unfold updateLoop
  unfold closeTop
  simp only [hneg, if_true, hce, Res.ok_bind, KateCodeFoldingTree.parentOf]
  rw [modify_heap cur top _ n hc]
  simp only [KateCodeFoldingTree.node, lookup_set_self _ hlen, hpar, lookup_set_ne _ hpt, hpn0,
    Res.ok_bind, Res.pure_eq, hq]

theorem StackTypes.pos_of {h : List (Option KateCodeFoldingNode)} :
    ∀ {stack : List Nat} {st : List Int}, StackTypes h stack st →
      (∀ p ∈ stack, ∀ n : KateCodeFoldingNode, h[p]? = some (some n) → 0 < n.type) →
      ∀ t ∈ st, 0 < t := by
  intro stack
  induction stack with
  | nil =>
    intro st hty _
    cases st with
    | nil => intro t ht; cases ht
    | cons t ts => exact hty.elim
  | cons p ps ih =>
    intro st hty hpos
    cases st with
    | nil => exact hty.elim
    | cons t ts =>
      obtain ⟨⟨n, hp, htn⟩, hr⟩ := hty
      intro x hx
      rcases List.mem_cons.1 hx with e | e
      · subst e
        rw [← htn]
        exact hpos p (List.mem_cons_self _ _) n hp
      · exact ih hr (fun q hq => hpos q (List.mem_cons_of_mem _ hq)) x e

theorem Work.types_pos {h : List (Option KateCodeFoldingNode)} {md : List Nat} {A : Nat → Nat}
    {line : Nat} {stack : List Nat} {st : List Int} (hw : Work h md A stack st line) :
    ∀ t ∈ st, 0 < t := by
  apply hw.types.pos_of
  intro p hp n hpn
  have hp0 := (hw.nav.spine.mem hp).1
  obtain ⟨n2, _, _, hc, _, _, _, _, hpos, _⟩ := hw.nav.cell p hp0 (lt_of_lookup hpn)
  rw [hpn] at hc
  cases hc
  exact hpos

/-- The closing markers of a line, then its opening markers. -/
theorem updateLoop_closers (line : Nat) (hb : line ≤ 60000) :
    ∀ (k : Nat) (cur : KateCodeFoldingTree) (A : Nat → Nat) (top : Nat) (rest : List Nat)
      (t : Int) (st : List Int) (ops : List Int) (n : KateCodeFoldingNode) (ip : Int)
      (fuel : Nat),
      Work cur.heap cur.markedForDeleting A (top :: rest) (t :: st) line →
      cur.heap[top]? = some (some n) → k ≤ st.length → (∀ o ∈ ops, 0 < o) →
      k + ops.length + 1 ≤ fuel →
      ∃ (s2 : KateCodeFoldingTree) (A2 : Nat → Nat) (stack2 : List Nat),
        updateLoop line fuel cur (((st.take k).map (fun t => -t)) ++ ops).reverse (-t) top ip
          = .ok (s2, []) ∧
        Work s2.heap s2.markedForDeleting A2 stack2 (ops.reverse ++ st.drop k) line ∧
        s2.heap.length = cur.heap.length + ops.length ∧
        s2.markedForDeleting = cur.markedForDeleting := by
  intro k
  induction k with
  | zero =>
    intro cur A top rest t st ops n ip fuel hw hc hk hops hf
    obtain ⟨f, rfl⟩ : ∃ f, fuel = f + 1 := ⟨fuel - 1, by omega⟩
    obtain ⟨⟨n2, hc2, htn⟩, _⟩ := hw.types
    rw [hc] at hc2
    cases hc2
    obtain ⟨pn, hpn, hstep⟩ := updateLoop_close_step line hb cur A top rest t st hw n hc
      ops.reverse ip f
    have hlt := hw.nav.spine.lt_head
    have hw2 := hw.work_close hc
    have hheap := closeTop_heap cur top (line - A top) n hc
    have hmd := closeTop_marked cur top (line - A top)
    rw [← hheap, ← hmd] at hw2
    simp only [List.take_zero, List.map_nil, List.nil_append, List.drop_zero]
    rw [← htn, hstep]
    cases ops with
    | nil =>
      simp only [List.reverse_nil, List.isEmpty_nil, if_true, List.nil_append]
      exact ⟨_, A, rest, rfl, hw2, by rw [hheap, List.length_set]; rfl, hmd⟩
    | cons o ops2 =>
      have ho := hops o (List.mem_cons_self _ _)
      have hne : ((o :: ops2).reverse).isEmpty = false := by
        rw [List.reverse_cons]
        cases ops2.reverse <;> rfl
      simp only [List.length_cons] at hf
      obtain ⟨f2, rfl⟩ : ∃ f2, f = f2 + 1 := ⟨f - 1, by omega⟩
      have hpn2 : (closeTop cur top (line - A top)).heap[rest.headD 0]? =
          some (some pn) := by
        rw [hheap, lookup_set_ne _ (by
          have := hw.nav.spine.1.2.1
          omega)]
        exact hpn
      obtain ⟨s2, A2, stack2, h1, h2, h3, h4⟩ := updateLoop_openers line hb _ A rest st hw2 o ops2
        ho (fun x hx => hops x (List.mem_cons_of_mem _ hx)) pn hpn2 (pn.childnodes.length : Int)
        (Or.inr (le_refl _)) f2
      refine ⟨s2, A2, stack2, ?_, h2, ?_, by rw [h4, hmd]⟩
      · have hne0 : o ≠ 0 := by omega
        simp only [hne, Bool.false_eq_true, if_false, List.reverse_cons, List.getLastD_concat,
          List.dropLast_concat, ne_eq, hne0, not_false_eq_true, if_true, isEmpty_concat]
        exact h1
      · rw [h3, hheap, List.length_set]
  | succ k ih =>
    intro cur A top rest t st ops n ip fuel hw hc hk hops hf
    obtain ⟨f, rfl⟩ : ∃ f, fuel = f + 1 := ⟨fuel - 1, by omega⟩
    obtain ⟨⟨n2, hc2, htn⟩, hrest⟩ := hw.types
    rw [hc] at hc2
    cases hc2
    cases st with
    | nil => simp at hk
    | cons t2 st2 =>
      cases rest with
      | nil => exact hrest.elim
      | cons top2 rest2 =>
        obtain ⟨pn, hpn, hstep⟩ := updateLoop_close_step line hb cur A top (top2 :: rest2) t
          (t2 :: st2) hw n hc
          (((List.take (k + 1) (t2 :: st2)).map (fun t => -t)) ++ ops).reverse ip f
        have hw2 := hw.work_close hc
        have hheap := closeTop_heap cur top (line - A top) n hc
        have hmd := closeTop_marked cur top (line - A top)
        rw [← hheap, ← hmd] at hw2
        have ht2 := hw2.types_pos t2 (List.mem_cons_self _ _)
        simp only [List.headD_cons] at hpn hstep
        have hpn2 : (closeTop cur top (line - A top)).heap[top2]? =
            some (some pn) := by
          rw [hheap, lookup_set_ne _ (by
            have := hw.nav.spine.1.2.1
            simp only [List.headD_cons] at this
            omega)]
          exact hpn
        obtain ⟨⟨n3, hc3, htn3⟩, _⟩ := hw2.types
        rw [hpn2] at hc3
        cases hc3
        simp only [List.length_cons] at hk hf
        obtain ⟨s2, A2, stack2, h1, h2, h3, h4⟩ := ih _ A top2 rest2 t2 st2 ops pn
          (pn.childnodes.length : Int) f hw2 hpn2 (by omega) hops (by omega)
        refine ⟨s2, A2, stack2, ?_, ?_, ?_, by rw [h4, hmd]⟩
        · rw [← htn, hstep]
          have hne : (((List.take (k + 1) (t2 :: st2)).map (fun t => -t)) ++ ops).reverse.isEmpty
              = false := by
            simp only [List.take_succ_cons, List.map_cons, List.cons_append, List.reverse_cons]
            cases (List.map (fun t => -t) (List.take k st2) ++ ops).reverse <;> rfl
          have hne0 : -t2 ≠ 0 := by omega
          simp only [hne, Bool.false_eq_true, if_false, List.take_succ_cons, List.map_cons,
            List.cons_append, List.reverse_cons, List.getLastD_concat, List.dropLast_concat,
            ne_eq, hne0, not_false_eq_true, if_true, isEmpty_concat]
          exact h1
        · simpa using h2
        · rw [h3, hheap, List.length_set]

theorem markedState_marked (s : KateCodeFoldingTree) (stack : List Nat) (line : Nat) :
    (markedState s stack line).markedForDeleting = stack.take 1 := by
  cases stack with
  | nil => rfl
  | cons top rest => rfl

/-- The state after the marking pass of a line satisfies the invariant of the line. -/
theorem Work.marked {s : KateCodeFoldingTree} {A : Nat → Nat} {stack : List Nat} {L : Nat}
    {st : List Int} (hn : Nav s.heap A stack L) (hf : FlagsClear s.heap)
    (hty : StackTypes s.heap stack st) (hlk : LastKid s.heap stack) (line : Nat)
    (hl : L ≤ line) (hb : line ≤ 60000) :
    Work (markedState s stack line).heap (markedState s stack line).markedForDeleting A stack st
      line := by
  cases stack with
  | nil =>
    exact ⟨hn.mono line hl hb, hty, hlk, fun i n hi => ⟨(hf i n hi).1, fun h => by
      rw [(hf i n hi).2] at h; cases h⟩⟩
  | cons top rest =>
    obtain ⟨n, pn, hc, he, hpar, hlt, h0, hlen, _⟩ := hn.top_cell
    have hheap : (markedState s (top :: rest) line).heap =
        s.heap.set top (some { n with deleteEnding := decide (line = 60000) }) := by
      simp only [markedState]
      rw [modify_heap _ top _ n hc]
    have hmd : (markedState s (top :: rest) line).markedForDeleting = [top] := rfl
    rw [hheap, hmd]
    have hkey : ∀ (x : Nat) (m : KateCodeFoldingNode), s.heap[x]? = some (some m) →
        ∃ m2 : KateCodeFoldingNode,
          (s.heap.set top (some { n with deleteEnding := decide (line = 60000) }))[x]? =
            some (some m2) ∧ m2.type = m.type ∧ m2.childnodes = m.childnodes := by
      intro x m hm
      by_cases e : x = top
      · subst e
        rw [hc] at hm
        cases hm
        exact ⟨_, lookup_set_self _ hlen, rfl, rfl⟩
      · exact ⟨m, by rw [lookup_set_ne _ e]; exact hm, rfl, rfl⟩
    refine ⟨(hn.set_flags hc n.deleteOpening (decide (line = 60000))).mono line hl hb, ?_, ?_, ?_⟩
    · apply hty.types_congr
      intro x _ m hm
      obtain ⟨m2, h1, h2, _⟩ := hkey x m hm
      exact ⟨m2, h1, h2⟩
    · apply hlk.kid_congr
      intro x _ m hm
      obtain ⟨m2, h1, _, h3⟩ := hkey x m hm
      exact ⟨m2, h1, h3⟩
    · intro i m hm
      by_cases e : i = top
      · subst e
        rw [lookup_set_self _ hlen] at hm
        cases hm
        exact ⟨(hf i n hc).1, fun _ => ⟨he, List.mem_singleton_self _⟩⟩
      · rw [lookup_set_ne _ e] at hm
        exact ⟨(hf i m hm).1, fun h => by rw [(hf i m hm).2] at h; cases h⟩

/-- The cleanup pass at the end of `updateLine` on a state that satisfies the
invariant of the line only resets flags. -/
theorem cleanup_work (s : KateCodeFoldingTree) (A : Nat → Nat) (stack : List Nat)
    (st : List Int) (line : Nat) (hw : Work s.heap s.markedForDeleting A stack st line)
    (hmd : s.markedForDeleting = [] ∨
      ∃ top, s.markedForDeleting = [top] ∧ top < s.heap.length) :
    ∃ s2, cleanupUnneededNodes s line = .ok s2 ∧ Nav s2.heap A stack line ∧
      FlagsClear s2.heap ∧ StackTypes s2.heap stack st ∧ LastKid s2.heap stack ∧
      s2.heap.length = s.heap.length := by
  unfold cleanupUnneededNodes
  rcases hmd with e | ⟨top, e, hlen⟩
  · rw [e]
    refine ⟨s, rfl, hw.nav, ?_, hw.types, hw.last, rfl⟩
    intro i n hi
    refine ⟨(hw.flags i n hi).1, ?_⟩
    cases hde : n.deleteEnding with
    | false => rfl
    | true =>
      have := ((hw.flags i n hi).2 hde).2
      rw [e] at this
      cases this
  · rw [e]
    obtain ⟨nd, hc⟩ := hw.nav.nav_live hlen
    have hfl := hw.flags top nd hc
    cases hev : nd.endLineValid with
    | true =>
      have hde : nd.deleteEnding = false := by
        cases hd : nd.deleteEnding with
        | false => rfl
        | true =>
          have := (hfl.2 hd).1
          rw [hev] at this
          cases this
      refine ⟨s, ?_, hw.nav, ?_, hw.types, hw.last, rfl⟩
      · simp only [cleanupLoop, cleanupNode_clear s top nd line hc hfl.1 hde, Res.ok_bind]
      · intro i n hi
        refine ⟨(hw.flags i n hi).1, ?_⟩
        cases hd : n.deleteEnding with
        | false => rfl
        | true =>
          have h1 := (hw.flags i n hi).2 hd
          rw [e] at h1
          have h2 : i = top := by simpa using h1.2
          subst h2
          rw [hc] at hi
          cases hi
          rw [hde] at hd
          cases hd
    | false =>
      have hheap : (s.modify top (fun m =>
          { m with deleteOpening := false, deleteEnding := false })).heap =
          s.heap.set top (some { nd with deleteOpening := false, deleteEnding := false }) := by
        rw [modify_heap s top _ nd hc]
      have hkey : ∀ (x : Nat) (m : KateCodeFoldingNode), s.heap[x]? = some (some m) →
          ∃ m2 : KateCodeFoldingNode,
            (s.heap.set top (some { nd with deleteOpening := false, deleteEnding := false }))[x]?
              = some (some m2) ∧ m2.type = m.type ∧ m2.childnodes = m.childnodes := by
        intro x m hm
        by_cases e2 : x = top
        · subst e2
          rw [hc] at hm
          cases hm
          exact ⟨_, lookup_set_self _ hlen, rfl, rfl⟩
        · exact ⟨m, by rw [lookup_set_ne _ e2]; exact hm, rfl, rfl⟩
      refine ⟨s.modify top (fun m => { m with deleteOpening := false, deleteEnding := false }),
        ?_, ?_, ?_, ?_, ?_, ?_⟩
      · simp only [cleanupLoop, cleanupNode_open s top nd line hc hfl.1 hev, Res.ok_bind]
      · rw [hheap]
        exact hw.nav.set_flags hc false false
      · rw [hheap]
        intro i n hi
        by_cases e2 : i = top
        · subst e2
          rw [lookup_set_self _ hlen] at hi
          cases hi
          exact ⟨rfl, rfl⟩
        · rw [lookup_set_ne _ e2] at hi
          refine ⟨(hw.flags i n hi).1, ?_⟩
          cases hd : n.deleteEnding with
          | false => rfl
          | true =>
            have h1 := (hw.flags i n hi).2 hd
            rw [e] at h1
            exact absurd (by simpa using h1.2) e2
      · rw [hheap]
        apply hw.types.types_congr
        intro x _ m hm
        obtain ⟨m2, h1, h2, _⟩ := hkey x m hm
        exact ⟨m2, h1, h2⟩
      · rw [hheap]
        apply hw.last.kid_congr
        intro x _ m hm
        obtain ⟨m2, h1, _, h3⟩ := hkey x m hm
        exact ⟨m2, h1, h3⟩
      · rw [hheap, List.length_set]

theorem filter_closers_openers (cls ops : List Int) (hc : ∀ x ∈ cls, x < 0)
    (ho : ∀ x ∈ ops, 0 < x) :
    ((cls ++ ops).filter (fun m => decide (0 < m))).length = ops.length := by
  rw [List.filter_append]
  have h1 : cls.filter (fun m => decide (0 < m)) = [] := by
    rw [List.filter_eq_nil_iff]
    intro x hx
    have := hc x hx
    simp only [decide_eq_true_eq]
    omega
  have h2 : ops.filter (fun m => decide (0 < m)) = ops := by
    rw [List.filter_eq_self]
    intro x hx
    simpa using ho x hx
  rw [h1, h2]
  rfl

/-- The second part of `updateLine` on the markers that are left of a valid line:
closings of the innermost open regions, then openings. -/
theorem updateLoop_reduced (line : Nat) (hb : line ≤ 60000) (M : KateCodeFoldingTree)
    (A : Nat → Nat) (stack : List Nat) (st : List Int)
    (hw : Work M.heap M.markedForDeleting A stack st line)
    (hloc : ∀ data : Int, data ≠ 0 → (data < 0 → stack ≠ []) →
      locateInsert M line data = .ok (stack.headD 0, -1))
    (k : Nat) (ops : List Int) (hk : k ≤ st.length) (hops : ∀ o ∈ ops, 0 < o) :
    ∃ (s2 : KateCodeFoldingTree) (A2 : Nat → Nat) (stack2 : List Nat),
      (if (((st.take k).map (fun t => -t)) ++ ops).reverse.isEmpty then
          (pure (M, (((st.take k).map (fun t => -t)) ++ ops).reverse) :
            Res (KateCodeFoldingTree × List Int))
        else do
          let data := (((st.take k).map (fun t => -t)) ++ ops).reverse.getLastD 0
          let loc ← locateInsert M line data
          updateLoop line ((((st.take k).map (fun t => -t)) ++ ops).reverse.length + 1) M
            (((st.take k).map (fun t => -t)) ++ ops).reverse.dropLast data loc.1 loc.2)
        = .ok (s2, []) ∧
      Work s2.heap s2.markedForDeleting A2 stack2 (ops.reverse ++ st.drop k) line ∧
      s2.heap.length = M.heap.length + ops.length ∧
      s2.markedForDeleting = M.markedForDeleting := by
  cases k with
  | zero =>
    cases ops with
    | nil =>
      refine ⟨M, A, stack, ?_, ?_, rfl, rfl⟩
      · rfl
      · simpa using hw
    | cons o ops2 =>
      have ho : 0 < o := hops o (List.mem_cons_self _ _)
      have hops2 : ∀ x ∈ ops2, 0 < x := fun x hx => hops x (List.mem_cons_of_mem _ hx)
      obtain ⟨nP, hP, _⟩ := hw.nav.parent_cell
      obtain ⟨s2, A2, stack2, h1, h2, h3, h4⟩ := updateLoop_openers line hb M A stack st hw o
        ops2 ho hops2 nP hP (-1) (Or.inl rfl) (ops2.length + 1)
      refine ⟨s2, A2, stack2, ?_, ?_, h3, h4⟩
      · have hl := hloc o (by omega) (fun h => by omega)
        simp only [List.take_zero, List.map_nil, List.nil_append, List.reverse_cons,
          isEmpty_concat, Bool.false_eq_true, if_false, List.getLastD_concat, hl, Res.ok_bind,
          List.dropLast_concat, List.length_append, List.length_reverse, List.length_singleton]
        exact h1
      · simpa using h2
  | succ k2 =>
    cases st with
    | nil => simp at hk
    | cons t st3 =>
      cases stack with
      | nil => exact absurd hw.types (by simp [StackTypes])
      | cons top rest =>
        obtain ⟨⟨n, hc, htn⟩, _⟩ := hw.types
        have htpos : 0 < t := hw.types_pos t (List.mem_cons_self _ _)
        have hk2 : k2 ≤ st3.length := by simpa using hk
        obtain ⟨s2, A2, stack2, h1, h2, h3, h4⟩ := updateLoop_closers line hb k2 M A top rest t
          st3 ops n (-1) (k2 + ops.length + 1 + 1) hw hc hk2 hops (by omega)
        refine ⟨s2, A2, stack2, ?_, ?_, h3, h4⟩
        · have hl := hloc (-t) (by omega) (fun _ => by simp)
          have hlen : ((st3.take k2).map (fun t => -t)).length = k2 := by
            rw [List.length_map, List.length_take]
            omega
          simp only [List.take_succ_cons, List.map_cons, List.cons_append, List.reverse_cons,
            isEmpty_concat, Bool.false_eq_true, if_false, List.getLastD_concat, hl, Res.ok_bind,
            List.dropLast_concat, List.length_append, List.length_reverse, List.length_singleton,
            hlen, List.headD_cons]
          exact h1
        · simpa using h2

/-- One call of `updateLine` with the markers `g` of a line (in text order; the
array that `updateLine` takes holds them last first), when the markers close
innermost open regions and open new ones: the marking pass and the search of
the insert position are given by `hM` and `hloc`. -/
theorem updateLine_markers (s : KateCodeFoldingTree) (A : Nat → Nat) (stack : List Nat)
    (st : List Int) (line : Nat) (hb : line ≤ 60000) (g st2 : List Int)
    (hv : stackAfterMarkers st g = some st2) (M : KateCodeFoldingTree)
    (hM : findAndMarkAllNodesforRemovalOpenedOrClosedAt { s with something_changed := false }
      line = .ok M)
    (hw : Work M.heap M.markedForDeleting A stack st line)
    (hmd : M.markedForDeleting = stack.take 1) (hlen : M.heap.length = s.heap.length)
    (hloc : ∀ data : Int, data ≠ 0 → (data < 0 → stack ≠ []) →
      locateInsert M line data = .ok (stack.headD 0, -1)) :
    ∃ (r : UpdateResult) (A2 : Nat → Nat) (stack2 : List Nat),
      updateLine s line g.reverse true = .ok r ∧ Nav r.tree.heap A2 stack2 line ∧
      FlagsClear r.tree.heap ∧ StackTypes r.tree.heap stack2 st2 ∧ LastKid r.tree.heap stack2 ∧
      r.tree.heap.length =
        s.heap.length + ((reduce g).filter (fun m => decide (0 < m))).length := by
  obtain ⟨k, ops, hk, hops, hred, hst2⟩ := reduce_shape st hw.types_pos g st2 hv
  obtain ⟨s2, A2, stack2, h1, h2, h3, h4⟩ := updateLoop_reduced line hb M A stack st hw hloc k
    ops hk hops
  have hmd2 : s2.markedForDeleting = [] ∨
      ∃ top, s2.markedForDeleting = [top] ∧ top < s2.heap.length := by
    rw [h4, hmd]
    cases stack with
    | nil => exact Or.inl rfl
    | cons top rest =>
      obtain ⟨_, _, _, _, _, _, _, hl, _⟩ := hw.nav.top_cell
      exact Or.inr ⟨top, rfl, by omega⟩
  obtain ⟨s3, hc1, hc2, hc3, hc4, hc5, hc6⟩ := cleanup_work s2 A2 stack2 st2 line
    (by rw [hst2]; exact h2) hmd2
  have hcnt := filter_closers_openers ((st.take k).map (fun t => -t)) ops (by
    intro x hx
    obtain ⟨t, ht, rfl⟩ := List.mem_map.1 hx
    have := hw.types_pos t (List.mem_of_mem_take ht)
    omega) hops
  refine ⟨{ tree := s3, regionChanges := [], updated := some s3.something_changed }, A2,
    stack2, ?_, hc2, hc3, hc4, hc5, ?_⟩
  · unfold updateLine updateLineBody
    have hcl := cancelLoop_reduce g
    rw [hred] at hcl
    simp only [Bool.true_eq_false, if_false, hcl, Res.ok_bind, hM, h1, hc1]
    rfl
  · show s3.heap.length = _
    rw [hc6, h3, hlen, hred, hcnt]

/-! ## Runs of `updateLine` -/

theorem markedState_nav (s : KateCodeFoldingTree) (A : Nat → Nat) (stack : List Nat) (L : Nat)
    (hn : Nav s.heap A stack L) (line : Nat) :
    Nav (markedState s stack line).heap A stack L ∧
      (markedState s stack line).heap.length = s.heap.length := by
  cases stack with
  | nil => exact ⟨hn, rfl⟩
  | cons top rest =>
    obtain ⟨n, pn, hc, _⟩ := hn.top_cell
    have hheap : (markedState s (top :: rest) line).heap =
        s.heap.set top (some { n with deleteEnding := decide (line = 60000) }) := by
      simp only [markedState]
      rw [modify_heap _ top _ n hc]
    rw [hheap]
    exact ⟨hn.set_flags hc n.deleteOpening (decide (line = 60000)), List.length_set _ _ _⟩

/-- One `updateLine` call of an ascending run, on a line behind all lines
processed so far. -/
theorem Built.step {s : KateCodeFoldingTree} {st : List Int} {L : Nat} (hB : Built s st L)
    (line : Nat) (hl : L < line) (hb : line ≤ 60000) (g st2 : List Int)
    (hv : stackAfterMarkers st g = some st2) :
    ∃ r, updateLine s line g.reverse true = .ok r ∧ Built r.tree st2 line ∧
      r.tree.heap.length = s.heap.length + openingsLeft g := by
  obtain ⟨A, stack, hn, hf, hty, hlk⟩ := hB
  have hn0 : Nav ({ s with something_changed := false } : KateCodeFoldingTree).heap A stack L := hn
  have hM := findAndMark_nav { s with something_changed := false } A stack L hn0 hf line hl hb
  have hw : Work (markedState { s with something_changed := false } stack line).heap
      (markedState { s with something_changed := false } stack line).markedForDeleting A stack st
      line := Work.marked hn0 hf hty hlk line (Nat.le_of_lt hl) hb
  obtain ⟨hnM, hlen⟩ := markedState_nav { s with something_changed := false } A stack L hn0 line
  obtain ⟨r, A2, stack2, h1, h2, h3, h4, h5, h6⟩ := updateLine_markers s A stack st line hb g st2
    hv _ hM hw (markedState_marked _ _ _) hlen (by
      intro data hd0 hneg
      by_cases hd : data < 0
      · cases stack with
        | nil => exact absurd rfl (hneg hd)
        | cons top rest => exact locateInsert_close _ A top rest L hnM line hl hb data hd
      · exact locateInsert_open _ A stack L hnM line hl hb data (by omega))
  exact ⟨r, h1, ⟨A2, stack2, h2, h3, h4, h5⟩, h6⟩

theorem Nav.nav_emptyTree (L : Nat) (hL : L ≤ 60000) : Nav emptyTree.heap (fun _ => 0) [] L := by
  refine ⟨⟨_, rfl, rfl, rfl, rfl, rfl⟩, rfl, hL, ?_, ?_, trivial⟩
  · intro i h0 hi
    simp [KateFolding.emptyTree] at hi
    omega
  · intro p n hp
    have hlt := lt_of_lookup hp
    have hp0 : p = 0 := by
      simp [KateFolding.emptyTree] at hlt
      omega
    subst hp0
    simp [KateFolding.emptyTree, rootNode] at hp
    subst hp
    simp

theorem FlagsClear.flags_emptyTree : FlagsClear emptyTree.heap := by
  intro i n hi
  have hlt := lt_of_lookup hi
  have hp0 : i = 0 := by
    simp [KateFolding.emptyTree] at hlt
    omega
  subst hp0
  simp [KateFolding.emptyTree, rootNode] at hi
  subst hi
  simp

/-- The first `updateLine` call of a run, on the empty tree. -/
theorem emptyTree_step (line : Nat) (hb : line ≤ 60000) (g st2 : List Int)
    (hv : stackAfterMarkers [] g = some st2) :
    ∃ r, updateLine emptyTree line g.reverse true = .ok r ∧ Built r.tree st2 line ∧
      r.tree.heap.length = 1 + openingsLeft g := by
  have hw : Work emptyTree.heap emptyTree.markedForDeleting (fun _ => 0) [] [] line :=
    ⟨Nav.nav_emptyTree line hb, trivial, trivial, fun i n hi =>
      ⟨(FlagsClear.flags_emptyTree i n hi).1, fun h => by
        rw [(FlagsClear.flags_emptyTree i n hi).2] at h; cases h⟩⟩
  obtain ⟨r, A2, stack2, h1, h2, h3, h4, h5, h6⟩ := updateLine_markers emptyTree (fun _ => 0) []
    [] line hb g st2 hv emptyTree (mark_emptyTree line) hw rfl rfl (by
      intro data hd0 hneg
      by_cases hd : data < 0
      · exact absurd rfl (hneg hd)
      · exact locate_emptyTree line data (by omega))
  exact ⟨r, h1, ⟨A2, stack2, h2, h3, h4, h5⟩, h6⟩

theorem runLines_built : ∀ (seq : List (Nat × List Int)) (s : KateCodeFoldingTree)
    (st st2 : List Int) (L : Nat), Built s st L → ascendingFrom L seq →
    stackAfter st seq = some st2 →
    ∃ s2 L2, runLines s seq = .ok s2 ∧ Built s2 st2 L2 ∧
      s2.heap.length = s.heap.length + pairCount seq := by
  intro seq
  induction seq with
  | nil =>
    intro s st st2 L hB _ hs
    simp only [stackAfter, Option.some.injEq] at hs
    subst hs
    exact ⟨s, L, rfl, hB, by simp [pairCount]⟩
  | cons x rest ih =>
    intro s st st2 L hB ha hs
    obtain ⟨hl, hb, har⟩ := ha
    unfold stackAfter at hs
    cases hv : stackAfterMarkers st x.2.reverse with
    | none =>
      rw [hv] at hs
      cases hs
    | some st1 =>
      rw [hv] at hs
      obtain ⟨r, hr, hB2, hlen⟩ := hB.step x.1 hl hb x.2.reverse st1 hv
      rw [List.reverse_reverse] at hr
      obtain ⟨s2, L2, h1, h2, h3⟩ := ih r.tree st1 st2 x.1 hB2 har hs
      refine ⟨s2, L2, ?_, h2, ?_⟩
      · simp only [runLines, hr, h1]
      · rw [h3, hlen]
        simp only [pairCount, List.map_cons, List.sum_cons]
        omega

theorem ascendingFrom_of_pairwise : ∀ (seq : List (Nat × List Int)) (L : Nat),
    (seq.map Prod.fst).Pairwise (· < ·) → (∀ x ∈ seq, L < x.1 ∧ x.1 ≤ 60000) →
    ascendingFrom L seq := by
  intro seq
  induction seq with
  | nil => intro _ _ _; trivial
  | cons x rest ih =>
    intro L hp hb
    simp only [List.map_cons, List.pairwise_cons] at hp
    refine ⟨(hb x (List.mem_cons_self _ _)).1, (hb x (List.mem_cons_self _ _)).2, ?_⟩
    apply ih _ hp.2
    intro y hy
    exact ⟨hp.1 y.1 (List.mem_map_of_mem _ hy), (hb y (List.mem_cons_of_mem _ hy)).2⟩

theorem stackAfter_append : ∀ (pre post : List (Nat × List Int)) (st st2 : List Int),
    stackAfter st (pre ++ post) = some st2 →
    ∃ st1, stackAfter st pre = some st1 := by
  intro pre
  induction pre with
  | nil => intro post st st2 _; exact ⟨st, rfl⟩
  | cons x rest ih =>
    intro post st st2 h
    simp only [List.cons_append] at h
    unfold stackAfter at h ⊢
    cases hv : stackAfterMarkers st x.2.reverse with
    | none =>
      rw [hv] at h
      cases h
    | some st1 =>
      rw [hv] at h
      exact ih post st1 st2 h

/-- An ascending run on the empty tree succeeds and keeps the invariant. -/
theorem runLines_emptyTree (seq : List (Nat × List Int)) (st : List Int)
    (hasc : (seq.map Prod.fst).Pairwise (· < ·)) (hb : ∀ x ∈ seq, x.1 ≤ 60000)
    (hbal : stackAfter [] seq = some st) :
    ∃ s A stack L, runLines emptyTree seq = .ok s ∧ Nav s.heap A stack L ∧ FlagsClear s.heap ∧
      StackTypes s.heap stack st ∧ s.heap.length = pairCount seq + 1 := by
  cases seq with
  | nil =>
    simp only [stackAfter, Option.some.injEq] at hbal
    subst hbal
    exact ⟨emptyTree, fun _ => 0, [], 0, rfl, Nav.nav_emptyTree 0 (by omega),
      FlagsClear.flags_emptyTree, trivial, rfl⟩
  | cons x rest =>
    unfold stackAfter at hbal
    cases hv : stackAfterMarkers [] x.2.reverse with
    | none =>
      rw [hv] at hbal
      cases hbal
    | some st1 =>
      rw [hv] at hbal
      have hxb := hb x (List.mem_cons_self _ _)
      simp only [List.map_cons, List.pairwise_cons] at hasc
      have har : ascendingFrom x.1 rest := by
        apply ascendingFrom_of_pairwise _ _ hasc.2
        intro y hy
        exact ⟨hasc.1 y.1 (List.mem_map_of_mem _ hy), hb y (List.mem_cons_of_mem _ hy)⟩
      obtain ⟨r, hr, hB, hlen⟩ := emptyTree_step x.1 hxb x.2.reverse st1 hv
      rw [List.reverse_reverse] at hr
      obtain ⟨s2, L2, h1, ⟨A, stack, hn, hf, hst, _⟩, h3⟩ :=
        runLines_built rest r.tree st1 st x.1 hB har hbal
      refine ⟨s2, A, stack, L2, ?_, hn, hf, hst, ?_⟩
      · simp only [runLines, hr, h1]
      · rw [h3, hlen]
        simp only [pairCount, List.map_cons, List.sum_cons]
        omega

theorem Nav.inTree_iff {s : KateCodeFoldingTree} {A : Nat → Nat} {stack : List Nat} {L : Nat}
    (hn : Nav s.heap A stack L) (p : Nat) : InTree s p ↔ p < s.heap.length := by
  constructor
  · intro h
    induction h with
    | root =>
      obtain ⟨r, hr, _⟩ := hn.root
      exact lt_of_lookup hr
    | child p c n _ hp hc _ => exact ((hn.kids p n hp).2 c hc).2.1
  · intro h
    induction p using Nat.strong_induction_on with
    | _ p ih =>
      by_cases h0 : p = 0
      · subst h0; exact InTree.root
      · obtain ⟨n, q, qn, _, _, hlt, hq, hmem, _⟩ := hn.cell p (by omega) h
        exact InTree.child q p qn (ih q hlt (by omega)) hq hmem

/-- The markers a valid line leaves: as many as it closes of the regions open
before it and opens for the lines after it. -/
theorem reduce_count (st : List Int) (hst : ∀ t ∈ st, 0 < t) (g st2 : List Int)
    (hv : stackAfterMarkers st g = some st2) :
    st.length + 2 * openingsLeft g = st2.length + (reduce g).length ∧ ∀ t ∈ st2, 0 < t := by
  obtain ⟨k, ops, hk, hops, hred, hst2⟩ := reduce_shape st hst g st2 hv
  have hcnt := filter_closers_openers ((st.take k).map (fun t => -t)) ops (by
    intro x hx
    obtain ⟨t, ht, rfl⟩ := List.mem_map.1 hx
    have := hst t (List.mem_of_mem_take ht)
    omega) hops
  constructor
  · unfold openingsLeft
    rw [hred, hcnt, hst2]
    simp only [List.length_append, List.length_reverse, List.length_drop, List.length_map,
      List.length_take]
    omega
  · intro t ht
    rw [hst2] at ht
    rcases List.mem_append.1 ht with h | h
    · exact hops t (List.mem_reverse.1 h)
    · exact hst t (List.mem_of_mem_drop h)

theorem stackAfter_length : ∀ (seq : List (Nat × List Int)) (st st2 : List Int),
    (∀ t ∈ st, 0 < t) → stackAfter st seq = some st2 →
    st.length + 2 * pairCount seq = st2.length + leftCount seq := by
  intro seq
  induction seq with
  | nil =>
    intro st st2 _ h
    simp only [stackAfter, Option.some.injEq] at h
    subst h
    simp [pairCount, leftCount]
  | cons x rest ih =>
    intro st st2 hst h
    unfold stackAfter at h
    cases hv : stackAfterMarkers st x.2.reverse with
    | none =>
      rw [hv] at h
      cases h
    | some st1 =>
      rw [hv] at h
      obtain ⟨h1, h2⟩ := reduce_count st hst x.2.reverse st1 hv
      have := ih st1 st2 h2 h
      simp only [pairCount, leftCount, List.map_cons, List.sum_cons] at this ⊢
      omega

/-- The trees built by runs of `updateLine` are well-formed, ranked by the
order in which their nodes were created. -/
theorem Nav.sane {h : List (Option KateCodeFoldingNode)} {A : Nat → Nat} {stack : List Nat}
    {L : Nat} (hn : Nav h A stack L) : Sane h A (fun i => i) := by
  have hb := hn.bound
  refine ⟨?_, hn.a0, rfl, ?_, ?_⟩
  · obtain ⟨r, hr, h1, h2, h3, _⟩ := hn.root
    exact ⟨r, hr, h1, h2, by omega⟩
  · intro i n h0 hi
    have hlen := lt_of_lookup hi
    obtain ⟨n2, p, pn, hc, hp, hlt, hpn, hmem, ht, ha, hA, _, hv, ho⟩ := hn.cell i h0 hlen
    rw [hi] at hc
    cases hc
    refine ⟨p, pn, hp, hlt, hlen, hpn, hmem, by omega, ha, ?_⟩
    cases he : n.endLineValid with
    | true => have := hv he; omega
    | false => have := (ho he).2; omega
  · intro p n hp
    obtain ⟨hnd, hk⟩ := hn.kids p n hp
    refine ⟨hnd, ?_⟩
    intro c hc
    obtain ⟨_, _, m, hm, hmp⟩ := hk c hc
    exact ⟨m, hm, hmp⟩

/-- The root is the only node of type `0`, and the only one without a parent. -/
theorem Sane.pos_of_parent {h : List (Option KateCodeFoldingNode)} {A d : Nat → Nat}
    (hn : Sane h A d) {x y : Nat} {n : KateCodeFoldingNode}
    (hx : h[x]? = some (some n)) (hp : n.parentNode = some y) : 0 < x := by
  by_contra hc
  have : x = 0 := by omega
  subst this
  obtain ⟨r, hr, _, hrp, _⟩ := hn.root
  rw [hr] at hx
  cases hx
  rw [hrp] at hp
  cases hp

theorem saneCheck_sound {h : List (Option KateCodeFoldingNode)} {A d : Nat → Nat}
    (hc : saneCheck h A d = true) : Sane h A d := by
  unfold saneCheck at hc
  simp only [Bool.and_eq_true, decide_eq_true_eq, List.all_eq_true, List.mem_range] at hc
  obtain ⟨h1, h2, h3, h4⟩ := hc
  refine ⟨?_, h2, h3, ?_, ?_⟩
  · split at h1
    · next r hr =>
      simp only [decide_eq_true_eq] at h1
      exact ⟨r, hr, h1.1, h1.2.1, h1.2.2⟩
    · cases h1
  · intro i n h0 hi
    have := h4 i (lt_of_lookup hi)
    rw [hi] at this
    simp only [Bool.and_eq_true, Bool.or_eq_true, decide_eq_true_eq] at this
    obtain ⟨hp, _⟩ := this
    rcases hp with hp | hp
    · omega
    · split at hp
      · next p hpar =>
        split at hp
        · next pn hpn =>
          simp only [decide_eq_true_eq] at hp
          exact ⟨p, pn, hpar, hp.1, hp.2.1, hpn, hp.2.2.1, hp.2.2.2.1, hp.2.2.2.2.1,
            hp.2.2.2.2.2⟩
        · cases hp
      · cases hp
  · intro p n hp
    have := h4 p (lt_of_lookup hp)
    rw [hp] at this
    simp only [Bool.and_eq_true, decide_eq_true_eq, List.all_eq_true] at this
    obtain ⟨_, hnd, hk⟩ := this
    refine ⟨hnd, ?_⟩
    intro c hc
    have := hk c hc
    split at this
    · next m hm =>
      simp only [decide_eq_true_eq] at this
      exact ⟨m, hm, this⟩
    · cases this

/-! ## Line shifts: stores seen cell by cell -/

theorem lookup_modify (s : KateCodeFoldingTree) (p : Nat)
    (f : KateCodeFoldingNode → KateCodeFoldingNode) (x : Nat) :
    (s.modify p f).heap[x]? = (s.heap[x]?).map (Option.map (fun n => if x = p then f n else n)) := by
  unfold KateCodeFoldingTree.modify
  split
  · next n hn =>
    by_cases c : x = p
    · subst c
      simp only [lookup_set_self _ (lt_of_lookup hn), hn, Option.map_some', if_true]
    · simp only [lookup_set_ne _ c, c, if_false]
      cases s.heap[x]? with
      | none => rfl
      | some o => cases o <;> rfl
  · next hn =>
    by_cases c : x = p
    · subst c
      cases hx : s.heap[x]? with
      | none => rfl
      | some o =>
        cases o with
        | none => rfl
        | some n => exact absurd hx (hn n)
    · simp only [c, if_false]
      cases s.heap[x]? with
      | none => rfl
      | some o => cases o <;> rfl

theorem lookup_foldl_modify (g : KateCodeFoldingNode → KateCodeFoldingNode) :
    ∀ (l : List Nat) (s : KateCodeFoldingTree), l.Nodup → ∀ x : Nat,
      ((l.foldl (fun acc t => acc.modify t g) s).heap)[x]? =
        (s.heap[x]?).map (Option.map (fun n => if x ∈ l then g n else n)) := by
  intro l
  induction l with
  | nil =>
    intro s _ x
    simp only [List.foldl_nil, List.not_mem_nil, if_false]
    cases s.heap[x]? with
    | none => rfl
    | some o => cases o <;> rfl
  | cons t rest ih =>
    intro s hnd x
    rw [List.nodup_cons] at hnd
    simp only [List.foldl_cons]
    rw [ih _ hnd.2 x, lookup_modify]
    cases s.heap[x]? with
    | none => rfl
    | some o =>
      cases o with
      | none => rfl
      | some n =>
        simp only [Option.map_some', List.mem_cons]
        by_cases c : x = t
        · subst c
          simp [hnd.1]
        · simp [c]

theorem Bumped.length {h h1 : List (Option KateCodeFoldingNode)} {P S : List Nat}
    (hb : Bumped h h1 P S) : h1.length = h.length := by
  by_contra hne
  rcases Nat.lt_or_gt_of_ne hne with c | c
  · have := hb h1.length
    rw [List.getElem?_eq_none (Nat.le_refl _)] at this
    cases hx : h[h1.length]? with
    | none => rw [List.getElem?_eq_none_iff] at hx; omega
    | some o => rw [hx] at this; cases this
  · have := hb h.length
    rw [List.getElem?_eq_none (Nat.le_refl _)] at this
    cases hx : h1[h.length]? with
    | none => rw [List.getElem?_eq_none_iff] at hx; omega
    | some o => rw [hx] at this; cases this

theorem Bumped.refl (h : List (Option KateCodeFoldingNode)) : Bumped h h [] [] := by
  intro x
  cases h[x]? with
  | none => rfl
  | some o => cases o <;> rfl

theorem Bumped.eq {h h1 : List (Option KateCodeFoldingNode)} (hb : Bumped h h1 [] []) :
    h1 = h := by
  apply List.ext_getElem?
  intro x
  rw [hb x]
  cases h[x]? with
  | none => rfl
  | some o => cases o <;> rfl

theorem Bumped.live {h h1 : List (Option KateCodeFoldingNode)} {P S : List Nat}
    (hb : Bumped h h1 P S) {x : Nat} {n : KateCodeFoldingNode} (hx : h[x]? = some (some n)) :
    h1[x]? = some (some (bumpNode (decide (x ∈ P)) (decide (x ∈ S)) n)) := by
  rw [hb x, hx]
  rfl

theorem Bumped.same {h h1 : List (Option KateCodeFoldingNode)} {P S : List Nat}
    (hb : Bumped h h1 P S) {x : Nat} {n : KateCodeFoldingNode} (hx : h[x]? = some (some n))
    (hP : x ∉ P) (hS : x ∉ S) : h1[x]? = some (some n) := by
  rw [hb.live hx]
  simp [bumpNode, hP, hS]

theorem Bumped.sets_congr {h h1 : List (Option KateCodeFoldingNode)} {P S P2 S2 : List Nat}
    (hb : Bumped h h1 P S) (hP : ∀ x, x ∈ P ↔ x ∈ P2) (hS : ∀ x, x ∈ S ↔ x ∈ S2) :
    Bumped h h1 P2 S2 := by
  intro x
  rw [hb x]
  have e1 : decide (x ∈ P) = decide (x ∈ P2) := by simp [hP x]
  have e2 : decide (x ∈ S) = decide (x ∈ S2) := by simp [hS x]
  rw [e1, e2]

theorem Bumped.heap_congr {h h1 h2 : List (Option KateCodeFoldingNode)} {P S : List Nat}
    (hb : Bumped h h1 P S) (he : h2 = h1) : Bumped h h2 P S := by
  subst he
  exact hb

theorem usub_succ (a : Nat) (ha : a + 1 < 4294967296) : usub (a + 1) 1 = a := by
  unfold usub
  omega

theorem uadd_one (a : Nat) (ha : a + 1 < 4294967296) : uadd a 1 = a + 1 := by
  unfold uadd
  omega

theorem Bumped.add_end {h : List (Option KateCodeFoldingNode)} {cur : KateCodeFoldingTree}
    {P S : List Nat} (hb : Bumped h cur.heap P S) (p : Nat) (hp : p ∉ P)
    (hbd : ∀ n : KateCodeFoldingNode, h[p]? = some (some n) → n.endLineRel + 1 < 4294967296) :
    Bumped h (cur.modify p (fun m => { m with endLineRel := uadd m.endLineRel 1 })).heap
      (p :: P) S := by
  intro x
  rw [lookup_modify, hb x]
  cases hx : h[x]? with
  | none => rfl
  | some o =>
    cases o with
    | none => rfl
    | some n =>
      by_cases c : x = p
      · subst c
        have := hbd n hx
        simp [bumpNode, hp, uadd_one _ this]
      · simp [bumpNode, c]

theorem Bumped.remove_end {h : List (Option KateCodeFoldingNode)} {cur : KateCodeFoldingTree}
    {P S : List Nat} (hb : Bumped h cur.heap (p :: P) S) (hp : p ∉ P)
    (hbd : ∀ n : KateCodeFoldingNode, h[p]? = some (some n) → n.endLineRel + 1 < 4294967296) :
    Bumped h (cur.modify p (fun m =>
      { m with endLineValid := if m.endLineRel = 0 then false else m.endLineValid,
               endLineRel := usub m.endLineRel 1 })).heap P S := by
  intro x
  rw [lookup_modify, hb x]
  cases hx : h[x]? with
  | none => rfl
  | some o =>
    cases o with
    | none => rfl
    | some n =>
      by_cases c : x = p
      · subst c
        have := hbd n hx
        simp [bumpNode, hp, usub_succ _ this]
      · simp [bumpNode, c]

theorem Bumped.add_starts {h : List (Option KateCodeFoldingNode)} {cur : KateCodeFoldingTree}
    {P S : List Nat} (hb : Bumped h cur.heap P S) (l : List Nat) (hnd : l.Nodup)
    (hl : ∀ x ∈ l, x ∉ S)
    (hbd : ∀ x ∈ l, ∀ n : KateCodeFoldingNode, h[x]? = some (some n) →
      n.startLineRel + 1 < 4294967296) :
    Bumped h (l.foldl (fun acc tmp =>
      acc.modify tmp (fun m => { m with startLineRel := uadd m.startLineRel 1 })) cur).heap
      P (l ++ S) := by
  intro x
  rw [lookup_foldl_modify _ l cur hnd x, hb x]
  cases hx : h[x]? with
  | none => rfl
  | some o =>
    cases o with
    | none => rfl
    | some n =>
      by_cases c : x ∈ l
      · have := hbd x c n hx
        simp [bumpNode, c, hl x c, uadd_one _ this]
      · simp [bumpNode, c]

theorem Bumped.remove_starts {h : List (Option KateCodeFoldingNode)} {cur : KateCodeFoldingTree}
    {P S : List Nat} (l : List Nat) (hb : Bumped h cur.heap P (l ++ S)) (hnd : l.Nodup)
    (hl : ∀ x ∈ l, x ∉ S)
    (hbd : ∀ x ∈ l, ∀ n : KateCodeFoldingNode, h[x]? = some (some n) →
      n.startLineRel + 1 < 4294967296) :
    Bumped h (l.foldl (fun acc tmp =>
      acc.modify tmp (fun m => { m with startLineRel := usub m.startLineRel 1 })) cur).heap
      P S := by
  intro x
  rw [lookup_foldl_modify _ l cur hnd x, hb x]
  cases hx : h[x]? with
  | none => rfl
  | some o =>
    cases o with
    | none => rfl
    | some n =>
      by_cases c : x ∈ l
      · have := hbd x c n hx
        simp [bumpNode, c, hl x c, usub_succ _ this]
      · simp [bumpNode, c]

/-- The loop of `lineHasBeenInserted` over the children of the node found:
the children that start at or behind the line move one line down. -/
theorem insert_children {h : List (Option KateCodeFoldingNode)} (A : Nat → Nat) (line a : Nat)
    (P : List Nat) :
    ∀ (cs : List Nat) (cur : KateCodeFoldingTree) (S : List Nat), Bumped h cur.heap P S →
      cs.Nodup → (∀ c ∈ cs, c ∉ S ∧ ∃ n : KateCodeFoldingNode, h[c]? = some (some n) ∧
        n.startLineRel + a = A c ∧ A c + 1 < 4294967296) →
      ∃ cur2, cs.foldlM (fun acc c => do
          let cn ← acc.node c
          if uadd cn.startLineRel a ≥ line then
            pure (acc.modify c (fun m => { m with startLineRel := uadd m.startLineRel 1 }))
          else pure acc) cur = Res.ok cur2 ∧
        Bumped h cur2.heap P (cs.filter (fun c => decide (line ≤ A c)) ++ S) := by
  intro cs
  induction cs with
  | nil =>
    intro cur S hb _ _
    exact ⟨cur, rfl, hb⟩
  | cons c rest ih =>
    intro cur S hb hnd hc
    rw [List.nodup_cons] at hnd
    obtain ⟨hcS, n, hn, hA, hbd⟩ := hc c (List.mem_cons_self _ _)
    have hcur := hb.live hn
    simp only [List.foldlM_cons]
    have hst : (bumpNode (decide (c ∈ P)) (decide (c ∈ S)) n).startLineRel = n.startLineRel := by
      simp [bumpNode, hcS]
    have hu : uadd n.startLineRel a = A c := by
      unfold uadd
      omega
    by_cases hge : line ≤ A c
    · have hb2 : Bumped h (cur.modify c (fun m =>
          { m with startLineRel := uadd m.startLineRel 1 })).heap P (c :: S) := by
        have := hb.add_starts [c] (by simp) (by simpa using hcS)
          (by
            intro x hx m hm
            simp only [List.mem_singleton] at hx
            subst hx
            rw [hn] at hm
            cases hm
            omega)
        simpa using this
      obtain ⟨cur2, h1, h2⟩ := ih _ (c :: S) hb2 hnd.2 (by
        intro x hx
        obtain ⟨hxS, hrest⟩ := hc x (List.mem_cons_of_mem _ hx)
        refine ⟨?_, hrest⟩
        intro hmem
        rcases List.mem_cons.1 hmem with e | e
        · subst e; exact hnd.1 hx
        · exact hxS e)
      refine ⟨cur2, ?_, ?_⟩
      · show (KateCodeFoldingTree.node cur c >>= _) >>= _ = _
        rw [node_of_heap hcur]
        simp only [Res.ok_bind, hst, hu, ge_iff_le, hge, if_true, Res.pure_eq]
        exact h1
      · apply h2.sets_congr (fun _ => Iff.rfl)
        intro x
        simp [List.filter_cons, hge]
        tauto
    · obtain ⟨cur2, h1, h2⟩ := ih cur S hb hnd.2 (fun x hx => hc x (List.mem_cons_of_mem _ hx))
      refine ⟨cur2, ?_, ?_⟩
      · show (KateCodeFoldingTree.node cur c >>= _) >>= _ = _
        rw [node_of_heap hcur]
        simp only [Res.ok_bind, hst, hu, ge_iff_le, hge, if_false, Res.pure_eq]
        exact h1
      · apply h2.sets_congr (fun _ => Iff.rfl)
        intro x
        simp [List.filter_cons, hge]

/-- The loop of `lineHasBeenRemoved` over the children of the node found undoes
the loop of `lineHasBeenInserted`. -/
theorem remove_children {h : List (Option KateCodeFoldingNode)} (A : Nat → Nat) (line a : Nat)
    (P : List Nat) :
    ∀ (cs : List Nat) (cur : KateCodeFoldingTree) (S : List Nat),
      Bumped h cur.heap P (cs.filter (fun c => decide (line ≤ A c)) ++ S) →
      cs.Nodup → (∀ c ∈ cs, c ∉ S ∧ ∃ n : KateCodeFoldingNode, h[c]? = some (some n) ∧
        n.startLineRel + a = A c ∧ A c + 1 < 4294967296) →
      ∃ cur2, cs.foldlM (fun acc c => do
          let cn ← acc.node c
          if uadd cn.startLineRel a ≥ line then
            pure (acc.modify c (fun m => { m with startLineRel := usub m.startLineRel 1 }))
          else pure acc) cur = Res.ok cur2 ∧
        Bumped h cur2.heap P S := by
  intro cs
  induction cs with
  | nil =>
    intro cur S hb _ _
    exact ⟨cur, rfl, by simpa using hb⟩
  | cons c rest ih =>
    intro cur S hb hnd hc
    rw [List.nodup_cons] at hnd
    obtain ⟨hcS, n, hn, hA, hbd⟩ := hc c (List.mem_cons_self _ _)
    have hcur := hb.live hn
    simp only [List.foldlM_cons]
    have hrestc : ∀ x ∈ rest, x ∉ S ∧ ∃ n : KateCodeFoldingNode, h[x]? = some (some n) ∧
        n.startLineRel + a = A x ∧ A x + 1 < 4294967296 :=
      fun x hx => hc x (List.mem_cons_of_mem _ hx)
    by_cases hge : line ≤ A c
    · have hmem : c ∈ (c :: rest).filter (fun c => decide (line ≤ A c)) ++ S := by
        simp [List.filter_cons, hge]
      have hst : (bumpNode (decide (c ∈ P))
          (decide (c ∈ (c :: rest).filter (fun c => decide (line ≤ A c)) ++ S)) n).startLineRel
          = n.startLineRel + 1 := by
        simp only [bumpNode, hmem, decide_True, if_true]
      have hu : uadd (n.startLineRel + 1) a ≥ line := by
        unfold uadd
        omega
      have hb1 : Bumped h cur.heap P ([c] ++ (rest.filter (fun c => decide (line ≤ A c)) ++ S)) := by
        apply hb.sets_congr (fun _ => Iff.rfl)
        intro x
        simp [List.filter_cons, hge]
      have hb2 := Bumped.remove_starts [c] hb1 (by simp)
        (by
          intro x hx
          simp only [List.mem_singleton] at hx
          subst hx
          intro hmem2
          rcases List.mem_append.1 hmem2 with e | e
          · exact hnd.1 (List.mem_of_mem_filter e)
          · exact hcS e)
        (by
          intro x hx m hm
          simp only [List.mem_singleton] at hx
          subst hx
          rw [hn] at hm
          cases hm
          omega)
      obtain ⟨cur2, h1, h2⟩ := ih _ S (by simpa using hb2) hnd.2 hrestc
      refine ⟨cur2, ?_, h2⟩
      show (KateCodeFoldingTree.node cur c >>= _) >>= _ = _
      rw [node_of_heap hcur]
      have hu2 : line ≤ uadd (n.startLineRel + 1) a := hu
      simp only [Res.ok_bind, hst, ge_iff_le, hu2, if_true, Res.pure_eq]
      exact h1
    · have hnot : c ∉ (c :: rest).filter (fun c => decide (line ≤ A c)) ++ S := by
        simp [List.filter_cons, hge, hcS]
      have hst : (bumpNode (decide (c ∈ P))
          (decide (c ∈ (c :: rest).filter (fun c => decide (line ≤ A c)) ++ S)) n).startLineRel
          = n.startLineRel := by
        simp only [bumpNode, hnot, decide_False, Bool.false_eq_true, if_false]
      have hu : ¬ line ≤ uadd n.startLineRel a := by
        unfold uadd
        omega
      have hb1 : Bumped h cur.heap P (rest.filter (fun c => decide (line ≤ A c)) ++ S) := by
        apply hb.sets_congr (fun _ => Iff.rfl)
        intro x
        simp [List.filter_cons, hge]
      obtain ⟨cur2, h1, h2⟩ := ih cur S hb1 hnd.2 hrestc
      refine ⟨cur2, ?_, h2⟩
      show (KateCodeFoldingTree.node cur c >>= _) >>= _ = _
      rw [node_of_heap hcur]
      simp only [Res.ok_bind, hst, ge_iff_le, hu, if_false, Res.pure_eq]
      exact h1

/-! ## Paths in the tree -/

theorem heapChildren_eq {h : List (Option KateCodeFoldingNode)} {p : Nat}
    {n : KateCodeFoldingNode} (hp : h[p]? = some (some n)) : heapChildren h p = n.childnodes := by
  simp [heapChildren, hp]

theorem siblingsAfter_split {pre post : List Nat} {c : Nat} (hnd : (pre ++ c :: post).Nodup) :
    siblingsAfter (pre ++ c :: post) c = post := by
  have hc : c ∉ pre := by
    intro hmem
    rw [List.nodup_append] at hnd
    exact hnd.2.2 hmem (List.mem_cons_self _ _)
  unfold siblingsAfter
  have hmem : c ∈ pre ++ c :: post := by simp
  rw [if_pos hmem]
  have hi : (pre ++ c :: post).indexOf c = pre.length := by
    rw [List.indexOf_append_of_not_mem hc]
    simp
  rw [hi]
  simp

theorem siblingsAfter_sublist (l : List Nat) (c : Nat) : (siblingsAfter l c).Sublist l := by
  unfold siblingsAfter
  split
  · exact List.drop_sublist _ _
  · exact List.nil_sublist _

theorem siblingsAfter_mem {l : List Nat} {c x : Nat} (hnd : l.Nodup)
    (hx : x ∈ siblingsAfter l c) : x ∈ l ∧ x ≠ c := by
  refine ⟨(siblingsAfter_sublist l c).subset hx, ?_⟩
  by_cases hc : c ∈ l
  · obtain ⟨pre, post, e⟩ := List.append_of_mem hc
    subst e
    rw [siblingsAfter_split hnd] at hx
    intro e
    subst e
    rw [List.nodup_append] at hnd
    have := hnd.2.1
    rw [List.nodup_cons] at this
    exact this.1 hx
  · unfold siblingsAfter at hx
    rw [if_neg hc] at hx
    cases hx

/-- What well-formedness says about a node with a parent. -/
theorem Sane.parent_facts {h : List (Option KateCodeFoldingNode)} {A : Nat → Nat}
    {d : Nat → Nat} (hn : Sane h A d) {x y : Nat} {n : KateCodeFoldingNode}
    (hx : h[x]? = some (some n)) (hp : n.parentNode = some y) :
    d y < d x ∧ 0 < x ∧ x ∈ heapChildren h y ∧ A y + n.startLineRel = A x ∧
      A x < 4294967295 ∧ n.type ≠ 0 ∧ A x + n.endLineRel < 4294967295 := by
  have h0 : 0 < x := hn.pos_of_parent hx hp
  obtain ⟨p2, pn, hp2, hlt, _, hpn, hmem, ht, ha, hA⟩ := hn.cell x n h0 hx
  rw [hp] at hp2
  cases hp2
  exact ⟨hlt, h0, by rw [heapChildren_eq hpn]; exact hmem, ha, by omega, ht, hA⟩

/-- What well-formedness says about an entry of a child list. -/
theorem Sane.child_facts {h : List (Option KateCodeFoldingNode)} {A : Nat → Nat}
    {d : Nat → Nat} (hn : Sane h A d) {p c : Nat}
    (hc : c ∈ heapChildren h p) :
    d p < d c ∧ (heapChildren h p).Nodup ∧
      ∃ m : KateCodeFoldingNode, h[c]? = some (some m) ∧ m.parentNode = some p := by
  unfold heapChildren at hc ⊢
  cases hp : h[p]? with
  | none => rw [hp] at hc; cases hc
  | some o =>
    cases o with
    | none => rw [hp] at hc; cases hc
    | some n =>
      rw [hp] at hc
      obtain ⟨hnd, hk⟩ := hn.kids p n hp
      obtain ⟨m, hm, hmp⟩ := hk c hc
      exact ⟨(hn.parent_facts hm hmp).1, hnd, m, hm, hmp⟩

/-- A live node has a rank below the number of cells. -/
theorem Sane.rank_lt {h : List (Option KateCodeFoldingNode)} {A : Nat → Nat}
    {d : Nat → Nat} (hn : Sane h A d) {x : Nat} {n : KateCodeFoldingNode}
    (hx : h[x]? = some (some n)) : d x < h.length := by
  by_cases h0 : x = 0
  · subst h0
    rw [hn.d0]
    have := lt_of_lookup hx
    omega
  · obtain ⟨_, _, _, _, hd, _⟩ := hn.cell x n (by omega) hx
    exact hd

theorem UpPath.lt {h : List (Option KateCodeFoldingNode)} {A : Nat → Nat}
    {d : Nat → Nat} (hn : Sane h A d) {top : Nat} :
    ∀ {l : List Nat} {x : Nat}, UpPath h top (x :: l) → (∀ y ∈ l, d y < d x) ∧ d top ≤ d x := by
  intro l
  induction l with
  | nil =>
    intro x hu
    refine ⟨fun y hy => absurd hy (List.not_mem_nil _), ?_⟩
    simp only [UpPath] at hu
    rw [hu]
  | cons y rest ih =>
    intro x hu
    obtain ⟨⟨n, hx, hp⟩, hr⟩ := hu
    have hlt := (hn.parent_facts hx hp).1
    obtain ⟨h1, h2⟩ := ih hr
    refine ⟨?_, by omega⟩
    intro z hz
    rcases List.mem_cons.1 hz with e | e
    · subst e; exact hlt
    · have := h1 z e
      omega

theorem UpPath.ge_top {h : List (Option KateCodeFoldingNode)} {A : Nat → Nat}
    {d : Nat → Nat} (hn : Sane h A d) {top : Nat} :
    ∀ {l : List Nat}, UpPath h top l → ∀ y ∈ l, d top ≤ d y := by
  intro l
  induction l with
  | nil => intro hu; exact hu.elim
  | cons x rest ih =>
    intro hu y hy
    rcases List.mem_cons.1 hy with e | e
    · subst e; exact (UpPath.lt hn hu).2
    · cases rest with
      | nil => cases e
      | cons z r2 => exact ih hu.2 y e

theorem UpPath.nodup {h : List (Option KateCodeFoldingNode)} {A : Nat → Nat}
    {d : Nat → Nat} (hn : Sane h A d) {top : Nat} :
    ∀ {l : List Nat}, UpPath h top l → l.Nodup := by
  intro l
  induction l with
  | nil => intro hu; exact hu.elim
  | cons x rest ih =>
    intro hu
    rw [List.nodup_cons]
    refine ⟨?_, ?_⟩
    · intro hx
      have := (UpPath.lt hn hu).1 x hx
      omega
    · cases rest with
      | nil => exact List.nodup_nil
      | cons z r2 => exact ih hu.2

/-- On a path two cells with the same parent are the same cell. -/
theorem UpPath.same_parent {h : List (Option KateCodeFoldingNode)} {A : Nat → Nat}
    {d : Nat → Nat} (hn : Sane h A d) :
    ∀ {l : List Nat}, UpPath h 0 l → ∀ {x c y : Nat} {n m : KateCodeFoldingNode}, x ∈ l → c ∈ l →
      h[x]? = some (some n) → n.parentNode = some y → h[c]? = some (some m) →
      m.parentNode = some y → x = c := by
  intro l
  induction l with
  | nil => intro hu; exact hu.elim
  | cons a rest ih =>
    intro hu x c y n m hx hc hxn hxp hcm hcp
    cases rest with
    | nil =>
      simp only [List.mem_singleton] at hx hc
      rw [hx, hc]
    | cons b r2 =>
      obtain ⟨⟨na, ha, hap⟩, hr⟩ := hu
      have hlt := UpPath.lt hn hr
      have key : ∀ (z : Nat) (k : KateCodeFoldingNode), z ∈ b :: r2 → h[z]? = some (some k) →
          k.parentNode = some b → False := by
        intro z k hz hzk hzp
        have h1 := (hn.parent_facts hzk hzp).1
        rcases List.mem_cons.1 hz with e | e
        · rw [e] at h1
          omega
        · have := hlt.1 z e
          omega
      rcases List.mem_cons.1 hx with e1 | e1 <;> rcases List.mem_cons.1 hc with e2 | e2
      · rw [e1, e2]
      · subst e1
        rw [ha] at hxn
        cases hxn
        rw [hap] at hxp
        cases hxp
        exact (key c m e2 hcm hcp).elim
      · subst e2
        rw [ha] at hcm
        cases hcm
        rw [hap] at hcp
        cases hcp
        exact (key x n e1 hxn hxp).elim
      · exact ih hr e1 e2 hxn hxp hcm hcp

theorem UpPath.snoc {h : List (Option KateCodeFoldingNode)} {c p : Nat}
    {n : KateCodeFoldingNode} (hc : h[c]? = some (some n)) (hp : n.parentNode = some p) :
    ∀ {l : List Nat}, UpPath h c l → UpPath h p (l ++ [p]) := by
  intro l
  induction l with
  | nil => intro hu; exact hu.elim
  | cons x rest ih =>
    intro hu
    cases rest with
    | nil =>
      simp only [UpPath] at hu
      subst hu
      exact ⟨⟨n, hc, hp⟩, rfl⟩
    | cons y r2 =>
      exact ⟨hu.1, ih hu.2⟩

/-- A shifted sibling is a later sibling of a path node. -/
theorem mem_sibs {h : List (Option KateCodeFoldingNode)} {top : Nat} :
    ∀ {l : List Nat} {x : Nat}, UpPath h top l → x ∈ sibs h l →
      ∃ c y, c ∈ l ∧ y ∈ l ∧ (∃ n : KateCodeFoldingNode, h[c]? = some (some n) ∧
        n.parentNode = some y) ∧ x ∈ siblingsAfter (heapChildren h y) c := by
  intro l
  induction l with
  | nil => intro x hu; exact hu.elim
  | cons a rest ih =>
    intro x hu hx
    cases rest with
    | nil => simp [sibs] at hx
    | cons b r2 =>
      simp only [sibs, List.mem_append] at hx
      rcases hx with e | e
      · exact ⟨a, b, List.mem_cons_self _ _, List.mem_cons_of_mem _ (List.mem_cons_self _ _),
          hu.1, e⟩
      · obtain ⟨c, y, hc, hy, hcy, hxs⟩ := ih hu.2 e
        exact ⟨c, y, List.mem_cons_of_mem _ hc, List.mem_cons_of_mem _ hy, hcy, hxs⟩

theorem UpPath.head_max {h : List (Option KateCodeFoldingNode)} {A : Nat → Nat}
    {d : Nat → Nat} (hn : Sane h A d) {top q : Nat} {rest : List Nat}
    (hu : UpPath h top (q :: rest)) {x : Nat} (hx : x ∈ q :: rest) : d x ≤ d q := by
  rcases List.mem_cons.1 hx with e | e
  · rw [e]
  · have := (UpPath.lt hn hu).1 x e
    omega

/-- No cell of the path is among the shifted cells. -/
theorem path_not_shifted {h : List (Option KateCodeFoldingNode)} {A : Nat → Nat}
    {d : Nat → Nat} (hn : Sane h A d) (line : Nat) {up : List Nat}
    (hu : UpPath h 0 up) {x : Nat} (hx : x ∈ up) : x ∉ shiftSet h A line up := by
  intro hs
  unfold shiftSet at hs
  rcases List.mem_append.1 hs with e | e
  · have hc := List.mem_of_mem_filter e
    cases up with
    | nil => exact hu.elim
    | cons q rest =>
      have h1 := (hn.child_facts hc).1
      have h2 := UpPath.head_max hn hu hx
      simp only [List.headD_cons] at h1
      omega
  · obtain ⟨c, y, hc, hy, ⟨n, hcn, hcp⟩, hxs⟩ := mem_sibs hu e
    have hk := siblingsAfter_mem (by
      by_cases hh : x ∈ heapChildren h y
      · exact (hn.child_facts hh).2.1
      · exact absurd ((siblingsAfter_sublist _ _).subset hxs) hh) hxs
    obtain ⟨_, _, m, hm, hmp⟩ := hn.child_facts hk.1
    exact hk.2 (UpPath.same_parent hn hu hx hc hm hmp hcn hcp)

/-- The children in front of the path child of a path node are neither on the
path nor shifted. -/
theorem before_not_shifted {h : List (Option KateCodeFoldingNode)} {A : Nat → Nat}
    {d : Nat → Nat} (hn : Sane h A d) (line : Nat) {up : List Nat}
    (hu : UpPath h 0 up) {p c : Nat} {n cn : KateCodeFoldingNode} {pre post : List Nat}
    (hp : h[p]? = some (some n)) (hch : n.childnodes = pre ++ c :: post) (hc : c ∈ up)
    (hcn : h[c]? = some (some cn)) (hcp : cn.parentNode = some p) {x : Nat} (hx : x ∈ pre) :
    x ∉ up ∧ x ∉ shiftSet h A line up := by
  have hkids : heapChildren h p = pre ++ c :: post := by rw [heapChildren_eq hp, hch]
  have hxk : x ∈ heapChildren h p := by rw [hkids]; simp [hx]
  obtain ⟨hpx, hnd, m, hm, hmp⟩ := hn.child_facts hxk
  rw [hkids] at hnd
  have hne : x ≠ c := by
    intro e
    subst e
    rw [List.nodup_append] at hnd
    exact hnd.2.2 hx (List.mem_cons_self _ _)
  have hnotup : x ∉ up := fun hxu => hne (UpPath.same_parent hn hu hxu hc hm hmp hcn hcp)
  refine ⟨hnotup, ?_⟩
  intro hs
  unfold shiftSet at hs
  rcases List.mem_append.1 hs with e | e
  · have hc2 := List.mem_of_mem_filter e
    obtain ⟨_, _, m2, hm2, hmp2⟩ := hn.child_facts hc2
    rw [hm] at hm2
    cases hm2
    rw [hmp] at hmp2
    cases hmp2
    cases up with
    | nil => exact hu.elim
    | cons q rest =>
      have h2 := UpPath.head_max hn hu hc
      have h3 := (hn.parent_facts hcn hcp).1
      simp only [List.headD_cons] at h3
      omega
  · obtain ⟨c2, y, hc2, hy, ⟨n2, hcn2, hcp2⟩, hxs⟩ := mem_sibs hu e
    have hk := siblingsAfter_mem (by
      by_cases hh : x ∈ heapChildren h y
      · exact (hn.child_facts hh).2.1
      · exact absurd ((siblingsAfter_sublist _ _).subset hxs) hh) hxs
    obtain ⟨_, _, m2, hm2, hmp2⟩ := hn.child_facts hk.1
    rw [hm] at hm2
    cases hm2
    rw [hmp] at hmp2
    cases hmp2
    have e2 : c2 = c := UpPath.same_parent hn hu hc2 hc hcn2 hcp2 hcn hcp
    subst e2
    rw [hkids, siblingsAfter_split hnd] at hxs
    rw [List.nodup_append] at hnd
    exact hnd.2.2 hx (List.mem_cons_of_mem _ hxs)

/-- A child of the innermost node of the path is not on the path, and when it
is shifted it starts at or behind the line. -/
theorem child_of_head {h : List (Option KateCodeFoldingNode)} {A : Nat → Nat}
    {d : Nat → Nat} (hn : Sane h A d) (line : Nat) {q : Nat}
    {rest : List Nat} (hu : UpPath h 0 (q :: rest)) {x : Nat} (hx : x ∈ heapChildren h q) :
    x ∉ q :: rest ∧ x ∉ sibs h (q :: rest) ∧
      (x ∈ shiftSet h A line (q :: rest) → line ≤ A x) := by
  obtain ⟨hqx, _, m, hm, hmp⟩ := hn.child_facts hx
  have h1 : x ∉ q :: rest := by
    intro hmem
    have := UpPath.head_max hn hu hmem
    omega
  have h2 : x ∉ sibs h (q :: rest) := by
    intro e
    obtain ⟨c2, y, hc2, hy, ⟨n2, hcn2, hcp2⟩, hxs⟩ := mem_sibs hu e
    have hk := siblingsAfter_mem (by
      by_cases hh : x ∈ heapChildren h y
      · exact (hn.child_facts hh).2.1
      · exact absurd ((siblingsAfter_sublist _ _).subset hxs) hh) hxs
    obtain ⟨_, _, m2, hm2, hmp2⟩ := hn.child_facts hk.1
    rw [hm] at hm2
    cases hm2
    rw [hmp] at hmp2
    cases hmp2
    have h3 := (hn.parent_facts hcn2 hcp2).1
    have h4 := UpPath.head_max hn hu hc2
    omega
  refine ⟨h1, h2, ?_⟩
  intro hs
  unfold shiftSet at hs
  rcases List.mem_append.1 hs with e | e
  · simpa using (List.mem_filter.1 e).2
  · exact absurd e h2

/-! ## The descent of `findNodeForLine` -/

theorem Desc.ne_nil {h : List (Option KateCodeFoldingNode)} {A : Nat → Nat} {line p : Nat}
    {l : List Nat} (hd : Desc h A line p l) : l ≠ [] := by
  cases hd with
  | stop => simp
  | step => simp

theorem Desc.upPath {h : List (Option KateCodeFoldingNode)} {A : Nat → Nat}
    {d : Nat → Nat} (hn : Sane h A d) {line p : Nat} {l : List Nat}
    (hd : Desc h A line p l) : UpPath h p l := by
  induction hd with
  | stop p n _ _ => rfl
  | step p n pre c post cn l hp hch _ hc _ _ ih =>
    have hk : c ∈ heapChildren h p := by rw [heapChildren_eq hp, hch]; simp
    obtain ⟨_, _, m, hm, hmp⟩ := hn.child_facts hk
    exact UpPath.snoc hm hmp ih

/-- Every node of the walked path but its top holds the line. -/
theorem Desc.holds {h : List (Option KateCodeFoldingNode)} {A : Nat → Nat} {line p : Nat}
    {l : List Nat} (hd : Desc h A line p l) :
    ∀ x ∈ l, x ≠ p → ∃ xn : KateCodeFoldingNode, h[x]? = some (some xn) ∧ Holds A line x xn := by
  induction hd with
  | stop p n _ _ =>
    intro x hx hne
    simp only [List.mem_singleton] at hx
    exact absurd hx hne
  | step p n pre c post cn l hp hch _ hc hh _ ih =>
    intro x hx hne
    rcases List.mem_append.1 hx with e | e
    · by_cases hxc : x = c
      · subst hxc; exact ⟨cn, hc, hh⟩
      · exact ih x e hxc
    · simp only [List.mem_singleton] at e
      exact absurd e hne

/-- The innermost node of the walked path has no child that holds the line. -/
theorem Desc.head_stop {h : List (Option KateCodeFoldingNode)} {A : Nat → Nat} {line p : Nat}
    {l : List Nat} (hd : Desc h A line p l) :
    ∃ n : KateCodeFoldingNode, h[l.headD 0]? = some (some n) ∧
      ∀ c ∈ n.childnodes, ∀ cn : KateCodeFoldingNode, h[c]? = some (some cn) →
        ¬ Holds A line c cn := by
  induction hd with
  | stop p n hp hs => exact ⟨n, by simpa using hp, hs⟩
  | step p n pre c post cn l hp hch _ hc hh hd ih =>
    obtain ⟨m, hm, hs⟩ := ih
    refine ⟨m, ?_, hs⟩
    cases l with
    | nil => exact absurd rfl hd.ne_nil
    | cons a r => simpa using hm

theorem list_first (pred : Nat → Prop) :
    ∀ cs : List Nat, (∃ c ∈ cs, pred c) →
      ∃ pre c post, cs = pre ++ c :: post ∧ (∀ x ∈ pre, ¬ pred x) ∧ pred c := by
  intro cs
  induction cs with
  | nil => intro ⟨c, hc, _⟩; cases hc
  | cons a rest ih =>
    intro hex
    by_cases ha : pred a
    · exact ⟨[], a, rest, rfl, fun x hx => absurd hx (List.not_mem_nil _), ha⟩
    · obtain ⟨c, hc, hpc⟩ := hex
      have hc2 : c ∈ rest := by
        rcases List.mem_cons.1 hc with e | e
        · subst e; exact absurd hpc ha
        · exact e
      obtain ⟨pre, c2, post, e, h1, h2⟩ := ih ⟨c, hc2, hpc⟩
      refine ⟨a :: pre, c2, post, by rw [e]; rfl, ?_, h2⟩
      intro x hx
      rcases List.mem_cons.1 hx with e2 | e2
      · subst e2; exact ha
      · exact h1 x e2

/-- The descent exists from every node. -/
theorem Desc.exists {h : List (Option KateCodeFoldingNode)} {A : Nat → Nat}
    {d : Nat → Nat} (hn : Sane h A d) (line : Nat) :
    ∀ (k p : Nat) (n : KateCodeFoldingNode), h.length - d p ≤ k → h[p]? = some (some n) →
      ∃ l, Desc h A line p l := by
  intro k
  induction k with
  | zero =>
    intro p n hk hp
    have := hn.rank_lt hp
    omega
  | succ k ih =>
    intro p n hk hp
    by_cases hex : ∃ c ∈ n.childnodes,
        ∃ cn : KateCodeFoldingNode, h[c]? = some (some cn) ∧ Holds A line c cn
    · obtain ⟨pre, c, post, e, h1, cn, hc, hh⟩ := list_first _ n.childnodes hex
      have hk2 : c ∈ heapChildren h p := by rw [heapChildren_eq hp, e]; simp
      have hlt := (hn.child_facts hk2).1
      obtain ⟨l, hl⟩ := ih c cn (by omega) hc
      exact ⟨l ++ [p], Desc.step p n pre c post cn l hp e
        (fun x hx xn hxn hxh => h1 x hx ⟨xn, hxn, hxh⟩) hc hh hl⟩
    · refine ⟨[p], Desc.stop p n hp ?_⟩
      intro c hc cn hcn hh
      exact hex ⟨c, hc, cn, hcn, hh⟩

theorem firstChild_eval (s : KateCodeFoldingTree) (pred : KateCodeFoldingNode → Bool) :
    ∀ (pre : List Nat) (k c : Nat) (post : List Nat) (cn : KateCodeFoldingNode),
      (∀ x ∈ pre, ∃ xn : KateCodeFoldingNode, s.heap[x]? = some (some xn) ∧ pred xn = false) →
      s.heap[c]? = some (some cn) → pred cn = true →
      firstChild s pred (pre ++ c :: post) k = .ok (some (k + pre.length, c)) := by
  intro pre
  induction pre with
  | nil =>
    intro k c post cn _ hc hp
    simp only [List.nil_append, firstChild, node_of_heap hc, hp, if_true, List.length_nil,
      Nat.add_zero]
  | cons a rest ih =>
    intro k c post cn hpre hc hp
    obtain ⟨an, ha, hpa⟩ := hpre a (List.mem_cons_self _ _)
    have hih := ih (k + 1) c post cn (fun x hx => hpre x (List.mem_cons_of_mem _ hx)) hc hp
    rw [List.cons_append]
    unfold firstChild
    simp only [node_of_heap ha, hpa, Bool.false_eq_true, if_false]
    rw [hih]
    simp only [List.length_cons]
    congr 3
    omega

theorem firstChild_none (s : KateCodeFoldingTree) (pred : KateCodeFoldingNode → Bool) :
    ∀ (cs : List Nat) (k : Nat),
      (∀ x ∈ cs, ∃ xn : KateCodeFoldingNode, s.heap[x]? = some (some xn) ∧ pred xn = false) →
      firstChild s pred cs k = .ok none := by
  intro cs
  induction cs with
  | nil => intro k _; rfl
  | cons a rest ih =>
    intro k hpre
    obtain ⟨an, ha, hpa⟩ := hpre a (List.mem_cons_self _ _)
    simp only [firstChild, node_of_heap ha, hpa, Bool.false_eq_true, if_false]
    exact ih (k + 1) (fun x hx => hpre x (List.mem_cons_of_mem _ hx))

/-- The two range tests of the descent on a cell whose offsets may have been
moved, in terms of the absolute start `ax` of the unmoved node. -/
theorem range_test (bP bS : Bool) (m : KateCodeFoldingNode) (a ax line : Nat)
    (h1 : a + m.startLineRel = ax) (h2 : ax + m.endLineRel < 4294967295)
    (h3 : bP = false ∨ bS = false) :
    ((uadd (bumpNode bP bS m).startLineRel a ≤ line ∧
        line ≤ uadd (uadd (bumpNode bP bS m).endLineRel (bumpNode bP bS m).startLineRel) a) ↔
      (ax + (if bS then 1 else 0) ≤ line ∧
        line ≤ ax + m.endLineRel + (if bS then 1 else 0) + (if bP then 1 else 0))) := by
  unfold uadd bumpNode
  cases bP <;> cases bS <;> simp at h3 <;> simp <;> constructor <;> intro ⟨h3, h4⟩ <;>
    constructor <;> omega

theorem range_test_root (bP bS : Bool) (m : KateCodeFoldingNode) (ax line : Nat)
    (h1 : m.startLineRel = ax) (h2 : ax + m.endLineRel < 4294967295)
    (h3 : bP = false ∨ bS = false) :
    (((bumpNode bP bS m).startLineRel ≤ line ∧
        line ≤ uadd (bumpNode bP bS m).startLineRel (bumpNode bP bS m).endLineRel) ↔
      (ax + (if bS then 1 else 0) ≤ line ∧
        line ≤ ax + m.endLineRel + (if bS then 1 else 0) + (if bP then 1 else 0))) := by
  unfold uadd bumpNode
  cases bP <;> cases bS <;> simp at h3 <;> simp <;> constructor <;> intro ⟨h3, h4⟩ <;>
    constructor <;> omega

theorem UpPath.top_mem {h : List (Option KateCodeFoldingNode)} {top : Nat} :
    ∀ {l : List Nat}, UpPath h top l → top ∈ l := by
  intro l
  induction l with
  | nil => intro hu; exact hu.elim
  | cons x rest ih =>
    intro hu
    cases rest with
    | nil =>
      simp only [UpPath] at hu
      subst hu
      exact List.mem_cons_self _ _
    | cons y r2 => exact List.mem_cons_of_mem _ (ih hu.2)

/-- The cell of a path node in the shifted heap: same links and start offset. -/
theorem Bumped.path_cell {h : List (Option KateCodeFoldingNode)} {A : Nat → Nat}
    {d : Nat → Nat} (hn : Sane h A d) (line : Nat) {h1 : List (Option KateCodeFoldingNode)}
    {up : List Nat} (hu : UpPath h 0 up) {P S : List Nat} (hb : Bumped h h1 P S)
    (hS : ∀ x ∈ S, x ∈ shiftSet h A line up) {p : Nat} {n : KateCodeFoldingNode}
    (hp : p ∈ up) (hpn : h[p]? = some (some n)) :
    ∃ n1 : KateCodeFoldingNode, h1[p]? = some (some n1) ∧ n1.startLineRel = n.startLineRel ∧
      n1.childnodes = n.childnodes ∧ n1.parentNode = n.parentNode ∧ n1.type = n.type ∧
      n1.endLineRel = (if p ∈ P then n.endLineRel + 1 else n.endLineRel) ∧
      n1.endLineValid = n.endLineValid ∧ n1.deleteOpening = n.deleteOpening ∧
      n1.deleteEnding = n.deleteEnding ∧ n1.startLineValid = n.startLineValid := by
  have hpS : p ∉ S := fun hm => path_not_shifted hn line hu hp (hS p hm)
  refine ⟨_, hb.live hpn, ?_⟩
  simp [bumpNode, hpS]

/-- The cell of a child in the shifted heap fails or passes the range test of
the descent as the unmoved child does, given where it stands. -/
theorem desc_eval {h : List (Option KateCodeFoldingNode)} {A : Nat → Nat}
    {d : Nat → Nat} (hn : Sane h A d) (line : Nat)
    (s1 : KateCodeFoldingTree) {up : List Nat} (hu : UpPath h 0 up) {P S : List Nat}
    (hb : Bumped h s1.heap P S) (hP : ∀ x ∈ P, x ∈ up)
    (hS : ∀ x ∈ S, x ∈ shiftSet h A line up) :
    ∀ {p : Nat} {l : List Nat}, Desc h A line p l → (∀ x ∈ l, x ∈ up) → up.head? = l.head? →
      ∀ (fuel o : Nat) (n : KateCodeFoldingNode), h.length - d p < fuel →
        h[p]? = some (some n) → uadd o n.startLineRel = A p →
        findNodeForLineDescending s1 fuel p line o false = .ok (l.headD 0) := by
  intro p l hd
  induction hd with
  | stop p n0 hp0 hs =>
    intro hall hhead fuel o n hf hpn ho
    rw [hp0] at hpn
    cases hpn
    cases fuel with
    | zero => omega
    | succ f =>
      have hpup : p ∈ up := hall p (List.mem_singleton_self _)
      obtain ⟨n1, hcell, hst1, hch1, _⟩ := hb.path_cell hn line hu hS hpup hp0
      cases up with
      | nil => exact hu.elim
      | cons q rest =>
        simp only [List.head?_cons, Option.some.injEq] at hhead
        subst hhead
        unfold findNodeForLineDescending
        simp only [node_of_heap hcell, hst1, ho, hch1]
        have hfc := firstChild_none s1 (fun subNode =>
          decide (uadd subNode.startLineRel (A q) ≤ line ∧
            line ≤ uadd (uadd subNode.endLineRel subNode.startLineRel) (A q))) n0.childnodes 0
          (by
            intro x hx
            have hxk : x ∈ heapChildren h q := by rw [heapChildren_eq hp0]; exact hx
            obtain ⟨_, _, xn, hxn, hxp⟩ := hn.child_facts hxk
            obtain ⟨_, _, _, hA, _, _, hE⟩ := hn.parent_facts hxn hxp
            obtain ⟨hx1, _, hx3⟩ := child_of_head hn line hu hxk
            have hxP : x ∉ P := fun hm => hx1 (hP x hm)
            refine ⟨_, hb.live hxn, ?_⟩
            rw [decide_eq_false_iff_not, range_test (decide (x ∈ P)) (decide (x ∈ S)) xn (A q) (A x) line
              hA hE (Or.inl (by simpa using hxP))]
            by_cases hxS : x ∈ S
            · have := hx3 (hS x hxS)
              simp only [hxS, decide_True, if_true]
              omega
            · have := hs x hx xn hxn
              unfold Holds at this
              simp only [hxS, hxP, decide_False, Bool.false_eq_true, if_false]
              omega)
        rw [hfc]
        rfl
  | step p n0 pre c post cn l hp0 hch hpre hc hh hd ih =>
    intro hall hhead fuel o n hf hpn ho
    rw [hp0] at hpn
    cases hpn
    cases fuel with
    | zero => omega
    | succ f =>
      have hpup : p ∈ up := hall p (by simp)
      have hcl : c ∈ l := UpPath.top_mem (hd.upPath hn)
      have hcup : c ∈ up := hall c (List.mem_append_left _ hcl)
      obtain ⟨n1, hcell, hst1, hch1, _⟩ := hb.path_cell hn line hu hS hpup hp0
      have hck : c ∈ heapChildren h p := by rw [heapChildren_eq hp0, hch]; simp
      obtain ⟨hpc, _, cn2, hcn2, hcp⟩ := hn.child_facts hck
      rw [hc] at hcn2
      cases hcn2
      obtain ⟨_, _, _, hAc, _, _, hEc⟩ := hn.parent_facts hc hcp
      have hcS : c ∉ S := fun hm => path_not_shifted hn line hu hcup (hS c hm)
      unfold findNodeForLineDescending
      simp only [node_of_heap hcell, hst1, ho, hch1, hch]
      have hfc := firstChild_eval s1 (fun subNode =>
          decide (uadd subNode.startLineRel (A p) ≤ line ∧
            line ≤ uadd (uadd subNode.endLineRel subNode.startLineRel) (A p))) pre 0 c post _
          (by
            intro x hx
            have hxk : x ∈ heapChildren h p := by rw [heapChildren_eq hp0, hch]; simp [hx]
            obtain ⟨_, _, xn, hxn, hxp⟩ := hn.child_facts hxk
            obtain ⟨_, _, _, hA, _, _, hE⟩ := hn.parent_facts hxn hxp
            obtain ⟨hx1, hx2⟩ := before_not_shifted hn line hu hp0 hch hcup hc hcp hx
            have hxP : x ∉ P := fun hm => hx1 (hP x hm)
            have hxS : x ∉ S := fun hm => hx2 (hS x hm)
            refine ⟨_, hb.live hxn, ?_⟩
            rw [decide_eq_false_iff_not, range_test (decide (x ∈ P)) (decide (x ∈ S)) xn (A p) (A x) line
              hA hE (Or.inl (by simpa using hxP))]
            have := hpre x hx xn hxn
            unfold Holds at this
            simp only [hxS, hxP, decide_False, Bool.false_eq_true, if_false]
            omega)
          (hb.live hc)
          (by
            rw [decide_eq_true_iff, range_test (decide (c ∈ P)) (decide (c ∈ S)) cn (A p) (A c) line
              hAc hEc (Or.inr (by simpa using hcS))]
            unfold Holds at hh
            simp only [hcS, decide_False, Bool.false_eq_true, if_false]
            split <;> omega)
      rw [hfc]
      simp only [Bool.false_eq_true, if_false]
      have hne := hd.ne_nil
      have hclt := hn.rank_lt hc
      have hres := ih (fun x hx => hall x (List.mem_append_left _ hx))
        (by
          rw [hhead]
          cases l with
          | nil => exact absurd rfl hne
          | cons a r => rfl)
        f (A p) cn (by omega) hc (by unfold uadd; omega)
      rw [hres]
      cases l with
      | nil => exact absurd rfl hne
      | cons a r => rfl

/-- Every node is shorter than the unsigned range. -/
theorem Sane.end_bound {h : List (Option KateCodeFoldingNode)} {A : Nat → Nat}
    {d : Nat → Nat} (hn : Sane h A d) {x : Nat} {n : KateCodeFoldingNode}
    (hx : h[x]? = some (some n)) : n.endLineRel < 4294967295 := by
  by_cases h0 : x = 0
  · subst h0
    obtain ⟨r, hr, _, _, he⟩ := hn.root
    rw [hx] at hr
    cases hr
    exact he
  · obtain ⟨_, _, _, _, _, _, _, _, _, hb⟩ := hn.cell x n (by omega) hx
    omega

/-- Result of `findNodeForLine` on the tree and on the shifted tree: the innermost node
of the descent. -/
theorem findNodeForLine_bumped {h : List (Option KateCodeFoldingNode)} {A : Nat → Nat}
    {d : Nat → Nat} (hn : Sane h A d) (line : Nat)
    (s1 : KateCodeFoldingTree) {up : List Nat} (hd : Desc h A line 0 up) {P S : List Nat}
    (hb : Bumped h s1.heap P S) (hP : ∀ x ∈ P, x ∈ up)
    (hS : ∀ x ∈ S, x ∈ shiftSet h A line up) :
    findNodeForLine s1 line = .ok (up.headD 0) := by
  have hu := hd.upPath hn
  have h0up : 0 ∈ up := UpPath.top_mem hu
  have ha0 := hn.a0
  cases hd with
  | stop _ n0 hp0 hs =>
    obtain ⟨n1, hcell, hst1, hch1, _⟩ := hb.path_cell hn line hu hS h0up hp0
    unfold findNodeForLine
    simp only [node_of_heap hcell, hch1]
    have hfc := firstChild_none s1 (fun node =>
        decide (node.startLineRel ≤ line ∧ line ≤ uadd node.startLineRel node.endLineRel))
        n0.childnodes 0
        (by
          intro x hx
          have hxk : x ∈ heapChildren h 0 := by rw [heapChildren_eq hp0]; exact hx
          obtain ⟨_, _, xn, hxn, hxp⟩ := hn.child_facts hxk
          obtain ⟨_, _, _, hA, _, _, hE⟩ := hn.parent_facts hxn hxp
          obtain ⟨hx1, _, hx3⟩ := child_of_head hn line hu hxk
          have hxP : x ∉ P := fun hm => hx1 (hP x hm)
          refine ⟨_, hb.live hxn, ?_⟩
          rw [decide_eq_false_iff_not, range_test_root (decide (x ∈ P)) (decide (x ∈ S)) xn (A x) line
            (by omega) hE (Or.inl (by simpa using hxP))]
          by_cases hxS : x ∈ S
          · have := hx3 (hS x hxS)
            simp only [hxS, decide_True, if_true]
            omega
          · have := hs x hx xn hxn
            unfold Holds at this
            simp only [hxS, hxP, decide_False, Bool.false_eq_true, if_false]
            omega)
    rw [hfc]
    rfl
  | step _ n0 pre c post cn l hp0 hch hpre hc hh hd =>
    obtain ⟨n1, hcell, hst1, hch1, _⟩ := hb.path_cell hn line hu hS h0up hp0
    have hcl : c ∈ l := UpPath.top_mem (hd.upPath hn)
    have hcup : c ∈ l ++ [0] := List.mem_append_left _ hcl
    have hck : c ∈ heapChildren h 0 := by rw [heapChildren_eq hp0, hch]; simp
    obtain ⟨hpc, _, cn2, hcn2, hcp⟩ := hn.child_facts hck
    rw [hc] at hcn2
    cases hcn2
    obtain ⟨_, _, _, hAc, _, _, hEc⟩ := hn.parent_facts hc hcp
    have hcS : c ∉ S := fun hm => path_not_shifted hn line hu hcup (hS c hm)
    unfold findNodeForLine
    simp only [node_of_heap hcell, hch1, hch]
    have hfc := firstChild_eval s1 (fun node =>
        decide (node.startLineRel ≤ line ∧ line ≤ uadd node.startLineRel node.endLineRel))
        pre 0 c post _
        (by
          intro x hx
          have hxk : x ∈ heapChildren h 0 := by rw [heapChildren_eq hp0, hch]; simp [hx]
          obtain ⟨_, _, xn, hxn, hxp⟩ := hn.child_facts hxk
          obtain ⟨_, _, _, hA, _, _, hE⟩ := hn.parent_facts hxn hxp
          obtain ⟨hx1, hx2⟩ := before_not_shifted hn line hu hp0 hch hcup hc hcp hx
          have hxP : x ∉ P := fun hm => hx1 (hP x hm)
          have hxS : x ∉ S := fun hm => hx2 (hS x hm)
          refine ⟨_, hb.live hxn, ?_⟩
          rw [decide_eq_false_iff_not, range_test_root (decide (x ∈ P)) (decide (x ∈ S)) xn (A x) line
            (by omega) hE (Or.inl (by simpa using hxP))]
          have := hpre x hx xn hxn
          unfold Holds at this
          simp only [hxS, hxP, decide_False, Bool.false_eq_true, if_false]
          omega)
        (hb.live hc)
        (by
          rw [decide_eq_true_iff, range_test_root (decide (c ∈ P)) (decide (c ∈ S)) cn (A c) line
            (by omega) hEc (Or.inr (by simpa using hcS))]
          unfold Holds at hh
          simp only [hcS, decide_False, Bool.false_eq_true, if_false]
          split <;> omega)
    rw [hfc]
    simp only []
    have hne := hd.ne_nil
    have hclt := hn.rank_lt hc
    have hres := desc_eval hn line s1 hu hb hP hS hd
      (fun x hx => List.mem_append_left _ hx)
      (by
        cases l with
        | nil => exact absurd rfl hne
        | cons a r => rfl)
      (s1.heap.length + 1) 0 cn (by rw [hb.length]; omega) hc (by unfold uadd; omega)
    rw [hres]
    cases l with
    | nil => exact absurd rfl hne
    | cons a r => rfl

theorem UpPath.length_le {h : List (Option KateCodeFoldingNode)} {A : Nat → Nat}
    {d : Nat → Nat} (hn : Sane h A d) {top : Nat} :
    ∀ {l : List Nat} {x : Nat}, UpPath h top (x :: l) → l.length ≤ d x := by
  intro l
  induction l with
  | nil => intro x _; exact Nat.zero_le _
  | cons y rest ih =>
    intro x hu
    have h1 := (UpPath.lt hn hu).1 y (List.mem_cons_self _ _)
    have h2 := ih hu.2
    simp only [List.length_cons]
    omega

theorem UpPath.suffix {h : List (Option KateCodeFoldingNode)} {top : Nat} :
    ∀ {l : List Nat} {x : Nat}, UpPath h top l → x ∈ l →
      ∃ l2, UpPath h top (x :: l2) ∧ ∀ y ∈ x :: l2, y ∈ l := by
  intro l
  induction l with
  | nil => intro x hu; exact hu.elim
  | cons a rest ih =>
    intro x hu hx
    rcases List.mem_cons.1 hx with e | e
    · subst e
      exact ⟨rest, hu, fun y hy => hy⟩
    · cases rest with
      | nil => cases e
      | cons b r2 =>
        obtain ⟨l2, h1, h2⟩ := ih hu.2 e
        exact ⟨l2, h1, fun y hy => List.mem_cons_of_mem _ (h2 y hy)⟩

theorem getStartLineLoop_path {h : List (Option KateCodeFoldingNode)} {A : Nat → Nat}
    {d : Nat → Nat} (hn : Sane h A d) (line : Nat)
    (s1 : KateCodeFoldingTree) {up : List Nat} (hu : UpPath h 0 up) {P S : List Nat}
    (hb : Bumped h s1.heap P S) (hS : ∀ x ∈ S, x ∈ shiftSet h A line up) :
    ∀ (l : List Nat) (x : Nat), UpPath h 0 (x :: l) → (∀ y ∈ x :: l, y ∈ up) →
      ∀ fuel acc : Nat, l.length < fuel → acc + A x < 4294967296 →
        getStartLineLoop s1 fuel x acc = .ok (acc + A x) := by
  intro l
  induction l with
  | nil =>
    intro x hx hall fuel acc hf hacc
    simp only [UpPath] at hx
    subst hx
    obtain ⟨r, hr, ht, _⟩ := hn.root
    obtain ⟨n1, hcell, _, _, _, ht1, _⟩ :=
      hb.path_cell hn line hu hS (hall 0 (List.mem_cons_self _ _)) hr
    cases fuel with
    | zero => omega
    | succ f =>
      unfold getStartLineLoop
      simp only [node_of_heap hcell, ht1, ht, ne_eq, not_true_eq_false, if_false, hn.a0,
        Nat.add_zero]
  | cons y rest ih =>
    intro x hx hall fuel acc hf hacc
    obtain ⟨⟨n, hxn, hxp⟩, hr⟩ := hx
    obtain ⟨_, _, _, hA, _, ht, _⟩ := hn.parent_facts hxn hxp
    obtain ⟨n1, hcell, hst1, _, hp1, ht1, _⟩ :=
      hb.path_cell hn line hu hS (hall x (List.mem_cons_self _ _)) hxn
    cases fuel with
    | zero => omega
    | succ f =>
      unfold getStartLineLoop
      have hne : n.type ≠ 0 := by omega
      simp only [node_of_heap hcell, ht1, hne, ne_eq, not_false_eq_true, if_true, hp1, hxp, hst1]
      have hua : uadd acc n.startLineRel = acc + n.startLineRel := by
        unfold uadd
        omega
      rw [hua, ih y hr (fun z hz => hall z (List.mem_cons_of_mem _ hz)) f _
        (by simp only [List.length_cons] at hf; omega) (by omega)]
      congr 1
      omega

/-- Result of `getStartLine` of a path node, on the tree and on the shifted tree. -/
theorem getStartLine_path {h : List (Option KateCodeFoldingNode)} {A : Nat → Nat}
    {d : Nat → Nat} (hn : Sane h A d) (line : Nat)
    (s1 : KateCodeFoldingTree) {up : List Nat} (hu : UpPath h 0 up) {P S : List Nat}
    (hb : Bumped h s1.heap P S) (hS : ∀ x ∈ S, x ∈ shiftSet h A line up) {x : Nat}
    (hx : x ∈ up) : getStartLine s1 x = .ok (A x) ∧ A x < 4294967295 := by
  obtain ⟨l2, h1, h2⟩ := UpPath.suffix hu hx
  have hlen := UpPath.length_le hn h1
  have hAx : A x < 4294967295 := by
    cases l2 with
    | nil =>
      simp only [UpPath] at h1
      subst h1
      rw [hn.a0]
      omega
    | cons y r =>
      obtain ⟨⟨n, hxn, hxp⟩, _⟩ := h1
      exact (hn.parent_facts hxn hxp).2.2.2.2.1
  have hxl : d x < h.length := by
    cases l2 with
    | nil =>
      simp only [UpPath] at h1
      subst h1
      obtain ⟨r, hr, _⟩ := hn.root
      exact hn.rank_lt hr
    | cons y r =>
      obtain ⟨⟨n, hxn, hxp⟩, _⟩ := h1
      exact hn.rank_lt hxn
  refine ⟨?_, hAx⟩
  unfold getStartLine
  rw [getStartLineLoop_path hn line s1 hu hb hS l2 x h1 h2 _ 0
    (by rw [hb.length]; omega) (by omega)]
  simp

/-- The later siblings of a path node lie outside the sets of the steps above. -/
theorem sibs_level {h : List (Option KateCodeFoldingNode)} {A : Nat → Nat}
    {d : Nat → Nat} (hn : Sane h A d) {after a : Nat} {rest : List Nat}
    (hu : UpPath h 0 (after :: a :: rest)) :
    (siblingsAfter (heapChildren h a) after).Nodup ∧
    (∀ x ∈ siblingsAfter (heapChildren h a) after, x ∉ sibs h (a :: rest) ∧
      ∃ n : KateCodeFoldingNode, h[x]? = some (some n) ∧ n.startLineRel + 1 < 4294967296) := by
  obtain ⟨⟨na, hna, hnp⟩, hr⟩ := hu
  have hak := (hn.parent_facts hna hnp).2.2.1
  have hnd := (hn.child_facts hak).2.1
  refine ⟨(siblingsAfter_sublist _ _).nodup hnd, ?_⟩
  intro x hx
  have hxk := (siblingsAfter_sublist _ _).subset hx
  obtain ⟨_, _, m, hm, hmp⟩ := hn.child_facts hxk
  obtain ⟨_, _, _, hA, hAx, _, _⟩ := hn.parent_facts hm hmp
  refine ⟨?_, m, hm, by omega⟩
  intro e
  obtain ⟨c2, y, hc2, hy, ⟨n2, hcn2, hcp2⟩, hxs⟩ := mem_sibs hr e
  have hk := siblingsAfter_mem (by
    by_cases hh : x ∈ heapChildren h y
    · exact (hn.child_facts hh).2.1
    · exact absurd ((siblingsAfter_sublist _ _).subset hxs) hh) hxs
  obtain ⟨_, _, m2, hm2, hmp2⟩ := hn.child_facts hk.1
  rw [hm] at hm2
  cases hm2
  rw [hmp] at hmp2
  cases hmp2
  have h3 := (hn.parent_facts hcn2 hcp2).1
  have h4 := UpPath.head_max hn hr hc2
  omega

/-- Effect of `incrementBy1` along the path of ancestors. -/
theorem incrementBy1_bumped {h : List (Option KateCodeFoldingNode)} {A : Nat → Nat}
    {d : Nat → Nat} (hn : Sane h A d) :
    ∀ (rest : List Nat) (after a : Nat) (cur : KateCodeFoldingTree) (P S : List Nat)
      (fuel : Nat), UpPath h 0 (after :: a :: rest) → Bumped h cur.heap P S →
      (∀ x ∈ a :: rest, x ∉ P) → (∀ x ∈ sibs h (after :: a :: rest), x ∉ S) →
      rest.length < fuel →
      ∃ cur2, incrementBy1 fuel cur a after = .ok cur2 ∧
        Bumped h cur2.heap ((a :: rest) ++ P) (sibs h (after :: a :: rest) ++ S) := by
  intro rest
  induction rest with
  | nil =>
    intro after a cur P S fuel hu hb hP hS hf
    obtain ⟨hnd, hlev⟩ := sibs_level hn hu
    obtain ⟨⟨na, hna, hnp⟩, hr⟩ := hu
    simp only [UpPath] at hr
    subst hr
    obtain ⟨r, hr, _, hrp, hre⟩ := hn.root
    have hcell := hb.live hr
    cases fuel with
    | zero => omega
    | succ f =>
      have hb1 := hb.add_end 0 (hP 0 (List.mem_cons_self _ _))
        (by intro n hn0; rw [hr] at hn0; cases hn0; omega)
      have hb2 := hb1.add_starts (siblingsAfter (heapChildren h 0) after) hnd
        (fun x hx => hS x (by simp [sibs, hx]))
        (by
          intro x hx n hxn
          obtain ⟨_, m, hm, hbd⟩ := hlev x hx
          rw [hxn] at hm
          cases hm
          exact hbd)
      refine ⟨_, ?_, hb2.sets_congr ?_ ?_⟩
      · unfold incrementBy1
        simp only [node_of_heap hcell, Res.ok_bind]
        have e1 : (bumpNode (decide (0 ∈ P)) (decide (0 ∈ S)) r).parentNode = none := hrp
        have e2 : (bumpNode (decide (0 ∈ P)) (decide (0 ∈ S)) r).childnodes
            = heapChildren h 0 := by rw [heapChildren_eq hr]; rfl
        rw [e1, e2]
        rfl
      · intro x; simp
      · intro x; simp [sibs]
  | cons b r2 ih =>
    intro after a cur P S fuel hu hb hP hS hf
    obtain ⟨hnd, hlev⟩ := sibs_level hn hu
    obtain ⟨⟨na, hna, hnp⟩, hr⟩ := hu
    obtain ⟨⟨n, han, hap⟩, hr2⟩ := hr
    have hr : UpPath h 0 (a :: b :: r2) := ⟨⟨n, han, hap⟩, hr2⟩
    have hcell := hb.live han
    have hlt := UpPath.lt hn hr
    cases fuel with
    | zero => omega
    | succ f =>
      have hb1 := hb.add_end a (hP a (List.mem_cons_self _ _))
        (by intro n0 hn0; have := hn.end_bound hn0; omega)
      have hb2 := hb1.add_starts (siblingsAfter (heapChildren h a) after) hnd
        (fun x hx => hS x (by simp [sibs, hx]))
        (by
          intro x hx n0 hxn
          obtain ⟨_, m, hm, hbd⟩ := hlev x hx
          rw [hxn] at hm
          cases hm
          exact hbd)
      obtain ⟨cur2, h1, h2⟩ := ih a b _ (a :: P)
        (siblingsAfter (heapChildren h a) after ++ S) f hr hb2
        (by
          intro x hx hmem
          rcases List.mem_cons.1 hmem with e | e
          · have := hlt.1 x hx
            rw [e] at this
            omega
          · exact hP x (List.mem_cons_of_mem _ hx) e)
        (by
          intro x hx hmem
          rcases List.mem_append.1 hmem with e | e
          · exact (hlev x e).1 hx
          · exact hS x (List.mem_append_right _ hx) e)
        (by simp only [List.length_cons] at hf; omega)
      refine ⟨cur2, ?_, ?_⟩
      · unfold incrementBy1
        simp only [node_of_heap hcell, Res.ok_bind]
        have e1 : (bumpNode (decide (a ∈ P)) (decide (a ∈ S)) n).parentNode = some b := hap
        have e2 : (bumpNode (decide (a ∈ P)) (decide (a ∈ S)) n).childnodes
            = heapChildren h a := by rw [heapChildren_eq han]; rfl
        rw [e1, e2]
        exact h1
      · apply h2.sets_congr
        · intro x
          simp only [List.mem_append, List.mem_cons]
          tauto
        · intro x
          simp only [sibs, List.mem_append]
          tauto

/-- Effect of `decrementBy1` along the path of ancestors undoes `incrementBy1`. -/
theorem decrementBy1_bumped {h : List (Option KateCodeFoldingNode)} {A : Nat → Nat}
    {d : Nat → Nat} (hn : Sane h A d) :
    ∀ (rest : List Nat) (after a : Nat) (cur : KateCodeFoldingTree) (P S : List Nat)
      (fuel : Nat), UpPath h 0 (after :: a :: rest) →
      Bumped h cur.heap ((a :: rest) ++ P) (sibs h (after :: a :: rest) ++ S) →
      (∀ x ∈ a :: rest, x ∉ P) → (∀ x ∈ sibs h (after :: a :: rest), x ∉ S) →
      rest.length < fuel →
      ∃ cur2, decrementBy1 fuel cur a after = .ok cur2 ∧ Bumped h cur2.heap P S := by
  intro rest
  induction rest with
  | nil =>
    intro after a cur P S fuel hu hb hP hS hf
    obtain ⟨hnd, hlev⟩ := sibs_level hn hu
    obtain ⟨⟨na, hna, hnp⟩, hr⟩ := hu
    simp only [UpPath] at hr
    subst hr
    obtain ⟨r, hr, _, hrp, hre⟩ := hn.root
    have hcell := hb.live hr
    cases fuel with
    | zero => omega
    | succ f =>
      have hb0 : Bumped h cur.heap (0 :: P) (siblingsAfter (heapChildren h 0) after ++ S) := by
        apply hb.sets_congr
        · intro x; simp
        · intro x; simp [sibs]
      have hb1 := hb0.remove_end (hP 0 (List.mem_cons_self _ _))
        (by intro n hn0; rw [hr] at hn0; cases hn0; omega)
      have hb2 := Bumped.remove_starts (siblingsAfter (heapChildren h 0) after) hb1 hnd
        (fun x hx => hS x (by simp [sibs, hx]))
        (by
          intro x hx n hxn
          obtain ⟨_, m, hm, hbd⟩ := hlev x hx
          rw [hxn] at hm
          cases hm
          exact hbd)
      refine ⟨_, ?_, hb2⟩
      unfold decrementBy1
      simp only [node_of_heap hcell, Res.ok_bind]
      have e1 : (bumpNode (decide (0 ∈ [0] ++ P))
          (decide (0 ∈ sibs h [after, 0] ++ S)) r).parentNode = none := hrp
      have e2 : (bumpNode (decide (0 ∈ [0] ++ P))
          (decide (0 ∈ sibs h [after, 0] ++ S)) r).childnodes
          = heapChildren h 0 := by rw [heapChildren_eq hr]; rfl
      rw [e1, e2]
      rfl
  | cons b r2 ih =>
    intro after a cur P S fuel hu hb hP hS hf
    obtain ⟨hnd, hlev⟩ := sibs_level hn hu
    obtain ⟨⟨na, hna, hnp⟩, hr⟩ := hu
    obtain ⟨⟨n, han, hap⟩, hr2⟩ := hr
    have hr : UpPath h 0 (a :: b :: r2) := ⟨⟨n, han, hap⟩, hr2⟩
    have hcell := hb.live han
    have hlt := UpPath.lt hn hr
    cases fuel with
    | zero => omega
    | succ f =>
      have hb0 : Bumped h cur.heap (a :: ((b :: r2) ++ P))
          (siblingsAfter (heapChildren h a) after ++ (sibs h (a :: b :: r2) ++ S)) := by
        apply hb.sets_congr
        · intro x; simp
        · intro x
          simp only [sibs, List.mem_append]
          tauto
      have hb1 := hb0.remove_end
        (by
          intro hmem
          rcases List.mem_append.1 hmem with e | e
          · have := hlt.1 a e
            omega
          · exact hP a (List.mem_cons_self _ _) e)
        (by intro n0 hn0; have := hn.end_bound hn0; omega)
      have hb2 := Bumped.remove_starts (siblingsAfter (heapChildren h a) after) hb1 hnd
        (by
          intro x hx hmem
          rcases List.mem_append.1 hmem with e | e
          · exact (hlev x hx).1 e
          · exact hS x (by simp [sibs, hx]) e)
        (by
          intro x hx n0 hxn
          obtain ⟨_, m, hm, hbd⟩ := hlev x hx
          rw [hxn] at hm
          cases hm
          exact hbd)
      obtain ⟨cur2, h1, h2⟩ := ih a b _ P S f hr hb2
        (fun x hx => hP x (List.mem_cons_of_mem _ hx))
        (fun x hx => hS x (List.mem_append_right _ hx))
        (by simp only [List.length_cons] at hf; omega)
      refine ⟨cur2, ?_, h2⟩
      unfold decrementBy1
      simp only [node_of_heap hcell, Res.ok_bind]
      have e1 : (bumpNode (decide (a ∈ (a :: b :: r2) ++ P))
          (decide (a ∈ sibs h (after :: a :: b :: r2) ++ S)) n).parentNode = some b := hap
      have e2 : (bumpNode (decide (a ∈ (a :: b :: r2) ++ P))
          (decide (a ∈ sibs h (after :: a :: b :: r2) ++ S)) n).childnodes
          = heapChildren h a := by rw [heapChildren_eq han]; rfl
      rw [e1, e2]
      exact h1

/-- The cell of the innermost node of the descent, and its links. -/
theorem Desc.head_cell {h : List (Option KateCodeFoldingNode)} {A : Nat → Nat}
    {d : Nat → Nat} (hn : Sane h A d) {line q : Nat} {anc : List Nat}
    (hd : Desc h A line 0 (q :: anc)) :
    ∃ n : KateCodeFoldingNode, h[q]? = some (some n) ∧
      (q ≠ 0 → n.type ≠ 0) ∧ n.endLineRel < 4294967295 ∧
      n.childnodes.Nodup ∧ n.parentNode = anc.head? ∧ (anc = [] → q = 0 ∧ n.type = 0) ∧
      (∀ c ∈ n.childnodes, c ∉ sibs h (q :: anc) ∧ ∃ cn : KateCodeFoldingNode,
        h[c]? = some (some cn) ∧ cn.startLineRel + A q = A c ∧ A c + 1 < 4294967296) ∧
      (anc ≠ [] → n.type ≠ 0 ∧ A q ≤ line ∧ line ≤ A q + n.endLineRel ∧
        A (anc.headD 0) ≤ A q ∧ A q + n.endLineRel < 4294967295) := by
  have hu := hd.upPath hn
  obtain ⟨n, hq, _⟩ := hd.head_stop
  simp only [List.headD_cons] at hq
  have he := hn.end_bound hq
  have ht : q ≠ 0 → n.type ≠ 0 := by
    intro h0
    obtain ⟨_, _, _, _, _, _, _, htp, _⟩ := hn.cell q n (by omega) hq
    exact htp
  have hnd := (hn.kids q n hq).1
  refine ⟨n, hq, ht, he, hnd, ?_, ?_, ?_, ?_⟩
  · cases anc with
    | nil =>
      simp only [UpPath] at hu
      subst hu
      obtain ⟨r, hr, _, hrp, _⟩ := hn.root
      rw [hq] at hr
      cases hr
      exact hrp
    | cons a rest =>
      obtain ⟨⟨n2, hq2, hp2⟩, _⟩ := hu
      rw [hq] at hq2
      cases hq2
      exact hp2
  · intro e
    subst e
    simp only [UpPath] at hu
    subst hu
    obtain ⟨r, hr, hrt, _⟩ := hn.root
    rw [hq] at hr
    cases hr
    exact ⟨rfl, hrt⟩
  · intro c hc
    have hck : c ∈ heapChildren h q := by rw [heapChildren_eq hq]; exact hc
    obtain ⟨_, _, cn, hcn, hcp⟩ := hn.child_facts hck
    obtain ⟨_, _, _, hA, hAc, _, _⟩ := hn.parent_facts hcn hcp
    exact ⟨(child_of_head hn line hu hck).2.1, cn, hcn, by omega, by omega⟩
  · intro hne
    cases anc with
    | nil => exact absurd rfl hne
    | cons a rest =>
      obtain ⟨⟨n2, hq2, hp2⟩, _⟩ := hu
      rw [hq] at hq2
      cases hq2
      obtain ⟨_, h0, _, hA, _, htp, hE⟩ := hn.parent_facts hq hp2
      obtain ⟨xn, hxn, hh⟩ := hd.holds q (List.mem_cons_self _ _) (by omega)
      rw [hq] at hxn
      cases hxn
      unfold Holds at hh
      simp only [List.headD_cons]
      exact ⟨htp, hh.1, hh.2, by omega, hE⟩

/-- The call `lineHasBeenInserted` moves the end offsets along the path of the node found
and the start offsets of the shifted cells, and nothing else in the heap, when
the node found is not a closing leaf. -/
theorem lineHasBeenInserted_bumped (s : KateCodeFoldingTree) {A : Nat → Nat}
    {d : Nat → Nat} (hn : Sane s.heap A d) (line : Nat) {q : Nat}
    {anc : List Nat} (hd : Desc s.heap A line 0 (q :: anc))
    (hreg : ∀ n : KateCodeFoldingNode, s.heap[q]? = some (some n) → 0 ≤ n.type) :
    ∃ s1, lineHasBeenInserted s line = .ok s1 ∧
      Bumped s.heap s1.heap (q :: anc) (shiftSet s.heap A line (q :: anc)) := by
  have hu := hd.upPath hn
  obtain ⟨n, hq, _, he, hnd, hpar, hroot, hkids, hinner⟩ := hd.head_cell hn
  have ht := hreg n hq
  unfold lineHasBeenInserted
  dsimp only
  generalize hs0 : ({ s with
      lineMapping := [],
      dontIgnoreUnchangedLines := uadd line 1 :: usub line 1 :: line :: s.dontIgnoreUnchangedLines,
      hiddenLinesCountCacheValid := false } : KateCodeFoldingTree) = s0
  have hheap : s0.heap = s.heap := by rw [← hs0]
  have hb0 : Bumped s.heap s0.heap [] [] := by rw [hheap]; exact Bumped.refl _
  have hq0 : s0.heap[q]? = some (some n) := by rw [hheap]; exact hq
  have hfind := findNodeForLine_bumped hn line s0 hd hb0
    (fun x hx => absurd hx (List.not_mem_nil _)) (fun x hx => absurd hx (List.not_mem_nil _))
  have hgs := (getStartLine_path hn line s0 hu hb0
    (fun x hx => absurd hx (List.not_mem_nil _)) (List.mem_cons_self q anc)).1
  have hb1 := hb0.add_end q (List.not_mem_nil _)
    (by intro m hm; rw [hq] at hm; cases hm; omega)
  obtain ⟨cur2, hfold, hb2⟩ := insert_children A line (A q) [q] n.childnodes _ [] hb1 hnd
    (fun c hc => ⟨List.not_mem_nil _, (hkids c hc).2⟩)
  have hnt : ¬ n.type < 0 := by omega
  simp only [List.headD_cons] at hfind
  simp only [hfind, hgs, Res.ok_bind, node_of_heap hq0, hnt, if_false, hfold, hpar]
  cases anc with
  | nil =>
    refine ⟨_, rfl, hb2.sets_congr (fun _ => Iff.rfl) ?_⟩
    intro x
    simp [shiftSet, sibs, heapChildren_eq hq]
  | cons a rest =>
    have hlt := UpPath.lt hn hu
    have hlen := UpPath.length_le hn hu.2
    obtain ⟨⟨_, hq2, hp2⟩, hu2⟩ := hu
    have hal : d a < s.heap.length := by
      have := (hn.parent_facts hq2 hp2).1
      have := hn.rank_lt hq2
      omega
    obtain ⟨cur3, hinc, hb3⟩ := incrementBy1_bumped hn rest q a cur2 [q]
      (n.childnodes.filter (fun c => decide (line ≤ A c)) ++ []) (cur2.heap.length + 1)
      ⟨⟨_, hq2, hp2⟩, hu2⟩ hb2
      (by
        intro x hx hmem
        simp only [List.mem_singleton] at hmem
        have := hlt.1 x hx
        rw [hmem] at this
        omega)
      (by
        intro x hx hmem
        simp only [List.append_nil] at hmem
        exact (hkids x (List.mem_of_mem_filter hmem)).1 hx)
      (by rw [hb2.length]; omega)
    simp only [List.head?_cons, hinc, Res.ok_bind, Res.pure_eq]
    refine ⟨_, rfl, hb3.sets_congr ?_ ?_⟩
    · intro x
      simp only [List.mem_append, List.mem_cons, List.mem_singleton, List.not_mem_nil, or_false]
      tauto
    · intro x
      simp only [shiftSet, List.headD_cons, heapChildren_eq hq, List.mem_append,
        List.append_nil]
      tauto

/-- The marking pass of `lineHasBeenRemoved` sets no flag when the node found
neither starts nor ends on the line. -/
theorem findAndMark_shifted {h : List (Option KateCodeFoldingNode)} {A : Nat → Nat}
    {d : Nat → Nat} (hn : Sane h A d) (line : Nat)
    {q : Nat} {anc : List Nat} (hd : Desc h A line 0 (q :: anc)) (hq : A q ≠ line)
    (hf : ∀ n : KateCodeFoldingNode, h[q]? = some (some n) →
      n.deleteOpening = false ∧ n.deleteEnding = false)
    (t : KateCodeFoldingTree) {P S : List Nat}
    (hb : Bumped h t.heap P S) (hP : ∀ x ∈ P, x ∈ q :: anc)
    (hS : ∀ x ∈ S, x ∈ shiftSet h A line (q :: anc))
    (hend : q ∈ P ∨ ∀ n : KateCodeFoldingNode, h[q]? = some (some n) → n.type ≠ 0 →
      A q + n.endLineRel ≠ line) :
    ∃ md, findAndMarkAllNodesforRemovalOpenedOrClosedAt t line =
        .ok { t with markedForDeleting := md } ∧ (md = [] ∨ md = [q]) := by
  have hu := hd.upPath hn
  obtain ⟨n, hqn, ht, he, hnd, hpar, hroot, hkids, hinner⟩ := hd.head_cell hn
  obtain ⟨n1, hcell, hst1, hch1, hp1, ht1, he1, hev1, hdo1, hde1, hsv1⟩ :=
    hb.path_cell hn line hu hS (List.mem_cons_self q anc) hqn
  have hfl := hf n hqn
  unfold findAndMarkAllNodesforRemovalOpenedOrClosedAt
  dsimp only
  generalize ht0 : ({ t with markedForDeleting := [] } : KateCodeFoldingTree) = t0
  have hheap : t0.heap = t.heap := by rw [← ht0]
  have hb0 : Bumped h t0.heap P S := by
    rw [hheap]; exact hb
  have hcell0 : t0.heap[q]? = some (some n1) := by rw [hheap]; exact hcell
  have hfind := findNodeForLine_bumped hn line t0 hd hb0 hP hS
  simp only [List.headD_cons] at hfind
  simp only [hfind, Res.ok_bind, node_of_heap hcell0, ht1]
  cases anc with
  | nil =>
    obtain ⟨_, hty⟩ := hroot rfl
    refine ⟨[], ?_, Or.inl rfl⟩
    simp only [hty, if_true, Res.pure_eq, ← ht0]
  | cons a rest =>
    obtain ⟨htp, hA1, hA2, hA3, hA4⟩ := hinner (by simp)
    simp only [List.headD_cons] at hA3
    have hne : n.type ≠ 0 := htp
    have hgs := (getStartLine_path hn line t0 hu hb0 hS (List.mem_cons_self _ _)).1
    obtain ⟨⟨_, hq2, hp2⟩, hu2⟩ := hu
    rw [hqn] at hq2
    cases hq2
    have hu : UpPath h 0 (q :: a :: rest) := ⟨⟨_, hqn, hp2⟩, hu2⟩
    have hadd : addNodeToRemoveList t0 q line =
        .ok { t0 with markedForDeleting := t0.markedForDeleting ++ [q] } := by
      unfold addNodeToRemoveList
      have hu1 : ¬ (uadd (A q) n1.endLineRel = line) := by
        rw [he1]
        unfold uadd
        rcases hend with hin | hne2
        · simp only [hin, if_true]
          omega
        · have := hne2 n hqn hne
          split <;> omega
      simp only [hgs, Res.ok_bind, hq, false_and, if_false, node_of_heap hcell0, hu1, hdo1,
        hfl.1, Bool.false_eq_true, and_false, or_false, Res.pure_eq]
    refine ⟨[q], ?_, Or.inr rfl⟩
    simp only [hne, if_false, hadd, Res.ok_bind]
    generalize htm : ({ t0 with markedForDeleting := t0.markedForDeleting ++ [q] } :
      KateCodeFoldingTree) = tm
    have hheapm : tm.heap = t.heap := by rw [← htm]; exact hheap
    have hbm : Bumped h tm.heap P S := by
      rw [hheapm]; exact hb
    have hcellm : tm.heap[q]? = some (some n1) := by rw [hheapm]; exact hcell
    have haup : a ∈ q :: a :: rest := by simp
    obtain ⟨an, han, _⟩ : ∃ an : KateCodeFoldingNode, h[a]? = some (some an) ∧ True := by
      cases rest with
      | nil =>
        simp only [UpPath] at hu2
        subst hu2
        obtain ⟨r, hr, _⟩ := hn.root
        exact ⟨r, hr, trivial⟩
      | cons b r2 =>
        obtain ⟨⟨m, hm, _⟩, _⟩ := hu2
        exact ⟨m, hm, trivial⟩
    obtain ⟨an1, hacell, _, _, _, hat1, _⟩ := hbm.path_cell hn line hu hS haup han
    have hgsa := (getStartLine_path hn line tm hu hbm hS haup).1
    have hna : ¬ (A a = line) := by omega
    unfold markAncestors
    simp only [node_of_heap hcellm, Res.ok_bind, hp1, hp2, node_of_heap hacell, hgsa, hna,
      if_false, Res.pure_eq]
    have hfin : tm = { t with markedForDeleting := [q] } := by
      rw [← htm, ← ht0]
      rfl
    rw [hfin]
    split <;> rfl

/-- On the shifted tree the marking pass of `lineHasBeenRemoved` sets no flag
when the node found does not start on the line. -/
theorem findAndMark_bumped {h : List (Option KateCodeFoldingNode)} {A : Nat → Nat}
    {d : Nat → Nat} (hn : Sane h A d) (line : Nat)
    {q : Nat} {anc : List Nat} (hd : Desc h A line 0 (q :: anc)) (hq : A q ≠ line)
    (hf : ∀ n : KateCodeFoldingNode, h[q]? = some (some n) →
      n.deleteOpening = false ∧ n.deleteEnding = false)
    (t : KateCodeFoldingTree)
    (hb : Bumped h t.heap (q :: anc) (shiftSet h A line (q :: anc))) :
    ∃ md, findAndMarkAllNodesforRemovalOpenedOrClosedAt t line =
        .ok { t with markedForDeleting := md } ∧ (md = [] ∨ md = [q]) :=
  findAndMark_shifted hn line hd hq hf t hb (fun _ hx => hx) (fun _ hx => hx)
    (Or.inl (List.mem_cons_self _ _))

/-- The call `lineHasBeenRemoved` on the shifted tree gives the heap back. -/
theorem lineHasBeenRemoved_bumped {h : List (Option KateCodeFoldingNode)} {A : Nat → Nat}
    {d : Nat → Nat} (hn : Sane h A d) (line : Nat)
    {q : Nat} {anc : List Nat} (hd : Desc h A line 0 (q :: anc)) (hq : A q ≠ line)
    (hf : ∀ n : KateCodeFoldingNode, h[q]? = some (some n) →
      n.deleteOpening = false ∧ n.deleteEnding = false)
    (s1 : KateCodeFoldingTree)
    (hb : Bumped h s1.heap (q :: anc) (shiftSet h A line (q :: anc))) :
    ∃ s2, lineHasBeenRemoved s1 line = .ok s2 ∧ s2.heap = h := by
  have hu := hd.upPath hn
  obtain ⟨n, hqn, ht, he, hnd, hpar, hroot, hkids, hinner⟩ := hd.head_cell hn
  have hS : ∀ x ∈ shiftSet h A line (q :: anc), x ∈ shiftSet h A line (q :: anc) :=
    fun _ hx => hx
  have hfl := hf n hqn
  unfold lineHasBeenRemoved
  dsimp only
  generalize hs0 : ({ s1 with
      lineMapping := [],
      dontIgnoreUnchangedLines := uadd line 1 :: usub line 1 :: line :: s1.dontIgnoreUnchangedLines,
      hiddenLinesCountCacheValid := false } : KateCodeFoldingTree) = t
  have hheap : t.heap = s1.heap := by rw [← hs0]
  have hbt : Bumped h t.heap (q :: anc) (shiftSet h A line (q :: anc)) := by
    rw [hheap]; exact hb
  obtain ⟨md, hmark, hmd⟩ := findAndMark_bumped hn line hd hq hf t hbt
  simp only [hmark, Res.ok_bind]
  generalize htm : ({ t with markedForDeleting := md } : KateCodeFoldingTree) = tm
  have hheapm : tm.heap = t.heap := by rw [← htm]
  have hmdm : tm.markedForDeleting = md := by rw [← htm]
  have hbm : Bumped h tm.heap (q :: anc) (shiftSet h A line (q :: anc)) := by
    rw [hheapm]; exact hbt
  obtain ⟨n1, hcell, hst1, hch1, hp1, ht1, he1, hev1, hdo1, hde1, hsv1⟩ :=
    hbm.path_cell hn line hu hS (List.mem_cons_self q anc) hqn
  have hclean : cleanupUnneededNodes tm line = .ok tm := by
    unfold cleanupUnneededNodes
    rw [hmdm]
    rcases hmd with e | e
    · subst e; rfl
    · subst e
      simp only [cleanupLoop, cleanupNode_clear tm q n1 line hcell (by rw [hdo1]; exact hfl.1)
        (by rw [hde1]; exact hfl.2), Res.ok_bind]
  have hfind := findNodeForLine_bumped hn line tm hd hbm (fun _ hx => hx) hS
  simp only [List.headD_cons] at hfind
  have hgs := (getStartLine_path hn line tm hu hbm hS (List.mem_cons_self _ _)).1
  simp only [hclean, Res.ok_bind, hfind, hgs, node_of_heap hcell, hq, if_false, hch1, hp1, hpar]
  have hqanc : q ∉ anc := by
    intro hmem
    have := (UpPath.lt hn hu).1 q hmem
    omega
  have hb1 := hbm.remove_end hqanc (by intro m hm; rw [hqn] at hm; cases hm; omega)
  have hb1b : Bumped h (tm.modify q (fun m =>
      { m with endLineValid := if m.endLineRel = 0 then false else m.endLineValid,
               endLineRel := usub m.endLineRel 1 })).heap anc
      (n.childnodes.filter (fun c => decide (line ≤ A c)) ++ sibs h (q :: anc)) := by
    apply hb1.sets_congr (fun _ => Iff.rfl)
    intro x
    simp only [shiftSet, List.headD_cons, heapChildren_eq hqn]
  obtain ⟨cur2, hfold, hb2⟩ := remove_children A line (A q) anc n.childnodes _
    (sibs h (q :: anc)) hb1b hnd hkids
  simp only [hfold, Res.ok_bind]
  cases anc with
  | nil =>
    refine ⟨cur2, rfl, ?_⟩
    exact Bumped.eq (by simpa [sibs] using hb2)
  | cons a rest =>
    have hlen := UpPath.length_le hn hu.2
    obtain ⟨⟨_, hq2, hp2⟩, hu2⟩ := hu
    have hal : d a < h.length := by
      have := (hn.parent_facts hq2 hp2).1
      have := hn.rank_lt hq2
      omega
    obtain ⟨cur3, hdec, hb3⟩ := decrementBy1_bumped hn rest q a cur2 [] []
      (cur2.heap.length + 1) ⟨⟨_, hq2, hp2⟩, hu2⟩
      (by simpa using hb2)
      (fun x _ => List.not_mem_nil _) (fun x _ => List.not_mem_nil _)
      (by rw [hb2.length]; omega)
    simp only [List.head?_cons, hdec]
    exact ⟨cur3, rfl, Bumped.eq hb3⟩

/-! ## `lineHasBeenRemoved` returns on a well-formed tree -/

theorem Links.links_refl (h : List (Option KateCodeFoldingNode)) : Links h h :=
  ⟨rfl, fun _ n hx => ⟨n, hx, rfl, rfl⟩⟩

theorem modify_length (s : KateCodeFoldingTree) (p : Nat)
    (f : KateCodeFoldingNode → KateCodeFoldingNode) :
    (s.modify p f).heap.length = s.heap.length := by
  unfold KateCodeFoldingTree.modify
  split
  · simp
  · rfl

theorem Links.links_modify {h : List (Option KateCodeFoldingNode)} {cur : KateCodeFoldingTree}
    (hl : Links h cur.heap) (p : Nat) (f : KateCodeFoldingNode → KateCodeFoldingNode)
    (hf : ∀ m : KateCodeFoldingNode, (f m).parentNode = m.parentNode ∧
      (f m).childnodes = m.childnodes) : Links h (cur.modify p f).heap := by
  refine ⟨by rw [modify_length]; exact hl.1, ?_⟩
  intro x n hx
  obtain ⟨n1, h1, e1, e2⟩ := hl.2 x n hx
  rw [lookup_modify, h1]
  simp only [Option.map_some']
  by_cases c : x = p
  · simp only [c, if_true]
    exact ⟨f n1, rfl, by rw [(hf n1).1, e1], by rw [(hf n1).2, e2]⟩
  · simp only [c, if_false]
    exact ⟨n1, rfl, e1, e2⟩

theorem Links.links_foldl {h : List (Option KateCodeFoldingNode)}
    (g : KateCodeFoldingNode → KateCodeFoldingNode)
    (hg : ∀ m : KateCodeFoldingNode, (g m).parentNode = m.parentNode ∧
      (g m).childnodes = m.childnodes) :
    ∀ (l : List Nat) (cur : KateCodeFoldingTree), Links h cur.heap →
      Links h (l.foldl (fun acc t => acc.modify t g) cur).heap := by
  intro l
  induction l with
  | nil => intro cur hl; exact hl
  | cons a rest ih =>
    intro cur hl
    exact ih _ (hl.links_modify a g hg)

/-- The loop of `lineHasBeenRemoved` over the children of the node found
returns. -/
theorem remove_children_returns {h : List (Option KateCodeFoldingNode)} (line a : Nat) :
    ∀ (cs : List Nat) (cur : KateCodeFoldingTree), Links h cur.heap →
      (∀ c ∈ cs, ∃ n : KateCodeFoldingNode, h[c]? = some (some n)) →
      ∃ cur2, cs.foldlM (fun acc c => do
          let cn ← acc.node c
          if uadd cn.startLineRel a ≥ line then
            pure (acc.modify c (fun m => { m with startLineRel := usub m.startLineRel 1 }))
          else pure acc) cur = Res.ok cur2 ∧ Links h cur2.heap := by
  intro cs
  induction cs with
  | nil => intro cur hl _; exact ⟨cur, rfl, hl⟩
  | cons c rest ih =>
    intro cur hl hlive
    obtain ⟨n, hc⟩ := hlive c (List.mem_cons_self _ _)
    obtain ⟨n1, h1, _, _⟩ := hl.2 c n hc
    rw [List.foldlM_cons]
    simp only [node_of_heap h1, Res.ok_bind]
    by_cases ht : uadd n1.startLineRel a ≥ line
    · simp only [ht, if_true, Res.pure_eq, Res.ok_bind]
      exact ih _ (hl.links_modify c _ (fun _ => ⟨rfl, rfl⟩))
        (fun x hx => hlive x (List.mem_cons_of_mem _ hx))
    · simp only [ht, if_false, Res.pure_eq, Res.ok_bind]
      exact ih _ hl (fun x hx => hlive x (List.mem_cons_of_mem _ hx))

/-- The walk of `decrementBy1` up the ancestors returns. -/
theorem decrementBy1_returns {h : List (Option KateCodeFoldingNode)} {A : Nat → Nat}
    {d : Nat → Nat} (hn : Sane h A d) :
    ∀ (rest : List Nat) (after a : Nat) (cur : KateCodeFoldingTree) (fuel : Nat),
      UpPath h 0 (after :: a :: rest) → Links h cur.heap → rest.length < fuel →
      ∃ cur2, decrementBy1 fuel cur a after = .ok cur2 := by
  intro rest
  induction rest with
  | nil =>
    intro after a cur fuel hu hl hf
    obtain ⟨_, hr⟩ := hu
    simp only [UpPath] at hr
    subst hr
    obtain ⟨r, hr, _, hrp, _⟩ := hn.root
    obtain ⟨r1, h1, e1, _⟩ := hl.2 0 r hr
    rw [hrp] at e1
    cases fuel with
    | zero => omega
    | succ f =>
      unfold decrementBy1
      simp only [node_of_heap h1, Res.ok_bind, e1, Res.pure_eq]
      exact ⟨_, rfl⟩
  | cons b r2 ih =>
    intro after a cur fuel hu hl hf
    obtain ⟨_, hr⟩ := hu
    obtain ⟨⟨n, han, hap⟩, hr2⟩ := hr
    obtain ⟨n1, h1, e1, _⟩ := hl.2 a n han
    rw [hap] at e1
    cases fuel with
    | zero => omega
    | succ f =>
      unfold decrementBy1
      simp only [node_of_heap h1, Res.ok_bind, e1]
      exact ih a b _ f ⟨⟨n, han, hap⟩, hr2⟩
        (Links.links_foldl (fun m => { m with startLineRel := usub m.startLineRel 1 })
          (fun _ => ⟨rfl, rfl⟩) _ _
          (hl.links_modify a (fun m =>
            { m with endLineValid := if m.endLineRel = 0 then false else m.endLineValid,
                     endLineRel := usub m.endLineRel 1 }) (fun _ => ⟨rfl, rfl⟩)))
        (by simp only [List.length_cons] at hf; omega)

/-- The call `lineHasBeenRemoved(line)` returns on a well-formed tree when the
node found for the line neither starts nor ends on it and carries no pending
deletion flag. -/
theorem lineHasBeenRemoved_returns (s : KateCodeFoldingTree) {A : Nat → Nat}
    {d : Nat → Nat} (hn : Sane s.heap A d) (line : Nat)
    {q : Nat} {anc : List Nat} (hd : Desc s.heap A line 0 (q :: anc)) (hq : A q ≠ line)
    (hend : ∀ n : KateCodeFoldingNode, s.heap[q]? = some (some n) → n.type ≠ 0 →
      A q + n.endLineRel ≠ line)
    (hf : ∀ n : KateCodeFoldingNode, s.heap[q]? = some (some n) →
      n.deleteOpening = false ∧ n.deleteEnding = false) :
    ∃ s2, lineHasBeenRemoved s line = .ok s2 := by
  have hu := hd.upPath hn
  obtain ⟨n, hqn, ht, he, hnd, hpar, hroot, hkids, hinner⟩ := hd.head_cell hn
  have hNil : ∀ x ∈ ([] : List Nat), x ∈ q :: anc := fun x hx => absurd hx (List.not_mem_nil _)
  have hNilS : ∀ x ∈ ([] : List Nat), x ∈ shiftSet s.heap A line (q :: anc) :=
    fun x hx => absurd hx (List.not_mem_nil _)
  have hfl := hf n hqn
  unfold lineHasBeenRemoved
  dsimp only
  generalize hs0 : ({ s with
      lineMapping := [],
      dontIgnoreUnchangedLines := uadd line 1 :: usub line 1 :: line :: s.dontIgnoreUnchangedLines,
      hiddenLinesCountCacheValid := false } : KateCodeFoldingTree) = t
  have hheap : t.heap = s.heap := by rw [← hs0]
  have hbt : Bumped s.heap t.heap [] [] := by
    rw [hheap]; exact Bumped.refl _
  obtain ⟨md, hmark, hmd⟩ := findAndMark_shifted hn line hd hq hf t hbt hNil hNilS (Or.inr hend)
  simp only [hmark, Res.ok_bind]
  generalize htm : ({ t with markedForDeleting := md } : KateCodeFoldingTree) = tm
  have hheapm : tm.heap = s.heap := by rw [← htm]; exact hheap
  have hmdm : tm.markedForDeleting = md := by rw [← htm]
  have hbm : Bumped s.heap tm.heap [] [] := by
    rw [hheapm]; exact Bumped.refl _
  have hcell : tm.heap[q]? = some (some n) := by rw [hheapm]; exact hqn
  have hclean : cleanupUnneededNodes tm line = .ok tm := by
    unfold cleanupUnneededNodes
    rw [hmdm]
    rcases hmd with e | e
    · subst e; rfl
    · subst e
      simp only [cleanupLoop, cleanupNode_clear tm q n line hcell hfl.1 hfl.2, Res.ok_bind]
  have hfind := findNodeForLine_bumped hn line tm hd hbm hNil hNilS
  simp only [List.headD_cons] at hfind
  have hgs := (getStartLine_path hn line tm hu hbm hNilS (List.mem_cons_self _ _)).1
  simp only [hclean, Res.ok_bind, hfind, hgs, node_of_heap hcell, hq, if_false, hpar]
  have hl0 : Links s.heap tm.heap := by rw [hheapm]; exact Links.links_refl _
  obtain ⟨cur2, hfold, hl2⟩ := remove_children_returns line (A q) n.childnodes _
    (hl0.links_modify q (fun m =>
      { m with endLineValid := if m.endLineRel = 0 then false else m.endLineValid,
               endLineRel := usub m.endLineRel 1 }) (fun _ => ⟨rfl, rfl⟩))
    (fun c hc => by
      obtain ⟨_, cn, hcn, _⟩ := hkids c hc
      exact ⟨cn, hcn⟩)
  simp only [hfold, Res.ok_bind]
  cases anc with
  | nil => exact ⟨cur2, rfl⟩
  | cons a rest =>
    have hlen := UpPath.length_le hn hu.2
    obtain ⟨⟨_, hq2, hp2⟩, hu2⟩ := hu
    have hal : d a < s.heap.length := by
      have := (hn.parent_facts hq2 hp2).1
      have := hn.rank_lt hq2
      omega
    obtain ⟨cur3, hdec⟩ := decrementBy1_returns hn rest q a cur2 (cur2.heap.length + 1)
      ⟨⟨_, hq2, hp2⟩, hu2⟩ hl2 (by rw [hl2.1]; omega)
    simp only [List.head?_cons, hdec]
    exact ⟨cur3, rfl⟩

/-- The loop of `lineHasBeenInserted` over the children of the node found
returns. -/
theorem insert_children_returns {h : List (Option KateCodeFoldingNode)} (line a : Nat) :
    ∀ (cs : List Nat) (cur : KateCodeFoldingTree), Links h cur.heap →
      (∀ c ∈ cs, ∃ n : KateCodeFoldingNode, h[c]? = some (some n)) →
      ∃ cur2, cs.foldlM (fun acc c => do
          let cn ← acc.node c
          if uadd cn.startLineRel a ≥ line then
            pure (acc.modify c (fun m => { m with startLineRel := uadd m.startLineRel 1 }))
          else pure acc) cur = Res.ok cur2 ∧ Links h cur2.heap := by
  intro cs
  induction cs with
  | nil => intro cur hl _; exact ⟨cur, rfl, hl⟩
  | cons c rest ih =>
    intro cur hl hlive
    obtain ⟨n, hc⟩ := hlive c (List.mem_cons_self _ _)
    obtain ⟨n1, h1, _, _⟩ := hl.2 c n hc
    rw [List.foldlM_cons]
    simp only [node_of_heap h1, Res.ok_bind]
    by_cases ht : uadd n1.startLineRel a ≥ line
    · simp only [ht, if_true, Res.pure_eq, Res.ok_bind]
      exact ih _ (hl.links_modify c _ (fun _ => ⟨rfl, rfl⟩))
        (fun x hx => hlive x (List.mem_cons_of_mem _ hx))
    · simp only [ht, if_false, Res.pure_eq, Res.ok_bind]
      exact ih _ hl (fun x hx => hlive x (List.mem_cons_of_mem _ hx))

/-- The walk of `incrementBy1` up the ancestors returns. -/
theorem incrementBy1_returns {h : List (Option KateCodeFoldingNode)} {A : Nat → Nat}
    {d : Nat → Nat} (hn : Sane h A d) :
    ∀ (rest : List Nat) (after a : Nat) (cur : KateCodeFoldingTree) (fuel : Nat),
      UpPath h 0 (after :: a :: rest) → Links h cur.heap → rest.length < fuel →
      ∃ cur2, incrementBy1 fuel cur a after = .ok cur2 := by
  intro rest
  induction rest with
  | nil =>
    intro after a cur fuel hu hl hf
    obtain ⟨_, hr⟩ := hu
    simp only [UpPath] at hr
    subst hr
    obtain ⟨r, hr, _, hrp, _⟩ := hn.root
    obtain ⟨r1, h1, e1, _⟩ := hl.2 0 r hr
    rw [hrp] at e1
    cases fuel with
    | zero => omega
    | succ f =>
      unfold incrementBy1
      simp only [node_of_heap h1, Res.ok_bind, e1, Res.pure_eq]
      exact ⟨_, rfl⟩
  | cons b r2 ih =>
    intro after a cur fuel hu hl hf
    obtain ⟨_, hr⟩ := hu
    obtain ⟨⟨n, han, hap⟩, hr2⟩ := hr
    obtain ⟨n1, h1, e1, _⟩ := hl.2 a n han
    rw [hap] at e1
    cases fuel with
    | zero => omega
    | succ f =>
      unfold incrementBy1
      simp only [node_of_heap h1, Res.ok_bind, e1]
      exact ih a b _ f ⟨⟨n, han, hap⟩, hr2⟩
        (Links.links_foldl (fun m => { m with startLineRel := uadd m.startLineRel 1 })
          (fun _ => ⟨rfl, rfl⟩) _ _
          (hl.links_modify a (fun m => { m with endLineRel := uadd m.endLineRel 1 })
            (fun _ => ⟨rfl, rfl⟩)))
        (by simp only [List.length_cons] at hf; omega)

/-- The call `lineHasBeenInserted(line)` returns on every well-formed tree. -/
theorem lineHasBeenInserted_returns (s : KateCodeFoldingTree) {A : Nat → Nat}
    {d : Nat → Nat} (hn : Sane s.heap A d) (line : Nat) :
    ∃ s1, lineHasBeenInserted s line = .ok s1 := by
  obtain ⟨r, hr, _⟩ := hn.root
  obtain ⟨up, hd⟩ := Desc.exists hn line s.heap.length 0 r (by omega) hr
  cases up with
  | nil => exact absurd rfl hd.ne_nil
  | cons q anc =>
    have hu := hd.upPath hn
    obtain ⟨n, hq, _, he, hnd, hpar, hroot, hkids, hinner⟩ := hd.head_cell hn
    unfold lineHasBeenInserted
    dsimp only
    generalize hs0 : ({ s with
        lineMapping := [],
        dontIgnoreUnchangedLines :=
          uadd line 1 :: usub line 1 :: line :: s.dontIgnoreUnchangedLines,
        hiddenLinesCountCacheValid := false } : KateCodeFoldingTree) = s0
    have hheap : s0.heap = s.heap := by rw [← hs0]
    have hb0 : Bumped s.heap s0.heap [] [] := by rw [hheap]; exact Bumped.refl _
    have hq0 : s0.heap[q]? = some (some n) := by rw [hheap]; exact hq
    have hfind := findNodeForLine_bumped hn line s0 hd hb0
      (fun x hx => absurd hx (List.not_mem_nil _)) (fun x hx => absurd hx (List.not_mem_nil _))
    have hgs := (getStartLine_path hn line s0 hu hb0
      (fun x hx => absurd hx (List.not_mem_nil _)) (List.mem_cons_self q anc)).1
    simp only [List.headD_cons] at hfind
    simp only [hfind, hgs, Res.ok_bind, node_of_heap hq0, hpar]
    have hl0 : Links s.heap s0.heap := by rw [hheap]; exact Links.links_refl _
    have hl1 : Links s.heap (if n.type < 0 then
          s0.modify q (fun m => { m with startLineRel := uadd m.startLineRel 1 })
        else s0.modify q (fun m => { m with endLineRel := uadd m.endLineRel 1 })).heap := by
      split
      · exact hl0.links_modify q _ (fun _ => ⟨rfl, rfl⟩)
      · exact hl0.links_modify q _ (fun _ => ⟨rfl, rfl⟩)
    obtain ⟨cur2, hfold, hl2⟩ := insert_children_returns line (A q) n.childnodes _ hl1
      (fun c hc => by
        obtain ⟨_, cn, hcn, _⟩ := hkids c hc
        exact ⟨cn, hcn⟩)
    simp only [hfold, Res.ok_bind]
    cases anc with
    | nil => exact ⟨_, rfl⟩
    | cons a rest =>
      have hlen := UpPath.length_le hn hu.2
      obtain ⟨⟨_, hq2, hp2⟩, hu2⟩ := hu
      have hal : d a < s.heap.length := by
        have := (hn.parent_facts hq2 hp2).1
        have := hn.rank_lt hq2
        omega
      obtain ⟨cur3, hinc⟩ := incrementBy1_returns hn rest q a cur2 (cur2.heap.length + 1)
        ⟨⟨_, hq2, hp2⟩, hu2⟩ hl2 (by rw [hl2.1]; omega)
      simp only [List.head?_cons, hinc, Res.ok_bind, Res.pure_eq]
      exact ⟨_, rfl⟩

/-! ## Inserting and removing a line (`lineHasBeenInserted`, `lineHasBeenRemoved`) -/

/-- The trees built by ascending runs of `updateLine` with balanced, properly
nested markers, and by the parts of such runs, are well-formed, carry no
pending deletion flag and hold no closing leaf. -/
theorem runLines_sane (pre post : List (Nat × List Int))
    (hasc : ((pre ++ post).map Prod.fst).Pairwise (· < ·))
    (hb : ∀ x ∈ pre ++ post, x.1 ≤ 60000)
    (hbal : stackAfter [] (pre ++ post) = some []) :
    ∃ s A, runLines emptyTree pre = .ok s ∧ Sane s.heap A (fun i => i) ∧ FlagsClear s.heap ∧
      ∀ (i : Nat) (n : KateCodeFoldingNode), s.heap[i]? = some (some n) → 0 ≤ n.type := by
  obtain ⟨st, hst⟩ := stackAfter_append pre post [] [] hbal
  have hasc2 : (pre.map Prod.fst).Pairwise (· < ·) := by
    rw [List.map_append] at hasc
    exact (List.pairwise_append.1 hasc).1
  obtain ⟨s, A, stack, Lm, hrun, hn, hf, _, _⟩ :=
    runLines_emptyTree pre st hasc2 (fun x hx => hb x (List.mem_append_left _ hx)) hst
  refine ⟨s, A, hrun, hn.sane, hf, ?_⟩
  intro i n hi
  by_cases h0 : i = 0
  · subst h0
    obtain ⟨r, hr, ht, _⟩ := hn.root
    rw [hi] at hr
    cases hr
    omega
  · obtain ⟨n2, _, _, hc, _, _, _, _, ht, _⟩ := hn.cell i (by omega) (lt_of_lookup hi)
    rw [hi] at hc
    cases hc
    omega

/-- C8, as stated, fails in three ways.  First, when `L` is the opening line of a
region: on the tree with one region from line 2 to line 5 (built by
`updateLine(2, [+1])` and `updateLine(5, [-1])`), `lineHasBeenInserted(2)`
lengthens the region and `lineHasBeenRemoved(2)` then marks the region, which
still opens on line 2, and deletes its opening: the region node is freed and an
unmatched closing leaf is left in its place.  Second, on a reachable tree whose
offsets have wrapped: `updateLine(0, [+1, -1])` followed by
`lineHasBeenRemoved(0)` leaves an unterminated region with the start offset
`4294967295`; for `L = 1`, which is not the opening line of the node found (the
root), `lineHasBeenInserted(1)` moves that start offset to `0` and
`lineHasBeenRemoved(1)` does not move it back.  Third, when the node found is
an unmatched closing leaf that does not start on `L`: after `updateLine(0, [-1])`,
`updateLine(0, [-2])`, `lineHasBeenInserted(0)`, `lineHasBeenInserted(1)` and
`lineHasBeenInserted(2)` the tree is well-formed and holds a closing leaf
(node 1) that covers lines 0 to 3; for `L = 2` that leaf is the node found,
`lineHasBeenInserted(2)` moves its start to line 1, and `lineHasBeenRemoved(2)`
shortens it instead of moving it back. -/
theorem lineHasBeenInserted_then_removed_drops_region :
    (∃ s s1 s2, runLines emptyTree [(2, [1]), (5, [-1])] = .ok s ∧
      lineHasBeenInserted s 2 = .ok s1 ∧ lineHasBeenRemoved s1 2 = .ok s2 ∧
      s.heap = [some { rootNode with childnodes := [1] },
                some { newNode 0 1 2 with endLineValid := true, endLineRel := 3 }] ∧
      s1.heap = [some { rootNode with childnodes := [1], endLineRel := 60001 },
                 some { newNode 0 1 2 with endLineValid := true, endLineRel := 4 }] ∧
      s2.heap = [some { rootNode with childnodes := [2] }, none,
                 some { newNode 0 (-1) 5 with startLineValid := false, endLineValid := true,
                                              endLineRel := 0 }]) ∧
    (∃ r s s1 s2, updateLine emptyTree 0 [1, -1] true = .ok r ∧
      lineHasBeenRemoved r.tree 0 = .ok s ∧
      findNodeForLine s 1 = .ok 0 ∧ getStartLine s 0 = .ok 0 ∧
      lineHasBeenInserted s 1 = .ok s1 ∧ lineHasBeenRemoved s1 1 = .ok s2 ∧
      s.heap = [some { rootNode with childnodes := [2], endLineRel := 59999 }, none,
                some { newNode 0 1 4294967295 with endLineRel := 60000 }] ∧
      s2.heap = [some { rootNode with childnodes := [2], endLineRel := 59999 }, none,
                 some { newNode 0 1 0 with endLineRel := 59999 }] ∧
      s2.heap ≠ s.heap) ∧
    (∃ s0 t1 t2 s s1 s2 qn qn2, runLines emptyTree [(0, [-1]), (0, [-2])] = .ok s0 ∧
      lineHasBeenInserted s0 0 = .ok t1 ∧ lineHasBeenInserted t1 1 = .ok t2 ∧
      lineHasBeenInserted t2 2 = .ok s ∧
      Sane s.heap (fun i => if i = 2 then 3 else 0) (fun i => i) ∧
      findNodeForLine s 2 = .ok 1 ∧ getStartLine s 1 = .ok 0 ∧
      s.heap[1]? = some (some qn) ∧ qn.type = -1 ∧ qn.endLineRel = 3 ∧
      qn.deleteOpening = false ∧ qn.deleteEnding = false ∧
      lineHasBeenInserted s 2 = .ok s1 ∧ lineHasBeenRemoved s1 2 = .ok s2 ∧
      s2.heap[1]? = some (some qn2) ∧ qn2.startLineRel = 1 ∧ qn2.endLineRel = 2 ∧
      s2.heap ≠ s.heap) := by
  refine ⟨⟨_, _, _, rfl, rfl, rfl, ?_, ?_, ?_⟩,
    ⟨_, _, _, _, rfl, rfl, ?_, ?_, rfl, rfl, ?_, ?_, ?_⟩,
    ⟨_, _, _, _, _, _, _, _, rfl, rfl, rfl, rfl, saneCheck_sound ?_, rfl, rfl, rfl, rfl, rfl,
      rfl, rfl, rfl, rfl, rfl, rfl, rfl, ?_⟩⟩ <;>
    decide

/-- C8, amended: on every well-formed tree and for every line,
`findNodeForLine(line)` returns a node `q`, whose absolute start line is
`A q`; and when `q` does not start on `line` (so for every `line` that is not
the opening line of the innermost node that holds it), is not a closing leaf and
carries no pending deletion flag, `lineHasBeenInserted(line)` followed by
`lineHasBeenRemoved(line)` succeeds and gives back the heap exactly: the same
nodes, the same nesting and every field of every node as before. -/
theorem lineHasBeenInserted_then_removed_restores (s : KateCodeFoldingTree) (A d : Nat → Nat)
    (line : Nat) (hn : Sane s.heap A d) :
    ∃ q qn, findNodeForLine s line = .ok q ∧ s.heap[q]? = some (some qn) ∧
      getStartLine s q = .ok (A q) ∧
      (A q ≠ line → 0 ≤ qn.type → qn.deleteOpening = false → qn.deleteEnding = false →
        ∃ s1 s2, lineHasBeenInserted s line = .ok s1 ∧ lineHasBeenRemoved s1 line = .ok s2 ∧
          s2.heap = s.heap) := by
  obtain ⟨r, hr, _⟩ := hn.root
  obtain ⟨up, hd⟩ := Desc.exists hn line s.heap.length 0 r (by omega) hr
  cases up with
  | nil => exact absurd rfl hd.ne_nil
  | cons q anc =>
    have hu := hd.upPath hn
    have hfind := findNodeForLine_bumped hn line s hd (Bumped.refl _)
      (fun x hx => absurd hx (List.not_mem_nil _)) (fun x hx => absurd hx (List.not_mem_nil _))
    have hgs := (getStartLine_path hn line s hu (Bumped.refl _)
      (fun x hx => absurd hx (List.not_mem_nil _)) (List.mem_cons_self q anc)).1
    obtain ⟨qn, hq, _⟩ := hd.head_cell hn
    refine ⟨q, qn, hfind, hq, hgs, ?_⟩
    intro hne hty hdo hde
    obtain ⟨s1, hins, hb1⟩ := lineHasBeenInserted_bumped s hn line hd
      (fun n hn2 => by rw [hq] at hn2; cases hn2; exact hty)
    obtain ⟨s2, hrem, hh⟩ := lineHasBeenRemoved_bumped hn line hd hne
      (fun n hn2 => by rw [hq] at hn2; cases hn2; exact ⟨hdo, hde⟩) s1 hb1
    exact ⟨s1, s2, hins, hrem, hh⟩

/-- C8, amended, witness: the region from line 2 to line 5 and a line inserted
and removed at line 3. -/
theorem lineHasBeenInserted_then_removed_restores_witness :
    Sane (closedTree 2 5 1).heap (fun i => if i = 1 then 2 else 0) (fun i => i) ∧
    findNodeForLine (closedTree 2 5 1) 3 = .ok 1 ∧ getStartLine (closedTree 2 5 1) 1 = .ok 2 ∧
    ∃ s1 s2, lineHasBeenInserted (closedTree 2 5 1) 3 = .ok s1 ∧
      lineHasBeenRemoved s1 3 = .ok s2 ∧ s2.heap = (closedTree 2 5 1).heap := by
  have hs : Sane (closedTree 2 5 1).heap (fun i => if i = 1 then 2 else 0) (fun i => i) :=
    saneCheck_sound (by decide)
  have hf : findNodeForLine (closedTree 2 5 1) 3 = .ok 1 := by decide
  have hg : getStartLine (closedTree 2 5 1) 1 = .ok 2 := by decide
  obtain ⟨q, qn, hfind, hq, _, himp⟩ :=
    lineHasBeenInserted_then_removed_restores (closedTree 2 5 1)
      (fun i => if i = 1 then 2 else 0) (fun i => i) 3 hs
  rw [hf] at hfind
  cases hfind
  have hq1 : (closedTree 2 5 1).heap[1]? =
      some (some { newNode 0 1 2 with endLineValid := true, endLineRel := 3 }) := by decide
  rw [hq1] at hq
  cases hq
  exact ⟨hs, hf, hg, himp (by decide) (by decide) rfl rfl⟩

/-! ## Runs of `updateLine` over balanced markers -/

/-- C9: starting from the empty tree, let `seq` give, for each of a strictly
ascending list of lines up to `60000`, the marker array of the line (any number
of non-zero markers; `updateLine` takes them from the end of the array, so the
text order of a line is the array read from its last item to its first), such
that the markers read in line order are balanced and properly nested
(`stackAfter [] seq = some []`). Calling `updateLine(line, array, true)` once per
line in ascending order succeeds, and in the resulting tree: the nodes reachable
from the root are exactly the heap cells, the number of nodes other than the
root is `pairCount seq`, the number of open/close pairs without the pairs opened
and closed on one line (twice that number is the number of markers that are not
part of such a same-line pair), every node other than the root has a positive
type and valid start and end, the root has type `0`, and child lists are
duplicate-free with every child pointing back to its parent. -/
theorem updateLine_balanced_run_region_count (seq : List (Nat × List Int))
    (hasc : (seq.map Prod.fst).Pairwise (· < ·)) (hb : ∀ x ∈ seq, x.1 ≤ 60000)
    (hbal : stackAfter [] seq = some []) :
    ∃ s, runLines emptyTree seq = .ok s ∧
      Set.ncard {p | InTree s p ∧ p ≠ 0} = pairCount seq ∧
      2 * pairCount seq = leftCount seq ∧
      (∀ p, InTree s p ↔ p < s.heap.length) ∧
      (∀ p, InTree s p → ∃ n, s.heap[p]? = some (some n) ∧ 0 ≤ n.type ∧
        (p ≠ 0 → 0 < n.type ∧ n.startLineValid = true ∧ n.endLineValid = true)) ∧
      (∀ (p : Nat) (n : KateCodeFoldingNode), s.heap[p]? = some (some n) → n.childnodes.Nodup ∧
        ∀ c ∈ n.childnodes, ∃ m : KateCodeFoldingNode, s.heap[c]? = some (some m) ∧
          m.parentNode = some p) := by
  obtain ⟨s, A, stack, L, hrun, hn, _, hst, hlen⟩ := runLines_emptyTree seq [] hasc hb hbal
  have hstack : stack = [] := by
    cases stack with
    | nil => rfl
    | cons p ps => exact hst.elim
  subst hstack
  have hiff := hn.inTree_iff
  refine ⟨s, hrun, ?_, ?_, hiff, ?_, ?_⟩
  · have hset : {p | InTree s p ∧ p ≠ 0} = ((Finset.Ioo 0 s.heap.length : Finset Nat) : Set Nat) := by
      ext p
      simp only [Set.mem_setOf_eq, Finset.coe_Ioo, Set.mem_Ioo, hiff]
      omega
    rw [hset, Set.ncard_coe_Finset, Nat.card_Ioo, hlen]
    omega
  · have := stackAfter_length seq [] [] (fun t ht => absurd ht (List.not_mem_nil _)) hbal
    simpa using this
  · intro p hp
    have hlt := (hiff p).1 hp
    by_cases h0 : p = 0
    · subst h0
      obtain ⟨r, hr, ht, _⟩ := hn.root
      exact ⟨r, hr, by omega, fun h => absurd rfl h⟩
    · obtain ⟨n, q, qn, hc, _, _, _, _, ht, _, _, hsv, _, hopen⟩ := hn.cell p (by omega) hlt
      refine ⟨n, hc, by omega, fun _ => ⟨ht, hsv, ?_⟩⟩
      cases he : n.endLineValid with
      | true => rfl
      | false => exact absurd (hopen he).1 (List.not_mem_nil _)
  · intro p n hp
    obtain ⟨hnd, hk⟩ := hn.kids p n hp
    exact ⟨hnd, fun c hc => (hk c hc).2.2⟩

/-- C9, witness: the lines `0: {1 {2 {3 }3`, `3: {2`, `4: }2 }2`, `6:` (no marker),
`9: }1 {4 }4`, with the arrays holding the markers of a line last first; three
regions come out (types `1`, `2`, `2`). -/
theorem updateLine_balanced_run_region_count_witness :
    ((([(0, [-3, 3, 2, 1]), (3, [2]), (4, [-2, -2]), (6, []), (9, [-4, 4, -1])] :
        List (Nat × List Int)).map Prod.fst).Pairwise (· < ·) ∧
      (∀ x ∈ ([(0, [-3, 3, 2, 1]), (3, [2]), (4, [-2, -2]), (6, []), (9, [-4, 4, -1])] :
        List (Nat × List Int)), x.1 ≤ 60000) ∧
      stackAfter [] [(0, [-3, 3, 2, 1]), (3, [2]), (4, [-2, -2]), (6, []), (9, [-4, 4, -1])]
        = some []) ∧
    pairCount [(0, [-3, 3, 2, 1]), (3, [2]), (4, [-2, -2]), (6, []), (9, [-4, 4, -1])] = 3 ∧
    ∃ s, runLines emptyTree
        [(0, [-3, 3, 2, 1]), (3, [2]), (4, [-2, -2]), (6, []), (9, [-4, 4, -1])] = .ok s ∧
      Set.ncard {p | InTree s p ∧ p ≠ 0}
        = pairCount [(0, [-3, 3, 2, 1]), (3, [2]), (4, [-2, -2]), (6, []), (9, [-4, 4, -1])] ∧
      2 * pairCount [(0, [-3, 3, 2, 1]), (3, [2]), (4, [-2, -2]), (6, []), (9, [-4, 4, -1])]
        = leftCount [(0, [-3, 3, 2, 1]), (3, [2]), (4, [-2, -2]), (6, []), (9, [-4, 4, -1])] ∧
      (∀ p, InTree s p ↔ p < s.heap.length) ∧
      (∀ p, InTree s p → ∃ n, s.heap[p]? = some (some n) ∧ 0 ≤ n.type ∧
        (p ≠ 0 → 0 < n.type ∧ n.startLineValid = true ∧ n.endLineValid = true)) ∧
      (∀ (p : Nat) (n : KateCodeFoldingNode), s.heap[p]? = some (some n) → n.childnodes.Nodup ∧
        ∀ c ∈ n.childnodes, ∃ m : KateCodeFoldingNode, s.heap[c]? = some (some m) ∧
          m.parentNode = some p) :=
  ⟨⟨by decide, by decide, by decide⟩, by decide,
   updateLine_balanced_run_region_count
     [(0, [-3, 3, 2, 1]), (3, [2]), (4, [-2, -2]), (6, []), (9, [-4, 4, -1])]
     (by decide) (by decide) (by decide)⟩

/-- C10: in every tree reached while such a run is under way (after any prefix
`pre` of a balanced, properly nested, ascending run `pre ++ post` from the empty
tree, with any number of markers per line), every node with `endLineValid = true`
has an absolute start line `a` (the value of `getStartLine`) and an end offset
with `a + endLineRel ≤ 60000`: the closing line is a line of the document not
before the opening line, so `endLineRel` is the true difference, neither
negative as a signed value nor wrapped around. -/
theorem updateLine_balanced_run_end_offsets (pre post : List (Nat × List Int))
    (hasc : ((pre ++ post).map Prod.fst).Pairwise (· < ·))
    (hb : ∀ x ∈ pre ++ post, x.1 ≤ 60000)
    (hbal : stackAfter [] (pre ++ post) = some []) :
    ∃ s, runLines emptyTree pre = .ok s ∧
      ∀ (p : Nat) (n : KateCodeFoldingNode), s.heap[p]? = some (some n) → n.endLineValid = true →
        ∃ a, getStartLine s p = .ok a ∧ a + n.endLineRel ≤ 60000 ∧
          n.endLineRel < 2147483648 ∧ uadd a n.endLineRel = a + n.endLineRel := by
  obtain ⟨st, hst⟩ := stackAfter_append pre post [] [] hbal
  have hasc2 : (pre.map Prod.fst).Pairwise (· < ·) := by
    rw [List.map_append] at hasc
    exact (List.pairwise_append.1 hasc).1
  obtain ⟨s, A, stack, L, hrun, hn, _, _, _⟩ :=
    runLines_emptyTree pre st hasc2 (fun x hx => hb x (List.mem_append_left _ hx)) hst
  refine ⟨s, hrun, ?_⟩
  intro p n hp he
  have hlt := lt_of_lookup hp
  have hL := hn.bound
  refine ⟨A p, (getStartLine_nav s A stack L hn p hlt).1, ?_⟩
  have key : A p + n.endLineRel ≤ 60000 := by
    by_cases h0 : p = 0
    · subst h0
      obtain ⟨r, hr, _, _, hre, _⟩ := hn.root
      rw [hp] at hr
      cases hr
      rw [hn.a0, hre]
    · obtain ⟨m, q, qn, hc, _, _, _, _, _, _, _, _, hclosed, _⟩ := hn.cell p (by omega) hlt
      rw [hp] at hc
      cases hc
      have := hclosed he
      omega
  refine ⟨key, by omega, ?_⟩
  unfold uadd
  omega

/-- C10, witness: the run `0: {1 {2`, `3: }2 {2`, `4: }2`, `9: }1`, stopped after the
third line. -/
theorem updateLine_balanced_run_end_offsets_witness :
    (((([(0, [2, 1]), (3, [2, -2]), (4, [-2])] : List (Nat × List Int)) ++
        [(9, [-1])]).map Prod.fst).Pairwise (· < ·) ∧
      (∀ x ∈ ([(0, [2, 1]), (3, [2, -2]), (4, [-2])] : List (Nat × List Int)) ++ [(9, [-1])],
        x.1 ≤ 60000) ∧
      stackAfter [] ([(0, [2, 1]), (3, [2, -2]), (4, [-2])] ++ [(9, [-1])]) = some []) ∧
    ∃ s, runLines emptyTree [(0, [2, 1]), (3, [2, -2]), (4, [-2])] = .ok s ∧
      ∀ (p : Nat) (n : KateCodeFoldingNode), s.heap[p]? = some (some n) → n.endLineValid = true →
        ∃ a, getStartLine s p = .ok a ∧ a + n.endLineRel ≤ 60000 ∧
          n.endLineRel < 2147483648 ∧ uadd a n.endLineRel = a + n.endLineRel :=
  ⟨⟨by decide, by decide, by decide⟩,
   updateLine_balanced_run_end_offsets [(0, [2, 1]), (3, [2, -2]), (4, [-2])] [(9, [-1])]
     (by decide) (by decide) (by decide)⟩

/-! ## The `*updated` flag and the order of the children -/

/-- C11, failing input: `updateLine(0, [+1], true)` on the empty tree and then
`updateLine(5, [-1], true)`. The second call closes the region that the first
one left unterminated (`endLineValid` goes from `false` to `true`, `endLineRel`
from `60000` to `5`), and yet reports `*updated = false`: the branch of
`correctEndings` that closes a node does not set `something_changed`. -/
theorem updateLine_close_reports_no_change :
    ∃ r1 r2 n1 n2, updateLine emptyTree 0 [1] true = .ok r1 ∧
      updateLine r1.tree 5 [-1] true = .ok r2 ∧
      r1.tree.heap[1]? = some (some n1) ∧ r2.tree.heap[1]? = some (some n2) ∧
      n1.endLineValid = false ∧ n1.endLineRel = 60000 ∧
      n2.endLineValid = true ∧ n2.endLineRel = 5 ∧
      r1.tree.heap ≠ r2.tree.heap ∧ r2.updated = some false := by
  refine ⟨_, _, _, _, updateLine_open 0 1 (by decide) (by decide),
    updateLine_close 0 5 1 (by decide) (by decide) (by decide), rfl, rfl, rfl, rfl, rfl, rfl,
    by decide, rfl⟩

/-- C13, failing input: `updateLine(0, [+1])`, `updateLine(1, [+1])`, then
`updateLine(0, [-1])` (line 0 now holds a closing marker instead of the opening
one). The last call closes the region of line 0 on line 0 without moving its
child, the region of line 1, out of it; the cleanup then removes the opening of
line 0, moves the child up in front of it and files the left-over closing
marker behind it: the root ends with the children `[2, 3]`, node `2` starting
on line 1 and the closing leaf `3` on line 0. -/
theorem updateLine_children_out_of_order :
    ∃ s r n2 n3, runLines emptyTree [(0, [1]), (1, [1]), (0, [-1])] = .ok s ∧
      s.heap[0]? = some (some r) ∧ r.childnodes = [2, 3] ∧
      s.heap[2]? = some (some n2) ∧ s.heap[3]? = some (some n3) ∧
      n2.parentNode = some 0 ∧ n3.parentNode = some 0 ∧
      n2.startLineRel = 1 ∧ n3.startLineRel = 0 ∧
      getStartLine s 2 = .ok 1 ∧ getStartLine s 3 = .ok 0 := by
  refine ⟨_, _, _, _, rfl, rfl, rfl, rfl, rfl, rfl, rfl, rfl, rfl, ?_, ?_⟩ <;> decide

/-- C14, failing inputs. (1) `updateLine(0, [+1])`, `updateLine(2, [+1])`, then
`updateLine(1, [-1])`: the last call closes the region of line 0 on line 1
(`endLineValid = true`, `endLineRel = 1`) and leaves the region of line 2 among
its children, with `startLineRel = 2`, behind the end of its parent.
(2) `lineHasBeenRemoved(0)` on the empty tree decrements the `startLineRel` of
the root from `0`, which wraps around to `4294967295`. -/
theorem updateLine_child_behind_end_of_parent :
    (∃ s n1 n2, runLines emptyTree [(0, [1]), (2, [1]), (1, [-1])] = .ok s ∧
      s.heap[1]? = some (some n1) ∧ s.heap[2]? = some (some n2) ∧
      n1.endLineValid = true ∧ n1.endLineRel = 1 ∧ n1.childnodes = [2] ∧
      n2.parentNode = some 1 ∧ n2.startLineRel = 2 ∧ ¬ n2.startLineRel ≤ n1.endLineRel) ∧
    (∃ s r, lineHasBeenRemoved emptyTree 0 = .ok s ∧ s.heap[0]? = some (some r) ∧
      r.startLineRel = 4294967295) := by
  refine ⟨⟨_, _, _, rfl, rfl, rfl, rfl, rfl, rfl, rfl, rfl, by decide⟩, ⟨_, _, rfl, rfl, rfl⟩⟩

/-! ## Frame lemmas: what the tree functions leave alone -/

theorem bind_ok {α β : Type} {x : Res α} {f : α → Res β} {b : β} (h : x >>= f = .ok b) :
    ∃ a, x = .ok a ∧ f a = .ok b := by
  cases x with
  | ok a => exact ⟨a, rfl, h⟩
  | crash => cases h
  | timeout => cases h

@[simp]
theorem auxOf_modify (s : KateCodeFoldingTree) (p : Nat)
    (f : KateCodeFoldingNode → KateCodeFoldingNode) : auxOf (s.modify p f) = auxOf s := by
  unfold KateCodeFoldingTree.modify
  split <;> rfl

@[simp]
theorem auxOf_alloc (s : KateCodeFoldingTree) (n : KateCodeFoldingNode) :
    auxOf (s.alloc n).1 = auxOf s := rfl

@[simp]
theorem auxOf_free (s : KateCodeFoldingTree) (p : Nat) : auxOf (s.free p) = auxOf s := rfl

@[simp]
theorem auxOf_changed (s : KateCodeFoldingTree) (b : Bool) :
    auxOf { s with something_changed := b } = auxOf s := rfl

@[simp]
theorem auxOf_marked (s : KateCodeFoldingTree) (l : List Nat) :
    auxOf { s with markedForDeleting := l } = auxOf s := rfl

@[simp]
theorem auxOf_found (s : KateCodeFoldingTree) (l : List Nat) :
    auxOf { s with nodesForLine := l } = auxOf s := rfl

theorem auxOf_foldl_modify (l : List Nat) (f : KateCodeFoldingNode → KateCodeFoldingNode) :
    ∀ s : KateCodeFoldingTree, auxOf (l.foldl (fun acc tmp => acc.modify tmp f) s) = auxOf s := by
  induction l with
  | nil => intro s; rfl
  | cons x rest ih => intro s; rw [List.foldl_cons, ih, auxOf_modify]

theorem deleteChildAt_aux {s s1 : KateCodeFoldingTree} {parent : Nat} {pos : Int}
    (h : deleteChildAt s parent pos = .ok s1) : auxOf s1 = auxOf s := by
  unfold deleteChildAt at h
  split at h
  · split at h
    · cases h
      simp
    · cases h
      rfl
  · cases h
  · cases h

theorem adoptSiblings_aux {parent node : Nat} {pos : Int} :
    ∀ (k : Nat) {s s1 : KateCodeFoldingTree}, adoptSiblings parent node pos k s = .ok s1 →
      auxOf s1 = auxOf s := by
  intro k
  induction k with
  | zero =>
    intro s s1 h
    unfold adoptSiblings at h
    cases h
    rfl
  | succ k ih =>
    intro s s1 h
    unfold adoptSiblings at h
    obtain ⟨pn, _, h⟩ := bind_ok h
    split at h
    · cases h
    · obtain ⟨n, _, h⟩ := bind_ok h
      rw [ih h]
      simp

theorem adoptWhile_aux {parent node : Nat} {mypos : Int} :
    ∀ (fuel : Nat) {i : Int} {s s1 : KateCodeFoldingTree},
      adoptWhile parent node mypos fuel i s = .ok s1 → auxOf s1 = auxOf s := by
  intro fuel
  induction fuel with
  | zero =>
    intro i s s1 h
    unfold adoptWhile at h
    cases h
  | succ fuel ih =>
    intro i s s1 h
    unfold adoptWhile at h
    obtain ⟨pn, _, h⟩ := bind_ok h
    split at h
    · obtain ⟨s2, h2, h⟩ := bind_ok h
      rw [ih h, adoptSiblings_aux 1 h2]
    · cases h
      rfl

theorem removeEnding_aux :
    ∀ (fuel : Nat) {s s1 : KateCodeFoldingTree} {node : Nat},
      removeEnding fuel s node = .ok s1 → auxOf s1 = auxOf s := by
  intro fuel
  induction fuel with
  | zero =>
    intro s s1 node h
    unfold removeEnding at h
    cases h
  | succ fuel ih =>
    intro s s1 node h
    unfold removeEnding at h
    obtain ⟨n, _, h⟩ := bind_ok h
    split at h
    · cases h
      rfl
    · split at h
      · obtain ⟨parent, _, h⟩ := bind_ok h
        obtain ⟨pn, _, h⟩ := bind_ok h
        exact deleteChildAt_aux h
      · obtain ⟨parent, _, h⟩ := bind_ok h
        obtain ⟨pn, _, h⟩ := bind_ok h
        obtain ⟨found, _, h⟩ := bind_ok h
        split at h
        · obtain ⟨c, _, h⟩ := bind_ok h
          obtain ⟨s2, h2, h⟩ := bind_ok h
          rw [adoptSiblings_aux _ h, deleteChildAt_aux h2]
          simp
        · split at h
          · obtain ⟨s2, h2, h⟩ := bind_ok h
            obtain ⟨pn1, _, h⟩ := bind_ok h
            obtain ⟨n2, _, h⟩ := bind_ok h
            split at h
            · obtain ⟨_, _, h⟩ := bind_ok h
              rw [ih h, auxOf_modify, adoptWhile_aux _ h2]
            · cases h
              rw [auxOf_modify, adoptWhile_aux _ h2]
          · cases h
            simp

theorem moveChildrenUp_aux {node parent removepos : Nat} {mypos : Int}
    {s s1 : KateCodeFoldingTree} (h : moveChildrenUp node parent removepos mypos s = .ok s1) :
    auxOf s1 = auxOf s := by
  unfold moveChildrenUp at h
  obtain ⟨n, _, h⟩ := bind_ok h
  obtain ⟨pn, _, h⟩ := bind_ok h
  cases h
  rw [auxOf_foldl_modify]
  simp

theorem correctEndings_aux :
    ∀ (fuel : Nat) {s : KateCodeFoldingTree} {data : Int} {node line : Nat} {insertPos : Int}
      {r : KateCodeFoldingTree × Bool},
      correctEndings fuel s data node line insertPos = .ok r → auxOf r.1 = auxOf s := by
  intro fuel
  induction fuel with
  | zero =>
    intro s data node line insertPos r h
    unfold correctEndings at h
    cases h
  | succ fuel ih =>
    intro s data node line insertPos r h
    unfold correctEndings at h
    obtain ⟨startLine, _, h⟩ := bind_ok h
    obtain ⟨n, _, h⟩ := bind_ok h
    split at h
    · split at h
      · cases h
        simp [dontDeleteEnding]
      · cases h
        simp [dontDeleteEnding]
    · split at h
      · cases h
        simp [dontDeleteEnding]
      · split at h
        · cases h
          simp [dontDeleteEnding]
        · obtain ⟨parent, _, h⟩ := bind_ok h
          obtain ⟨pn, _, h⟩ := bind_ok h
          obtain ⟨found, _, h⟩ := bind_ok h
          dsimp only at h
          split at h
          · obtain ⟨s3, h3, h⟩ := bind_ok h
            obtain ⟨pn3, _, h⟩ := bind_ok h
            obtain ⟨r2, h4, h⟩ := bind_ok h
            cases h
            show auxOf r2.1 = auxOf s
            rw [ih h4, moveChildrenUp_aux h3]
            simp [dontDeleteEnding]
          · simp only [Res.pure_eq, Res.ok_bind] at h
            obtain ⟨pn3, _, h⟩ := bind_ok h
            obtain ⟨r2, h4, h⟩ := bind_ok h
            cases h
            show auxOf r2.1 = auxOf s
            rw [ih h4]
            simp [dontDeleteEnding]

theorem moveAllUp_aux {node p : Nat} :
    ∀ (fuel : Nat) {mypos : Int} {s s1 : KateCodeFoldingTree},
      moveAllUp node p fuel mypos s = .ok s1 → auxOf s1 = auxOf s := by
  intro fuel
  induction fuel with
  | zero =>
    intro mypos s s1 h
    unfold moveAllUp at h
    cases h
  | succ fuel ih =>
    intro mypos s s1 h
    unfold moveAllUp at h
    obtain ⟨nd, _, h⟩ := bind_ok h
    split at h
    · cases h
      rfl
    · obtain ⟨nd2, _, h⟩ := bind_ok h
      rw [ih h]
      simp

theorem removeOpening_aux {s s1 : KateCodeFoldingTree} {node line : Nat}
    (h : removeOpening s node line = .ok s1) : auxOf s1 = auxOf s := by
  unfold removeOpening at h
  obtain ⟨n, _, h⟩ := bind_ok h
  split at h
  · cases h
    rfl
  · obtain ⟨p, _, h⟩ := bind_ok h
    obtain ⟨pn, _, h⟩ := bind_ok h
    obtain ⟨s2, h2, h⟩ := bind_ok h
    obtain ⟨pn1, _, h⟩ := bind_ok h
    obtain ⟨n1, _, h⟩ := bind_ok h
    obtain ⟨s3, h3, h⟩ := bind_ok h
    split at h
    · obtain ⟨r, h4, h⟩ := bind_ok h
      cases h
      rw [correctEndings_aux _ h4, deleteChildAt_aux h3, moveAllUp_aux _ h2]
    · cases h
      rw [deleteChildAt_aux h3, moveAllUp_aux _ h2]

theorem addNodeToRemoveList_aux {s s1 : KateCodeFoldingTree} {node line : Nat}
    (h : addNodeToRemoveList s node line = .ok s1) : auxOf s1 = auxOf s := by
  unfold addNodeToRemoveList at h
  obtain ⟨startLine, _, h⟩ := bind_ok h
  obtain ⟨n, _, h⟩ := bind_ok h
  obtain ⟨n1, _, h⟩ := bind_ok h
  cases h
  simp only [auxOf_marked]
  split <;> split <;> simp

theorem markAncestors_aux {line : Nat} :
    ∀ (fuel : Nat) {s s1 : KateCodeFoldingTree} {node : Nat},
      markAncestors line fuel s node = .ok s1 → auxOf s1 = auxOf s := by
  intro fuel
  induction fuel with
  | zero =>
    intro s s1 node h
    unfold markAncestors at h
    cases h
  | succ fuel ih =>
    intro s s1 node h
    unfold markAncestors at h
    obtain ⟨n, _, h⟩ := bind_ok h
    split at h
    · cases h
      rfl
    · obtain ⟨pn, _, h⟩ := bind_ok h
      split at h
      · obtain ⟨sl, _, h⟩ := bind_ok h
        split at h
        · obtain ⟨s2, h2, h⟩ := bind_ok h
          rw [ih h, addNodeToRemoveList_aux h2]
        · cases h
          rfl
      · cases h
        rfl

theorem findAndMark_aux {s s1 : KateCodeFoldingTree} {line : Nat}
    (h : findAndMarkAllNodesforRemovalOpenedOrClosedAt s line = .ok s1) :
    auxOf s1 = auxOf s := by
  unfold findAndMarkAllNodesforRemovalOpenedOrClosedAt at h
  obtain ⟨node, _, h⟩ := bind_ok h
  obtain ⟨n, _, h⟩ := bind_ok h
  split at h
  · cases h
    rfl
  · obtain ⟨s2, h2, h⟩ := bind_ok h
    rw [markAncestors_aux _ h, addNodeToRemoveList_aux h2]
    rfl

theorem cleanupNode_aux {s s1 : KateCodeFoldingTree} {n line : Nat}
    (h : cleanupNode s n line = .ok s1) : auxOf s1 = auxOf s := by
  unfold cleanupNode at h
  obtain ⟨nd, _, h⟩ := bind_ok h
  split at h
  · split at h
    · obtain ⟨parent, _, h⟩ := bind_ok h
      obtain ⟨pn, _, h⟩ := bind_ok h
      obtain ⟨s2, h2, h⟩ := bind_ok h
      cases h
      rw [auxOf_changed, deleteChildAt_aux h2]
    · obtain ⟨s2, h2, h⟩ := bind_ok h
      cases h
      simp [dontDeleteEnding, dontDeleteOpening, removeOpening_aux h2]
  · split at h
    · obtain ⟨s2, h2, h⟩ := bind_ok h
      cases h
      split at h2
      · simp [dontDeleteOpening, removeOpening_aux h2]
      · cases h2
        simp [dontDeleteOpening]
    · dsimp only at h
      split at h
      · obtain ⟨s2, h2, h⟩ := bind_ok h
        cases h
        simp [dontDeleteEnding, removeEnding_aux _ h2, dontDeleteOpening]
      · cases h
        simp [dontDeleteEnding, dontDeleteOpening]

theorem cleanupLoop_aux {line : Nat} :
    ∀ (l : List Nat) {s s1 : KateCodeFoldingTree}, cleanupLoop line l s = .ok s1 →
      auxOf s1 = auxOf s := by
  intro l
  induction l with
  | nil =>
    intro s s1 h
    unfold cleanupLoop at h
    cases h
    rfl
  | cons x rest ih =>
    intro s s1 h
    unfold cleanupLoop at h
    obtain ⟨s2, h2, h⟩ := bind_ok h
    rw [ih h, cleanupNode_aux h2]

theorem cleanupUnneededNodes_aux {s s1 : KateCodeFoldingTree} {line : Nat}
    (h : cleanupUnneededNodes s line = .ok s1) : auxOf s1 = auxOf s :=
  cleanupLoop_aux _ h

theorem decrementBy1_aux :
    ∀ (fuel : Nat) {s s1 : KateCodeFoldingTree} {node after : Nat},
      decrementBy1 fuel s node after = .ok s1 → auxOf s1 = auxOf s := by
  intro fuel
  induction fuel with
  | zero =>
    intro s s1 node after h
    unfold decrementBy1 at h
    cases h
  | succ fuel ih =>
    intro s s1 node after h
    unfold decrementBy1 at h
    obtain ⟨n, _, h⟩ := bind_ok h
    split at h
    · rw [ih h, auxOf_foldl_modify, auxOf_modify]
    · cases h
      rw [auxOf_foldl_modify, auxOf_modify]

theorem incrementBy1_aux :
    ∀ (fuel : Nat) {s s1 : KateCodeFoldingTree} {node after : Nat},
      incrementBy1 fuel s node after = .ok s1 → auxOf s1 = auxOf s := by
  intro fuel
  induction fuel with
  | zero =>
    intro s s1 node after h
    unfold incrementBy1 at h
    cases h
  | succ fuel ih =>
    intro s s1 node after h
    unfold incrementBy1 at h
    obtain ⟨n, _, h⟩ := bind_ok h
    split at h
    · rw [ih h, auxOf_foldl_modify, auxOf_modify]
    · cases h
      rw [auxOf_foldl_modify, auxOf_modify]

/-- The loop over the children of the node found, in both line-shift functions. -/
theorem shiftChildren_aux (test : KateCodeFoldingNode → Prop) [DecidablePred test]
    (f : KateCodeFoldingNode → KateCodeFoldingNode) :
    ∀ (l : List Nat) {s s1 : KateCodeFoldingTree},
      l.foldlM (fun acc c => do
        let cn ← acc.node c
        if test cn then pure (acc.modify c f) else pure acc) s = .ok s1 →
      auxOf s1 = auxOf s := by
  intro l
  induction l with
  | nil =>
    intro s s1 h
    cases h
    rfl
  | cons x rest ih =>
    intro s s1 h
    rw [List.foldlM_cons] at h
    obtain ⟨s2, h2, h⟩ := bind_ok h
    obtain ⟨cn, _, h2⟩ := bind_ok h2
    rw [ih h]
    split at h2
    · cases h2
      simp
    · cases h2
      rfl

/-- What `lineHasBeenInserted` does to the members of the tree object other than the nodes. -/
theorem lineHasBeenInserted_frame {s s1 : KateCodeFoldingTree} {line : Nat}
    (h : lineHasBeenInserted s line = .ok s1) :
    auxOf s1 = ([], uadd line 1 :: usub line 1 :: line :: s.dontIgnoreUnchangedLines,
      shiftHiddenLines line s.hiddenLines, false, s.hiddenLinesCountCache) := by
  unfold lineHasBeenInserted at h
  obtain ⟨node, _, h⟩ := bind_ok h
  obtain ⟨startLine, _, h⟩ := bind_ok h
  obtain ⟨n, _, h⟩ := bind_ok h
  obtain ⟨s2, h2, h⟩ := bind_ok h
  obtain ⟨s3, h3, h⟩ := bind_ok h
  cases h
  have e2 := shiftChildren_aux (fun cn => uadd cn.startLineRel startLine ≥ line) _ _ h2
  have e3 : auxOf s3 = auxOf s2 := by
    split at h3
    · exact incrementBy1_aux _ h3
    · cases h3
      rfl
  have e1 : auxOf s2 = ([], uadd line 1 :: usub line 1 :: line :: s.dontIgnoreUnchangedLines,
      s.hiddenLines, false, s.hiddenLinesCountCache) := by
    rw [e2]
    split <;> simp <;> rfl
  rw [e1] at e3
  simp only [auxOf, Prod.mk.injEq] at e3 ⊢
  obtain ⟨a, b, c, d, e⟩ := e3
  exact ⟨a, b, by rw [c], d, e⟩

/-- What `lineHasBeenRemoved` does to the members of the tree object other than the nodes. -/
theorem lineHasBeenRemoved_frame {s s1 : KateCodeFoldingTree} {line : Nat}
    (h : lineHasBeenRemoved s line = .ok s1) :
    auxOf s1 = ([], uadd line 1 :: usub line 1 :: line :: s.dontIgnoreUnchangedLines,
      s.hiddenLines, false, s.hiddenLinesCountCache) := by
  unfold lineHasBeenRemoved at h
  obtain ⟨s2, h2, h⟩ := bind_ok h
  obtain ⟨s3, h3, h⟩ := bind_ok h
  obtain ⟨node, _, h⟩ := bind_ok h
  obtain ⟨startLine, _, h⟩ := bind_ok h
  obtain ⟨n, _, h⟩ := bind_ok h
  obtain ⟨s4, h4, h⟩ := bind_ok h
  have e4 := shiftChildren_aux (fun cn => uadd cn.startLineRel startLine ≥ line) _ _ h4
  have e5 : auxOf s1 = auxOf s4 := by
    split at h
    · exact decrementBy1_aux _ h
    · cases h
      rfl
  rw [e5, e4]
  have e3 : auxOf s3 = ([], uadd line 1 :: usub line 1 :: line :: s.dontIgnoreUnchangedLines,
      s.hiddenLines, false, s.hiddenLinesCountCache) := by
    rw [cleanupUnneededNodes_aux h3, findAndMark_aux h2]
    rfl
  rw [← e3]
  split <;> simp

theorem adoptPlain_aux {parent node : Nat} {pos : Int} :
    ∀ (k : Nat) {s s1 : KateCodeFoldingTree}, adoptPlain parent node pos k s = .ok s1 →
      auxOf s1 = auxOf s := by
  intro k
  induction k with
  | zero =>
    intro s s1 h
    unfold adoptPlain at h
    cases h
    rfl
  | succ k ih =>
    intro s s1 h
    unfold adoptPlain at h
    obtain ⟨pn, _, h⟩ := bind_ok h
    split at h
    · cases h
    · rw [ih h]
      simp

theorem addOpening_aux_both :
    ∀ (fuel : Nat),
      (∀ {s : KateCodeFoldingTree} {node : Nat} {nType : Int} {list : List Int} {line : Nat}
        {r : KateCodeFoldingTree × List Int},
        addOpening fuel s node nType list line = .ok r → auxOf r.1 = auxOf s) ∧
      (∀ {s : KateCodeFoldingTree} {node : Nat} {nType : Int} {list : List Int} {line : Nat}
        {current : Int} {startLine : Nat} {r : KateCodeFoldingTree × List Int},
        addOpening_further_iterations fuel s node nType list line current startLine = .ok r →
          auxOf r.1 = auxOf s) := by
  intro fuel
  induction fuel with
  | zero =>
    constructor
    · intro s node nType list line r h
      unfold addOpening at h
      cases h
    · intro s node nType list line current startLine r h
      unfold addOpening_further_iterations at h
      cases h
  | succ fuel ih =>
    obtain ⟨ih1, ih2⟩ := ih
    constructor
    · intro s node nType list line r h
      unfold addOpening at h
      obtain ⟨startLine, _, h⟩ := bind_ok h
      obtain ⟨n, _, h⟩ := bind_ok h
      split at h
      · split at h
        · obtain ⟨s5, h5, h⟩ := bind_ok h
          rw [ih2 h]
          split at h5
          · obtain ⟨parent, _, h5⟩ := bind_ok h5
            obtain ⟨pn, _, h5⟩ := bind_ok h5
            obtain ⟨s3, h3, h5⟩ := bind_ok h5
            obtain ⟨pn3, _, h5⟩ := bind_ok h5
            have e3 : auxOf s3 = auxOf s := by
              split at h3
              · obtain ⟨r1, hr1, h3⟩ := bind_ok h3
                cases h3
                rw [auxOf_modify, removeEnding_aux _ hr1]
                simp
              · cases h3
                simp
            split at h5
            · obtain ⟨n3, _, h5⟩ := bind_ok h5
              obtain ⟨r2, hr2, h5⟩ := bind_ok h5
              rw [adoptSiblings_aux _ h5]
              have e4 : auxOf r2.1 = auxOf s3 := by
                split at hr2
                · obtain ⟨found, _, hr2⟩ := bind_ok hr2
                  split at hr2
                  · obtain ⟨sl, _, hr2⟩ := bind_ok hr2
                    obtain ⟨s4, h4, hr2⟩ := bind_ok hr2
                    cases hr2
                    show auxOf s4 = _
                    rw [deleteChildAt_aux h4]
                    simp
                  · cases hr2
                    rfl
                · cases hr2
                  simp
              rw [e4, e3]
            · cases h5
              exact e3
          · cases h5
            simp
        · cases h
          rfl
      · obtain ⟨found, _, h⟩ := bind_ok h
        obtain ⟨n2, _, h⟩ := bind_ok h
        obtain ⟨s6, h6, h⟩ := bind_ok h
        obtain ⟨r1, hr1, h⟩ := bind_ok h
        obtain ⟨n6, _, h⟩ := bind_ok h
        rw [ih2 h, ih1 hr1]
        split at h6
        · obtain ⟨r2, hr2, h6⟩ := bind_ok h6
          have e4 : auxOf r2.1 = auxOf s := by
            split at hr2
            · obtain ⟨found2, _, hr2⟩ := bind_ok hr2
              split at hr2
              · obtain ⟨sl, _, hr2⟩ := bind_ok hr2
                obtain ⟨s4, h4, hr2⟩ := bind_ok hr2
                cases hr2
                show auxOf s4 = _
                rw [deleteChildAt_aux h4]
                simp
              · cases hr2
                simp
            · cases hr2
              simp
          split at h6
          · rw [adoptPlain_aux _ h6, auxOf_modify, e4]
          · cases h6
            exact e4
        · cases h6
          simp
    · intro s node nType list line current startLine r h
      unfold addOpening_further_iterations at h
      split at h
      · cases h
        rfl
      · dsimp only at h
        split at h
        · obtain ⟨r2, hr2, h⟩ := bind_ok h
          split at h
          · cases h
            exact correctEndings_aux _ hr2
          · rw [ih2 h, correctEndings_aux _ hr2]
        · obtain ⟨n, _, h⟩ := bind_ok h
          obtain ⟨needNew, _, h⟩ := bind_ok h
          obtain ⟨n1, _, h⟩ := bind_ok h
          split at h
          · cases h
          · obtain ⟨r2, hr2, h⟩ := bind_ok h
            rw [ih2 h, ih1 hr2]
            split <;> simp

theorem updateLoop_aux {line : Nat} :
    ∀ (fuel : Nat) {s : KateCodeFoldingTree} {rc : List Int} {data : Int} {node : Nat}
      {insertPos : Int} {r : KateCodeFoldingTree × List Int},
      updateLoop line fuel s rc data node insertPos = .ok r → auxOf r.1 = auxOf s := by
  intro fuel
  induction fuel with
  | zero =>
    intro s rc data node insertPos r h
    unfold updateLoop at h
    cases h
  | succ fuel ih =>
    intro s rc data node insertPos r h
    unfold updateLoop at h
    obtain ⟨step, hstep, h⟩ := bind_ok h
    have e1 : auxOf step.1 = auxOf s := by
      split at hstep
      · obtain ⟨r2, hr2, hstep⟩ := bind_ok hstep
        split at hstep
        · obtain ⟨parent, _, hstep⟩ := bind_ok hstep
          obtain ⟨pn, _, hstep⟩ := bind_ok hstep
          cases hstep
          exact correctEndings_aux _ hr2
        · cases hstep
          exact correctEndings_aux _ hr2
      · obtain ⟨startLine, _, hstep⟩ := bind_ok hstep
        obtain ⟨n, _, hstep⟩ := bind_ok hstep
        split at hstep
        · obtain ⟨r2, hr2, hstep⟩ := bind_ok hstep
          obtain ⟨n3, _, hstep⟩ := bind_ok hstep
          cases hstep
          show auxOf r2.1 = _
          rw [(addOpening_aux_both _).1 hr2]
          simp
        · split at hstep
          · cases hstep
          · obtain ⟨cn, _, hstep⟩ := bind_ok hstep
            split at hstep
            · obtain ⟨r2, hr2, hstep⟩ := bind_ok hstep
              cases hstep
              exact (addOpening_aux_both _).1 hr2
            · obtain ⟨r2, hr2, hstep⟩ := bind_ok hstep
              cases hstep
              show auxOf r2.1 = _
              rw [(addOpening_aux_both _).1 hr2]
              simp
    split at h
    · cases h
      exact e1
    · split at h
      · rw [ih h, e1]
      · cases h
        exact e1

/-- The part of `updateLine` after the `if (!changed)` test writes `*updated` and
leaves the members of the tree object other than the nodes alone. -/
theorem updateLineBody_aux {s : KateCodeFoldingTree} {line : Nat} {rc : List Int}
    {r : UpdateResult} (h : updateLineBody s line rc = .ok r) :
    auxOf r.tree = auxOf s ∧ r.updated = some r.tree.something_changed := by
  unfold updateLineBody at h
  obtain ⟨rc1, _, h⟩ := bind_ok h
  obtain ⟨s1, h1, h⟩ := bind_ok h
  obtain ⟨r2, hr2, h⟩ := bind_ok h
  obtain ⟨s2, h2, h⟩ := bind_ok h
  cases h
  refine ⟨?_, rfl⟩
  show auxOf s2 = auxOf s
  rw [cleanupUnneededNodes_aux h2]
  have e1 : auxOf s1 = auxOf s := by
    rw [findAndMark_aux h1]
    rfl
  split at hr2
  · cases hr2
    exact e1
  · obtain ⟨loc, _, hr2⟩ := bind_ok hr2
    rw [updateLoop_aux _ hr2, e1]

/-! ## Line insertion and the hidden blocks -/

theorem shiftHiddenLines_plain (line : Nat) :
    ∀ (l : List hiddenLineBlock), (∀ it ∈ l, it.start + it.length + 1 < 4294967296) →
      shiftHiddenLines line l = l.map (fun it =>
        if it.start > line then { start := it.start + 1, length := it.length }
        else if it.start + it.length > line then { start := it.start, length := it.length + 1 }
        else it) := by
  intro l hw
  unfold shiftHiddenLines
  apply List.map_congr_left
  intro it hit
  have := hw it hit
  have e1 : uadd it.start 1 = it.start + 1 := by unfold uadd; omega
  have e2 : uadd it.start it.length = it.start + it.length := by unfold uadd; omega
  have e3 : uadd it.length 1 = it.length + 1 := by unfold uadd; omega
  rw [e1, e2, e3]

theorem hiddenSorted_shift (line : Nat) :
    ∀ (l : List hiddenLineBlock), hiddenSorted l →
      hiddenSorted (l.map (fun it =>
        if it.start > line then { start := it.start + 1, length := it.length }
        else if it.start + it.length > line then { start := it.start, length := it.length + 1 }
        else it)) := by
  intro l
  induction l with
  | nil => intro _; trivial
  | cons x rest ih =>
    intro h
    cases rest with
    | nil => trivial
    | cons y rest2 =>
      obtain ⟨hxy, hr⟩ := h
      have := ih hr
      simp only [List.map_cons] at this ⊢
      refine ⟨?_, this⟩
      by_cases hx1 : x.start > line
      · have hy1 : y.start > line := by omega
        rw [if_pos hx1, if_pos hy1]
        simp only
        omega
      · rw [if_neg hx1]
        by_cases hx2 : x.start + x.length > line
        · have hy1 : y.start > line := by omega
          rw [if_pos hx2, if_pos hy1]
          simp only
          omega
        · rw [if_neg hx2]
          by_cases hy1 : y.start > line
          · rw [if_pos hy1]
            simp only
            omega
          · rw [if_neg hy1]
            by_cases hy2 : y.start + y.length > line
            · rw [if_pos hy2]
              simp only
              omega
            · rw [if_neg hy2]
              exact hxy

/-- `lineHasBeenInserted` returns on every tree of the shape that runs of `updateLine` build. -/
theorem lineHasBeenInserted_total (s : KateCodeFoldingTree) (line : Nat) {A : Nat → Nat}
    {stack : List Nat} {Lm : Nat} (hn : Nav s.heap A stack Lm) :
    ∃ s1, lineHasBeenInserted s line = .ok s1 :=
  lineHasBeenInserted_returns s hn.sane line

/-- C18: `lineHasBeenInserted(line)` maps every hidden block on its own: a block
that starts behind `line` moves down by one, a block that starts at or before
`line` and reaches beyond it grows by one, every other block stays (the sums
are taken below `2^32`, where `unsigned int` does not wrap). The number of
blocks is unchanged, and a list ordered by ascending start without overlap
stays so. The call returns on every tree of the shape that runs of
`updateLine` build. -/
theorem lineHasBeenInserted_shifts_hidden_blocks (s : KateCodeFoldingTree) (line : Nat)
    (hw : ∀ it ∈ s.hiddenLines, it.start + it.length + 1 < 4294967296) :
    (∀ s1, lineHasBeenInserted s line = .ok s1 →
      s1.hiddenLines = s.hiddenLines.map (fun it =>
        if it.start > line then { start := it.start + 1, length := it.length }
        else if it.start + it.length > line then { start := it.start, length := it.length + 1 }
        else it) ∧
      s1.hiddenLines.length = s.hiddenLines.length ∧
      (hiddenSorted s.hiddenLines → hiddenSorted s1.hiddenLines)) ∧
    (∀ (A : Nat → Nat) (stack : List Nat) (Lm : Nat), Nav s.heap A stack Lm →
      ∃ s1, lineHasBeenInserted s line = .ok s1) := by
  refine ⟨?_, fun A stack Lm hn => lineHasBeenInserted_total s line hn⟩
  intro s1 h
  have hf := lineHasBeenInserted_frame h
  simp only [auxOf, Prod.mk.injEq] at hf
  have e : s1.hiddenLines = s.hiddenLines.map (fun it =>
        if it.start > line then { start := it.start + 1, length := it.length }
        else if it.start + it.length > line then { start := it.start, length := it.length + 1 }
        else it) := by
    rw [hf.2.2.1, shiftHiddenLines_plain line _ hw]
  refine ⟨e, ?_, ?_⟩
  · rw [e, List.length_map]
  · intro hs
    rw [e]
    exact hiddenSorted_shift line _ hs

/-- C18, witness: the region from line 0 to line 9 with the hidden blocks
`(1, 2)` and `(5, 3)`, and a line inserted at line 2. -/
theorem lineHasBeenInserted_shifts_hidden_blocks_witness :
    (∀ it ∈ ({ closedTree 0 9 1 with
        hiddenLines := [{ start := 1, length := 2 }, { start := 5, length := 3 }] } :
          KateCodeFoldingTree).hiddenLines, it.start + it.length + 1 < 4294967296) ∧
    (∃ s1, lineHasBeenInserted { closedTree 0 9 1 with
        hiddenLines := [{ start := 1, length := 2 }, { start := 5, length := 3 }] } 2 = .ok s1 ∧
      s1.hiddenLines = [{ start := 1, length := 3 }, { start := 6, length := 3 }]) ∧
    ((∀ s1, lineHasBeenInserted { closedTree 0 9 1 with
        hiddenLines := [{ start := 1, length := 2 }, { start := 5, length := 3 }] } 2 = .ok s1 →
      s1.hiddenLines = ({ closedTree 0 9 1 with
        hiddenLines := [{ start := 1, length := 2 }, { start := 5, length := 3 }] } :
          KateCodeFoldingTree).hiddenLines.map (fun it =>
        if it.start > 2 then { start := it.start + 1, length := it.length }
        else if it.start + it.length > 2 then { start := it.start, length := it.length + 1 }
        else it) ∧
      s1.hiddenLines.length = ({ closedTree 0 9 1 with
        hiddenLines := [{ start := 1, length := 2 }, { start := 5, length := 3 }] } :
          KateCodeFoldingTree).hiddenLines.length ∧
      (hiddenSorted ({ closedTree 0 9 1 with
        hiddenLines := [{ start := 1, length := 2 }, { start := 5, length := 3 }] } :
          KateCodeFoldingTree).hiddenLines → hiddenSorted s1.hiddenLines)) ∧
    (∀ (A : Nat → Nat) (stack : List Nat) (Lm : Nat), Nav ({ closedTree 0 9 1 with
        hiddenLines := [{ start := 1, length := 2 }, { start := 5, length := 3 }] } :
          KateCodeFoldingTree).heap A stack Lm →
      ∃ s1, lineHasBeenInserted { closedTree 0 9 1 with
        hiddenLines := [{ start := 1, length := 2 }, { start := 5, length := 3 }] } 2 = .ok s1)) :=
  ⟨by decide, ⟨_, rfl, rfl⟩,
   lineHasBeenInserted_shifts_hidden_blocks { closedTree 0 9 1 with
        hiddenLines := [{ start := 1, length := 2 }, { start := 5, length := 3 }] } 2 (by decide)⟩

/-- C19: for every tree state and every line `L ≥ 1` (below the largest
`unsigned int`), when `lineHasBeenInserted(L)` or `lineHasBeenRemoved(L)` has
returned, `lineMapping` is empty, `hiddenLinesCountCacheValid` is false, and
`L+1`, `L-1` and `L` have been put in front of `dontIgnoreUnchangedLines`. An
`updateLine` call with `changed = false` on any of the three lines is then not
skipped: it takes the line out of the set and runs the body of `updateLine` on
the rest, and when it returns it has written `*updated` and the set is the old
one without that one entry (every other line is in it exactly if it was).
Both calls do return: `lineHasBeenInserted(L)` on every well-formed tree, and
`lineHasBeenRemoved(L)` on every well-formed tree in which the node found for
`L` neither starts nor ends on `L` and carries no pending deletion flag (the
call then removes no node). -/
theorem line_shift_marks_lines_for_reprocessing (s : KateCodeFoldingTree) (line : Nat)
    (h1 : 1 ≤ line) (hl : line + 1 < 4294967296) :
    (∀ s1, lineHasBeenInserted s line = .ok s1 ∨ lineHasBeenRemoved s line = .ok s1 →
      s1.lineMapping = [] ∧ s1.hiddenLinesCountCacheValid = false ∧
      s1.dontIgnoreUnchangedLines =
        (line + 1) :: (line - 1) :: line :: s.dontIgnoreUnchangedLines ∧
      ∀ l, l = line - 1 ∨ l = line ∨ l = line + 1 → l ∈ s1.dontIgnoreUnchangedLines ∧
        ∀ rc : List Int,
          updateLine s1 l rc false =
            updateLineBody { s1 with
              dontIgnoreUnchangedLines := s1.dontIgnoreUnchangedLines.erase l } l rc ∧
          ∀ r, updateLine s1 l rc false = .ok r →
            r.updated ≠ none ∧
            r.tree.dontIgnoreUnchangedLines = s1.dontIgnoreUnchangedLines.erase l ∧
            ∀ x, x ≠ l →
              (x ∈ r.tree.dontIgnoreUnchangedLines ↔ x ∈ s1.dontIgnoreUnchangedLines)) ∧
    (∀ A d : Nat → Nat, Sane s.heap A d → ∃ s1, lineHasBeenInserted s line = .ok s1) ∧
    (∀ A d : Nat → Nat, Sane s.heap A d →
      ∃ (q : Nat) (qn : KateCodeFoldingNode), findNodeForLine s line = .ok q ∧
        s.heap[q]? = some (some qn) ∧ getStartLine s q = .ok (A q) ∧
        (A q ≠ line → (qn.type ≠ 0 → A q + qn.endLineRel ≠ line) →
          qn.deleteOpening = false → qn.deleteEnding = false →
          ∃ s1, lineHasBeenRemoved s line = .ok s1)) := by
  have e1 : uadd line 1 = line + 1 := by unfold uadd; omega
  have e2 : usub line 1 = line - 1 := by unfold usub; omega
  refine ⟨?_, fun A d hn => lineHasBeenInserted_returns s hn line, ?_⟩
  · intro s1 h
    have hf : s1.lineMapping = [] ∧
        s1.dontIgnoreUnchangedLines =
          (line + 1) :: (line - 1) :: line :: s.dontIgnoreUnchangedLines ∧
        s1.hiddenLinesCountCacheValid = false := by
      rcases h with h | h
      · have := lineHasBeenInserted_frame h
        rw [e1, e2] at this
        simp only [auxOf, Prod.mk.injEq] at this
        exact ⟨this.1, this.2.1, this.2.2.2.1⟩
      · have := lineHasBeenRemoved_frame h
        rw [e1, e2] at this
        simp only [auxOf, Prod.mk.injEq] at this
        exact ⟨this.1, this.2.1, this.2.2.2.1⟩
    obtain ⟨hm, hd, hc⟩ := hf
    refine ⟨hm, hc, hd, ?_⟩
    intro l hlmem
    have hin : l ∈ s1.dontIgnoreUnchangedLines := by
      rw [hd]
      rcases hlmem with e | e | e <;> subst e <;> simp
    have hne : s1.dontIgnoreUnchangedLines.isEmpty = false := by
      rw [hd]
      rfl
    refine ⟨hin, fun rc => ?_⟩
    have hupd : updateLine s1 l rc false =
        updateLineBody { s1 with
          dontIgnoreUnchangedLines := s1.dontIgnoreUnchangedLines.erase l } l rc := by
      unfold updateLine
      simp only [if_true, hne, Bool.false_eq_true, if_false, hin]
    refine ⟨hupd, ?_⟩
    intro r hr
    rw [hupd] at hr
    obtain ⟨ha, hu⟩ := updateLineBody_aux hr
    simp only [auxOf, Prod.mk.injEq] at ha
    refine ⟨by rw [hu]; simp, ha.2.1, ?_⟩
    intro x hx
    rw [ha.2.1]
    exact List.mem_erase_of_ne hx
  · intro A d hn
    obtain ⟨r, hr, _⟩ := hn.root
    obtain ⟨up, hd⟩ := Desc.exists hn line s.heap.length 0 r (by omega) hr
    cases up with
    | nil => exact absurd rfl hd.ne_nil
    | cons q anc =>
      have hu := hd.upPath hn
      have hfind := findNodeForLine_bumped hn line s hd (Bumped.refl _)
        (fun x hx => absurd hx (List.not_mem_nil _)) (fun x hx => absurd hx (List.not_mem_nil _))
      have hgs := (getStartLine_path hn line s hu (Bumped.refl _)
        (fun x hx => absurd hx (List.not_mem_nil _)) (List.mem_cons_self q anc)).1
      obtain ⟨qn, hq, _⟩ := hd.head_cell hn
      refine ⟨q, qn, hfind, hq, hgs, ?_⟩
      intro hne hend hdo hde
      exact lineHasBeenRemoved_returns s hn line hd hne
        (fun n hn2 => by rw [hq] at hn2; cases hn2; exact hend)
        (fun n hn2 => by rw [hq] at hn2; cases hn2; exact ⟨hdo, hde⟩)

/-- C19, witness: the region from line 2 to line 5, with a line inserted at line
3, and with line 3 removed: both calls return, and in both results the lines 2,
3 and 4 are marked. -/
theorem line_shift_marks_lines_for_reprocessing_witness :
    (1 ≤ 3 ∧ 3 + 1 < 4294967296) ∧
    Sane (closedTree 2 5 1).heap (fun i => if i = 1 then 2 else 0) (fun i => i) ∧
    (∃ s1, lineHasBeenInserted (closedTree 2 5 1) 3 = .ok s1 ∧
      s1.lineMapping = [] ∧ s1.hiddenLinesCountCacheValid = false ∧
      s1.dontIgnoreUnchangedLines = [4, 2, 3] ∧
      ∀ l, l = 3 - 1 ∨ l = 3 ∨ l = 3 + 1 → l ∈ s1.dontIgnoreUnchangedLines ∧
        ∀ rc : List Int,
          updateLine s1 l rc false =
            updateLineBody { s1 with
              dontIgnoreUnchangedLines := s1.dontIgnoreUnchangedLines.erase l } l rc) ∧
    (∃ s1, lineHasBeenRemoved (closedTree 2 5 1) 3 = .ok s1 ∧
      s1.lineMapping = [] ∧ s1.hiddenLinesCountCacheValid = false ∧
      s1.dontIgnoreUnchangedLines = [4, 2, 3] ∧
      ∀ l, l = 3 - 1 ∨ l = 3 ∨ l = 3 + 1 → l ∈ s1.dontIgnoreUnchangedLines ∧
        ∀ rc : List Int,
          updateLine s1 l rc false =
            updateLineBody { s1 with
              dontIgnoreUnchangedLines := s1.dontIgnoreUnchangedLines.erase l } l rc) := by
  have hs : Sane (closedTree 2 5 1).heap (fun i => if i = 1 then 2 else 0) (fun i => i) :=
    saneCheck_sound (by decide)
  have key := line_shift_marks_lines_for_reprocessing (closedTree 2 5 1) 3 (by decide)
    (by decide)
  obtain ⟨kall, kins, krem⟩ := key
  refine ⟨⟨by decide, by decide⟩, hs, ?_, ?_⟩
  · obtain ⟨s1, h1⟩ := kins _ _ hs
    obtain ⟨a, b, c, dd⟩ := kall s1 (Or.inl h1)
    exact ⟨s1, h1, a, b, c, fun l hl => ⟨(dd l hl).1, fun rc => ((dd l hl).2 rc).1⟩⟩
  · obtain ⟨q, qn, hfind, hq, _, himp⟩ := krem _ _ hs
    have hf : findNodeForLine (closedTree 2 5 1) 3 = .ok 1 := by decide
    rw [hf] at hfind
    cases hfind
    have hq1 : (closedTree 2 5 1).heap[1]? =
        some (some { newNode 0 1 2 with endLineValid := true, endLineRel := 3 }) := by decide
    rw [hq1] at hq
    cases hq
    obtain ⟨s1, h1⟩ := himp (by decide) (fun _ => by decide) rfl rfl
    obtain ⟨a, b, c, dd⟩ := kall s1 (Or.inr h1)
    exact ⟨s1, h1, a, b, c, fun l hl => ⟨(dd l hl).1, fun rc => ((dd l hl).2 rc).1⟩⟩

/-! ## Heaps with sound links -/

theorem Nav.links {h : List (Option KateCodeFoldingNode)} {A : Nat → Nat} {stack : List Nat}
    {L : Nat} (hn : Nav h A stack L) : Linked h := by
  refine ⟨?_, ?_, ?_⟩
  · obtain ⟨r, hr, ht, _⟩ := hn.root
    exact ⟨r, hr, ht⟩
  · intro i h0 hi
    obtain ⟨n, p, pn, hc, hp, hlt, _, _, ht, _⟩ := hn.cell i h0 hi
    exact ⟨n, p, hc, hp, hlt, by omega⟩
  · intro p n hp c hc
    exact ⟨((hn.kids p n hp).2 c hc).1, ((hn.kids p n hp).2 c hc).2.1⟩

theorem Linked.cell_live {h : List (Option KateCodeFoldingNode)} (hl : Linked h) {i : Nat}
    (hi : i < h.length) : ∃ n, h[i]? = some (some n) := by
  by_cases h0 : i = 0
  · subst h0
    obtain ⟨r, hr, _⟩ := hl.root
    exact ⟨r, hr⟩
  · obtain ⟨n, _, hn, _⟩ := hl.cell i (by omega) hi
    exact ⟨n, hn⟩

theorem getStartLineLoop_linked (s : KateCodeFoldingTree) (hl : Linked s.heap) :
    ∀ i fuel acc, i < s.heap.length → i < fuel → ∃ v, getStartLineLoop s fuel i acc = .ok v := by
  intro i
  induction i using Nat.strong_induction_on with
  | _ i ih =>
    intro fuel acc hi hf
    cases fuel with
    | zero => omega
    | succ fuel =>
      unfold getStartLineLoop
      by_cases h0 : i = 0
      · subst h0
        obtain ⟨r, hr, ht⟩ := hl.root
        simp only [node_of_heap hr, ht, ne_eq, not_true_eq_false, if_false]
        exact ⟨acc, rfl⟩
      · obtain ⟨n, p, hn, hp, hlt, ht⟩ := hl.cell i (by omega) hi
        simp only [node_of_heap hn, ne_eq, ht, not_false_eq_true, if_true, hp]
        exact ih p hlt fuel _ (by omega) (by omega)

theorem getStartLine_linked (s : KateCodeFoldingTree) (hl : Linked s.heap) (i : Nat)
    (hi : i < s.heap.length) : ∃ v, getStartLine s i = .ok v :=
  getStartLineLoop_linked s hl i _ 0 hi (by omega)

theorem Kept.kept_refl (h : List (Option KateCodeFoldingNode)) : Kept h h :=
  ⟨rfl, fun _ n hn => ⟨n, hn, rfl, fun p hp hlt => ⟨p, hp, hlt⟩, fun hv => hv, fun hc => hc⟩⟩

theorem Kept.kept_trans {h h2 h3 : List (Option KateCodeFoldingNode)} (h12 : Kept h h2)
    (h23 : Kept h2 h3) : Kept h h3 := by
  refine ⟨by rw [h23.1, h12.1], ?_⟩
  intro i n hn
  obtain ⟨n2, hn2, ht2, hp2, hv2, hc2⟩ := h12.2 i n hn
  obtain ⟨n3, hn3, ht3, hp3, hv3, hc3⟩ := h23.2 i n2 hn2
  refine ⟨n3, hn3, by rw [ht3, ht2], ?_, fun hv => hv3 (hv2 hv), ?_⟩
  · intro p hp hlt
    obtain ⟨q, hq, hql⟩ := hp2 p hp hlt
    exact hp3 q hq hql
  · intro hc
    have := hc2 hc
    rw [h12.1] at hc3
    exact hc3 this

theorem Kept.keeps_links {h h2 : List (Option KateCodeFoldingNode)} (hk : Kept h h2)
    (hl : Linked h) : Linked h2 := by
  refine ⟨?_, ?_, ?_⟩
  · obtain ⟨r, hr, ht⟩ := hl.root
    obtain ⟨r2, hr2, ht2, _⟩ := hk.2 0 r hr
    exact ⟨r2, hr2, by rw [ht2, ht]⟩
  · intro i h0 hi
    rw [hk.1] at hi
    obtain ⟨n, p, hn, hp, hlt, ht⟩ := hl.cell i h0 hi
    obtain ⟨n2, hn2, ht2, hp2, _, _⟩ := hk.2 i n hn
    obtain ⟨q, hq, hql⟩ := hp2 p hp hlt
    exact ⟨n2, q, hn2, hq, hql, by rw [ht2]; exact ht⟩
  · intro p n2 hp2 c hc
    have hpl : p < h.length := by
      have := lt_of_lookup hp2
      rw [hk.1] at this
      exact this
    obtain ⟨n, hn⟩ := hl.cell_live hpl
    obtain ⟨n3, hn3, _, _, _, hc3⟩ := hk.2 p n hn
    rw [hp2] at hn3
    cases hn3
    rw [hk.1]
    exact hc3 (hl.kids p n hn) c hc

theorem Kept.valid {h h2 : List (Option KateCodeFoldingNode)} (hk : Kept h h2) :
    KeptValid h h2 := by
  intro i n hn hv
  obtain ⟨n2, hn2, _, _, hv2, _⟩ := hk.2 i n hn
  exact ⟨n2, hn2, hv2 hv⟩

theorem KeptValid.valid_trans {h h2 h3 : List (Option KateCodeFoldingNode)} (h12 : KeptValid h h2)
    (h23 : KeptValid h2 h3) : KeptValid h h3 := by
  intro i n hn hv
  obtain ⟨n2, hn2, hv2⟩ := h12 i n hn hv
  exact h23 i n2 hn2 hv2

/-- A store through a pointer that keeps the type and the parent of the node, an
end that is valid, and child pointers in the heap. -/
theorem Kept.kept_modify (s : KateCodeFoldingTree) (p : Nat)
    (f : KateCodeFoldingNode → KateCodeFoldingNode)
    (hf : ∀ n, s.heap[p]? = some (some n) → (f n).type = n.type ∧
      (∀ q, n.parentNode = some q → q < p → ∃ q2, (f n).parentNode = some q2 ∧ q2 < p) ∧
      (n.endLineValid = true → (f n).endLineValid = true) ∧
      ((∀ c ∈ n.childnodes, p < c ∧ c < s.heap.length) →
        ∀ c ∈ (f n).childnodes, p < c ∧ c < s.heap.length)) :
    Kept s.heap (s.modify p f).heap := by
  constructor
  · unfold KateCodeFoldingTree.modify
    split
    · simp
    · rfl
  · intro i n hn
    rw [lookup_modify, hn]
    simp only [Option.map_some']
    by_cases c : i = p
    · subst c
      simp only [if_true]
      obtain ⟨h1, h2, h3, h4⟩ := hf n hn
      exact ⟨f n, rfl, h1, h2, h3, h4⟩
    · simp only [c, if_false]
      exact ⟨n, rfl, rfl, fun q hq hlt => ⟨q, hq, hlt⟩, fun hv => hv, fun hc => hc⟩

theorem Kept.foldl_modify (g : KateCodeFoldingNode → KateCodeFoldingNode) :
    ∀ (l : List Nat) (s : KateCodeFoldingTree),
      (∀ mv ∈ l, ∀ m : KateCodeFoldingNode, (g m).type = m.type ∧
        (∃ q2, (g m).parentNode = some q2 ∧ q2 < mv) ∧
        (g m).endLineValid = m.endLineValid ∧ (g m).childnodes = m.childnodes) →
      Kept s.heap (l.foldl (fun acc mv => acc.modify mv g) s).heap := by
  intro l
  induction l with
  | nil => intro s _; exact Kept.kept_refl _
  | cons x rest ih =>
    intro s hg
    rw [List.foldl_cons]
    refine Kept.kept_trans ?_ (ih _ (fun mv hmv => hg mv (List.mem_cons_of_mem _ hmv)))
    apply Kept.kept_modify
    intro n _
    obtain ⟨h1, ⟨q2, h2, h2l⟩, h3, h4⟩ := hg x (List.mem_cons_self _ _) n
    refine ⟨h1, fun _ _ _ => ⟨q2, h2, h2l⟩, fun hv => by rw [h3]; exact hv, fun hc => ?_⟩
    rw [h4]
    exact hc

theorem mem_qinsert {l : List Nat} {i : Int} {x c : Nat} (h : c ∈ qinsert l i x) :
    c = x ∨ c ∈ l := by
  unfold qinsert at h
  split at h
  · rcases List.mem_append.1 h with h | h
    · exact Or.inr (List.mem_of_mem_take h)
    · rcases List.mem_cons.1 h with h | h
      · exact Or.inl h
      · exact Or.inr (List.mem_of_mem_drop h)
  · exact Or.inr h

theorem mem_insertAll (moved : List Nat) :
    ∀ (acc : List Nat × Int) (c : Nat),
      c ∈ (moved.foldl (fun (acc : List Nat × Int) mv =>
        (qinsert acc.1 (acc.2 + 1) mv, acc.2 + 1)) acc).1 → c ∈ acc.1 ∨ c ∈ moved := by
  induction moved with
  | nil => intro acc c h; exact Or.inl h
  | cons x rest ih =>
    intro acc c h
    rw [List.foldl_cons] at h
    rcases ih _ c h with h | h
    · rcases mem_qinsert h with h | h
      · exact Or.inr (by rw [h]; exact List.mem_cons_self _ _)
      · exact Or.inl h
    · exact Or.inr (List.mem_cons_of_mem _ h)

/-- The children that `correctEndings` moves up to the parent: the call returns
and keeps the links sound. -/
theorem moveChildrenUp_kept (s : KateCodeFoldingTree) (hl : Linked s.heap) (node parent : Nat)
    (n : KateCodeFoldingNode) (hn : s.heap[node]? = some (some n))
    (hp : n.parentNode = some parent) (hlt : parent < node) (removepos : Nat) (mypos : Int) :
    ∃ s3, moveChildrenUp node parent removepos mypos s = .ok s3 ∧ Kept s.heap s3.heap := by
  have hnl := lt_of_lookup hn
  obtain ⟨pn, hpn⟩ := hl.cell_live (show parent < s.heap.length by omega)
  unfold moveChildrenUp
  simp only [node_of_heap hn, node_of_heap hpn, Res.ok_bind, Res.pure_eq]
  refine ⟨_, rfl, ?_⟩
  have hmoved : ∀ c ∈ n.childnodes.drop removepos, node < c ∧ c < s.heap.length :=
    fun c hc => hl.kids node n hn c (List.mem_of_mem_drop hc)
  have k1 : Kept s.heap (s.modify node (fun m =>
      { m with childnodes := m.childnodes.take removepos })).heap := by
    apply Kept.kept_modify
    intro m _
    exact ⟨rfl, fun q hq hql => ⟨q, hq, hql⟩, fun hv => hv,
      fun hc c hcm => hc c (List.mem_of_mem_take hcm)⟩
  refine Kept.kept_trans (Kept.kept_trans k1 ?_) (Kept.foldl_modify _ _ _ ?_)
  · have hlen := k1.1
    apply Kept.kept_modify
    intro m _
    refine ⟨rfl, fun q hq hql => ⟨q, hq, hql⟩, fun hv => hv, ?_⟩
    intro hc c hcm
    rw [hlen] at hc ⊢
    dsimp only at hcm
    split at hcm
    · rcases List.mem_append.1 hcm with h | h
      · exact hc c h
      · have := hmoved c h
        exact ⟨by omega, this.2⟩
    · rcases mem_insertAll _ _ c hcm with h | h
      · exact hc c h
      · have := hmoved c h
        exact ⟨by omega, this.2⟩
  · intro mv hmv m
    have := hmoved mv hmv
    exact ⟨rfl, ⟨parent, hp, by omega⟩, rfl, rfl⟩

theorem KeptValid.valid_modify (s : KateCodeFoldingTree) (p : Nat)
    (f : KateCodeFoldingNode → KateCodeFoldingNode)
    (hf : ∀ n : KateCodeFoldingNode, n.endLineValid = true → (f n).endLineValid = true) :
    KeptValid s.heap (s.modify p f).heap := by
  intro i n hn hv
  rw [lookup_modify, hn]
  simp only [Option.map_some']
  by_cases c : i = p
  · simp only [c, if_true]
    exact ⟨f n, rfl, hf n hv⟩
  · simp only [c, if_false]
    exact ⟨n, rfl, hv⟩

theorem KeptValid.alloc (s : KateCodeFoldingTree) (x : KateCodeFoldingNode) :
    KeptValid s.heap (s.alloc x).1.heap := by
  intro i n hn hv
  refine ⟨n, ?_, hv⟩
  show (s.heap ++ [some x])[i]? = _
  rw [List.getElem?_append_left (lt_of_lookup hn)]
  exact hn

theorem Linked.parentOf {s : KateCodeFoldingTree} (hl : Linked s.heap) {node : Nat}
    {n : KateCodeFoldingNode} (hn : s.heap[node]? = some (some n)) (ht : n.type ≠ 0) :
    ∃ p, n.parentNode = some p ∧ p < node ∧ s.parentOf node = .ok p := by
  have hnl := lt_of_lookup hn
  have h0 : node ≠ 0 := by
    intro e
    subst e
    obtain ⟨r, hr, hrt⟩ := hl.root
    rw [hn] at hr
    cases hr
    exact ht hrt
  obtain ⟨n2, p, hn2, hp, hlt, _⟩ := hl.cell node (by omega) hnl
  rw [hn] at hn2
  cases hn2
  refine ⟨p, hp, hlt, ?_⟩
  unfold KateCodeFoldingTree.parentOf
  simp only [node_of_heap hn, hp]

/-- On a heap with sound links `correctEndings` returns; it reports `true` exactly
for a marker that matches the type of the node, the node then has a valid end,
and no node loses a valid end. -/
theorem correctEndings_total :
    ∀ (fuel : Nat) (s : KateCodeFoldingTree) (data : Int) (node line : Nat) (insertPos : Int)
      (n : KateCodeFoldingNode), Linked s.heap → s.heap[node]? = some (some n) → node < fuel →
      data < 0 →
      ∃ r, correctEndings fuel s data node line insertPos = .ok r ∧
        KeptValid s.heap r.1.heap ∧ (r.2 = true ↔ data = -n.type) ∧
        (data = -n.type → ∃ n2, r.1.heap[node]? = some (some n2) ∧ n2.endLineValid = true) := by
  intro fuel
  induction fuel with
  | zero => intro s data node line insertPos n _ _ hf; omega
  | succ fuel ih =>
    intro s data node line insertPos n hl hn hf hd
    have hnl := lt_of_lookup hn
    obtain ⟨startLine, hsl⟩ := getStartLine_linked s hl node hnl
    have kv1 : KeptValid s.heap (dontDeleteEnding s node).heap :=
      KeptValid.valid_modify s node _ (fun _ hv => hv)
    have hn1 : (dontDeleteEnding s node).heap[node]? = some (some { n with deleteEnding := false }) := by
      unfold dontDeleteEnding
      rw [lookup_modify, hn]
      simp
    unfold correctEndings
    simp only [hsl, Res.ok_bind, node_of_heap hn]
    by_cases hm : data = -n.type
    · have hnot : ¬ data ≠ -n.type := fun c => c hm
      rw [if_neg hnot]
      by_cases hv : n.endLineValid = false
      · rw [if_pos hv]
        refine ⟨_, rfl, KeptValid.valid_trans kv1 (KeptValid.valid_modify _ node _ (fun _ _ => rfl)),
          ⟨fun _ => hm, fun _ => rfl⟩, fun _ => ?_⟩
        refine ⟨{ n with deleteEnding := false, endLineValid := true,
                         endLineRel := usub line startLine }, ?_, rfl⟩
        show ((dontDeleteEnding s node).modify node _).heap[node]? = _
        rw [lookup_modify, hn1]
        simp only [Option.map_some', if_true]
      · rw [if_neg hv]
        have hvt : n.endLineValid = true := by
          cases h : n.endLineValid with
          | true => rfl
          | false => exact absurd h hv
        by_cases he : uadd startLine n.endLineRel = line
        · rw [if_pos he]
          exact ⟨_, rfl, kv1, ⟨fun _ => hm, fun _ => rfl⟩, fun _ => ⟨_, hn1, hvt⟩⟩
        · rw [if_neg he]
          have ht : n.type ≠ 0 := by omega
          obtain ⟨p, hp, hpl, _⟩ := hl.parentOf hn ht
          -- the state with the new end offset
          have k2 : Kept s.heap ((dontDeleteEnding s node).modify node (fun m =>
              { m with endLineRel := usub line startLine })).heap := by
            refine Kept.kept_trans (Kept.kept_modify s node _ ?_) (Kept.kept_modify _ node _ ?_)
            · intro m _
              exact ⟨rfl, fun q hq hql => ⟨q, hq, hql⟩, fun h => h, fun hc => hc⟩
            · intro m _
              exact ⟨rfl, fun q hq hql => ⟨q, hq, hql⟩, fun h => h, fun hc => hc⟩
          generalize hs2 : (dontDeleteEnding s node).modify node (fun m =>
              { m with endLineRel := usub line startLine }) = s2 at k2
          have hl2 : Linked s2.heap := k2.keeps_links hl
          have hn2 : s2.heap[node]? =
              some (some { n with deleteEnding := false, endLineRel := usub line startLine }) := by
            rw [← hs2, lookup_modify, hn1]
            simp only [Option.map_some', if_true]
          obtain ⟨p2, hp2, _, hpar2⟩ := hl2.parentOf hn2 ht
          have hpp : p2 = p := by
            have : (some p2 : Option Nat) = some p := by rw [← hp2]; exact hp
            cases this
            rfl
          subst hpp
          have hpl2 : p2 < s2.heap.length := by
            have := lt_of_lookup hn2
            omega
          obtain ⟨pn, hpn⟩ := hl2.cell_live hpl2
          have hkids : ∀ c ∈ n.childnodes, ∃ m, s2.heap[c]? = some (some m) := by
            intro c hc
            have := (hl.kids node n hn c hc).2
            rw [← k2.1] at this
            exact hl2.cell_live this
          simp only [hpar2, Res.ok_bind, node_of_heap hpn]
          rcases firstChild_spec s2 (fun c => decide (c.startLineRel ≥ usub line startLine))
              n.childnodes 0 hkids with ⟨i, c, m, hfc, _, _, _⟩ | ⟨hfc, _⟩
          · obtain ⟨s3, hs3, k3⟩ := moveChildrenUp_kept s2 hl2 node p2 _ hn2 hp2 hpl i
              (qfind pn.childnodes node)
            have hl3 := k3.keeps_links hl2
            have hp3l : p2 < s3.heap.length := by rw [k3.1]; exact hpl2
            obtain ⟨pn3, hpn3⟩ := hl3.cell_live hp3l
            obtain ⟨r, hr, kvr, _, _⟩ := ih s3 data p2 (uadd n.endLineRel startLine)
              (qfind pn3.childnodes node + 1) pn3 hl3 hpn3 (by omega) hd
            simp only [hfc, Res.ok_bind, hs3, node_of_heap hpn3, hr, Res.pure_eq]
            refine ⟨_, rfl, KeptValid.valid_trans (KeptValid.valid_trans k2.valid k3.valid) kvr,
              ⟨fun _ => hm, fun _ => rfl⟩, fun _ => ?_⟩
            obtain ⟨n3, hn3, hv3⟩ := k3.valid node _ hn2 hvt
            exact kvr node n3 hn3 hv3
          · obtain ⟨r, hr, kvr, _, _⟩ := ih s2 data p2 (uadd n.endLineRel startLine)
              (qfind pn.childnodes node + 1) pn hl2 hpn (by omega) hd
            simp only [hfc, Res.ok_bind, node_of_heap hpn, hr, Res.pure_eq]
            refine ⟨_, rfl, KeptValid.valid_trans k2.valid kvr,
              ⟨fun _ => hm, fun _ => rfl⟩, fun _ => ?_⟩
            exact kvr node _ hn2 hvt
    · rw [if_pos hm]
      by_cases ht : data = n.type
      · rw [if_pos ht]
        exact ⟨_, rfl, kv1, ⟨fun h => Bool.noConfusion h, fun h => absurd h hm⟩, fun h => absurd h hm⟩
      · rw [if_neg ht]
        refine ⟨_, rfl, ?_, ⟨fun h => Bool.noConfusion h, fun h => absurd h hm⟩, fun h => absurd h hm⟩
        refine KeptValid.valid_trans kv1 ?_
        intro i n1 h1 hv1
        rw [lookup_modify]
        show ∃ n2 : KateCodeFoldingNode,
          (((dontDeleteEnding s node).heap ++ [_])[i]?).map _ = some (some n2) ∧
            n2.endLineValid = true
        rw [List.getElem?_append_left (lt_of_lookup h1), h1]
        simp only [Option.map_some']
        by_cases c : i = node
        · simp only [c, if_true]
          exact ⟨_, rfl, hv1⟩
        · simp only [c, if_false]
          exact ⟨_, rfl, hv1⟩

/-! ## Closing markers (`correctEndings`) -/

/-- The mismatch branch of `correctEndings`: the state it returns. -/
theorem correctEndings_mismatch (fuel : Nat) (s : KateCodeFoldingTree) (data : Int)
    (node line : Nat) (insertPos : Int) (n : KateCodeFoldingNode) (startLine : Nat)
    (hn : s.heap[node]? = some (some n)) (hs : getStartLine s node = .ok startLine)
    (hm : data ≠ -n.type) (ht : data ≠ n.type) (h1 : -1 ≤ insertPos)
    (h2 : insertPos ≤ (n.childnodes.length : Int)) :
    ∃ s2, correctEndings (fuel + 1) s data node line insertPos = .ok (s2, false) ∧
      s2.heap.length = s.heap.length + 1 ∧
      s2.heap[s.heap.length]? = some (some
        { parentNode := some node, childnodes := [], startLineValid := false,
          startLineRel := usub line startLine, endLineValid := true, endLineRel := 0,
          type := data, visible := true, deleteOpening := false, deleteEnding := false }) ∧
      s2.heap[node]? = some (some { n with
        deleteEnding := false,
        childnodes := if insertPos = -1 then n.childnodes ++ [s.heap.length]
          else n.childnodes.take insertPos.toNat ++ s.heap.length ::
            n.childnodes.drop insertPos.toNat }) ∧
      ∀ x, x ≠ node → x < s.heap.length → s2.heap[x]? = s.heap[x]? := by
  have hnl := lt_of_lookup hn
  have hh1 : (dontDeleteEnding s node).heap = s.heap.set node (some { n with deleteEnding := false }) := by
    unfold dontDeleteEnding
    rw [modify_heap s node _ n hn]
  have hlen1 : (dontDeleteEnding s node).heap.length = s.heap.length := by
    rw [hh1, List.length_set]
  unfold correctEndings
  simp only [hs, Res.ok_bind, node_of_heap hn, hm, ne_eq, not_false_eq_true, if_true, ht,
    if_false, Res.pure_eq]
  refine ⟨_, rfl, ?_, ?_, ?_, ?_⟩
  · unfold KateCodeFoldingTree.modify
    split
    · simp [KateCodeFoldingTree.alloc, hlen1]
    · simp [KateCodeFoldingTree.alloc, hlen1]
  · rw [lookup_modify]
    show (((dontDeleteEnding s node).heap ++ [_])[s.heap.length]?).map _ = _
    rw [List.getElem?_append_right (by omega), hlen1]
    have hne : ¬ s.heap.length = node := by omega
    simp [hne, newNode]
  · rw [lookup_modify]
    show (((dontDeleteEnding s node).heap ++ [_])[node]?).map _ = _
    rw [List.getElem?_append_left (by omega), hh1, lookup_set_self _ hnl]
    simp only [Option.map_some', if_true, KateCodeFoldingTree.alloc, hlen1]
    congr 2
    by_cases c1 : insertPos = -1
    · simp [c1]
    · by_cases c2 : insertPos = (n.childnodes.length : Int)
      · have e : insertPos.toNat = n.childnodes.length := by omega
        simp [c1, c2, e]
      · have hx : ¬ (insertPos = -1 ∨ insertPos = (n.childnodes.length : Int)) := by omega
        have hr : 0 ≤ insertPos ∧ insertPos ≤ (n.childnodes.length : Int) := by omega
        have hx2 : ¬ (False ∨ insertPos = (n.childnodes.length : Int)) := by
          intro h
          rcases h with h | h
          · exact h
          · exact c2 h
        simp only [hx, if_false, c1, qinsert, hr, and_self, if_true, hx2]
  · intro x hx hxl
    rw [lookup_modify]
    show (((dontDeleteEnding s node).heap ++ [_])[x]?).map _ = _
    rw [List.getElem?_append_left (by omega), hh1, lookup_set_ne _ hx]
    simp only [hx, if_false]
    cases s.heap[x]? with
    | none => rfl
    | some o => cases o <;> rfl

/-- The closing branch of `correctEndings` on a node without a valid end. -/
theorem correctEndings_first_close (fuel : Nat) (s : KateCodeFoldingTree) (data : Int)
    (node line : Nat) (insertPos : Int) (n : KateCodeFoldingNode) (startLine : Nat)
    (hn : s.heap[node]? = some (some n)) (hs : getStartLine s node = .ok startLine)
    (hm : data = -n.type) (hv : n.endLineValid = false) :
    ∃ s2, correctEndings (fuel + 1) s data node line insertPos = .ok (s2, true) ∧
      s2.heap = s.heap.set node (some { n with
        deleteEnding := false, endLineValid := true, endLineRel := usub line startLine }) := by
  have hnl := lt_of_lookup hn
  unfold correctEndings
  have hnot : ¬ data ≠ -n.type := fun c => c hm
  simp only [hs, Res.ok_bind, node_of_heap hn, hnot, if_false, hv, if_true, Res.pure_eq]
  refine ⟨_, rfl, ?_⟩
  unfold dontDeleteEnding
  rw [modify_modify, modify_heap s node _ n hn]

/-- C20: `correctEndings(data, node, line, insertPos)` with `data < 0`, on a live
node `n` whose start line `getStartLine` gives.
(1) When `data = -n.type` and the links of the heap are sound, the call returns
`true` and afterwards the node has `endLineValid = true`; if its end was not
valid before, the heap is the old one with `endLineValid = true`,
`endLineRel = line - startLine` (and `deleteEnding` reset) stored in the node.
(2) When `data ≠ -n.type` and `data ≠ n.type`, for `-1 ≤ insertPos ≤ count` the
call returns `false`; one cell is added to the heap, the leaf with parent
`node`, `type = data`, `startLineValid = false`, `endLineValid = true`,
`endLineRel = 0`, `startLineRel = line - startLine` (in `unsigned int`) and no
children; the node keeps all its fields but `deleteEnding` (reset) and its child
list, which is the old one with the new leaf appended when `insertPos = -1` and
inserted at index `insertPos` otherwise (at the end when `insertPos = count`);
every other cell is as before.
(3) When `data ≠ -n.type` and `data = n.type`, the call returns `false` and
only resets `deleteEnding` of the node. So the call reports `true` exactly when
`data = -n.type`. -/
theorem correctEndings_closes_iff_type_matches (s : KateCodeFoldingTree) (data : Int)
    (node line : Nat) (insertPos : Int) (n : KateCodeFoldingNode) (startLine : Nat)
    (hn : s.heap[node]? = some (some n)) (hs : getStartLine s node = .ok startLine)
    (hd : data < 0) :
    (data = -n.type → Linked s.heap →
      ∃ s2 n2, correctEndings (s.heap.length + 1) s data node line insertPos = .ok (s2, true) ∧
        s2.heap[node]? = some (some n2) ∧ n2.endLineValid = true ∧
        (n.endLineValid = false → s2.heap = s.heap.set node (some { n with
          deleteEnding := false, endLineValid := true, endLineRel := usub line startLine }))) ∧
    (data ≠ -n.type → data ≠ n.type → -1 ≤ insertPos → insertPos ≤ (n.childnodes.length : Int) →
      ∃ s2, correctEndings (s.heap.length + 1) s data node line insertPos = .ok (s2, false) ∧
        s2.heap.length = s.heap.length + 1 ∧
        s2.heap[s.heap.length]? = some (some
          { parentNode := some node, childnodes := [], startLineValid := false,
            startLineRel := usub line startLine, endLineValid := true, endLineRel := 0,
            type := data, visible := true, deleteOpening := false, deleteEnding := false }) ∧
        s2.heap[node]? = some (some { n with
          deleteEnding := false,
          childnodes := if insertPos = -1 then n.childnodes ++ [s.heap.length]
            else n.childnodes.take insertPos.toNat ++ s.heap.length ::
              n.childnodes.drop insertPos.toNat }) ∧
        ∀ x, x ≠ node → x < s.heap.length → s2.heap[x]? = s.heap[x]?) ∧
    (data ≠ -n.type → data = n.type →
      correctEndings (s.heap.length + 1) s data node line insertPos =
        .ok (dontDeleteEnding s node, false)) := by
  refine ⟨?_, ?_, ?_⟩
  · intro hm hl
    obtain ⟨r, hr, _, hiff, hval⟩ := correctEndings_total (s.heap.length + 1) s data node line
      insertPos n hl hn (by have := lt_of_lookup hn; omega) hd
    obtain ⟨n2, hn2, hv2⟩ := hval hm
    have hr2 : r.2 = true := hiff.2 hm
    have hre : r = (r.1, true) := by
      rw [← hr2]
    refine ⟨r.1, n2, by rw [hr, hre], hn2, hv2, ?_⟩
    intro hv
    obtain ⟨s2, h2, hh2⟩ := correctEndings_first_close s.heap.length s data node line insertPos n
      startLine hn hs hm hv
    rw [hr] at h2
    cases h2
    exact hh2
  · intro hm ht h1 h2
    exact correctEndings_mismatch s.heap.length s data node line insertPos n startLine hn hs hm
      ht h1 h2
  · intro hm ht
    unfold correctEndings
    simp only [hs, Res.ok_bind, node_of_heap hn]
    rw [if_pos hm, if_pos ht]
    rfl

/-- C20, witness: the unterminated region of type `1` opened on line 0, and the
marker `-2` on line 5 with `insertPos = -1`; the links of that heap are sound,
and the marker `-1` closes the region. -/
theorem correctEndings_closes_iff_type_matches_witness :
    ((openTree 0 1).heap[1]? = some (some { newNode 0 1 0 with endLineRel := 60000 }) ∧
      getStartLine (openTree 0 1) 1 = .ok 0 ∧ (-2 : Int) < 0) ∧
    Linked (openTree 0 1).heap ∧
    (∃ s2, correctEndings ((openTree 0 1).heap.length + 1) (openTree 0 1) (-1) 1 5 (-1)
      = .ok (s2, true)) ∧
    ((-2 : Int) = -({ newNode 0 1 0 with endLineRel := 60000 } : KateCodeFoldingNode).type →
      Linked (openTree 0 1).heap →
      ∃ s2 n2, correctEndings ((openTree 0 1).heap.length + 1) (openTree 0 1) (-2) 1 5 (-1)
          = .ok (s2, true) ∧
        s2.heap[1]? = some (some n2) ∧ n2.endLineValid = true ∧
        (({ newNode 0 1 0 with endLineRel := 60000 } : KateCodeFoldingNode).endLineValid = false →
          s2.heap = (openTree 0 1).heap.set 1 (some { ({ newNode 0 1 0 with endLineRel := 60000 } :
            KateCodeFoldingNode) with
            deleteEnding := false, endLineValid := true, endLineRel := usub 5 0 }))) ∧
    ((-2 : Int) ≠ -({ newNode 0 1 0 with endLineRel := 60000 } : KateCodeFoldingNode).type →
      (-2 : Int) ≠ ({ newNode 0 1 0 with endLineRel := 60000 } : KateCodeFoldingNode).type →
      (-1 : Int) ≤ -1 →
      (-1 : Int) ≤ (({ newNode 0 1 0 with endLineRel := 60000 } :
        KateCodeFoldingNode).childnodes.length : Int) →
      ∃ s2, correctEndings ((openTree 0 1).heap.length + 1) (openTree 0 1) (-2) 1 5 (-1)
          = .ok (s2, false) ∧
        s2.heap.length = (openTree 0 1).heap.length + 1 ∧
        s2.heap[(openTree 0 1).heap.length]? = some (some
          { parentNode := some 1, childnodes := [], startLineValid := false,
            startLineRel := usub 5 0, endLineValid := true, endLineRel := 0,
            type := -2, visible := true, deleteOpening := false, deleteEnding := false }) ∧
        s2.heap[1]? = some (some { ({ newNode 0 1 0 with endLineRel := 60000 } :
          KateCodeFoldingNode) with
          deleteEnding := false,
          childnodes := if (-1 : Int) = -1 then
              ({ newNode 0 1 0 with endLineRel := 60000 } : KateCodeFoldingNode).childnodes ++
                [(openTree 0 1).heap.length]
            else ({ newNode 0 1 0 with endLineRel := 60000 } :
                KateCodeFoldingNode).childnodes.take (-1 : Int).toNat ++
              (openTree 0 1).heap.length ::
                ({ newNode 0 1 0 with endLineRel := 60000 } :
                  KateCodeFoldingNode).childnodes.drop (-1 : Int).toNat }) ∧
        ∀ x, x ≠ 1 → x < (openTree 0 1).heap.length →
          s2.heap[x]? = (openTree 0 1).heap[x]?) ∧
    ((-2 : Int) ≠ -({ newNode 0 1 0 with endLineRel := 60000 } : KateCodeFoldingNode).type →
      (-2 : Int) = ({ newNode 0 1 0 with endLineRel := 60000 } : KateCodeFoldingNode).type →
      correctEndings ((openTree 0 1).heap.length + 1) (openTree 0 1) (-2) 1 5 (-1) =
        .ok (dontDeleteEnding (openTree 0 1) 1, false)) := by
  refine ⟨⟨rfl, by decide, by decide⟩, ?_, ⟨_, rfl⟩,
    correctEndings_closes_iff_type_matches (openTree 0 1) (-2) 1 5 (-1)
      { newNode 0 1 0 with endLineRel := 60000 } 0 rfl (by decide) (by decide)⟩
  refine ⟨⟨_, rfl, rfl⟩, ?_, ?_⟩
  · intro i h0 hi
    have hi1 : i = 1 := by
      simp [openTree] at hi
      omega
    subst hi1
    exact ⟨_, 0, rfl, rfl, by omega, by simp [newNode]⟩
  · intro p n hp c hc
    have hlt := lt_of_lookup hp
    have hp2 : p = 0 ∨ p = 1 := by
      simp [openTree] at hlt
      omega
    rcases hp2 with e | e
    · subst e
      simp [openTree] at hp
      subst hp
      simp at hc
      subst hc
      simp [openTree]
    · subst e
      simp [openTree, newNode] at hp
      subst hp
      simp at hc

/-! ## The walked path in a tree whose regions are laid out in order -/

theorem removeHiddenAt_none (st : Nat) :
    ∀ (P : List hiddenLineBlock), (∀ it ∈ P, it.start ≠ st) → removeHiddenAt st P = P := by
  intro P
  induction P with
  | nil => intro _; rfl
  | cons p r ih =>
    intro hP
    unfold removeHiddenAt
    rw [if_neg (hP p (List.mem_cons_self _ _)),
      ih (fun it hit => hP it (List.mem_cons_of_mem _ hit))]

theorem hiddenSorted_iff_pairwise : ∀ (L : List hiddenLineBlock),
    hiddenSorted L ↔ L.Pairwise (fun x y => x.start + x.length ≤ y.start) := by
  intro L
  induction L with
  | nil => simp [hiddenSorted]
  | cons x r ih =>
    cases r with
    | nil => simp [hiddenSorted]
    | cons y r2 =>
      unfold hiddenSorted
      rw [ih]
      constructor
      · rintro ⟨h1, hp⟩
        refine List.pairwise_cons.2 ⟨?_, hp⟩
        intro z hz
        rcases List.mem_cons.1 hz with e | e
        · rw [e]; exact h1
        · have := (List.pairwise_cons.1 hp).1 z e
          omega
      · intro hp
        have hp2 := List.pairwise_cons.1 hp
        exact ⟨hp2.1 y (List.mem_cons_self _ _), hp2.2⟩

theorem Below.trans {h : List (Option KateCodeFoldingNode)} {a b c : Nat}
    (h1 : Below h a b) (h2 : Below h b c) : Below h a c := by
  induction h1 with
  | child p x n hp hx => exact Below.step p x c n hp hx h2
  | step p x d n hp hx _ ih => exact Below.step p x c n hp hx (ih h2)

theorem hiddenSorted_tail {x : hiddenLineBlock} {l : List hiddenLineBlock}
    (h : hiddenSorted (x :: l)) : hiddenSorted l := by
  cases l with
  | nil => trivial
  | cons y r => exact h.2

theorem hiddenSorted_head_le {x : hiddenLineBlock} {l : List hiddenLineBlock}
    (h : hiddenSorted (x :: l)) : ∀ y ∈ l, x.start + x.length ≤ y.start := by
  have hp := (hiddenSorted_iff_pairwise (x :: l)).1 h
  exact (List.pairwise_cons.1 hp).1

theorem getRealLineLoop_visible (l : List hiddenLineBlock) (v : Nat)
    (hs : hiddenSorted l) (hb : v + hiddenTotal l < 4294967296) :
    (∀ it ∈ l, it.start ≤ getRealLineLoop l v → it.start + it.length ≤ getRealLineLoop l v) ∧
    getRealLineLoop l v =
      v + hiddenTotal (l.filter (fun it => decide (it.start ≤ getRealLineLoop l v))) := by
  induction l generalizing v with
  | nil => simp [getRealLineLoop, hiddenTotal]
  | cons x rest ih =>
    simp only [hiddenTotal] at hb
    have hh := hiddenSorted_head_le hs
    by_cases c : x.start ≤ v
    · have h1 : uadd v x.length = v + x.length := by unfold uadd; omega
      have e : getRealLineLoop (x :: rest) v = getRealLineLoop rest (v + x.length) := by
        rw [getRealLineLoop, if_pos c, h1]
      have hge := getRealLineLoop_ge rest (v + x.length) (by omega)
      have hi := ih (v + x.length) (hiddenSorted_tail hs) (by omega)
      rw [e]
      refine ⟨?_, ?_⟩
      · intro it hit hle
        rcases List.mem_cons.1 hit with rfl | hit
        · omega
        · exact hi.1 it hit hle
      · have hx : decide (x.start ≤ getRealLineLoop rest (v + x.length)) = true := by
          simp only [decide_eq_true_eq]; omega
        simp only [List.filter_cons, hx, if_true, hiddenTotal]
        have := hi.2
        omega
    · have e : getRealLineLoop (x :: rest) v = v := by
        rw [getRealLineLoop, if_neg c]
      rw [e]
      have hall : ∀ it ∈ x :: rest, ¬ it.start ≤ v := by
        intro it hit
        rcases List.mem_cons.1 hit with rfl | hit
        · exact c
        · have := hh it hit
          omega
      refine ⟨fun it hit hle => absurd hle (hall it hit), ?_⟩
      have hf : (x :: rest).filter (fun it => decide (it.start ≤ v)) = [] := by
        rw [List.filter_eq_nil_iff]
        intro it hit
        simpa using hall it hit
      rw [hf]
      simp [hiddenTotal]

/-- C29: for every state whose hidden blocks are ordered by ascending start and do
not overlap, whose `lineMapping` cache is empty or consistent, and every virtual
line `v` whose real line fits the `unsigned int` range
(`v + total hidden length < 2^32`): `getRealLine(v) ≥ v`, `getRealLine(v)` lies
inside no hidden block, and `getRealLine(v) - v` is the total length of the
hidden blocks that start at or before `getRealLine(v)`. -/
theorem getRealLine_lands_on_visible_line (s : KateCodeFoldingTree) (v : Nat)
    (hs : hiddenSorted s.hiddenLines) (hc : cacheConsistent s)
    (hb : v + hiddenTotal s.hiddenLines < 4294967296) :
    v ≤ (getRealLine s v).1 ∧
    ¬ isHidden s.hiddenLines (getRealLine s v).1 ∧
    (getRealLine s v).1 - v =
      hiddenTotal (s.hiddenLines.filter (fun it => decide (it.start ≤ (getRealLine s v).1))) := by
  rw [getRealLine_fst s hc v]
  have h := getRealLineLoop_visible s.hiddenLines v hs hb
  have hge := getRealLineLoop_ge s.hiddenLines v hb
  refine ⟨hge.1, ?_, ?_⟩
  · rintro ⟨it, hit, h1, h2⟩
    have := h.1 it hit h1
    omega
  · have := h.2
    omega

/-- C29, witness: the blocks `(2,3)` and `(10,2)` with the cache entry `4 ↦ 7`, and
the virtual line 8, whose real line is 13. -/
theorem getRealLine_lands_on_visible_line_witness :
    (hiddenSorted ({ emptyTree with hiddenLines := [⟨2, 3⟩, ⟨10, 2⟩],
                                    lineMapping := [(4, 7)] }).hiddenLines ∧
      cacheConsistent { emptyTree with hiddenLines := [⟨2, 3⟩, ⟨10, 2⟩], lineMapping := [(4, 7)] } ∧
      8 + hiddenTotal ({ emptyTree with hiddenLines := [⟨2, 3⟩, ⟨10, 2⟩],
                                         lineMapping := [(4, 7)] }).hiddenLines < 4294967296) ∧
    (getRealLine { emptyTree with hiddenLines := [⟨2, 3⟩, ⟨10, 2⟩], lineMapping := [(4, 7)] } 8).1 = 13 ∧
    (8 ≤ (getRealLine { emptyTree with hiddenLines := [⟨2, 3⟩, ⟨10, 2⟩],
                                        lineMapping := [(4, 7)] } 8).1 ∧
    ¬ isHidden ({ emptyTree with hiddenLines := [⟨2, 3⟩, ⟨10, 2⟩],
                                  lineMapping := [(4, 7)] }).hiddenLines
        (getRealLine { emptyTree with hiddenLines := [⟨2, 3⟩, ⟨10, 2⟩],
                                      lineMapping := [(4, 7)] } 8).1 ∧
    (getRealLine { emptyTree with hiddenLines := [⟨2, 3⟩, ⟨10, 2⟩], lineMapping := [(4, 7)] } 8).1 - 8 =
      hiddenTotal (({ emptyTree with hiddenLines := [⟨2, 3⟩, ⟨10, 2⟩],
                                     lineMapping := [(4, 7)] }).hiddenLines.filter
        (fun it => decide (it.start ≤
          (getRealLine { emptyTree with hiddenLines := [⟨2, 3⟩, ⟨10, 2⟩],
                                        lineMapping := [(4, 7)] } 8).1)))) := by
  have hs : hiddenSorted
      ({ emptyTree with hiddenLines := [⟨2, 3⟩, ⟨10, 2⟩], lineMapping := [(4, 7)] }).hiddenLines :=
    ⟨by decide, trivial⟩
  have hc : cacheConsistent
      { emptyTree with hiddenLines := [⟨2, 3⟩, ⟨10, 2⟩], lineMapping := [(4, 7)] } := by
    intro p hp
    simp only [List.mem_singleton] at hp
    subst hp
    rfl
  have hb : 8 + hiddenTotal
      ({ emptyTree with hiddenLines := [⟨2, 3⟩, ⟨10, 2⟩], lineMapping := [(4, 7)] }).hiddenLines
      < 4294967296 := by decide
  exact ⟨⟨hs, hc, hb⟩, rfl, getRealLine_lands_on_visible_line _ 8 hs hc hb⟩

/-! ## The same-line pass leaves no pair to cancel -/

theorem reduceAux_chain :
    ∀ (rest out : List Int), out.Chain' (fun o o2 => ¬ (o2 > 0 ∧ o2 = -o)) →
      (reduceAux out rest).reverse.Chain' (fun o o2 => ¬ (o2 > 0 ∧ o2 = -o)) := by
  intro rest
  induction rest with
  | nil =>
    intro out h
    simpa [reduceAux] using h
  | cons m rest ih =>
    intro out h
    cases out with
    | nil =>
      rw [reduceAux]
      exact ih [m] (List.chain'_singleton m)
    | cons o out2 =>
      by_cases hc : o > 0 ∧ o = -m
      · rw [reduceAux_drop o m out2 rest hc]
        exact ih out2 h.tail
      · rw [reduceAux_keep o m out2 rest hc]
        exact ih (m :: o :: out2) (List.chain'_cons.2 ⟨hc, h⟩)

theorem chain_getD (R : Int → Int → Prop) (l : List Int) (h : l.Chain' R) (i : Nat)
    (h1 : 1 ≤ i) (h2 : i < l.length) : R (l.getD (i - 1) 0) (l.getD i 0) := by
  have hh := (List.chain'_iff_get.1 h) (i - 1) (by omega)
  have e : i - 1 + 1 = i := by omega
  simp only [List.get_eq_getElem, e] at hh
  rw [List.getD_eq_getElem?_getD, List.getD_eq_getElem?_getD,
    List.getElem?_eq_getElem (by omega : i - 1 < l.length), List.getElem?_eq_getElem h2]
  exact hh

/-- C22: the same-line pass at the head of `updateLine` returns on every marker
array; when the markers, read last array element first, form a balanced bracket
word (every closing `-t` meets the opening `+t` that is innermost at that point,
and nothing stays open) the array is empty after the pass; and in every case the
array left has no index `i ≥ 1` with `regionChanges[i] > 0` and
`regionChanges[i-1] == -regionChanges[i]`. -/
theorem cancelLoop_cancels_nested_pairs (regionChanges : List Int) :
    ∃ rc : List Int,
      cancelLoop (regionChanges.length + 1) (regionChanges.length - 1) regionChanges = .ok rc ∧
      (stackAfterMarkers [] regionChanges.reverse = some [] → rc = []) ∧
      ∀ i : Nat, 1 ≤ i → i < rc.length →
        ¬ (rc.getD i 0 > 0 ∧ rc.getD (i - 1) 0 = -(rc.getD i 0)) := by
  have hcl := cancelLoop_reduce regionChanges.reverse
  rw [List.reverse_reverse] at hcl
  refine ⟨_, hcl, ?_, ?_⟩
  · intro hs
    obtain ⟨k, ops, _, _, h3, h4⟩ := reduce_shape [] (fun t ht => absurd ht (List.not_mem_nil _))
      regionChanges.reverse [] hs
    have : ops = [] := by simpa using h4.symm
    subst this
    simp [h3]
  · intro i h1 h2
    have hch := reduceAux_chain regionChanges.reverse [] List.chain'_nil
    have := chain_getD _ _ hch i h1 h2
    rintro ⟨ha, hb⟩
    unfold reduce at ha hb
    exact this ⟨ha, by omega⟩

/-- C22, witness: the line `{{}{}{}}` with two region types, as the array holds it
(last marker first), is balanced and the pass leaves the empty array. -/
theorem cancelLoop_cancels_nested_pairs_witness :
    stackAfterMarkers [] ([-1, -2, 2, -2, 2, -2, 2, 1] : List Int).reverse = some [] ∧
    cancelLoop 9 7 [-1, -2, 2, -2, 2, -2, 2, 1] = .ok [] := by
  refine ⟨by decide, ?_⟩
  obtain ⟨rc, h1, h2, _⟩ := cancelLoop_cancels_nested_pairs [-1, -2, 2, -2, 2, -2, 2, 1]
  rw [h2 (by decide)] at h1
  exact h1

/-! ## Members of a `QJsonObject` -/

theorem QJsonObject.value_of_not_contains : ∀ (o : QJsonObject) (key : QString),
    o.contains key = false → o.value key = .undefined
  | .nil, _, _ => rfl
  | .cons k v rest, key, h => by
    unfold QJsonObject.contains at h
    unfold QJsonObject.value
    by_cases e : k = key
    · simp [e] at h
    · simp only [e, if_false] at h ⊢
      exact QJsonObject.value_of_not_contains rest key h

theorem QJsonObject.not_contains_of_allAbove : ∀ (o : QJsonObject) (key : QString),
    o.allAbove key = true → o.contains key = false
  | .nil, _, _ => rfl
  | .cons k v rest, key, h => by
    unfold QJsonObject.allAbove at h
    simp only [Bool.and_eq_true, decide_eq_true_eq] at h
    unfold QJsonObject.contains
    have e : k ≠ key := fun e => lt_irrefl key (e ▸ h.1)
    simp only [e, if_false]
    exact QJsonObject.not_contains_of_allAbove rest key h.2

theorem QJsonObject.allAbove_trans : ∀ (o : QJsonObject) (a b : QString),
    a < b → o.allAbove b = true → o.allAbove a = true
  | .nil, _, _, _, _ => rfl
  | .cons k v rest, a, b, hab, h => by
    unfold QJsonObject.allAbove at h ⊢
    simp only [Bool.and_eq_true, decide_eq_true_eq] at h ⊢
    exact ⟨lt_trans hab h.1, QJsonObject.allAbove_trans rest a b hab h.2⟩

theorem QJsonObject.contains_put : ∀ (o : QJsonObject) (key : QString) (value : QJsonValue)
    (k2 : QString), (o.put key value).contains k2 = (decide (key = k2) || o.contains k2)
  | .nil, key, value, k2 => by
    simp [QJsonObject.put, QJsonObject.contains]
  | .cons k v rest, key, value, k2 => by
    unfold QJsonObject.put
    by_cases c1 : key < k
    · simp [c1, QJsonObject.contains]
    · by_cases c2 : key = k
      · subst c2
        by_cases c3 : key = k2 <;> simp [QJsonObject.contains, c3]
      · simp only [c1, c2, if_false]
        rw [QJsonObject.contains, QJsonObject.contains_put rest key value k2, QJsonObject.contains]
        by_cases c3 : k = k2 <;> by_cases c4 : key = k2 <;> simp [c3, c4]

theorem QJsonObject.value_put : ∀ (o : QJsonObject) (key : QString) (value : QJsonValue)
    (k2 : QString), (o.put key value).value k2 = if key = k2 then value else o.value k2
  | .nil, key, value, k2 => by
    simp [QJsonObject.put, QJsonObject.value]
  | .cons k v rest, key, value, k2 => by
    unfold QJsonObject.put
    by_cases c1 : key < k
    · simp [c1, QJsonObject.value]
    · by_cases c2 : key = k
      · subst c2
        by_cases c3 : key = k2 <;> simp [QJsonObject.value, c3]
      · simp only [c1, c2, if_false]
        rw [QJsonObject.value, QJsonObject.value_put rest key value k2]
        by_cases c3 : k = k2
        · have c4 : key ≠ k2 := fun e => c2 (e.trans c3.symm)
          simp [c3, c4, QJsonObject.value]
        · by_cases c4 : key = k2 <;> simp [c3, c4, QJsonObject.value]

theorem QJsonObject.allAbove_put : ∀ (o : QJsonObject) (key : QString) (value : QJsonValue)
    (a : QString), a < key → o.allAbove a = true → (o.put key value).allAbove a = true
  | .nil, key, value, a, ha, _ => by
    simp [QJsonObject.put, QJsonObject.allAbove, ha]
  | .cons k v rest, key, value, a, ha, h => by
    unfold QJsonObject.allAbove at h
    simp only [Bool.and_eq_true, decide_eq_true_eq] at h
    unfold QJsonObject.put
    by_cases c1 : key < k
    · simp [c1, QJsonObject.allAbove, ha, h.1, h.2]
    · by_cases c2 : key = k
      · simp [c1, c2, QJsonObject.allAbove, h.1, h.2]
      · simp only [c1, c2, if_false]
        unfold QJsonObject.allAbove
        simp only [Bool.and_eq_true, decide_eq_true_eq]
        exact ⟨h.1, QJsonObject.allAbove_put rest key value a ha h.2⟩

theorem QJsonObject.canonical_put : ∀ (o : QJsonObject) (key : QString) (value : QJsonValue),
    value.isUndefined = false → o.canonical = true → (o.put key value).canonical = true
  | .nil, key, value, hv, _ => by
    simp [QJsonObject.put, QJsonObject.canonical, QJsonObject.allAbove, hv]
  | .cons k v rest, key, value, hv, h => by
    unfold QJsonObject.canonical at h
    simp only [Bool.and_eq_true, Bool.not_eq_true'] at h
    unfold QJsonObject.put
    by_cases c1 : key < k
    · simp only [c1, if_true]
      unfold QJsonObject.canonical
      simp only [Bool.and_eq_true, Bool.not_eq_true']
      refine ⟨⟨hv, ?_⟩, ?_⟩
      · unfold QJsonObject.allAbove
        simp only [Bool.and_eq_true, decide_eq_true_eq]
        exact ⟨c1, QJsonObject.allAbove_trans rest key k c1 h.1.2⟩
      · unfold QJsonObject.canonical
        simp only [Bool.and_eq_true, Bool.not_eq_true']
        exact h
    · by_cases c2 : key = k
      · subst c2
        simp only [c1, if_false, if_true]
        unfold QJsonObject.canonical
        simp only [Bool.and_eq_true, Bool.not_eq_true']
        exact ⟨⟨hv, h.1.2⟩, h.2⟩
      · simp only [c1, c2, if_false]
        unfold QJsonObject.canonical
        simp only [Bool.and_eq_true, Bool.not_eq_true']
        have hlt : k < key := by
          rcases lt_trichotomy key k with h1 | h1 | h1
          · exact absurd h1 c1
          · exact absurd h1 c2
          · exact h1
        exact ⟨⟨h.1.1, QJsonObject.allAbove_put rest key value k hlt h.1.2⟩,
          QJsonObject.canonical_put rest key value hv h.2⟩

theorem QJsonObject.insert_eq_put (o : QJsonObject) (key : QString) (value : QJsonValue)
    (hv : value.isUndefined = false) : o.insert key value = o.put key value := by
  simp [QJsonObject.insert, hv]

/-- Two objects in canonical form with the same value under every key are the
same object. -/
theorem QJsonObject.ext_value : ∀ (a b : QJsonObject), a.canonical = true → b.canonical = true →
    (∀ key, a.value key = b.value key) → a = b
  | .nil, .nil, _, _, _ => rfl
  | .nil, .cons k v r, _, hb, h => by
    exfalso
    unfold QJsonObject.canonical at hb
    simp only [Bool.and_eq_true, Bool.not_eq_true'] at hb
    have := h k
    simp only [QJsonObject.value, if_true] at this
    rw [← this] at hb
    simp [QJsonValue.isUndefined] at hb
  | .cons k v r, .nil, ha, _, h => by
    exfalso
    unfold QJsonObject.canonical at ha
    simp only [Bool.and_eq_true, Bool.not_eq_true'] at ha
    have := h k
    simp only [QJsonObject.value, if_true] at this
    rw [this] at ha
    simp [QJsonValue.isUndefined] at ha
  | .cons k v r, .cons k2 v2 r2, ha, hb, h => by
    unfold QJsonObject.canonical at ha hb
    simp only [Bool.and_eq_true, Bool.not_eq_true'] at ha hb
    have nk := QJsonObject.value_of_not_contains r k (QJsonObject.not_contains_of_allAbove r k ha.1.2)
    have nk2 := QJsonObject.value_of_not_contains r2 k2
      (QJsonObject.not_contains_of_allAbove r2 k2 hb.1.2)
    rcases lt_trichotomy k k2 with c | c | c
    · exfalso
      have := h k
      have e : k2 ≠ k := fun e => lt_irrefl k (e ▸ c)
      simp only [QJsonObject.value, if_true, e, if_false] at this
      rw [QJsonObject.value_of_not_contains r2 k (QJsonObject.not_contains_of_allAbove r2 k
        (QJsonObject.allAbove_trans r2 k k2 c hb.1.2))] at this
      rw [this] at ha
      simp [QJsonValue.isUndefined] at ha
    · subst c
      have hv : v = v2 := by
        have := h k
        simpa [QJsonObject.value] using this
      subst hv
      have hr : r = r2 := by
        apply QJsonObject.ext_value r r2 ha.2 hb.2
        intro key
        by_cases e : k = key
        · subst e
          rw [nk, nk2]
        · have := h key
          simpa [QJsonObject.value, e] using this
      rw [hr]
    · exfalso
      have := h k2
      have e : k ≠ k2 := fun e => lt_irrefl k2 (e ▸ c)
      simp only [QJsonObject.value, if_true, e, if_false] at this
      rw [QJsonObject.value_of_not_contains r k2 (QJsonObject.not_contains_of_allAbove r k2
        (QJsonObject.allAbove_trans r k2 k c ha.1.2))] at this
      rw [← this] at hb
      simp [QJsonValue.isUndefined] at hb

/-! ## The two loops of `merge` -/

theorem QJsonObject.canonical_of_wellFormed : ∀ (o : QJsonObject),
    o.wellFormed = true → o.canonical = true
  | .nil, _ => rfl
  | .cons k v rest, h => by
    cases v <;>
      simp only [QJsonObject.wellFormed, Bool.and_eq_true, Bool.false_eq_true] at h <;>
      simp only [QJsonObject.canonical, QJsonValue.isUndefined, Bool.not_false, Bool.true_and,
        Bool.and_eq_true] <;>
      first
      | exact ⟨h.1, QJsonObject.canonical_of_wellFormed rest h.2⟩
      | exact ⟨h.1.2, QJsonObject.canonical_of_wellFormed rest h.2⟩

theorem QJsonObject.wellFormed_value : ∀ (o : QJsonObject) (key : QString) (x : QJsonObject),
    o.wellFormed = true → o.value key = .object x → x.wellFormed = true
  | .nil, _, _, _, h => by simp [QJsonObject.value] at h
  | .cons k v rest, key, x, hw, h => by
    unfold QJsonObject.value at h
    by_cases e : k = key
    · simp only [e, if_true] at h
      subst h
      simp only [QJsonObject.wellFormed, Bool.and_eq_true] at hw
      exact hw.1.1
    · simp only [e, if_false] at h
      have hr : rest.wellFormed = true := by
        cases v <;> simp only [QJsonObject.wellFormed, Bool.and_eq_true, Bool.false_eq_true] at hw <;>
          exact hw.2
      exact QJsonObject.wellFormed_value rest key x hr h

theorem QJsonObject.depth_value : ∀ (o : QJsonObject) (key : QString) (x : QJsonObject),
    o.value key = .object x → x.depth < o.depth
  | .nil, _, _, h => by simp [QJsonObject.value] at h
  | .cons k v rest, key, x, h => by
    unfold QJsonObject.value at h
    by_cases e : k = key
    · simp only [e, if_true] at h
      subst h
      simp only [QJsonObject.depth]
      omega
    · simp only [e, if_false] at h
      have := QJsonObject.depth_value rest key x h
      cases v <;> simp only [QJsonObject.depth] <;> omega

theorem QJsonObject.value_defined : ∀ (o : QJsonObject) (key : QString),
    o.canonical = true → o.contains key = true → (o.value key).isUndefined = false
  | .nil, _, _, h => by simp [QJsonObject.contains] at h
  | .cons k v rest, key, hc, h => by
    unfold QJsonObject.canonical at hc
    simp only [Bool.and_eq_true, Bool.not_eq_true'] at hc
    unfold QJsonObject.contains at h
    unfold QJsonObject.value
    by_cases e : k = key
    · simp only [e, if_true]
      exact hc.1.1
    · simp only [e, if_false] at h ⊢
      exact QJsonObject.value_defined rest key hc.2 h

theorem overlay_isUndefined (bottom : QJsonObject) (key : QString) (value : QJsonValue) :
    (overlay bottom key value).isUndefined = value.isUndefined := by
  cases value <;> rfl

theorem mergeTop_cons (key : QString) (value : QJsonValue) (rest bottom result : QJsonObject) :
    mergeTop (.cons key value rest) bottom result =
      mergeTop rest bottom (result.insert key (overlay bottom key value)) := by
  cases value <;> rfl

theorem mergeTop_spec : ∀ (top bottom result : QJsonObject), top.canonical = true →
    (∀ k2, (mergeTop top bottom result).contains k2 = (top.contains k2 || result.contains k2)) ∧
    (∀ k2, (mergeTop top bottom result).value k2 =
      if top.contains k2 = true then overlay bottom k2 (top.value k2) else result.value k2) ∧
    (result.canonical = true → (mergeTop top bottom result).canonical = true)
  | .nil, bottom, result, _ => by
    simp [mergeTop, QJsonObject.contains]
  | .cons k v rest, bottom, result, hc => by
    unfold QJsonObject.canonical at hc
    simp only [Bool.and_eq_true, Bool.not_eq_true'] at hc
    have hu : (overlay bottom k v).isUndefined = false := by
      rw [overlay_isUndefined]; exact hc.1.1
    have ih := mergeTop_spec rest bottom (result.put k (overlay bottom k v)) hc.2
    have nk := QJsonObject.not_contains_of_allAbove rest k hc.1.2
    rw [mergeTop_cons, QJsonObject.insert_eq_put _ _ _ hu]
    refine ⟨?_, ?_, ?_⟩
    · intro k2
      rw [ih.1 k2, QJsonObject.contains_put, QJsonObject.contains]
      by_cases e : k = k2
      · simp [e]
      · simp [e]
    · intro k2
      rw [ih.2.1 k2, QJsonObject.value_put, QJsonObject.contains, QJsonObject.value]
      by_cases e : k = k2
      · subst e
        simp [nk]
      · simp [e]
    · intro hr
      exact ih.2.2 (QJsonObject.canonical_put _ _ _ hu hr)

theorem mergeBottom_spec : ∀ (bottom result : QJsonObject), bottom.canonical = true →
    (∀ k2, (mergeBottom bottom result).contains k2 = (result.contains k2 || bottom.contains k2)) ∧
    (∀ k2, (mergeBottom bottom result).value k2 =
      if result.contains k2 = true then result.value k2 else bottom.value k2) ∧
    (result.canonical = true → (mergeBottom bottom result).canonical = true)
  | .nil, result, _ => by
    refine ⟨?_, ?_, ?_⟩
    · intro k2
      simp [mergeBottom, QJsonObject.contains]
    · intro k2
      by_cases c : result.contains k2 = true
      · simp [mergeBottom, c]
      · simp only [Bool.not_eq_true] at c
        simp [mergeBottom, c, QJsonObject.value, QJsonObject.value_of_not_contains result k2 c]
    · intro h
      simpa [mergeBottom] using h
  | .cons k v rest, result, hc => by
    unfold QJsonObject.canonical at hc
    simp only [Bool.and_eq_true, Bool.not_eq_true'] at hc
    unfold mergeBottom
    by_cases c : result.contains k = true
    · simp only [c, if_true]
      have ih := mergeBottom_spec rest result hc.2
      refine ⟨?_, ?_, ih.2.2⟩
      · intro k2
        rw [ih.1 k2, QJsonObject.contains]
        by_cases e : k = k2
        · subst e
          simp [c]
        · simp [e]
      · intro k2
        rw [ih.2.1 k2, QJsonObject.value]
        by_cases e : k = k2
        · subst e
          simp [c]
        · simp [e]
    · simp only [Bool.not_eq_true] at c
      simp only [c, Bool.false_eq_true, if_false]
      rw [QJsonObject.insert_eq_put _ _ _ hc.1.1]
      have ih := mergeBottom_spec rest (result.put k v) hc.2
      refine ⟨?_, ?_, ?_⟩
      · intro k2
        rw [ih.1 k2, QJsonObject.contains_put, QJsonObject.contains]
        by_cases e : k = k2
        · simp [e]
        · simp [e]
      · intro k2
        rw [ih.2.1 k2, QJsonObject.contains_put, QJsonObject.value_put, QJsonObject.value]
        by_cases e : k = k2
        · subst e
          simp [c]
        · simp [e]
      · intro hr
        exact ih.2.2 (QJsonObject.canonical_put _ _ _ hc.1.1 hr)

theorem merge_spec (bottom top : QJsonObject) (hb : bottom.canonical = true)
    (ht : top.canonical = true) :
    (∀ k2, (merge bottom top).contains k2 = (top.contains k2 || bottom.contains k2)) ∧
    (∀ k2, (merge bottom top).value k2 =
      if top.contains k2 = true then overlay bottom k2 (top.value k2) else bottom.value k2) ∧
    (merge bottom top).canonical = true := by
  have h1 := mergeTop_spec top bottom .nil ht
  have h2 := mergeBottom_spec bottom (mergeTop top bottom .nil) hb
  unfold merge
  refine ⟨?_, ?_, h2.2.2 (h1.2.2 rfl)⟩
  · intro k2
    rw [h2.1 k2, h1.1 k2]
    simp [QJsonObject.contains]
  · intro k2
    rw [h2.2.1 k2, h1.1 k2, h1.2.1 k2]
    by_cases c : top.contains k2 = true
    · simp [c]
    · simp only [Bool.not_eq_true] at c
      simp [c, QJsonObject.contains]

theorem merge_nil_right (bottom : QJsonObject) (hb : bottom.canonical = true) :
    merge bottom .nil = bottom := by
  have h := merge_spec bottom .nil hb rfl
  apply QJsonObject.ext_value _ _ h.2.2 hb
  intro key
  rw [h.2.1 key]
  simp [QJsonObject.contains]

theorem merge_nil_left : ∀ (n : Nat) (top : QJsonObject), top.depth ≤ n →
    top.wellFormed = true → merge .nil top = top := by
  intro n
  induction n with
  | zero =>
    intro top hd hw
    have hc := QJsonObject.canonical_of_wellFormed top hw
    have h := merge_spec .nil top rfl hc
    apply QJsonObject.ext_value _ _ h.2.2 hc
    intro key
    rw [h.2.1 key]
    by_cases c : top.contains key = true
    · simp only [c, if_true]
      cases hv : top.value key with
      | object x =>
        have := QJsonObject.depth_value top key x hv
        omega
      | _ => rfl
    · simp only [Bool.not_eq_true] at c
      simp [c, QJsonObject.value, QJsonObject.value_of_not_contains top key c]
  | succ n ih =>
    intro top hd hw
    have hc := QJsonObject.canonical_of_wellFormed top hw
    have h := merge_spec .nil top rfl hc
    apply QJsonObject.ext_value _ _ h.2.2 hc
    intro key
    rw [h.2.1 key]
    by_cases c : top.contains key = true
    · simp only [c, if_true]
      cases hv : top.value key with
      | object x =>
        have hd2 := QJsonObject.depth_value top key x hv
        have hw2 := QJsonObject.wellFormed_value top key x hw hv
        simp only [overlay, QJsonObject.value, QJsonValue.toObject]
        rw [ih x (by omega) hw2]
      | _ => rfl
    · simp only [Bool.not_eq_true] at c
      simp [c, QJsonObject.value, QJsonObject.value_of_not_contains top key c]

theorem merge_self : ∀ (n : Nat) (x : QJsonObject), x.depth ≤ n →
    x.wellFormed = true → merge x x = x := by
  intro n
  induction n with
  | zero =>
    intro x hd hw
    have hc := QJsonObject.canonical_of_wellFormed x hw
    have h := merge_spec x x hc hc
    apply QJsonObject.ext_value _ _ h.2.2 hc
    intro key
    rw [h.2.1 key]
    by_cases c : x.contains key = true
    · simp only [c, if_true]
      cases hv : x.value key with
      | object y =>
        have := QJsonObject.depth_value x key y hv
        omega
      | _ => rfl
    · simp [c]
  | succ n ih =>
    intro x hd hw
    have hc := QJsonObject.canonical_of_wellFormed x hw
    have h := merge_spec x x hc hc
    apply QJsonObject.ext_value _ _ h.2.2 hc
    intro key
    rw [h.2.1 key]
    by_cases c : x.contains key = true
    · simp only [c, if_true]
      cases hv : x.value key with
      | object y =>
        have hd2 := QJsonObject.depth_value x key y hv
        have hw2 := QJsonObject.wellFormed_value x key y hw hv
        simp only [overlay, hv, QJsonValue.toObject]
        rw [ih y (by omega) hw2]
      | _ => rfl
    · simp [c]

/-- C30: for all JSON objects `bottom` and `top` (members in ascending key order,
none undefined, also in the objects nested in them), `merge(bottom, top)` holds
exactly the keys of `bottom` and of `top`; under a key of `top` whose value is
not an object it holds the value of `top`; under a key of `top` whose value is an
object it holds `merge(bottom[key] taken as an object, top[key])`, where a
missing or non-object `bottom[key]` is the empty object; under a key of `bottom`
alone it holds the value of `bottom`; and `merge(bottom, {}) = bottom`,
`merge({}, top) = top`, `merge(top, top) = top`. -/
theorem merge_lays_top_over_bottom (bottom top : QJsonObject)
    (hb : bottom.wellFormed = true) (ht : top.wellFormed = true) :
    (∀ key, (merge bottom top).contains key = (bottom.contains key || top.contains key)) ∧
    (∀ key, top.contains key = true → (top.value key).isObject = false →
      (merge bottom top).value key = top.value key) ∧
    (∀ key o, top.value key = .object o →
      (merge bottom top).value key = .object (merge (bottom.value key).toObject o)) ∧
    (∀ key, top.contains key = false → (merge bottom top).value key = bottom.value key) ∧
    merge bottom .nil = bottom ∧ merge .nil top = top ∧ merge top top = top := by
  have cb := QJsonObject.canonical_of_wellFormed bottom hb
  have ct := QJsonObject.canonical_of_wellFormed top ht
  have h := merge_spec bottom top cb ct
  refine ⟨?_, ?_, ?_, ?_, merge_nil_right bottom cb, merge_nil_left _ top (Nat.le_refl _) ht,
    merge_self _ top (Nat.le_refl _) ht⟩
  · intro key
    rw [h.1 key, Bool.or_comm]
  · intro key hc hv
    rw [h.2.1 key, if_pos hc]
    cases e : top.value key with
    | object o => simp [e, QJsonValue.isObject] at hv
    | _ => rfl
  · intro key o hv
    have hc : top.contains key = true := by
      by_contra c
      simp only [Bool.not_eq_true] at c
      rw [QJsonObject.value_of_not_contains top key c] at hv
      cases hv
    rw [h.2.1 key, if_pos hc, hv]
    rfl
  · intro key hc
    rw [h.2.1 key]
    simp [hc]

/-- C30, witness: `bottom = {"a": 1, "c": {"x": null}}` and
`top = {"b": true, "c": {"y": null}}` (keys as code units: `a` is 97) merge to
`{"a": 1, "b": true, "c": {"x": null, "y": null}}`. -/
theorem merge_lays_top_over_bottom_witness :
    merge (.cons [97] (.double 1) (.cons [99] (.object (.cons [120] .null .nil)) .nil))
        (.cons [98] (.bool true) (.cons [99] (.object (.cons [121] .null .nil)) .nil)) =
      .cons [97] (.double 1) (.cons [98] (.bool true)
        (.cons [99] (.object (.cons [120] .null (.cons [121] .null .nil))) .nil)) ∧
    (merge (.cons [97] (.double 1) (.cons [99] (.object (.cons [120] .null .nil)) .nil))
        (.cons [98] (.bool true) (.cons [99] (.object (.cons [121] .null .nil)) .nil))).value [99] =
      .object (merge
        ((QJsonObject.cons [97] (.double 1)
          (.cons [99] (.object (.cons [120] .null .nil)) .nil)).value [99]).toObject
        (.cons [121] .null .nil)) :=
  ⟨by rfl,
   (merge_lays_top_over_bottom
      (.cons [97] (.double 1) (.cons [99] (.object (.cons [120] .null .nil)) .nil))
      (.cons [98] (.bool true) (.cons [99] (.object (.cons [121] .null .nil)) .nil))
      (by decide) (by decide)).2.2.1 [99] (.cons [121] .null .nil) (by rfl)⟩

/-! ## Retracting one marker of a closed region -/

theorem findNode_closedTree (a b l : Nat) (t : Int) (hal : a ≤ l) (hlb : l ≤ b)
    (hb : b ≤ 60000) (sc : Bool) (md : List Nat) :
    findNodeForLine { closedTree a b t with something_changed := sc, markedForDeleting := md } l
      = .ok 1 := by
  have h1 : uadd a (b - a) = b := by unfold uadd; omega
  unfold findNodeForLine
  simp [closedTree, singleRegionHeap, emptyTree, rootNode, newNode, KateCodeFoldingTree.node,
    firstChild, h1, hal, hlb]
  unfold findNodeForLineDescending
  simp [KateCodeFoldingTree.node, firstChild]

theorem mark_closedTree_end (a b : Nat) (t : Int) (hab : a < b) (hb : b ≤ 60000) (ht : 0 < t) :
    findAndMarkAllNodesforRemovalOpenedOrClosedAt
        { closedTree a b t with something_changed := false } b =
      .ok { emptyTree with
            heap := [some { rootNode with childnodes := [1] },
                     some { newNode 0 t a with endLineValid := true, endLineRel := b - a,
                                               deleteEnding := true }],
            markedForDeleting := [1] } := by
  have h1 : uadd a (b - a) = b := by unfold uadd; omega
  have h0 : uadd 0 a = a := by unfold uadd; omega
  have h2 : a ≠ b := by omega
  have ht0 : t ≠ 0 := by omega
  have hf := findNode_closedTree a b b t (by omega) (Nat.le_refl _) hb false []
  simp only [closedTree, singleRegionHeap, emptyTree, rootNode, newNode] at hf
  unfold findAndMarkAllNodesforRemovalOpenedOrClosedAt
  simp only [closedTree, singleRegionHeap, emptyTree, rootNode, newNode, hf, Res.ok_bind]
  simp [KateCodeFoldingTree.node, ht0, addNodeToRemoveList, getStartLine, getStartLineLoop, h0,
    h2, h1, KateCodeFoldingTree.modify, markAncestors]

theorem cleanup_closedTree_end (a b : Nat) (t : Int) (hab : a < b) (hb : b ≤ 60000)
    (ht : 0 < t) :
    cleanupUnneededNodes
        { emptyTree with
          heap := [some { rootNode with childnodes := [1] },
                   some { newNode 0 t a with endLineValid := true, endLineRel := b - a,
                                             deleteEnding := true }],
          markedForDeleting := [1] } b =
      .ok { openTree a t with markedForDeleting := [1] } := by
  have h3 : usub 60000 a = 60000 - a := by unfold usub; omega
  have ht0 : t ≠ 0 := by omega
  have ht1 : ¬ t < 0 := by omega
  have ht2 : ¬ (0 = t) := by omega
  unfold cleanupUnneededNodes
  simp only [emptyTree, rootNode, newNode, cleanupLoop, cleanupNode]
  unfold removeEnding
  simp [KateCodeFoldingTree.node, dontDeleteOpening, dontDeleteEnding, KateCodeFoldingTree.modify,
    ht0, ht1, ht2, KateCodeFoldingTree.parentOf, qfind, firstChild, h3, openTree, emptyTree,
    rootNode, newNode]

theorem updateLine_retract_close (a b : Nat) (t : Int) (hab : a < b) (hb : b ≤ 60000)
    (ht : 0 < t) :
    updateLine (closedTree a b t) b [] true =
      .ok { tree := { openTree a t with markedForDeleting := [1] }, regionChanges := [],
            updated := some true } := by
  have h2 := mark_closedTree_end a b t hab hb ht
  have h6 := cleanup_closedTree_end a b t hab hb ht
  simp only [openTree, emptyTree, rootNode, newNode, closedTree, singleRegionHeap] at h2 h6
  simp [updateLine, updateLineBody, cancelLoop, openTree, emptyTree, rootNode, newNode, h2, h6,
    closedTree, singleRegionHeap]

theorem mark_closedTree_start (a b : Nat) (t : Int) (hab : a < b) (hb : b ≤ 60000)
    (ht : 0 < t) :
    findAndMarkAllNodesforRemovalOpenedOrClosedAt
        { closedTree a b t with something_changed := false } a =
      .ok { emptyTree with
            heap := [some { rootNode with childnodes := [1] },
                     some { newNode 0 t a with endLineValid := true, endLineRel := b - a,
                                               deleteOpening := true }],
            markedForDeleting := [1] } := by
  have h1 : uadd a (b - a) = b := by unfold uadd; omega
  have h0 : uadd 0 a = a := by unfold uadd; omega
  have h2 : ¬ (b = a) := by omega
  have ht0 : t ≠ 0 := by omega
  have hf := findNode_closedTree a b a t (Nat.le_refl _) (by omega) hb false []
  simp only [closedTree, singleRegionHeap, emptyTree, rootNode, newNode] at hf
  unfold findAndMarkAllNodesforRemovalOpenedOrClosedAt
  simp only [closedTree, singleRegionHeap, emptyTree, rootNode, newNode, hf, Res.ok_bind]
  simp [KateCodeFoldingTree.node, ht0, addNodeToRemoveList, getStartLine, getStartLineLoop, h0,
    h2, h1, KateCodeFoldingTree.modify, markAncestors]

theorem removeOpening_closedTree (a b : Nat) (t : Int) (hab : a < b) (hb : b ≤ 60000)
    (ht : 0 < t) :
    removeOpening
        { emptyTree with
          heap := [some { rootNode with childnodes := [1] },
                   some { newNode 0 t a with endLineValid := true, endLineRel := b - a,
                                             deleteOpening := true }],
          markedForDeleting := [1] } 1 a =
      .ok { emptyTree with
            heap := [some { rootNode with childnodes := [2] }, none,
                     some { newNode 0 (-t) b with
                            startLineValid := false, endLineValid := true, endLineRel := 0 }],
            something_changed := true, markedForDeleting := [1] } := by
  have h1 : uadd a (b - a) = b := by unfold uadd; omega
  have h3 : usub b 0 = b := by unfold usub; omega
  have ht0 : t ≠ 0 := by omega
  have ht3 : ¬ (-t = 0) := by omega
  have ht4 : ¬ (t = 0) := by omega
  unfold removeOpening
  simp only [emptyTree, rootNode, newNode, KateCodeFoldingTree.node, KateCodeFoldingTree.parentOf]
  simp [ht0, qfind, moveAllUp, KateCodeFoldingTree.node, deleteChildAt, qat, qtake,
    KateCodeFoldingTree.free, KateCodeFoldingTree.modify, ht, h1]
  unfold correctEndings
  simp [getStartLine, getStartLineLoop, KateCodeFoldingTree.node, ht3, ht4, dontDeleteEnding,
    KateCodeFoldingTree.modify, KateCodeFoldingTree.alloc, newNode, h3]

theorem cleanup_closedTree_start (a b : Nat) (t : Int) (hab : a < b) (hb : b ≤ 60000)
    (ht : 0 < t) :
    cleanupUnneededNodes
        { emptyTree with
          heap := [some { rootNode with childnodes := [1] },
                   some { newNode 0 t a with endLineValid := true, endLineRel := b - a,
                                             deleteOpening := true }],
          markedForDeleting := [1] } a =
      .ok { emptyTree with
            heap := [some { rootNode with childnodes := [2] }, none,
                     some { newNode 0 (-t) b with
                            startLineValid := false, endLineValid := true, endLineRel := 0 }],
            something_changed := true, markedForDeleting := [1] } := by
  have hr := removeOpening_closedTree a b t hab hb ht
  simp only [emptyTree, rootNode, newNode] at hr
  unfold cleanupUnneededNodes
  simp only [emptyTree, rootNode, newNode, cleanupLoop, cleanupNode]
  simp [KateCodeFoldingTree.node, hr, ht, dontDeleteOpening, KateCodeFoldingTree.modify]

theorem updateLine_retract_open (a b : Nat) (t : Int) (hab : a < b) (hb : b ≤ 60000)
    (ht : 0 < t) :
    updateLine (closedTree a b t) a [] true =
      .ok { tree := { emptyTree with
                      heap := [some { rootNode with childnodes := [2] }, none,
                               some { newNode 0 (-t) b with
                                      startLineValid := false, endLineValid := true,
                                      endLineRel := 0 }],
                      something_changed := true, markedForDeleting := [1] },
            regionChanges := [], updated := some true } := by
  have h2 := mark_closedTree_start a b t hab hb ht
  have h6 := cleanup_closedTree_start a b t hab hb ht
  simp only [emptyTree, rootNode, newNode, closedTree, singleRegionHeap] at h2 h6
  simp [updateLine, updateLineBody, cancelLoop, emptyTree, rootNode, newNode, h2, h6,
    closedTree, singleRegionHeap]

/-- C26: on the tree holding one closed top-level region of type `t > 0` from line
`a` to line `b` (`a < b ≤ 60000`), (i) `updateLine(b, [], changed = true)` returns,
reports `updated = true`, and leaves the region node below the root with its type
and start `a` but `endLineValid = false`; (ii) `updateLine(a, [], changed = true)`
returns, reports `updated = true`, deletes the region node and leaves as the only
child of the root a leaf of type `-t` with `startLineValid = false`,
`endLineRel = 0` and no children, whose absolute line is `b`. -/
theorem updateLine_retracts_one_marker (a b : Nat) (t : Int) (hab : a < b) (hb : b ≤ 60000)
    (ht : 0 < t) :
    (∃ (r : UpdateResult) (n : KateCodeFoldingNode),
      updateLine (closedTree a b t) b [] true = .ok r ∧ r.updated = some true ∧
      r.tree.heap = [some { rootNode with childnodes := [1] }, some n] ∧
      n.parentNode = some 0 ∧ n.type = t ∧ n.startLineValid = true ∧ n.startLineRel = a ∧
      n.endLineValid = false ∧ getStartLine r.tree 1 = .ok a) ∧
    (∃ (r : UpdateResult) (n : KateCodeFoldingNode),
      updateLine (closedTree a b t) a [] true = .ok r ∧ r.updated = some true ∧
      r.tree.heap = [some { rootNode with childnodes := [2] }, none, some n] ∧
      n.parentNode = some 0 ∧ n.type = -t ∧ n.startLineValid = false ∧ n.endLineValid = true ∧
      n.endLineRel = 0 ∧ n.childnodes = [] ∧ getStartLine r.tree 2 = .ok b) := by
  have h0 : uadd 0 a = a := by unfold uadd; omega
  have h1 : uadd 0 b = b := by unfold uadd; omega
  have ht0 : t ≠ 0 := by omega
  have ht3 : ¬ (-t = 0) := by omega
  refine ⟨⟨_, _, updateLine_retract_close a b t hab hb ht, rfl, rfl, rfl, rfl, rfl, rfl, rfl, ?_⟩,
    ⟨_, _, updateLine_retract_open a b t hab hb ht, rfl, rfl, rfl, rfl, rfl, rfl, rfl, rfl, ?_⟩⟩
  · simp [getStartLine, getStartLineLoop, KateCodeFoldingTree.node, openTree, emptyTree, rootNode,
      newNode, ht0, h0]
  · simp [getStartLine, getStartLineLoop, KateCodeFoldingTree.node, emptyTree, rootNode,
      newNode, ht3, h1]

/-- C26, witness: the region of type 1 from line 2 to line 5. -/
theorem updateLine_retracts_one_marker_witness :
    ((2 : Nat) < 5 ∧ (5 : Nat) ≤ 60000 ∧ (0 : Int) < 1) ∧
    (updateLine (closedTree 2 5 1) 5 [] true).bind (fun r => .ok r.updated) = .ok (some true) ∧
    (updateLine (closedTree 2 5 1) 2 [] true).bind (fun r => .ok r.tree.heap) =
      .ok [some { rootNode with childnodes := [2] }, none,
           some { newNode 0 (-1) 5 with startLineValid := false, endLineValid := true,
                                         endLineRel := 0 }] := by
  obtain ⟨⟨r1, n1, e1, u1, _⟩, ⟨r2, n2, e2, _, h2, _⟩⟩ :=
    updateLine_retracts_one_marker 2 5 1 (by decide) (by decide) (by decide)
  exact ⟨⟨by decide, by decide, by decide⟩, rfl, rfl⟩

/-! ## A closing marker processed before its opening -/

theorem updateLine_unmatched_close (b : Nat) (t : Int) (hb : b ≤ 60000) (ht : 0 < t) :
    updateLine emptyTree b [-t] true =
      .ok { tree := { emptyTree with
                      heap := [some { rootNode with childnodes := [1] },
                               some { newNode 0 (-t) b with
                                      startLineValid := false, endLineValid := true,
                                      endLineRel := 0 }],
                      something_changed := true },
            regionChanges := [], updated := some true } := by
  have h2 := mark_emptyTree b
  have h3 : usub b 0 = b := by unfold usub; omega
  have ht1 : -t < 0 := by omega
  have ht3 : ¬ (-t = 0) := by omega
  have ht4 : ¬ (t = 0) := by omega
  have hf : findNodeForLine emptyTree b = .ok 0 := by
    unfold findNodeForLine
    simp [emptyTree, rootNode, KateCodeFoldingTree.node, firstChild]
  have hl : locateInsert emptyTree b (-t) = .ok (0, -1) := by
    unfold locateInsert
    rw [hf]
    simp [ht1, emptyTree, rootNode, KateCodeFoldingTree.node, getStartLine, getStartLineLoop,
      firstChild]
  have hc : correctEndings 2 emptyTree (-t) 0 b (-1) =
      .ok ({ emptyTree with
             heap := [some { rootNode with childnodes := [1] },
                      some { newNode 0 (-t) b with
                             startLineValid := false, endLineValid := true, endLineRel := 0 }],
             something_changed := true }, false) := by
    unfold correctEndings
    simp [getStartLine, getStartLineLoop, KateCodeFoldingTree.node, emptyTree, rootNode, ht3, ht4,
      dontDeleteEnding, KateCodeFoldingTree.modify, KateCodeFoldingTree.alloc, newNode, h3]
  have hu : updateLoop b 2 emptyTree [] (-t) 0 (-1) =
      .ok ({ emptyTree with
             heap := [some { rootNode with childnodes := [1] },
                      some { newNode 0 (-t) b with
                             startLineValid := false, endLineValid := true, endLineRel := 0 }],
             something_changed := true }, []) := by
    simp only [emptyTree, rootNode, newNode] at hc
    unfold updateLoop
    simp [ht1, emptyTree, rootNode, newNode, hc]
  simp only [emptyTree, rootNode, newNode] at h2 hl hu
  simp [updateLine, updateLineBody, cancelLoop, emptyTree, rootNode, h2, hl, hu,
    cleanupUnneededNodes, cleanupLoop, newNode]

theorem findNode_leafTree (a b : Nat) (t : Int) (hab : a < b) (sc : Bool) :
    findNodeForLine
        { emptyTree with
          heap := [some { rootNode with childnodes := [1] },
                   some { newNode 0 (-t) b with
                          startLineValid := false, endLineValid := true, endLineRel := 0 }],
          something_changed := sc } a = .ok 0 := by
  have h1 : ¬ b ≤ a := by omega
  unfold findNodeForLine
  simp [emptyTree, rootNode, newNode, KateCodeFoldingTree.node, firstChild, h1]

set_option maxHeartbeats 1000000 in
theorem addOpening_pairs_leaf (a b : Nat) (t : Int) (hab : a < b) (hb : b ≤ 60000)
    (ht : 0 < t) :
    addOpening 3
        { emptyTree with
          heap := [some { rootNode with childnodes := [2, 1] },
                   some { newNode 0 (-t) b with
                          startLineValid := false, endLineValid := true, endLineRel := 0 },
                   some (newNode 0 t a)],
          something_changed := true } 2 t [] a =
      .ok ({ emptyTree with
             heap := [some { rootNode with childnodes := [2] }, none,
                      some { newNode 0 t a with endLineValid := true, endLineRel := b - a }],
             something_changed := true }, []) := by
  have h0 : uadd 0 a = a := by unfold uadd; omega
  have h1 : uadd 0 b = b := by unfold uadd; omega
  have h3 : usub 60000 a = 60000 - a := by unfold usub; omega
  have h4 : usub b a = b - a := by unfold usub; omega
  have ht0 : t ≠ 0 := by omega
  have ht2 : ¬ (0 = t) := by omega
  have ht3 : ¬ (-t = 0) := by omega
  unfold addOpening
  simp only [emptyTree, rootNode, newNode, getStartLine, getStartLineLoop,
    KateCodeFoldingTree.node, KateCodeFoldingTree.parentOf]
  simp [-Prod.mk_one_one, -Prod.mk_zero_zero, ht0, ht2, ht3, h0, h1, h3, h4, KateCodeFoldingTree.modify,
    KateCodeFoldingTree.node, KateCodeFoldingTree.parentOf, qfind, firstChild, getStartLine,
    getStartLineLoop, deleteChildAt, qat, qtake, KateCodeFoldingTree.free, adoptSiblings,
    further_nil]

theorem updateLine_open_before_leaf (a b : Nat) (t : Int) (hab : a < b) (hb : b ≤ 60000)
    (ht : 0 < t) :
    updateLine
        { emptyTree with
          heap := [some { rootNode with childnodes := [1] },
                   some { newNode 0 (-t) b with
                          startLineValid := false, endLineValid := true, endLineRel := 0 }],
          something_changed := true } a [t] true =
      .ok { tree := { emptyTree with
                      heap := [some { rootNode with childnodes := [2] }, none,
                               some { newNode 0 t a with
                                      endLineValid := true, endLineRel := b - a }],
                      something_changed := true },
            regionChanges := [], updated := some true } := by
  have h1 : uadd 0 b = b := by unfold uadd; omega
  have h3 : usub a 0 = a := by unfold usub; omega
  have ht1 : ¬ t < 0 := by omega
  have ht3 : ¬ (-t = 0) := by omega
  have hab2 : a ≤ b := by omega
  have hab3 : ¬ (b = a) := by omega
  have hf := findNode_leafTree a b t hab false
  have hm : findAndMarkAllNodesforRemovalOpenedOrClosedAt
      { emptyTree with
        heap := [some { rootNode with childnodes := [1] },
                 some { newNode 0 (-t) b with
                        startLineValid := false, endLineValid := true, endLineRel := 0 }],
        something_changed := false } a =
      .ok { emptyTree with
            heap := [some { rootNode with childnodes := [1] },
                     some { newNode 0 (-t) b with
                            startLineValid := false, endLineValid := true, endLineRel := 0 }],
            something_changed := false } := by
    simp only [emptyTree, rootNode, newNode] at hf
    unfold findAndMarkAllNodesforRemovalOpenedOrClosedAt
    simp only [emptyTree, rootNode, newNode, hf, Res.ok_bind]
    simp [KateCodeFoldingTree.node]
  have hl : locateInsert
      { emptyTree with
        heap := [some { rootNode with childnodes := [1] },
                 some { newNode 0 (-t) b with
                        startLineValid := false, endLineValid := true, endLineRel := 0 }],
        something_changed := false } a t = .ok (0, 0) := by
    simp only [emptyTree, rootNode, newNode] at hf
    unfold locateInsert
    simp only [emptyTree, rootNode, newNode, hf, Res.ok_bind]
    simp [ht1, locateInsert.climb, KateCodeFoldingTree.node, getStartLine, getStartLineLoop,
      firstChildM, ht3, h1, hab2]
  have ha := addOpening_pairs_leaf a b t hab hb ht
  have hu : updateLoop a 2
      { emptyTree with
        heap := [some { rootNode with childnodes := [1] },
                 some { newNode 0 (-t) b with
                        startLineValid := false, endLineValid := true, endLineRel := 0 }],
        something_changed := false } [] t 0 0 =
      .ok ({ emptyTree with
             heap := [some { rootNode with childnodes := [2] }, none,
                      some { newNode 0 t a with endLineValid := true, endLineRel := b - a }],
             something_changed := true }, []) := by
    simp only [emptyTree, rootNode, newNode] at ha
    unfold updateLoop
    simp [ht1, getStartLine, getStartLineLoop, emptyTree, KateCodeFoldingTree.node, rootNode,
      KateCodeFoldingTree.alloc, KateCodeFoldingTree.modify, h3, newNode, qat, qinsert, hab3, ha]
  simp only [emptyTree, rootNode, newNode] at hm hl hu
  simp [updateLine, updateLineBody, cancelLoop, emptyTree, rootNode, hm, hl, hu,
    cleanupUnneededNodes, cleanupLoop, newNode]

/-- C24: from the empty tree, for all lines `a < b ≤ 60000` and every type `t > 0`,
both orders return: the closing marker first (`updateLine(b, [-t], true)`, then
`updateLine(a, [+t], true)`) and the opening marker first.  Either way the root
has one child, and that child is the same node: type `t`, start `a`,
`endLineRel = b - a`, `endLineValid = true`, no children; every other cell of the
heap is the root or has been deleted, so no closing leaf (no node of negative
type) is left. -/
theorem late_pairing_is_order_independent (a b : Nat) (t : Int) (hab : a < b)
    (hb : b ≤ 60000) (ht : 0 < t) :
    ∃ (s1 s2 : KateCodeFoldingTree) (c1 c2 : Nat),
      runLines emptyTree [(b, [-t]), (a, [t])] = .ok s1 ∧
      runLines emptyTree [(a, [t]), (b, [-t])] = .ok s2 ∧
      s1.heap[0]? = some (some { rootNode with childnodes := [c1] }) ∧
      s2.heap[0]? = some (some { rootNode with childnodes := [c2] }) ∧
      s1.heap[c1]? =
        some (some { newNode 0 t a with endLineValid := true, endLineRel := b - a }) ∧
      s2.heap[c2]? =
        some (some { newNode 0 t a with endLineValid := true, endLineRel := b - a }) ∧
      (∀ (i : Nat) (n : KateCodeFoldingNode), s1.heap[i]? = some (some n) → i = 0 ∨ i = c1) ∧
      (∀ (i : Nat) (n : KateCodeFoldingNode), s2.heap[i]? = some (some n) → i = 0 ∨ i = c2) ∧
      (∀ (i : Nat) (n : KateCodeFoldingNode), s1.heap[i]? = some (some n) → 0 ≤ n.type) ∧
      (∀ (i : Nat) (n : KateCodeFoldingNode), s2.heap[i]? = some (some n) → 0 ≤ n.type) := by
  have e1 := updateLine_unmatched_close b t hb ht
  have e2 := updateLine_open_before_leaf a b t hab hb ht
  have e3 := updateLine_open a t (by omega) ht
  have e4 := updateLine_close a b t hab hb ht
  have r1 : runLines emptyTree [(b, [-t]), (a, [t])] =
      .ok { emptyTree with
            heap := [some { rootNode with childnodes := [2] }, none,
                     some { newNode 0 t a with endLineValid := true, endLineRel := b - a }],
            something_changed := true } := by
    simp only [runLines, e1, Res.ok_bind]
    simp only [e2, Res.ok_bind]
  have r2 : runLines emptyTree [(a, [t]), (b, [-t])] = .ok (closedTree a b t) := by
    simp only [runLines, e3, Res.ok_bind]
    simp only [e4, Res.ok_bind]
  refine ⟨_, _, 2, 1, r1, r2, ?_, ?_, ?_, ?_, ?_, ?_, ?_, ?_⟩
  · rfl
  · rfl
  · rfl
  · rfl
  · intro i n h
    match i, h with
    | 0, _ => exact Or.inl rfl
    | 1, h => simp at h
    | 2, _ => exact Or.inr rfl
    | k + 3, h => simp at h
  · intro i n h
    match i, h with
    | 0, _ => exact Or.inl rfl
    | 1, _ => exact Or.inr rfl
    | k + 2, h => simp [closedTree, singleRegionHeap] at h
  · intro i n h
    match i, h with
    | 0, h =>
      simp only [List.getElem?_cons_zero, Option.some.injEq] at h
      subst h
      simp [rootNode]
    | 1, h => simp at h
    | 2, h =>
      simp only [List.getElem?_cons_succ, List.getElem?_cons_zero, Option.some.injEq] at h
      subst h
      simp only [newNode]
      omega
    | k + 3, h => simp at h
  · intro i n h
    match i, h with
    | 0, h =>
      simp only [closedTree, singleRegionHeap, List.getElem?_cons_zero, Option.some.injEq] at h
      subst h
      simp [rootNode]
    | 1, h =>
      simp only [closedTree, singleRegionHeap, List.getElem?_cons_succ, List.getElem?_cons_zero,
        Option.some.injEq] at h
      subst h
      simp only [newNode]
      omega
    | k + 2, h => simp [closedTree, singleRegionHeap] at h

/-- C24, witness: lines 2 and 5, type 1. -/
theorem late_pairing_is_order_independent_witness :
    ((2 : Nat) < 5 ∧ (5 : Nat) ≤ 60000 ∧ (0 : Int) < 1) ∧
    (runLines emptyTree [(5, [-1]), (2, [1])]).bind (fun s => .ok s.heap) =
      .ok [some { rootNode with childnodes := [2] }, none,
           some { newNode 0 1 2 with endLineValid := true, endLineRel := 3 }] ∧
    (runLines emptyTree [(2, [1]), (5, [-1])]).bind (fun s => .ok s.heap) =
      .ok [some { rootNode with childnodes := [1] },
           some { newNode 0 1 2 with endLineValid := true, endLineRel := 3 }] := by
  obtain ⟨s1, s2, c1, c2, h1, h2, _⟩ :=
    late_pairing_is_order_independent 2 5 1 (by decide) (by decide) (by decide)
  exact ⟨⟨by decide, by decide, by decide⟩, rfl, rfl⟩

theorem foundChildren_aux {again : KateCodeFoldingTree → Nat → Res KateCodeFoldingTree}
    (ha : ∀ (t : KateCodeFoldingTree) (child : Nat) (t1 : KateCodeFoldingTree),
      again t child = .ok t1 → auxOf t1 = auxOf t) (startLine line : Nat) :
    ∀ (l : List Nat) (s s1 : KateCodeFoldingTree),
      foundChildren again startLine line l s = .ok s1 → auxOf s1 = auxOf s := by
  intro l
  induction l with
  | nil =>
    intro s s1 h
    unfold foundChildren at h
    cases h
    rfl
  | cons c rest ih =>
    intro s s1 h
    unfold foundChildren at h
    obtain ⟨cn, _, h⟩ := bind_ok h
    split at h
    · obtain ⟨s2, h2, h⟩ := bind_ok h
      rw [ih _ _ h, ha _ _ _ h2]
      rfl
    · cases h
      rfl

theorem addNodeToFoundList_aux :
    ∀ (fuel : Nat) (s : KateCodeFoldingTree) (node line : Nat) (childpos : Int)
      (s1 : KateCodeFoldingTree),
      addNodeToFoundList fuel s node line childpos = .ok s1 → auxOf s1 = auxOf s := by
  intro fuel
  induction fuel with
  | zero =>
    intro s node line childpos s1 h
    unfold addNodeToFoundList at h
    cases h
  | succ fuel ih =>
    intro s node line childpos s1 h
    unfold addNodeToFoundList at h
    obtain ⟨startLine, _, h⟩ := bind_ok h
    obtain ⟨n, _, h⟩ := bind_ok h
    rw [foundChildren_aux (fun t child t1 ht => ih t child line 0 t1 ht) _ _ _ _ _ h]
    split <;> rfl

theorem foundListAncestors_aux (line : Nat) :
    ∀ (fuel : Nat) (s : KateCodeFoldingTree) (node : Nat) (s1 : KateCodeFoldingTree),
      foundListAncestors line fuel s node = .ok s1 → auxOf s1 = auxOf s := by
  intro fuel
  induction fuel with
  | zero =>
    intro s node s1 h
    unfold foundListAncestors at h
    cases h
  | succ fuel ih =>
    intro s node s1 h
    unfold foundListAncestors at h
    obtain ⟨n, _, h⟩ := bind_ok h
    split at h
    · cases h
      rfl
    · obtain ⟨pn, _, h⟩ := bind_ok h
      obtain ⟨s2, h2, h⟩ := bind_ok h
      rw [ih _ _ _ h, addNodeToFoundList_aux _ _ _ _ _ _ h2]

theorem findAllNodesOpenedOrClosedAt_aux {s s1 : KateCodeFoldingTree} {line : Nat}
    (h : findAllNodesOpenedOrClosedAt s line = .ok s1) : auxOf s1 = auxOf s := by
  unfold findAllNodesOpenedOrClosedAt at h
  obtain ⟨node, _, h⟩ := bind_ok h
  obtain ⟨n, _, h⟩ := bind_ok h
  split at h
  · cases h
    rfl
  · obtain ⟨startLine, _, h⟩ := bind_ok h
    rw [foundListAncestors_aux _ _ _ _ _ h]
    split <;> rfl

theorem addHiddenLineBlock_valid {s s1 : KateCodeFoldingTree} {node line : Nat}
    (h : addHiddenLineBlock s node line = .ok s1) :
    s1.hiddenLinesCountCacheValid = s.hiddenLinesCountCacheValid := by
  unfold addHiddenLineBlock at h
  obtain ⟨n, _, h⟩ := bind_ok h
  obtain ⟨u, _, h⟩ := bind_ok h
  cases h
  rfl

theorem updateHiddenSubNodes_valid :
    ∀ (fuel : Nat) (s : KateCodeFoldingTree) (node : Nat) (s1 : KateCodeFoldingTree),
      updateHiddenSubNodes fuel s node = .ok s1 →
      s1.hiddenLinesCountCacheValid = s.hiddenLinesCountCacheValid := by
  intro fuel
  induction fuel with
  | zero =>
    intro s node s1 h
    unfold updateHiddenSubNodes at h
    cases h
  | succ fuel ih =>
    have hfold : ∀ (l : List Nat) (s s1 : KateCodeFoldingTree),
        l.foldlM (fun acc n1 => do
          let c ← acc.node n1
          if c.visible = false then
            let sl ← getStartLine acc n1
            addHiddenLineBlock acc n1 sl
          else updateHiddenSubNodes fuel acc n1) s = .ok s1 →
        s1.hiddenLinesCountCacheValid = s.hiddenLinesCountCacheValid := by
      intro l
      induction l with
      | nil =>
        intro s s1 h
        simp only [List.foldlM_nil] at h
        cases h
        rfl
      | cons c rest ihl =>
        intro s s1 h
        rw [List.foldlM_cons] at h
        obtain ⟨s2, h2, h⟩ := bind_ok h
        rw [ihl _ _ h]
        obtain ⟨cn, _, h2⟩ := bind_ok h2
        split at h2
        · obtain ⟨sl, _, h2⟩ := bind_ok h2
          exact addHiddenLineBlock_valid h2
        · exact ih _ _ _ h2
    intro s node s1 h
    unfold updateHiddenSubNodes at h
    obtain ⟨n, _, h⟩ := bind_ok h
    exact hfold _ _ _ h

theorem toggleRegionVisibility_invalidates {s s1 : KateCodeFoldingTree} {line : Nat}
    (h : toggleRegionVisibility s line = .ok s1) : s1.hiddenLinesCountCacheValid = false := by
  unfold toggleRegionVisibility at h
  obtain ⟨s2, h2, h⟩ := bind_ok h
  obtain ⟨kept, _, h⟩ := bind_ok h
  have e2 := findAllNodesOpenedOrClosedAt_aux h2
  have v2 : s2.hiddenLinesCountCacheValid = false := by
    have := congrArg (fun x => x.2.2.2.1) e2
    simpa [auxOf] using this
  split at h
  · cases h
    exact v2
  · obtain ⟨n, _, h⟩ := bind_ok h
    have v3 : ∀ (l : List Nat) (p : Nat) (f : KateCodeFoldingNode → KateCodeFoldingNode),
        (({ s2 with nodesForLine := l } : KateCodeFoldingTree).modify p
          f).hiddenLinesCountCacheValid = false := by
      intro l p f
      have := congrArg (fun x => x.2.2.2.1)
        (auxOf_modify ({ s2 with nodesForLine := l } : KateCodeFoldingTree) p f)
      simp only [auxOf] at this
      rw [this]
      exact v2
    split at h
    · rw [addHiddenLineBlock_valid h]
      exact v3 _ _ _
    · obtain ⟨u, _, h⟩ := bind_ok h
      rw [updateHiddenSubNodes_valid _ _ _ _ h]
      exact v3 _ _ _

theorem hiddenCount_mod (l : List hiddenLineBlock) :
    ∀ (acc : Nat), (l.foldl (fun acc it => uadd acc it.length) acc) % 4294967296
      = (acc + hiddenTotal l) % 4294967296 := by
  induction l with
  | nil =>
    intro acc
    simp [hiddenTotal]
  | cons x rest ih =>
    intro acc
    rw [List.foldl_cons, ih]
    simp only [hiddenTotal, uadd]
    omega

theorem hiddenCount_lt (l : List hiddenLineBlock) :
    ∀ (acc : Nat), acc < 4294967296 →
      l.foldl (fun acc it => uadd acc it.length) acc < 4294967296 := by
  induction l with
  | nil =>
    intro acc h
    simpa using h
  | cons x rest ih =>
    intro acc _
    rw [List.foldl_cons]
    exact ih _ (by unfold uadd; omega)

theorem hiddenCount_eq (l : List hiddenLineBlock) :
    hiddenCount l = hiddenTotal l % 4294967296 := by
  have h1 := hiddenCount_mod l 0
  have h2 := hiddenCount_lt l 0 (by omega)
  unfold hiddenCount
  rw [Nat.zero_add] at h1
  rw [← h1, Nat.mod_eq_of_lt h2]

theorem applyCall_fresh {s s1 : KateCodeFoldingTree} {c : TreeCall} (hf : cacheFresh s)
    (h : applyCall s c = .ok s1) : cacheFresh s1 := by
  cases c with
  | toggleRegionVisibility line =>
    have := toggleRegionVisibility_invalidates h
    intro hv
    rw [this] at hv
    cases hv
  | lineHasBeenInserted line =>
    have e := lineHasBeenInserted_frame h
    have : s1.hiddenLinesCountCacheValid = false := by
      have := congrArg (fun x => x.2.2.2.1) e
      simpa [auxOf] using this
    intro hv
    rw [this] at hv
    cases hv
  | lineHasBeenRemoved line =>
    have e := lineHasBeenRemoved_frame h
    have : s1.hiddenLinesCountCacheValid = false := by
      have := congrArg (fun x => x.2.2.2.1) e
      simpa [auxOf] using this
    intro hv
    rw [this] at hv
    cases hv
  | updateLine line rc changed =>
    simp only [applyCall] at h
    have key : ∀ (s0 : KateCodeFoldingTree) (r : UpdateResult),
        s0.hiddenLines = s.hiddenLines →
        s0.hiddenLinesCountCacheValid = s.hiddenLinesCountCacheValid →
        s0.hiddenLinesCountCache = s.hiddenLinesCountCache →
        updateLineBody s0 line rc = .ok r → cacheFresh r.tree := by
      intro s0 r e1 e2 e3 hb
      have e := (updateLineBody_aux hb).1
      simp only [auxOf, Prod.mk.injEq] at e
      intro hv
      rw [e.2.2.1, e.2.2.2.2, e1, e3]
      rw [e.2.2.2.1, e2] at hv
      exact hf hv
    cases hu : updateLine s line rc changed with
    | ok r =>
      rw [hu] at h
      cases h
      unfold updateLine at hu
      split at hu
      · split at hu
        · cases hu
          exact hf
        · split at hu
          · exact key { s with dontIgnoreUnchangedLines :=
                s.dontIgnoreUnchangedLines.erase line } r rfl rfl rfl hu
          · cases hu
            exact hf
      · exact key s r rfl rfl rfl hu
    | crash => rw [hu] at h; cases h
    | timeout => rw [hu] at h; cases h
  | getHiddenLinesCount =>
    simp only [applyCall] at h
    cases h
    unfold getHiddenLinesCount
    split
    · exact hf
    · intro _
      rfl

theorem runCalls_fresh : ∀ (calls : List TreeCall) (s s1 : KateCodeFoldingTree),
    cacheFresh s → runCalls s calls = .ok s1 → cacheFresh s1 := by
  intro calls
  induction calls with
  | nil =>
    intro s s1 hf h
    cases h
    exact hf
  | cons c rest ih =>
    intro s s1 hf h
    unfold runCalls at h
    cases ha : applyCall s c with
    | ok s2 =>
      rw [ha] at h
      exact ih s2 s1 (applyCall_fresh hf ha) h
    | crash => rw [ha] at h; cases h
    | timeout => rw [ha] at h; cases h

/-- C27: in every state reached from the initial tree by a sequence of
`toggleRegionVisibility`, `lineHasBeenInserted`, `lineHasBeenRemoved`, `updateLine`
and `getHiddenLinesCount` calls, a valid cache holds the sum of the lengths of
the blocks now in `hiddenLines`, and `getHiddenLinesCount()` returns that sum
(the sum as the `unsigned int` the function adds up, which is the sum itself
whenever it is below `2^32`). -/
theorem hidden_count_cache_never_stale (calls : List TreeCall) (s : KateCodeFoldingTree)
    (h : runCalls emptyTree calls = .ok s) :
    (s.hiddenLinesCountCacheValid = true →
      s.hiddenLinesCountCache = hiddenTotal s.hiddenLines % 4294967296) ∧
    (getHiddenLinesCount s).1 = hiddenTotal s.hiddenLines % 4294967296 ∧
    (hiddenTotal s.hiddenLines < 4294967296 →
      (getHiddenLinesCount s).1 = hiddenTotal s.hiddenLines) := by
  have hf : cacheFresh s := runCalls_fresh calls emptyTree s (fun hv => by cases hv) h
  have h1 : s.hiddenLinesCountCacheValid = true →
      s.hiddenLinesCountCache = hiddenTotal s.hiddenLines % 4294967296 := by
    intro hv
    rw [hf hv, hiddenCount_eq]
  have h2 : (getHiddenLinesCount s).1 = hiddenTotal s.hiddenLines % 4294967296 := by
    unfold getHiddenLinesCount
    split
    · next hv => exact h1 hv
    · exact hiddenCount_eq _
  exact ⟨h1, h2, fun hlt => by rw [h2, Nat.mod_eq_of_lt hlt]⟩

/-- C27, witness: a region from line 2 to line 5 is built and collapsed, the count
is asked for, a line is inserted at 7 and line 7 is analysed again; the count
asked for afterwards is 3, the length of the one hidden block. -/
theorem hidden_count_cache_never_stale_witness :
    runCalls emptyTree [.updateLine 2 [1] true, .updateLine 5 [-1] true,
        .toggleRegionVisibility 2, .getHiddenLinesCount, .lineHasBeenInserted 7,
        .updateLine 7 [] false, .getHiddenLinesCount] =
      .ok { heap := [some { rootNode with childnodes := [1], endLineRel := 60001 },
                     some { newNode 0 1 2 with endLineValid := true, endLineRel := 3,
                                               visible := false }],
            something_changed := false, lineMapping := [],
            dontIgnoreUnchangedLines := [8, 6], markedForDeleting := [],
            nodesForLine := [1], hiddenLines := [⟨3, 3⟩],
            hiddenLinesCountCacheValid := true, hiddenLinesCountCache := 3 } ∧
    (getHiddenLinesCount
        { heap := [some { rootNode with childnodes := [1], endLineRel := 60001 },
                   some { newNode 0 1 2 with endLineValid := true, endLineRel := 3,
                                             visible := false }],
          something_changed := false, lineMapping := [],
          dontIgnoreUnchangedLines := [8, 6], markedForDeleting := [],
          nodesForLine := [1], hiddenLines := [⟨3, 3⟩],
          hiddenLinesCountCacheValid := true, hiddenLinesCountCache := 3 }).1 =
      hiddenTotal [⟨3, 3⟩] % 4294967296 := by
  have h : runCalls emptyTree [.updateLine 2 [1] true, .updateLine 5 [-1] true,
        .toggleRegionVisibility 2, .getHiddenLinesCount, .lineHasBeenInserted 7,
        .updateLine 7 [] false, .getHiddenLinesCount] =
      .ok { heap := [some { rootNode with childnodes := [1], endLineRel := 60001 },
                     some { newNode 0 1 2 with endLineValid := true, endLineRel := 3,
                                               visible := false }],
            something_changed := false, lineMapping := [],
            dontIgnoreUnchangedLines := [8, 6], markedForDeleting := [],
            nodesForLine := [1], hiddenLines := [⟨3, 3⟩],
            hiddenLinesCountCacheValid := true, hiddenLinesCountCache := 3 } := by rfl
  exact ⟨h, (hidden_count_cache_never_stale _ _ h).2.1⟩

/-! ## Markers that meet a closing leaf on their line -/

/-- C21, failing input: `updateLine(0, [-1], true)` and `updateLine(0, [-2], true)` on
the empty tree, then `updateLine(0, [-1], true)`. The second call files its
leaf (type `-2`, node 2) below the leaf of the first call (type `-1`, node 1),
so the deepest node covering line 0 is node 2, which is no region of type 1.
The third call marks both leaves, files a third leaf below node 2, and the
cleanup then deletes node 1, which no marker confirmed, together with
everything below it: the root is left without children, and `getLineInfo(0)`
answers `topLevel = true`, `invalidBlockEnd = false`. -/
theorem updateLine_mismatched_close_not_reported :
    (runLines emptyTree [(0, [-1]), (0, [-2])]).bind (fun s =>
      (findNodeForLine s 0).bind (fun q =>
        (s.node q).bind (fun n => .ok (q, n.type, n.parentNode, childrenOf s 0, childrenOf s 1))))
      = .ok (2, -2, some 1, [1], [2]) ∧
    (runLines emptyTree [(0, [-1]), (0, [-2]), (0, [-1])]).bind (fun s =>
      (getLineInfo s 0).bind (fun r => .ok (childrenOf s 0, s.heap[1]?, r.1)))
      = .ok ([], some none,
          { topLevel := true, startsVisibleBlock := false, startsInVisibleBlock := false,
            endsBlock := false, invalidBlockEnd := false }) :=
  ⟨rfl, rfl⟩

/-- C23, failing input: `updateLine(0, [+1], true)` on the empty tree, then
`updateLine(0, [+2], true)`. The second call finds the region of type 1 that
starts on line 0, and `addOpening` does nothing for a node of another type that
starts on the line; the cleanup then removes the region of type 1, whose
opening no marker confirmed. The tree is left without any node but the root:
no node of type 2 starts on line 0. -/
theorem updateLine_other_type_on_line_creates_no_node :
    (runLines emptyTree [(0, [1])]).bind (fun s => .ok s.heap)
      = .ok [some { rootNode with childnodes := [1] },
             some { newNode 0 1 0 with endLineRel := 60000 }] ∧
    (runLines emptyTree [(0, [1]), (0, [2])]).bind (fun s => .ok s.heap)
      = .ok [some rootNode, none] :=
  ⟨rfl, rfl⟩

/-- C28, failing input: `updateLine(0, [+1, -1], true)` on the empty tree (the array
is read from its last item: a closing marker, then an opening one), called
twice. The first call leaves a closing leaf and an unterminated region, both
below the root. The second call starts from the leaf, which covers line 0,
confirms it, and creates the region for the opening marker once more, below
the leaf: the tree has one node more than after the first call, and the call
reports `updated = true`. -/
theorem updateLine_twice_adds_a_node :
    ∃ r1 r2 n3, updateLine emptyTree 0 [1, -1] true = .ok r1 ∧
      updateLine r1.tree 0 [1, -1] true = .ok r2 ∧
      r1.tree.heap.length = 3 ∧ childrenOf r1.tree 0 = [1, 2] ∧ childrenOf r1.tree 1 = [] ∧
      r2.tree.heap.length = 4 ∧ childrenOf r2.tree 0 = [1, 2] ∧ childrenOf r2.tree 1 = [3] ∧
      r2.tree.heap[3]? = some (some n3) ∧ n3.type = 1 ∧ n3.parentNode = some 1 ∧
      r2.updated = some true := by
  exact ⟨_, _, _, rfl, rfl, rfl, rfl, rfl, rfl, rfl, rfl, rfl, rfl, rfl, rfl⟩

/-- C25, failing input: `updateLine(1, [+1], true)` and `updateLine(0, [-1, +2], true)`
on the empty tree, then `updateLine(0, [+1, +2], true)` (an array is read from
its last item, so line 0 holds an opening of type 2 and a closing of type 1 at
first, and then an opening of type 2 and an opening of type 1). The marking
pass of the third call puts the closing leaf of line 0 (node 3) and the region
around it (node 2) on `markedForDeleting`. The opening marker of type 1 then
gets a new region, and `addOpening` pairs that region with the leaf and deletes
the leaf. `cleanupUnneededNodes` goes through `markedForDeleting` and reads the
flags of node 3, which is deleted: the call does not return normally. -/
theorem updateLine_cleanup_reads_deleted_node :
    ∃ s m u, runLines emptyTree [(1, [1]), (0, [-1, 2])] = .ok s ∧
      findAndMarkAllNodesforRemovalOpenedOrClosedAt { s with something_changed := false } 0
        = .ok m ∧
      m.markedForDeleting = [3, 2] ∧ locateInsert m 0 2 = .ok (0, 0) ∧
      updateLoop 0 3 m [1] 2 0 0 = .ok (u, []) ∧
      u.markedForDeleting = [3, 2] ∧ u.heap[3]? = some none ∧
      cleanupUnneededNodes u 0 = .crash ∧
      updateLine s 0 [1, 2] true = .crash := by
  exact ⟨_, _, _, rfl, rfl, rfl, rfl, rfl, rfl, rfl, rfl, rfl⟩

end KateFolding
